import Mathlib

/-! HungarianAlgorithm: a shallow embedding.

This file embeds `src/include/HungarianAlgorithm.h` and `src/src/HungarianAlgorithm.cpp`
(class `HungarianAlgorithm<T>`) and proves properties of the embedded code.

Modelling conventions.

* The element type `T` (`int`, `float`, `double`) is idealised as the exact rationals `ℚ`:
  no rounding and no integer overflow.  An `int` matrix is a matrix of integral rationals,
  and for those `x <= 1e-6` is the same test as `x <= 0`.
* `Eigen::Matrix` / `Eigen::Array` with dynamic size is `Mat`: the two dimensions and the
  coefficients, stored row by row.  Every whole-matrix Eigen operation ranges over the
  dimensions of the matrix it is applied to; the explicit `for` loops of the source range
  over `matrixSize`, as written there.
* Eigen visitors that report an index (`maxCoeff(&r, &c)`, `minCoeff(&r, &c)`) walk a
  dynamic matrix column by column and keep the first extremal coefficient; they start
  from coefficient `(0, 0)`.
* A C++ `throw` is an `Outcome` whose `error` field is set; the `state` field is the
  object (and, for getters, the caller buffers) as left behind by the call.
* `while` loops whose termination is not syntactically evident carry fuel; `none` means
  the fuel ran out before the loop exited.
-/

namespace Hungarian

/-! ## Dense matrices -/

/-- Dense matrix with run-time dimensions; `data` lists the rows. -/
structure Mat (α : Type) where
  rows : Nat
  cols : Nat
  data : List (List α)
deriving DecidableEq, Repr

namespace Mat

variable {α : Type}

/-- Coefficient `(i, j)`; reading outside the stored data gives `default`. -/
def coeff [Inhabited α] (M : Mat α) (i j : Nat) : α :=
  (M.data.getD i []).getD j default

/-- Matrix of the given dimensions with coefficient `f i j` at `(i, j)`. -/
def ofFn (r c : Nat) (f : Nat → Nat → α) : Mat α :=
  { rows := r, cols := c,
    data := (List.range r).map (fun i => (List.range c).map (fun j => f i j)) }

/-- The stored data has exactly `rows` rows of `cols` coefficients each. -/
def WF (M : Mat α) : Prop :=
  M.data.length = M.rows ∧ ∀ row ∈ M.data, row.length = M.cols

/-- Eigen `fill(v)`: same dimensions, every coefficient `v`. -/
def fill (M : Mat α) (v : α) : Mat α :=
  ofFn M.rows M.cols (fun _ _ => v)

/-- Eigen `resize(r, c)` followed by `fill(v)`. -/
def resizeFill (r c : Nat) (v : α) : Mat α :=
  ofFn r c (fun _ _ => v)

/-- Eigen `row(r).fill(v)`. -/
def fillRow [Inhabited α] (M : Mat α) (r : Nat) (v : α) : Mat α :=
  ofFn M.rows M.cols (fun i j => if i = r then v else M.coeff i j)

/-- Eigen `col(c).fill(v)`. -/
def fillCol [Inhabited α] (M : Mat α) (c : Nat) (v : α) : Mat α :=
  ofFn M.rows M.cols (fun i j => if j = c then v else M.coeff i j)

/-- Assignment to one coefficient, `M(r, c) = v`. -/
def setCoeff [Inhabited α] (M : Mat α) (r c : Nat) (v : α) : Mat α :=
  ofFn M.rows M.cols (fun i j => if i = r ∧ j = c then v else M.coeff i j)

/-- Index pairs of an `r × c` matrix in column-major order (Eigen visitor order). -/
def colMajor (r c : Nat) : List (Nat × Nat) :=
  (List.range c).flatMap (fun j => (List.range r).map (fun i => (i, j)))

/-- Eigen `any()` of a coefficient-wise test. -/
def anyCoeff [Inhabited α] (M : Mat α) (p : α → Bool) : Bool :=
  (List.range M.rows).any (fun i => (List.range M.cols).any (fun j => p (M.coeff i j)))

/-- Eigen `all()` of a boolean array. -/
def all (M : Mat Bool) : Bool :=
  (List.range M.rows).all (fun i => (List.range M.cols).all (fun j => M.coeff i j))

/-- Eigen `row(i).all()` of a boolean array. -/
def rowAll (M : Mat Bool) (i : Nat) : Bool :=
  (List.range M.cols).all (fun j => M.coeff i j)

/-- Eigen `col(j).all()` of a boolean array. -/
def colAll (M : Mat Bool) (j : Nat) : Bool :=
  (List.range M.rows).all (fun i => M.coeff i j)

/-- Eigen `count()` of a boolean array. -/
def count (M : Mat Bool) : Nat :=
  ((List.range M.rows).map
    (fun i => (List.range M.cols).countP (fun j => M.coeff i j))).sum

/-- Eigen `row(i).count()` of a boolean array. -/
def rowCount (M : Mat Bool) (i : Nat) : Nat :=
  (List.range M.cols).countP (fun j => M.coeff i j)

/-- Eigen `col(j).count()` of a boolean array. -/
def colCount (M : Mat Bool) (j : Nat) : Nat :=
  (List.range M.rows).countP (fun i => M.coeff i j)

/-- Eigen `maxCoeff(&r, &c)` of a boolean array: the first `true` coefficient in
column-major order, `(0, 0)` when there is none. -/
def maxCoeffIdx (M : Mat Bool) : Nat × Nat :=
  ((colMajor M.rows M.cols).find? (fun p => M.coeff p.1 p.2)).getD (0, 0)

/-- Eigen `row(i).maxCoeff(&c)` of a boolean array: the first `true` in row `i`. -/
def rowMaxCoeffIdx (M : Mat Bool) (i : Nat) : Nat :=
  ((List.range M.cols).find? (fun j => M.coeff i j)).getD 0

/-- Eigen `col(j).maxCoeff(&r)` of a boolean array: the first `true` in column `j`. -/
def colMaxCoeffIdx (M : Mat Bool) (j : Nat) : Nat :=
  ((List.range M.rows).find? (fun i => M.coeff i j)).getD 0

/-- Eigen `maxCoeff()`: the visitor starts from coefficient `(0, 0)`. -/
def maxCoeff (M : Mat ℚ) : ℚ :=
  (colMajor M.rows M.cols).foldl (fun res p => max res (M.coeff p.1 p.2)) (M.coeff 0 0)

/-- Eigen `minCoeff()`. -/
def minCoeff (M : Mat ℚ) : ℚ :=
  (colMajor M.rows M.cols).foldl (fun res p => min res (M.coeff p.1 p.2)) (M.coeff 0 0)

/-- Eigen `row(i).minCoeff()`. -/
def rowMinCoeff (M : Mat ℚ) (i : Nat) : ℚ :=
  (List.range M.cols).foldl (fun res j => min res (M.coeff i j)) (M.coeff i 0)

/-- Eigen `col(j).minCoeff()`. -/
def colMinCoeff (M : Mat ℚ) (j : Nat) : ℚ :=
  (List.range M.rows).foldl (fun res i => min res (M.coeff i j)) (M.coeff 0 j)

/-- Eigen `minCoeff(&r, &c)`: the index of the first minimal coefficient in column-major
order (the visitor replaces its candidate only by a strictly smaller value). -/
def minCoeffIdx (M : Mat ℚ) : Nat × Nat :=
  (colMajor M.rows M.cols).foldl
    (fun res p => if M.coeff p.1 p.2 < M.coeff res.1 res.2 then p else res) (0, 0)

end Mat

/-! ## The problem object -/

/-- The macro `IsApproxZERO(X) ((X) <= 1e-6)`. -/
def IsApproxZERO (x : ℚ) : Bool := decide (x ≤ 1 / 1000000)

/-- The enumeration `ProblemStatus`. -/
inductive ProblemStatus where
  | NotReady
  | ReadyToSolve
  | Done
deriving DecidableEq, Repr

/-- Position of a status in the enumeration, used by the `<` comparisons of the source. -/
def ProblemStatus.toNat : ProblemStatus → Nat
  | .NotReady => 0
  | .ReadyToSolve => 1
  | .Done => 2

/-- The `std::invalid_argument` exceptions of the class, one constructor per message. -/
inductive Error where
  /-- Message "The cost function matrix cannot contain negative values!" -/
  | negativeValues
  /-- Message "The cost function matrix is undefined!" -/
  | costUndefined
  /-- Message "The input matrix dimensions is inconsistent with the cost function matrix!" -/
  | costDimensions
  /-- Message "The assignment problem has not been solved yet!" -/
  | notSolved
  /-- Message "The input matrix dimensions is inconsistent with the assignment matrix!" -/
  | assignmentDimensions
  /-- Message "The input row vector size is inconsistent with the number of rows!" -/
  | rowVectorSize
  /-- Message "The input col vector size is inconsistent with the number of cols!" -/
  | colVectorSize
deriving DecidableEq, Repr

/-- Result of a call: the exception thrown, if any, and what the call left behind. -/
structure Outcome (σ : Type) where
  error : Option Error
  state : σ
deriving DecidableEq, Repr

/-- The private data members of `HungarianAlgorithm<T>`. -/
structure HungarianAlgorithm where
  nrRows : Nat
  nrCols : Nat
  matrixSize : Nat
  dummyCost : ℚ
  costFunctionMatrix : Mat ℚ
  workingMatrix : Mat ℚ
  coveredMatrix : Mat Bool
  nrLinesToCoverZeroes : Nat
  assignmentMatrix : Mat Bool
  problemStatus : ProblemStatus
deriving DecidableEq, Repr

/-- The default constructor `HungarianAlgorithm()`: only `problemStatus` has an
initialiser; the matrices are empty and the numeric members, indeterminate in C++, are
taken to be zero. -/
def HungarianAlgorithm.construct : HungarianAlgorithm :=
  { nrRows := 0
    nrCols := 0
    matrixSize := 0
    dummyCost := 0
    costFunctionMatrix := Mat.ofFn 0 0 (fun _ _ => 0)
    workingMatrix := Mat.ofFn 0 0 (fun _ _ => 0)
    coveredMatrix := Mat.ofFn 0 0 (fun _ _ => false)
    nrLinesToCoverZeroes := 0
    assignmentMatrix := Mat.ofFn 0 0 (fun _ _ => false)
    problemStatus := ProblemStatus.NotReady }

/-- `SetCostFunctionMatrix`. -/
def SetCostFunctionMatrix (self : HungarianAlgorithm) (costFcnMatrix : Mat ℚ) :
    Outcome HungarianAlgorithm :=
  if costFcnMatrix.anyCoeff (fun x => decide (x < 0)) then
    { error := some Error.negativeValues, state := self }
  else
    let dummyCost := costFcnMatrix.maxCoeff + 100
    let nrRows := costFcnMatrix.rows
    let nrCols := costFcnMatrix.cols
    let matrixSize := if nrRows ≠ nrCols then max nrCols nrRows else nrRows
    let costFunctionMatrix : Mat ℚ :=
      if nrRows ≠ nrCols then
        Mat.ofFn matrixSize matrixSize
          (fun i j => if i < nrRows ∧ j < nrCols then costFcnMatrix.coeff i j else dummyCost)
      else
        costFcnMatrix
    { error := none,
      state :=
        { nrRows := nrRows
          nrCols := nrCols
          matrixSize := matrixSize
          dummyCost := dummyCost
          costFunctionMatrix := costFunctionMatrix
          workingMatrix := costFunctionMatrix
          coveredMatrix := Mat.resizeFill matrixSize matrixSize false
          nrLinesToCoverZeroes := self.nrLinesToCoverZeroes
          assignmentMatrix := Mat.resizeFill matrixSize matrixSize false
          problemStatus := ProblemStatus.ReadyToSolve } }

/-- The constructor `HungarianAlgorithm(costFcnMatrix)`: `SetCostFunctionMatrix` on the
default constructed object, then `problemStatus = ReadyToSolve`.  When
`SetCostFunctionMatrix` throws, the exception leaves the constructor. -/
def HungarianAlgorithm.constructWith (costFcnMatrix : Mat ℚ) : Outcome HungarianAlgorithm :=
  let o := SetCostFunctionMatrix HungarianAlgorithm.construct costFcnMatrix
  match o.error with
  | some e => { error := some e, state := o.state }
  | none =>
    { error := none, state := { o.state with problemStatus := ProblemStatus.ReadyToSolve } }

/-- `GetCostFunctionMatrix`: the second component of the state is `outMatrix`. -/
def GetCostFunctionMatrix (self : HungarianAlgorithm) (outMatrix : Mat ℚ) :
    Outcome (HungarianAlgorithm × Mat ℚ) :=
  if self.problemStatus.toNat < ProblemStatus.ReadyToSolve.toNat then
    { error := some Error.costUndefined, state := (self, outMatrix) }
  else if outMatrix.rows ≠ self.nrRows ∨ outMatrix.cols ≠ self.nrCols then
    { error := some Error.costDimensions, state := (self, outMatrix) }
  else
    { error := none, state := (self, self.costFunctionMatrix) }

/-- `GetAssignmentMatrix`: the second component of the state is `outMatrix`. -/
def GetAssignmentMatrix (self : HungarianAlgorithm) (outMatrix : Mat Int) :
    Outcome (HungarianAlgorithm × Mat Int) :=
  if self.problemStatus.toNat < ProblemStatus.Done.toNat then
    { error := some Error.notSolved, state := (self, outMatrix) }
  else if outMatrix.rows ≠ self.nrRows ∨ outMatrix.cols ≠ self.nrCols then
    { error := some Error.assignmentDimensions, state := (self, outMatrix) }
  else
    { error := none,
      state := (self, Mat.ofFn self.nrRows self.nrCols
        (fun i j => if self.assignmentMatrix.coeff i j then 1 else 0)) }

/-- Body of the nested loops of `GetAssignmentResults` at `(row, col)`. -/
def assignmentResultsCell (assignmentMatrix : Mat Bool) (row col : Nat)
    (v : List Int × List Int) : List Int × List Int :=
  if assignmentMatrix.coeff row col then
    (v.1.set row (col : Int), v.2.set col (row : Int))
  else v

/-- The nested loops of `GetAssignmentResults`. -/
def assignmentResultsLoop (assignmentMatrix : Mat Bool) (nrRows nrCols : Nat)
    (v : List Int × List Int) : List Int × List Int :=
  (List.range nrRows).foldl
    (fun v row => (List.range nrCols).foldl
      (fun v col => assignmentResultsCell assignmentMatrix row col v) v) v

/-- `GetAssignmentResults`: the state carries `rowIndices` and `colIndices`. -/
def GetAssignmentResults (self : HungarianAlgorithm) (rowIndices colIndices : List Int) :
    Outcome (HungarianAlgorithm × List Int × List Int) :=
  if self.problemStatus.toNat < ProblemStatus.Done.toNat then
    { error := some Error.notSolved, state := (self, rowIndices, colIndices) }
  else if rowIndices.length ≠ self.nrRows then
    { error := some Error.rowVectorSize, state := (self, rowIndices, colIndices) }
  else if colIndices.length ≠ self.nrCols then
    { error := some Error.colVectorSize, state := (self, rowIndices, colIndices) }
  else
    let v := assignmentResultsLoop self.assignmentMatrix self.nrRows self.nrCols
      (List.replicate rowIndices.length (-1), List.replicate colIndices.length (-1))
    { error := none, state := (self, v.1, v.2) }

/-! ## The five steps -/

/-- One iteration of the loop of `SubtractRowMinima`. -/
def subtractRowMin (workingMatrix : Mat ℚ) (row : Nat) : Mat ℚ :=
  let rowMinCoeff := workingMatrix.rowMinCoeff row
  if !IsApproxZERO rowMinCoeff then
    Mat.ofFn workingMatrix.rows workingMatrix.cols
      (fun i j => if i = row then workingMatrix.coeff i j - rowMinCoeff
        else workingMatrix.coeff i j)
  else workingMatrix

/-- `SubtractRowMinima` (step 1). -/
def SubtractRowMinima (self : HungarianAlgorithm) : HungarianAlgorithm :=
  { self with
    workingMatrix := (List.range self.matrixSize).foldl subtractRowMin self.workingMatrix }

/-- One iteration of the loop of `SubtractColMinima`. -/
def subtractColMin (workingMatrix : Mat ℚ) (col : Nat) : Mat ℚ :=
  let colMinCoeff := workingMatrix.colMinCoeff col
  if !IsApproxZERO colMinCoeff then
    Mat.ofFn workingMatrix.rows workingMatrix.cols
      (fun i j => if j = col then workingMatrix.coeff i j - colMinCoeff
        else workingMatrix.coeff i j)
  else workingMatrix

/-- `SubtractColMinima` (step 2). -/
def SubtractColMinima (self : HungarianAlgorithm) : HungarianAlgorithm :=
  { self with
    workingMatrix := (List.range self.matrixSize).foldl subtractColMin self.workingMatrix }

/-- The array expression `IsApproxZERO(workingMatrix.array())`. -/
def zeroMask (workingMatrix : Mat ℚ) : Mat Bool :=
  Mat.ofFn workingMatrix.rows workingMatrix.cols
    (fun i j => IsApproxZERO (workingMatrix.coeff i j))

/-- The array expression `IsApproxZERO(workingMatrix.array()) && (!coveredMatrix.array())`. -/
def uncoveredZeroes (workingMatrix : Mat ℚ) (coveredMatrix : Mat Bool) : Mat Bool :=
  Mat.ofFn workingMatrix.rows workingMatrix.cols
    (fun i j => IsApproxZERO (workingMatrix.coeff i j) && !coveredMatrix.coeff i j)

/-- Local variables of `MinNrOfLinesToCoverAllZeros`; `returned` records that the
`return` inside the scan was executed. -/
structure CoverState where
  coveredMatrix : Mat Bool
  nrLinesToCoverZeroes : Nat
  nrUncoveredZeroes : Int
  newZeroCovered : Bool
  returned : Bool
deriving DecidableEq, Repr

/-- Cover the row: `coveredMatrix.row(row).fill(true)`, one more line,
`nrUncoveredZeroes -= nrZeroesInRow`, a new zero was covered. -/
def coverRow (s : CoverState) (row : Nat) (nrZeroesInRow : Nat) : CoverState :=
  { s with
    coveredMatrix := s.coveredMatrix.fillRow row true
    nrLinesToCoverZeroes := s.nrLinesToCoverZeroes + 1
    nrUncoveredZeroes := s.nrUncoveredZeroes - nrZeroesInRow
    newZeroCovered := true }

/-- Cover the column: `coveredMatrix.col(col).fill(true)`, one more line,
`nrUncoveredZeroes -= nrZeroesInCol`, a new zero was covered. -/
def coverCol (s : CoverState) (col : Nat) (nrZeroesInCol : Nat) : CoverState :=
  { s with
    coveredMatrix := s.coveredMatrix.fillCol col true
    nrLinesToCoverZeroes := s.nrLinesToCoverZeroes + 1
    nrUncoveredZeroes := s.nrUncoveredZeroes - nrZeroesInCol
    newZeroCovered := true }

/-- The decision taken in the scan of `MinNrOfLinesToCoverAllZeros` at an uncovered zero
`(row, col)`: cover the row, cover the column, or skip the element. -/
def coverDecide (workingMatrix : Mat ℚ) (row col : Nat) (s : CoverState) : CoverState :=
  let nrZeroesInRow := (uncoveredZeroes workingMatrix s.coveredMatrix).rowCount row
  let nrZeroesInCol := (uncoveredZeroes workingMatrix s.coveredMatrix).colCount col
  if nrZeroesInRow > 1 ∨ nrZeroesInCol > 1 then
    if nrZeroesInRow > nrZeroesInCol then coverRow s row nrZeroesInRow
    else if nrZeroesInRow < nrZeroesInCol then coverCol s col nrZeroesInCol
    else s
  else coverRow s row nrZeroesInRow

/-- Body of the scan of `MinNrOfLinesToCoverAllZeros` at `(row, col)`. -/
def coverCell (workingMatrix : Mat ℚ) (row col : Nat) (s : CoverState) : CoverState :=
  if s.returned then s
  else if !s.coveredMatrix.coeff row col then
    if IsApproxZERO (workingMatrix.coeff row col) then
      let s1 := coverDecide workingMatrix row col s
      if s1.nrUncoveredZeroes = 0 then { s1 with returned := true } else s1
    else s
  else s

/-- The scan `for (row = idxRow ..) for (col = idxCol ..)` of
`MinNrOfLinesToCoverAllZeros`. -/
def coverScan (workingMatrix : Mat ℚ) (matrixSize idxRow idxCol : Nat) (s : CoverState) :
    CoverState :=
  (List.range' idxRow (matrixSize - idxRow)).foldl
    (fun s row => (List.range' idxCol (matrixSize - idxCol)).foldl
      (fun s col => coverCell workingMatrix row col s) s) s

/-- The block `if (!newZeroCovered)` of `MinNrOfLinesToCoverAllZeros`. -/
def coverForced (workingMatrix : Mat ℚ) (s : CoverState) : CoverState :=
  let idx := (uncoveredZeroes workingMatrix s.coveredMatrix).maxCoeffIdx
  let nrZeroesInRow := (uncoveredZeroes workingMatrix s.coveredMatrix).rowCount idx.1
  { s with
    coveredMatrix := s.coveredMatrix.fillRow idx.1 true
    nrLinesToCoverZeroes := s.nrLinesToCoverZeroes + 1
    nrUncoveredZeroes := s.nrUncoveredZeroes - nrZeroesInRow }

/-- One pass of the loop `while (nrUncoveredZeroes > 0)`. -/
def coverPass (workingMatrix : Mat ℚ) (matrixSize : Nat) (s : CoverState) : CoverState :=
  let s0 := { s with newZeroCovered := false }
  let idx := (uncoveredZeroes workingMatrix s0.coveredMatrix).maxCoeffIdx
  let s1 := coverScan workingMatrix matrixSize idx.1 idx.2 s0
  if s1.returned then s1
  else if !s1.newZeroCovered then coverForced workingMatrix s1
  else s1

/-- The loop `while (nrUncoveredZeroes > 0)`, with fuel. -/
def coverLoop (workingMatrix : Mat ℚ) (matrixSize : Nat) : Nat → CoverState → Option CoverState
  | fuel, s =>
    if s.nrUncoveredZeroes > 0 then
      match fuel with
      | 0 => none
      | fuel + 1 =>
        let s1 := coverPass workingMatrix matrixSize s
        if s1.returned then some s1 else coverLoop workingMatrix matrixSize fuel s1
    else some s

/-- `MinNrOfLinesToCoverAllZeros` (step 3).  The result is the object after the call and
the returned number.  The loop gets as much fuel as there are zeroes to cover; each pass
covers at least one of them. -/
def MinNrOfLinesToCoverAllZeros (self : HungarianAlgorithm) :
    Option (HungarianAlgorithm × Nat) :=
  let s0 : CoverState :=
    { coveredMatrix := self.coveredMatrix.fill false
      nrLinesToCoverZeroes := 0
      nrUncoveredZeroes := ((zeroMask self.workingMatrix).count : Int)
      newZeroCovered := false
      returned := false }
  (coverLoop self.workingMatrix self.matrixSize (zeroMask self.workingMatrix).count s0).map
    (fun s =>
      ({ self with
          coveredMatrix := s.coveredMatrix
          nrLinesToCoverZeroes := s.nrLinesToCoverZeroes },
        s.nrLinesToCoverZeroes))

/-- `AugmentCostFunctionMatrix` (step 4).  The final double loop visits every cell
`(row, col)` with `row, col < matrixSize` once and edits that cell only. -/
def AugmentCostFunctionMatrix (self : HungarianAlgorithm) : HungarianAlgorithm :=
  let W := self.workingMatrix
  let cov := self.coveredMatrix
  let minUncoveredCoeff : ℚ :=
    (Mat.ofFn cov.rows cov.cols
      (fun i j => if !cov.coeff i j then W.coeff i j else self.dummyCost + 1)).minCoeff
  let W1 : Mat ℚ :=
    Mat.ofFn cov.rows cov.cols
      (fun i j => if !cov.coeff i j then W.coeff i j - minUncoveredCoeff else W.coeff i j)
  { self with
    workingMatrix :=
      Mat.ofFn W1.rows W1.cols
        (fun i j =>
          if i < self.matrixSize ∧ j < self.matrixSize ∧ cov.rowAll i ∧ cov.colAll j then
            W1.coeff i j + minUncoveredCoeff
          else W1.coeff i j) }

/-- Local state of the loop of `FindOptimalCost`; `returned` records that one of the
`return` statements inside the loop was executed. -/
structure FindState where
  assignmentMatrix : Mat Bool
  coveredMatrix : Mat Bool
  newAssignmentMade : Bool
  returned : Bool
deriving DecidableEq, Repr

/-- Body of the loop over rows of `FindOptimalCost`. -/
def findRowStep (s : FindState) (row : Nat) : FindState :=
  if s.returned then s
  else if !s.coveredMatrix.rowAll row then
    if s.assignmentMatrix.rowCount row = 1 then
      let idxCol := s.assignmentMatrix.rowMaxCoeffIdx row
      let cov := (s.coveredMatrix.fillRow row true).fillCol idxCol true
      { assignmentMatrix := (s.assignmentMatrix.fillCol idxCol false).setCoeff row idxCol true
        coveredMatrix := cov
        newAssignmentMade := true
        returned := cov.all }
    else s
  else s

/-- Body of the loop over columns of `FindOptimalCost`. -/
def findColStep (s : FindState) (col : Nat) : FindState :=
  if s.returned then s
  else if !s.coveredMatrix.colAll col then
    if s.assignmentMatrix.colCount col = 1 then
      let idxRow := s.assignmentMatrix.colMaxCoeffIdx col
      let cov := (s.coveredMatrix.fillRow idxRow true).fillCol col true
      { assignmentMatrix := (s.assignmentMatrix.fillRow idxRow false).setCoeff idxRow col true
        coveredMatrix := cov
        newAssignmentMade := true
        returned := cov.all }
    else s
  else s

/-- The array expression `(!coveredMatrix.array()) && (assignmentMatrix.array())`. -/
def candidates (s : FindState) : Mat Bool :=
  Mat.ofFn s.coveredMatrix.rows s.coveredMatrix.cols
    (fun i j => !s.coveredMatrix.coeff i j && s.assignmentMatrix.coeff i j)

/-- The cell chosen in the block `if (!newAssignmentMade)` of `FindOptimalCost`: the
cheapest candidate if there is one, the cheapest uncovered cell otherwise (costs are read
from `costFunctionMatrix`; the other cells count as `dummyCost + 1`). -/
def findTieBreakIdx (costFunctionMatrix : Mat ℚ) (dummyCost : ℚ) (s : FindState) :
    Nat × Nat :=
  if (candidates s).anyCoeff id then
    (Mat.ofFn s.coveredMatrix.rows s.coveredMatrix.cols
      (fun i j => if (candidates s).coeff i j then costFunctionMatrix.coeff i j
        else dummyCost + 1)).minCoeffIdx
  else
    (Mat.ofFn s.coveredMatrix.rows s.coveredMatrix.cols
      (fun i j => if !s.coveredMatrix.coeff i j then costFunctionMatrix.coeff i j
        else dummyCost + 1)).minCoeffIdx

/-- The block `if (!newAssignmentMade)` of `FindOptimalCost`. -/
def findTieBreak (costFunctionMatrix : Mat ℚ) (dummyCost : ℚ) (s : FindState) : FindState :=
  let idx := findTieBreakIdx costFunctionMatrix dummyCost s
  let cov := (s.coveredMatrix.fillRow idx.1 true).fillCol idx.2 true
  { assignmentMatrix :=
      ((s.assignmentMatrix.fillRow idx.1 false).fillCol idx.2 false).setCoeff idx.1 idx.2 true
    coveredMatrix := cov
    newAssignmentMade := s.newAssignmentMade
    returned := cov.all }

/-- One pass of the loop `while (!coveredMatrix.all())` of `FindOptimalCost`. -/
def findPass (costFunctionMatrix : Mat ℚ) (dummyCost : ℚ) (matrixSize : Nat)
    (s : FindState) : FindState :=
  let s0 := { s with newAssignmentMade := false }
  let s1 := (List.range matrixSize).foldl findRowStep s0
  if s1.returned then s1
  else
    let s2 := (List.range matrixSize).foldl findColStep s1
    if s2.returned then s2
    else if !s2.newAssignmentMade then findTieBreak costFunctionMatrix dummyCost s2
    else s2

/-- The loop `while (!coveredMatrix.all())` of `FindOptimalCost`, with fuel. -/
def findLoop (costFunctionMatrix : Mat ℚ) (dummyCost : ℚ) (matrixSize : Nat) :
    Nat → FindState → Option FindState
  | fuel, s =>
    if s.coveredMatrix.all then some s
    else
      match fuel with
      | 0 => none
      | fuel + 1 =>
        let s1 := findPass costFunctionMatrix dummyCost matrixSize s
        if s1.returned then some s1
        else findLoop costFunctionMatrix dummyCost matrixSize fuel s1

/-- `FindOptimalCost` (step 5).  The loop gets `matrixSize` units of fuel; each pass
commits at least one row and one column. -/
def FindOptimalCost (self : HungarianAlgorithm) : Option HungarianAlgorithm :=
  let A : Mat Bool :=
    Mat.ofFn self.workingMatrix.rows self.workingMatrix.cols
      (fun i j => if IsApproxZERO (self.workingMatrix.coeff i j) then true
        else self.assignmentMatrix.coeff i j)
  if A.count = self.matrixSize then
    some { self with assignmentMatrix := A }
  else
    let s0 : FindState :=
      { assignmentMatrix := A
        coveredMatrix := self.coveredMatrix.fill false
        newAssignmentMade := false
        returned := false }
    (findLoop self.costFunctionMatrix self.dummyCost self.matrixSize self.matrixSize s0).map
      (fun s =>
        { self with
          assignmentMatrix := s.assignmentMatrix
          coveredMatrix := s.coveredMatrix })

/-- The loop `while (MinNrOfLinesToCoverAllZeros() != matrixSize) AugmentCostFunctionMatrix()`
of `SolveAssignmentProblem`; the fuel bounds the number of augmentations. -/
def solveLoop : Nat → HungarianAlgorithm → Option HungarianAlgorithm
  | fuel, self =>
    match MinNrOfLinesToCoverAllZeros self with
    | none => none
    | some (self1, nrLines) =>
      if nrLines ≠ self1.matrixSize then
        match fuel with
        | 0 => none
        | fuel + 1 => solveLoop fuel (AugmentCostFunctionMatrix self1)
      else some self1

/-- The reduction at the start of `SolveAssignmentProblem` (steps 1 and 2, in the order
chosen by `nrRows >= nrCols`). -/
def reduce (self : HungarianAlgorithm) : HungarianAlgorithm :=
  if self.nrRows ≥ self.nrCols then SubtractColMinima (SubtractRowMinima self)
  else SubtractRowMinima (SubtractColMinima self)

/-- `SolveAssignmentProblem`.  `none`: the fuel did not suffice. -/
def SolveAssignmentProblem (fuel : Nat) (self : HungarianAlgorithm) :
    Option (Outcome HungarianAlgorithm) :=
  if self.problemStatus.toNat < ProblemStatus.ReadyToSolve.toNat then
    some { error := some Error.costUndefined, state := self }
  else
    match solveLoop fuel (reduce self) with
    | none => none
    | some self1 =>
      match FindOptimalCost self1 with
      | none => none
      | some self2 =>
        some { error := none, state := { self2 with problemStatus := ProblemStatus.Done } }

/-! ## Auxiliary predicates used in the statements -/

/-- The members that only `SetCostFunctionMatrix` writes agree in `a` and `b`. -/
def SameProblem (a b : HungarianAlgorithm) : Prop :=
  b.nrRows = a.nrRows ∧ b.nrCols = a.nrCols ∧ b.matrixSize = a.matrixSize ∧
  b.dummyCost = a.dummyCost ∧ b.costFunctionMatrix = a.costFunctionMatrix

/-- The object after `k` rounds of `MinNrOfLinesToCoverAllZeros` followed by
`AugmentCostFunctionMatrix`. -/
def augmentRounds : Nat → HungarianAlgorithm → Option HungarianAlgorithm
  | 0, self => some self
  | k + 1, self =>
    match MinNrOfLinesToCoverAllZeros self with
    | none => none
    | some (self1, _) => augmentRounds k (AugmentCostFunctionMatrix self1)

/-- The number returned by the call of `MinNrOfLinesToCoverAllZeros` that follows `k`
augmentations. -/
def coverResult (k : Nat) (self : HungarianAlgorithm) : Option Nat :=
  (augmentRounds k self).bind (fun s => (MinNrOfLinesToCoverAllZeros s).map Prod.snd)

/-- A one-to-one pairing of `min m n` rows with `min m n` columns of an `m × n` matrix,
given as the list of its cells. -/
def IsPairing (m n : Nat) (p : List (Nat × Nat)) : Prop :=
  p.length = min m n ∧ (∀ q ∈ p, q.1 < m ∧ q.2 < n) ∧
  (p.map Prod.fst).Nodup ∧ (p.map Prod.snd).Nodup

/-- Sum of the costs of `M` over the cells of a pairing. -/
def pairingCost (M : Mat ℚ) (p : List (Nat × Nat)) : ℚ :=
  (p.map (fun q => M.coeff q.1 q.2)).sum

/-- Sum of the costs of `M` over the cells that the assignment matrix `A` (as returned by
`GetAssignmentMatrix`) reports as assigned. -/
def assignedCost (M : Mat ℚ) (A : Mat Int) : ℚ :=
  ((List.range M.rows).map (fun i =>
    ((List.range M.cols).map (fun j => if A.coeff i j = 1 then M.coeff i j else 0)).sum)).sum

/-- Number of entries equal to 1 in an integer matrix. -/
def countOnes (A : Mat Int) : Nat :=
  ((List.range A.rows).map
    (fun i => (List.range A.cols).countP (fun j => decide (A.coeff i j = 1)))).sum

/-! ## Concrete problems used below -/

/-- The 4×4 all-false mask. -/
def noneOf4 : Mat Bool :=
  ⟨4, 4, [[false, false, false, false], [false, false, false, false],
    [false, false, false, false], [false, false, false, false]]⟩

/-- A 4×4 cost matrix with an assignment of total cost 0 that the solver misses. -/
def costMissed : Mat ℚ :=
  ⟨4, 4, [[0, 0, 0, 0], [0, 0, 0, 0], [0, 0, 1, 1], [0, 0, 1, 1]]⟩

/-- The object left by `SolveAssignmentProblem` on `costMissed`. -/
def solvedMissed : HungarianAlgorithm :=
  { nrRows := 4, nrCols := 4, matrixSize := 4, dummyCost := 101,
    costFunctionMatrix := costMissed,
    workingMatrix := costMissed,
    coveredMatrix := ⟨4, 4, [[true, true, true, true], [true, true, true, true],
      [true, true, true, true], [true, true, true, true]]⟩,
    nrLinesToCoverZeroes := 4,
    assignmentMatrix := ⟨4, 4, [[true, false, false, false], [false, false, true, false],
      [false, true, false, false], [false, false, false, true]]⟩,
    problemStatus := ProblemStatus.Done }

/-- A 4×4 cost matrix on which the loop of `SolveAssignmentProblem` cycles. -/
def costCycle : Mat ℚ :=
  ⟨4, 4, [[0, 0, 0, 0], [0, 0, 1, 1], [0, 0, 0, 0], [0, 0, 0, 0]]⟩

/-- The object after the first call of `MinNrOfLinesToCoverAllZeros` on `costCycle`:
rows 0, 2, 3 and columns 0, 1 are covered, five lines. -/
def cycleA : HungarianAlgorithm :=
  { nrRows := 4, nrCols := 4, matrixSize := 4, dummyCost := 101,
    costFunctionMatrix := costCycle,
    workingMatrix := costCycle,
    coveredMatrix := ⟨4, 4, [[true, true, true, true], [true, true, false, false],
      [true, true, true, true], [true, true, true, true]]⟩,
    nrLinesToCoverZeroes := 5,
    assignmentMatrix := noneOf4,
    problemStatus := ProblemStatus.ReadyToSolve }

/-- The object after the second call of `MinNrOfLinesToCoverAllZeros` on `costCycle`:
row 1 and columns 2, 3 are covered, three lines. -/
def cycleB : HungarianAlgorithm :=
  { nrRows := 4, nrCols := 4, matrixSize := 4, dummyCost := 101,
    costFunctionMatrix := costCycle,
    workingMatrix := ⟨4, 4, [[1, 1, 0, 0], [0, 0, 0, 0], [1, 1, 0, 0], [1, 1, 0, 0]]⟩,
    coveredMatrix := ⟨4, 4, [[false, false, true, true], [true, true, true, true],
      [false, false, true, true], [false, false, true, true]]⟩,
    nrLinesToCoverZeroes := 3,
    assignmentMatrix := noneOf4,
    problemStatus := ProblemStatus.ReadyToSolve }

/-- A 4×4 cost matrix on which two consecutive cover results are equal. -/
def costPlateau : Mat ℚ :=
  ⟨4, 4, [[0, 2, 1, 0], [0, 2, 3, 1], [0, 2, 2, 3], [0, 0, 0, 0]]⟩

/-- The object `SetCostFunctionMatrix` builds from `costPlateau`. -/
def plateauStart : HungarianAlgorithm :=
  (SetCostFunctionMatrix HungarianAlgorithm.construct costPlateau).state

/-- The object left by `SolveAssignmentProblem` on the 1×2 matrix `[[1, 2]]`. -/
def solvedWide : HungarianAlgorithm :=
  { nrRows := 1, nrCols := 2, matrixSize := 2, dummyCost := 102,
    costFunctionMatrix := ⟨2, 2, [[1, 2], [102, 102]]⟩,
    workingMatrix := ⟨2, 2, [[0, 0], [1, 0]]⟩,
    coveredMatrix := ⟨2, 2, [[true, true], [true, true]]⟩,
    nrLinesToCoverZeroes := 2,
    assignmentMatrix := ⟨2, 2, [[true, false], [false, true]]⟩,
    problemStatus := ProblemStatus.Done }

/-- The object `SetCostFunctionMatrix` builds from `costCycle`. -/
def cycleStart : HungarianAlgorithm :=
  (SetCostFunctionMatrix HungarianAlgorithm.construct costCycle).state

/-- The object with which the loop of `SolveAssignmentProblem` exits on `costPlateau`. -/
def plateauEnd : HungarianAlgorithm :=
  { nrRows := 4, nrCols := 4, matrixSize := 4, dummyCost := 103,
    costFunctionMatrix := costPlateau,
    workingMatrix := ⟨4, 4, [[1, 1, 0, 0], [0, 0, 1, 0], [0, 0, 0, 2], [2, 0, 0, 1]]⟩,
    coveredMatrix := ⟨4, 4, [[true, true, true, true], [true, true, true, true],
      [true, true, true, true], [true, true, true, true]]⟩,
    nrLinesToCoverZeroes := 4,
    assignmentMatrix := noneOf4,
    problemStatus := ProblemStatus.ReadyToSolve }

/-- Every cover result in the loop exceeds the one before it by at least one. -/
def CoverResultsGrow (self : HungarianAlgorithm) : Prop :=
  ∀ k r r', coverResult k self = some r → coverResult (k + 1) self = some r' → r + 1 ≤ r'

/-- The loop exits after at most `matrixSize` augmentations. -/
def ExitsWithinMatrixSize (self : HungarianAlgorithm) : Prop :=
  ∃ k, k ≤ self.matrixSize ∧ coverResult k self = some self.matrixSize

/-! ## Invariants of the extraction and cover loops -/

/-- Within the leading `N × N` block of `A`, cell `(i, j)` is set and is the only set cell
of row `i` and of column `j`. -/
def Matched (N : Nat) (A : Mat Bool) (i j : Nat) : Prop :=
  A.coeff i j = true ∧ (∀ j', j' < N → A.coeff i j' = true → j' = j) ∧
  (∀ i', i' < N → A.coeff i' j = true → i' = i)

/-- The leading `N × N` block of `A` is a permutation matrix: exactly one set cell in
every row and in every column. -/
def IsPermutationMask (N : Nat) (A : Mat Bool) : Prop :=
  (∀ i, i < N → ∃ j, j < N ∧ Matched N A i j) ∧
  (∀ j, j < N → ∃ i, i < N ∧ Matched N A i j)

/-- Invariant of the loop of `FindOptimalCost`: the covered cells are those of a set `R`
of rows and a set `C` of columns of equal size, and every row of `R` is matched with a
column of `C` and conversely. -/
def FindInv (N : Nat) (s : FindState) : Prop :=
  s.assignmentMatrix.rows = N ∧ s.assignmentMatrix.cols = N ∧
  s.coveredMatrix.rows = N ∧ s.coveredMatrix.cols = N ∧
  s.returned = s.coveredMatrix.all ∧
  ∃ R C : Finset Nat, (∀ i ∈ R, i < N) ∧ (∀ j ∈ C, j < N) ∧ R.card = C.card ∧
    (∀ i j, i < N → j < N → (s.coveredMatrix.coeff i j = true ↔ (i ∈ R ∨ j ∈ C))) ∧
    (∀ i ∈ R, ∃ j ∈ C, Matched N s.assignmentMatrix i j) ∧
    (∀ j ∈ C, ∃ i ∈ R, Matched N s.assignmentMatrix i j)

/-- Invariant of `MinNrOfLinesToCoverAllZeros` on an `N × N` working matrix `W` with `Z0`
zero entries: the counter of uncovered zeroes is exact, every line drawn so far covered at
least one new zero, and as long as every line covered exactly one new zero, the lines are
rows whose only zero is also the only zero of its column. -/
def CoverInv (W : Mat ℚ) (N Z0 : Nat) (s : CoverState) : Prop :=
  s.coveredMatrix.rows = N ∧ s.coveredMatrix.cols = N ∧
  s.nrUncoveredZeroes = ((uncoveredZeroes W s.coveredMatrix).count : Int) ∧
  (s.nrLinesToCoverZeroes : Int) + s.nrUncoveredZeroes ≤ (Z0 : Int) ∧
  ((s.nrLinesToCoverZeroes : Int) + s.nrUncoveredZeroes = (Z0 : Int) →
    ∃ R : Finset Nat, (∀ i ∈ R, i < N) ∧ R.card = s.nrLinesToCoverZeroes ∧
      (∀ i j, i < N → j < N → (s.coveredMatrix.coeff i j = true ↔ i ∈ R)) ∧
      ∀ i ∈ R, ∃ j, j < N ∧ Matched N (zeroMask W) i j)

/-- All four matrices of the object are `N × N` and `matrixSize` is `N`. -/
def Sized (N : Nat) (self : HungarianAlgorithm) : Prop :=
  self.matrixSize = N ∧ self.workingMatrix.rows = N ∧ self.workingMatrix.cols = N ∧
  self.coveredMatrix.rows = N ∧ self.coveredMatrix.cols = N ∧
  self.assignmentMatrix.rows = N ∧ self.assignmentMatrix.cols = N

/-- A 3×2 cost matrix. -/
def costTall : Mat ℚ := ⟨3, 2, [[1, 2], [3, 1], [2, 2]]⟩

/-- The object left by `SolveAssignmentProblem` on `costTall`. -/
def solvedTall : HungarianAlgorithm :=
  { nrRows := 3, nrCols := 2, matrixSize := 3, dummyCost := 103,
    costFunctionMatrix := ⟨3, 3, [[1, 2, 103], [3, 1, 103], [2, 2, 103]]⟩,
    workingMatrix := ⟨3, 3, [[0, 1, 1], [2, 0, 1], [0, 0, 0]]⟩,
    coveredMatrix := ⟨3, 3, [[true, true, true], [true, true, true], [true, true, true]]⟩,
    nrLinesToCoverZeroes := 3,
    assignmentMatrix := ⟨3, 3, [[true, false, false], [false, true, false],
      [false, false, true]]⟩,
    problemStatus := ProblemStatus.Done }

/-- Number of fully covered rows of a coverage mask. -/
def coveredRows (cov : Mat Bool) : Nat :=
  (List.range cov.rows).countP (fun i => cov.rowAll i)

/-! ## The scenarios of `main.cpp` -/

/-- The cost matrix of `test3x3Matrix`. -/
def cost3x3 : Mat ℚ := ⟨3, 3, [[40, 60, 15], [25, 30, 45], [55, 30, 25]]⟩

/-- The object left by `SolveAssignmentProblem` on `cost3x3`. -/
def solved3x3 : HungarianAlgorithm :=
  { nrRows := 3, nrCols := 3, matrixSize := 3, dummyCost := 160,
    costFunctionMatrix := cost3x3,
    workingMatrix := ⟨3, 3, [[25, 40, 0], [0, 0, 20], [30, 0, 0]]⟩,
    coveredMatrix := ⟨3, 3, [[true, true, true], [true, true, true], [true, true, true]]⟩,
    nrLinesToCoverZeroes := 3,
    assignmentMatrix := ⟨3, 3, [[false, false, true], [true, false, false],
      [false, true, false]]⟩,
    problemStatus := ProblemStatus.Done }

/-- The cost matrix of `test5x4Matrix`. -/
def cost5x4 : Mat ℚ :=
  ⟨5, 4, [[18, 11, 169 / 10, 22], [14, 19, 26, 18], [21, 23, 35, 29], [42, 27, 21, 17],
    [16, 15, 28, 25]]⟩

/-- The object left by `SolveAssignmentProblem` on `cost5x4`. -/
def solved5x4 : HungarianAlgorithm :=
  { nrRows := 5, nrCols := 4, matrixSize := 5, dummyCost := 142,
    costFunctionMatrix := ⟨5, 5, [[18, 11, 169 / 10, 22, 142], [14, 19, 26, 18, 142],
      [21, 23, 35, 29, 142], [42, 27, 21, 17, 142], [16, 15, 28, 25, 142]]⟩,
    workingMatrix := ⟨5, 5, [[7, 0, 0, 91 / 10, 81 / 10], [0, 5, 61 / 10, 21 / 10, 51 / 10],
      [19 / 10, 39 / 10, 10, 8, 0], [269 / 10, 119 / 10, 0, 0, 4],
      [1, 0, 71 / 10, 81 / 10, 41 / 10]]⟩,
    coveredMatrix := ⟨5, 5, [[true, true, true, true, true], [true, true, true, true, true],
      [true, true, true, true, true], [true, true, true, true, true],
      [true, true, true, true, true]]⟩,
    nrLinesToCoverZeroes := 5,
    assignmentMatrix := ⟨5, 5, [[false, false, true, false, false],
      [true, false, false, false, false], [false, false, false, false, true],
      [false, false, false, true, false], [false, true, false, false, false]]⟩,
    problemStatus := ProblemStatus.Done }

/-! ## Sequences of calls on one object -/

/-- A call of one of the public operations, with its arguments. -/
inductive Call where
  | set (costFcnMatrix : Mat ℚ)
  | getCost (outMatrix : Mat ℚ)
  | getAssignment (outMatrix : Mat Int)
  | getResults (rowIndices colIndices : List Int)
  | solve (fuel : Nat)

/-- The exception thrown by a call, if any, and the object it leaves behind; `none` when
a solve does not complete within its fuel. -/
def Call.run : Call → HungarianAlgorithm → Option (Outcome HungarianAlgorithm)
  | .set M, self => some (SetCostFunctionMatrix self M)
  | .getCost out, self =>
    some { error := (GetCostFunctionMatrix self out).error,
           state := (GetCostFunctionMatrix self out).state.1 }
  | .getAssignment out, self =>
    some { error := (GetAssignmentMatrix self out).error,
           state := (GetAssignmentMatrix self out).state.1 }
  | .getResults r c, self =>
    some { error := (GetAssignmentResults self r c).error,
           state := (GetAssignmentResults self r c).state.1 }
  | .solve fuel, self => SolveAssignmentProblem fuel self

/-- The object after a sequence of calls (exceptions are caught by the caller, who goes
on with the next call). -/
def runCalls : List Call → HungarianAlgorithm → Option HungarianAlgorithm
  | [], self => some self
  | c :: cs, self =>
    match c.run self with
    | none => none
    | some o => runCalls cs o.state

/-- The call `c`, made on the object `self`, is a `SolveAssignmentProblem` that completes
without exception. -/
def SolveCompleted (c : Call) (self : HungarianAlgorithm) : Prop :=
  ∃ fuel o, c = Call.solve fuel ∧ SolveAssignmentProblem fuel self = some o ∧ o.error = none

/-! ## Predicates on the working matrix -/

/-- Every entry of the leading `N × N` block of `W` is at least 0. -/
def NonNeg (N : Nat) (W : Mat ℚ) : Prop :=
  ∀ i j, i < N → j < N → 0 ≤ W.coeff i j

/-- The matrices `A` and `B` have the same size and no entry of `A` exceeds the entry of
`B` at the same place. -/
def LeOn (A B : Mat ℚ) : Prop :=
  A.rows = B.rows ∧ A.cols = B.cols ∧
  ∀ i j, i < B.rows → j < B.cols → A.coeff i j ≤ B.coeff i j

/-! ## Lines drawn by the zero cover -/

/-- The covered cells of the `N × N` matrix are those of a set of rows and a set of
columns, the counter of lines is the number of these rows plus the number of these
columns, and the `return` inside the scan is only taken when no uncovered zero is left. -/
def LinesInv (N : Nat) (s : CoverState) : Prop :=
  (s.returned = true → s.nrUncoveredZeroes = 0) ∧
  ∃ R C : Finset Nat, (∀ i ∈ R, i < N) ∧ (∀ j ∈ C, j < N) ∧
    (∀ i j, i < N → j < N → (s.coveredMatrix.coeff i j = true ↔ (i ∈ R ∨ j ∈ C))) ∧
    s.nrLinesToCoverZeroes = R.card + C.card

/-- The rows `rows` and the columns `cols` together cover every entry of the leading
`N × N` block of `W` that passes `IsApproxZERO`. -/
def IsLineCover (N : Nat) (W : Mat ℚ) (rows cols : List Nat) : Prop :=
  ∀ i, i < N → ∀ j, j < N → IsApproxZERO (W.coeff i j) = true → i ∈ rows ∨ j ∈ cols

/-! ## The order of the zero-cover scan -/

/-- Index pairs of an `r × c` matrix in row-major order (top-left to bottom-right). -/
def rowMajorCells (r c : Nat) : List (Nat × Nat) :=
  (List.range r).flatMap (fun i => (List.range c).map (fun j => (i, j)))

/-- The first `true` coefficient in row-major order, `(0, 0)` when there is none: the start
cell a row-major search would find. -/
def firstTrueRowMajor (M : Mat Bool) : Nat × Nat :=
  ((rowMajorCells M.rows M.cols).find? (fun p => M.coeff p.1 p.2)).getD (0, 0)

/-- The cells visited by the loops `for (row = idxRow ..) for (col = idxCol ..)` of
`MinNrOfLinesToCoverAllZeros`, in the order of the visit. -/
def scanCells (matrixSize idxRow idxCol : Nat) : List (Nat × Nat) :=
  (List.range' idxRow (matrixSize - idxRow)).flatMap
    (fun row => (List.range' idxCol (matrixSize - idxCol)).map (fun col => (row, col)))

/-- A 2×2 cost matrix whose zeros are off the diagonal. -/
def costAnti : Mat ℚ := ⟨2, 2, [[1, 0], [0, 1]]⟩

/-- The local state with which `MinNrOfLinesToCoverAllZeros` enters its loop. -/
def coverStart (self : HungarianAlgorithm) : CoverState :=
  { coveredMatrix := self.coveredMatrix.fill false
    nrLinesToCoverZeroes := 0
    nrUncoveredZeroes := ((zeroMask self.workingMatrix).count : Int)
    newZeroCovered := false
    returned := false }

/-! ## Augmentation -/

/-- The local variable `minUncoveredCoeff` of `AugmentCostFunctionMatrix`: the minimum of
the array that holds the working-matrix entry at uncovered cells and `dummyCost + 1` at
covered cells. -/
def minUncoveredCoeff (self : HungarianAlgorithm) : ℚ :=
  (Mat.ofFn self.coveredMatrix.rows self.coveredMatrix.cols
    (fun i j => if !self.coveredMatrix.coeff i j then self.workingMatrix.coeff i j
      else self.dummyCost + 1)).minCoeff

/-- The covered cells of the leading `N × N` block of `cov` are exactly the cells of the
rows `R` and of the columns `C`. -/
def Lines (N : Nat) (cov : Mat Bool) (R C : Finset Nat) : Prop :=
  (∀ i ∈ R, i < N) ∧ (∀ j ∈ C, j < N) ∧
  ∀ i j, i < N → j < N → (cov.coeff i j = true ↔ (i ∈ R ∨ j ∈ C))

/-- A reduced 3×3 matrix with a zero at the crossing of its zero row and zero column. -/
def costCross : Mat ℚ := ⟨3, 3, [[0, 0, 0], [0, 1, 1], [0, 1, 1]]⟩

/-! ## Passes of the extraction loop -/

/-- The state after the loop over the rows in a pass of `FindOptimalCost`. -/
def findRowSteps (matrixSize : Nat) (s : FindState) : FindState :=
  (List.range matrixSize).foldl findRowStep { s with newAssignmentMade := false }

/-- The state after the loop over the rows and the loop over the columns in a pass of
`FindOptimalCost`. -/
def findSteps (matrixSize : Nat) (s : FindState) : FindState :=
  (List.range matrixSize).foldl findColStep (findRowSteps matrixSize s)

/-- The 2×2 mask with every cell set. -/
def allOf2 : Mat Bool := ⟨2, 2, [[true, true], [true, true]]⟩

/-- The state with which the loop of `FindOptimalCost` starts when every cell of a 2×2
working matrix is a zero. -/
def findStart2 : FindState :=
  { assignmentMatrix := allOf2
    coveredMatrix := allOf2.fill false
    newAssignmentMade := false
    returned := false }

/-! ## Potentials -/

/-- The matrix `W` is obtained from `C` on the leading `N × N` block by subtracting a row
offset `u i` from every row and a column offset `v j` from every column. -/
def HasPotential (N : Nat) (C W : Mat ℚ) : Prop :=
  ∃ u v : Nat → ℚ, ∀ i j, i < N → j < N → W.coeff i j = C.coeff i j - u i - v j

/-- Total cost in `A` of the permutation `σ` of the `N` indices. -/
def permCost (N : Nat) (A : Mat ℚ) (σ : Equiv.Perm (Fin N)) : ℚ :=
  ∑ i : Fin N, A.coeff i.val (σ i).val

/-! ## The sum of the working matrix and a run on which the subtracted value is capped -/

/-- Sum of the entries of the leading `N × N` block of `W`. -/
def matSum (N : Nat) (W : Mat ℚ) : ℚ :=
  ((List.range N).map (fun i => ((List.range N).map (fun j => W.coeff i j)).sum)).sum

/-- A non-negative 8×8 cost matrix on which the augmentation is capped by
`dummyCost + 1`. -/
def costCap : Mat ℚ :=
  ⟨8, 8, [[200, 0, 200, 0, 0, 0, 200, 200],
      [200, 0, 0, 0, 0, 0, 200, 200],
      [200, 200, 200, 200, 200, 200, 200, 0],
      [0, 200, 200, 200, 200, 200, 0, 0],
      [200, 0, 200, 200, 0, 0, 200, 200],
      [0, 200, 200, 200, 200, 200, 0, 0],
      [200, 0, 0, 0, 200, 200, 200, 200],
      [0, 200, 200, 200, 200, 200, 200, 200]]⟩

/-- The object after the first call of `MinNrOfLinesToCoverAllZeros` on `costCap`: nine
lines. -/
def capA : HungarianAlgorithm :=
  { nrRows := 8, nrCols := 8, matrixSize := 8, dummyCost := 300,
    costFunctionMatrix := costCap,
    workingMatrix := ⟨8, 8, [[200, 0, 200, 0, 0, 0, 200, 200],
      [200, 0, 0, 0, 0, 0, 200, 200],
      [200, 200, 200, 200, 200, 200, 200, 0],
      [0, 200, 200, 200, 200, 200, 0, 0],
      [200, 0, 200, 200, 0, 0, 200, 200],
      [0, 200, 200, 200, 200, 200, 0, 0],
      [200, 0, 0, 0, 200, 200, 200, 200],
      [0, 200, 200, 200, 200, 200, 200, 200]]⟩,
    coveredMatrix := ⟨8, 8, [[false, true, true, true, true, true, false, false],
      [false, true, true, true, true, true, false, false],
      [true, true, true, true, true, true, true, true],
      [true, true, true, true, true, true, true, true],
      [false, true, true, true, true, true, false, false],
      [true, true, true, true, true, true, true, true],
      [false, true, true, true, true, true, false, false],
      [true, true, true, true, true, true, true, true]]⟩,
    nrLinesToCoverZeroes := 9,
    assignmentMatrix := Mat.ofFn 8 8 (fun _ _ => false),
    problemStatus := ProblemStatus.ReadyToSolve }

/-- The object after the first augmentation on `costCap`. -/
def capB : HungarianAlgorithm :=
  { nrRows := 8, nrCols := 8, matrixSize := 8, dummyCost := 300,
    costFunctionMatrix := costCap,
    workingMatrix := ⟨8, 8, [[0, 0, 200, 0, 0, 0, 0, 0],
      [0, 0, 0, 0, 0, 0, 0, 0],
      [200, 400, 400, 400, 400, 400, 200, 0],
      [0, 400, 400, 400, 400, 400, 0, 0],
      [0, 0, 200, 200, 0, 0, 0, 0],
      [0, 400, 400, 400, 400, 400, 0, 0],
      [0, 0, 0, 0, 200, 200, 0, 0],
      [0, 400, 400, 400, 400, 400, 200, 200]]⟩,
    coveredMatrix := ⟨8, 8, [[false, true, true, true, true, true, false, false],
      [false, true, true, true, true, true, false, false],
      [true, true, true, true, true, true, true, true],
      [true, true, true, true, true, true, true, true],
      [false, true, true, true, true, true, false, false],
      [true, true, true, true, true, true, true, true],
      [false, true, true, true, true, true, false, false],
      [true, true, true, true, true, true, true, true]]⟩,
    nrLinesToCoverZeroes := 9,
    assignmentMatrix := Mat.ofFn 8 8 (fun _ _ => false),
    problemStatus := ProblemStatus.ReadyToSolve }

/-- The object after the second call of `MinNrOfLinesToCoverAllZeros` on `costCap`: seven
lines, rows 0, 1, 4, 6 and columns 0, 6, 7; every uncovered entry is 400. -/
def capC : HungarianAlgorithm :=
  { nrRows := 8, nrCols := 8, matrixSize := 8, dummyCost := 300,
    costFunctionMatrix := costCap,
    workingMatrix := ⟨8, 8, [[0, 0, 200, 0, 0, 0, 0, 0],
      [0, 0, 0, 0, 0, 0, 0, 0],
      [200, 400, 400, 400, 400, 400, 200, 0],
      [0, 400, 400, 400, 400, 400, 0, 0],
      [0, 0, 200, 200, 0, 0, 0, 0],
      [0, 400, 400, 400, 400, 400, 0, 0],
      [0, 0, 0, 0, 200, 200, 0, 0],
      [0, 400, 400, 400, 400, 400, 200, 200]]⟩,
    coveredMatrix := ⟨8, 8, [[true, true, true, true, true, true, true, true],
      [true, true, true, true, true, true, true, true],
      [true, false, false, false, false, false, true, true],
      [true, false, false, false, false, false, true, true],
      [true, true, true, true, true, true, true, true],
      [true, false, false, false, false, false, true, true],
      [true, true, true, true, true, true, true, true],
      [true, false, false, false, false, false, true, true]]⟩,
    nrLinesToCoverZeroes := 7,
    assignmentMatrix := Mat.ofFn 8 8 (fun _ _ => false),
    problemStatus := ProblemStatus.ReadyToSolve }

/-- The object after the second augmentation on `costCap`: the uncovered entries went
from 400 to 99. -/
def capD : HungarianAlgorithm :=
  { nrRows := 8, nrCols := 8, matrixSize := 8, dummyCost := 300,
    costFunctionMatrix := costCap,
    workingMatrix := ⟨8, 8, [[301, 0, 200, 0, 0, 0, 301, 301],
      [301, 0, 0, 0, 0, 0, 301, 301],
      [200, 99, 99, 99, 99, 99, 200, 0],
      [0, 99, 99, 99, 99, 99, 0, 0],
      [301, 0, 200, 200, 0, 0, 301, 301],
      [0, 99, 99, 99, 99, 99, 0, 0],
      [301, 0, 0, 0, 200, 200, 301, 301],
      [0, 99, 99, 99, 99, 99, 200, 200]]⟩,
    coveredMatrix := ⟨8, 8, [[true, true, true, true, true, true, true, true],
      [true, true, true, true, true, true, true, true],
      [true, false, false, false, false, false, true, true],
      [true, false, false, false, false, false, true, true],
      [true, true, true, true, true, true, true, true],
      [true, false, false, false, false, false, true, true],
      [true, true, true, true, true, true, true, true],
      [true, false, false, false, false, false, true, true]]⟩,
    nrLinesToCoverZeroes := 7,
    assignmentMatrix := Mat.ofFn 8 8 (fun _ _ => false),
    problemStatus := ProblemStatus.ReadyToSolve }

/-! ## Basic facts about matrices -/

namespace Mat

variable {α : Type}

@[simp] theorem ofFn_rows (r c : Nat) (f : Nat → Nat → α) : (ofFn r c f).rows = r := rfl

@[simp] theorem ofFn_cols (r c : Nat) (f : Nat → Nat → α) : (ofFn r c f).cols = c := rfl

theorem coeff_ofFn [Inhabited α] {r c : Nat} (f : Nat → Nat → α) {i j : Nat}
    (hi : i < r) (hj : j < c) : (ofFn r c f).coeff i j = f i j := by
  simp [ofFn, coeff, List.getD_eq_getElem?_getD, hi, hj]

theorem mem_colMajor {r c : Nat} {p : Nat × Nat} :
    p ∈ colMajor r c ↔ p.1 < r ∧ p.2 < c := by
  obtain ⟨i, j⟩ := p
  simp only [colMajor, List.mem_flatMap, List.mem_range, List.mem_map, Prod.mk.injEq]
  constructor
  · rintro ⟨j', hj', i', hi', rfl, rfl⟩
    exact ⟨hi', hj'⟩
  · rintro ⟨hi, hj⟩
    exact ⟨j, hj, i, hi, rfl, rfl⟩

theorem anyCoeff_iff [Inhabited α] (M : Mat α) (p : α → Bool) :
    M.anyCoeff p = true ↔ ∃ i j, i < M.rows ∧ j < M.cols ∧ p (M.coeff i j) = true := by
  simp only [anyCoeff, List.any_eq_true, List.mem_range]
  constructor
  · rintro ⟨i, hi, j, hj, h⟩
    exact ⟨i, j, hi, hj, h⟩
  · rintro ⟨i, j, hi, hj, h⟩
    exact ⟨i, hi, j, hj, h⟩

theorem foldl_max_ge_init (f : Nat × Nat → ℚ) (l : List (Nat × Nat)) (a : ℚ) :
    a ≤ l.foldl (fun res p => max res (f p)) a := by
  induction l generalizing a with
  | nil => simp
  | cons x xs ih => exact le_trans (le_max_left _ _) (ih _)

theorem foldl_max_ge_mem (f : Nat × Nat → ℚ) (l : List (Nat × Nat)) (a : ℚ)
    {p : Nat × Nat} (hp : p ∈ l) : f p ≤ l.foldl (fun res p => max res (f p)) a := by
  induction l generalizing a with
  | nil => simp at hp
  | cons x xs ih =>
    rcases List.mem_cons.mp hp with h | h
    · subst h
      exact le_trans (le_max_right _ _) (foldl_max_ge_init f xs _)
    · exact ih _ h

theorem coeff_le_maxCoeff (M : Mat ℚ) {i j : Nat} (hi : i < M.rows) (hj : j < M.cols) :
    M.coeff i j ≤ M.maxCoeff := by
  have hmem : (i, j) ∈ colMajor M.rows M.cols := mem_colMajor.mpr ⟨hi, hj⟩
  unfold maxCoeff
  exact foldl_max_ge_mem (fun p => M.coeff p.1 p.2) _ _ hmem

end Mat

/-! ## Lists: counting and searching -/

theorem countP_eq_one_of_unique {p : Nat → Bool} {n x : Nat} (hx : x < n) (hpx : p x = true)
    (huniq : ∀ y, y < n → p y = true → y = x) : (List.range n).countP p = 1 := by
  have hfilter : (List.range n).filter p = [x] := by
    have hnd : ((List.range n).filter p).Nodup := (List.nodup_range n).filter _
    have hmem : ∀ y, y ∈ (List.range n).filter p ↔ y = x := by
      intro y
      simp only [List.mem_filter, List.mem_range]
      constructor
      · rintro ⟨hy, hpy⟩
        exact huniq y hy hpy
      · rintro rfl
        exact ⟨hx, hpx⟩
    have hperm : ((List.range n).filter p).Perm [x] := by
      rw [List.perm_ext_iff_of_nodup hnd (List.nodup_singleton x)]
      intro y
      rw [hmem y, List.mem_singleton]
    exact List.perm_singleton.mp hperm
  rw [List.countP_eq_length_filter, hfilter]
  rfl

theorem unique_of_countP_eq_one {p : Nat → Bool} {n : Nat}
    (h : (List.range n).countP p = 1) {x y : Nat} (hx : x < n) (hy : y < n)
    (hpx : p x = true) (hpy : p y = true) : x = y := by
  rw [List.countP_eq_length_filter] at h
  obtain ⟨a, ha⟩ := List.length_eq_one.mp h
  have hxm : x ∈ (List.range n).filter p := List.mem_filter.mpr ⟨List.mem_range.mpr hx, hpx⟩
  have hym : y ∈ (List.range n).filter p := List.mem_filter.mpr ⟨List.mem_range.mpr hy, hpy⟩
  rw [ha, List.mem_singleton] at hxm hym
  rw [hxm, hym]

theorem countP_pos_of_mem {p : Nat → Bool} {n x : Nat} (hx : x < n) (hpx : p x = true) :
    0 < (List.range n).countP p :=
  List.countP_pos_iff.mpr ⟨x, List.mem_range.mpr hx, hpx⟩

theorem countP_eq_zero_of_none {p : Nat → Bool} {n : Nat}
    (h : ∀ y, y < n → p y = false) : (List.range n).countP p = 0 := by
  rw [List.countP_eq_zero]
  intro y hy
  rw [h y (List.mem_range.mp hy)]
  simp

theorem find_range_spec {p : Nat → Bool} {n x : Nat} (hx : x < n) (hpx : p x = true) :
    ((List.range n).find? p).getD 0 < n ∧ p (((List.range n).find? p).getD 0) = true := by
  cases hfind : (List.range n).find? p with
  | none =>
    have := List.find?_eq_none.mp hfind x (List.mem_range.mpr hx)
    exact absurd hpx this
  | some y =>
    have hmem := List.mem_of_find?_eq_some hfind
    have hp := List.find?_some hfind
    exact ⟨List.mem_range.mp hmem, hp⟩

theorem sum_countP_comm (l1 l2 : List Nat) (P : Nat → Nat → Bool) :
    (l1.map (fun i => l2.countP (fun j => P i j))).sum =
      (l2.map (fun j => l1.countP (fun i => P i j))).sum := by
  induction l2 with
  | nil => simp
  | cons b l2 ih =>
    simp only [List.countP_cons, List.map_cons, List.sum_cons]
    rw [← ih]
    clear ih
    induction l1 with
    | nil => simp
    | cons a l1 ih1 =>
      simp only [List.map_cons, List.sum_cons, List.countP_cons]
      rw [ih1]
      omega

theorem sum_map_range_const {n c : Nat} (f : Nat → Nat) (h : ∀ i, i < n → f i = c) :
    ((List.range n).map f).sum = n * c := by
  have hmap : (List.range n).map f = (List.range n).map (fun _ => c) := by
    apply List.map_congr_left
    intro i hi
    exact h i (List.mem_range.mp hi)
  rw [hmap]
  simp

/-! ## Matrices: updates, quantifiers, searches -/

namespace Mat

variable {α : Type}

@[simp] theorem fill_rows (M : Mat α) (v : α) : (M.fill v).rows = M.rows := rfl

@[simp] theorem fill_cols (M : Mat α) (v : α) : (M.fill v).cols = M.cols := rfl

@[simp] theorem fillRow_rows [Inhabited α] (M : Mat α) (r : Nat) (v : α) :
    (M.fillRow r v).rows = M.rows := rfl

@[simp] theorem fillRow_cols [Inhabited α] (M : Mat α) (r : Nat) (v : α) :
    (M.fillRow r v).cols = M.cols := rfl

@[simp] theorem fillCol_rows [Inhabited α] (M : Mat α) (c : Nat) (v : α) :
    (M.fillCol c v).rows = M.rows := rfl

@[simp] theorem fillCol_cols [Inhabited α] (M : Mat α) (c : Nat) (v : α) :
    (M.fillCol c v).cols = M.cols := rfl

@[simp] theorem setCoeff_rows [Inhabited α] (M : Mat α) (r c : Nat) (v : α) :
    (M.setCoeff r c v).rows = M.rows := rfl

@[simp] theorem setCoeff_cols [Inhabited α] (M : Mat α) (r c : Nat) (v : α) :
    (M.setCoeff r c v).cols = M.cols := rfl

theorem coeff_fill [Inhabited α] (M : Mat α) (v : α) {i j : Nat}
    (hi : i < M.rows) (hj : j < M.cols) : (M.fill v).coeff i j = v :=
  coeff_ofFn _ hi hj

theorem coeff_fillRow [Inhabited α] (M : Mat α) (r : Nat) (v : α) {i j : Nat}
    (hi : i < M.rows) (hj : j < M.cols) :
    (M.fillRow r v).coeff i j = if i = r then v else M.coeff i j :=
  coeff_ofFn _ hi hj

theorem coeff_fillCol [Inhabited α] (M : Mat α) (c : Nat) (v : α) {i j : Nat}
    (hi : i < M.rows) (hj : j < M.cols) :
    (M.fillCol c v).coeff i j = if j = c then v else M.coeff i j :=
  coeff_ofFn _ hi hj

theorem coeff_setCoeff [Inhabited α] (M : Mat α) (r c : Nat) (v : α) {i j : Nat}
    (hi : i < M.rows) (hj : j < M.cols) :
    (M.setCoeff r c v).coeff i j = if i = r ∧ j = c then v else M.coeff i j :=
  coeff_ofFn _ hi hj

theorem all_iff (M : Mat Bool) :
    M.all = true ↔ ∀ i j, i < M.rows → j < M.cols → M.coeff i j = true := by
  simp only [all, List.all_eq_true, List.mem_range]
  constructor
  · intro h i j hi hj
    exact h i hi j hj
  · intro h i hi j hj
    exact h i j hi hj

theorem rowAll_iff (M : Mat Bool) (i : Nat) :
    M.rowAll i = true ↔ ∀ j, j < M.cols → M.coeff i j = true := by
  simp only [rowAll, List.all_eq_true, List.mem_range]

theorem colAll_iff (M : Mat Bool) (j : Nat) :
    M.colAll j = true ↔ ∀ i, i < M.rows → M.coeff i j = true := by
  simp only [colAll, List.all_eq_true, List.mem_range]

theorem maxCoeffIdx_spec (M : Mat Bool) {i j : Nat} (hi : i < M.rows) (hj : j < M.cols)
    (h : M.coeff i j = true) :
    M.maxCoeffIdx.1 < M.rows ∧ M.maxCoeffIdx.2 < M.cols ∧
      M.coeff M.maxCoeffIdx.1 M.maxCoeffIdx.2 = true := by
  unfold maxCoeffIdx
  cases hfind : (colMajor M.rows M.cols).find? (fun p => M.coeff p.1 p.2) with
  | none =>
    have := List.find?_eq_none.mp hfind (i, j) (mem_colMajor.mpr ⟨hi, hj⟩)
    exact absurd h this
  | some p =>
    have hmem := mem_colMajor.mp (List.mem_of_find?_eq_some hfind)
    have hp := List.find?_some hfind
    exact ⟨hmem.1, hmem.2, hp⟩

theorem rowMaxCoeffIdx_spec (M : Mat Bool) (i : Nat) {j : Nat} (hj : j < M.cols)
    (h : M.coeff i j = true) :
    M.rowMaxCoeffIdx i < M.cols ∧ M.coeff i (M.rowMaxCoeffIdx i) = true :=
  find_range_spec hj h

theorem colMaxCoeffIdx_spec (M : Mat Bool) (j : Nat) {i : Nat} (hi : i < M.rows)
    (h : M.coeff i j = true) :
    M.colMaxCoeffIdx j < M.rows ∧ M.coeff (M.colMaxCoeffIdx j) j = true :=
  find_range_spec (p := fun i => M.coeff i j) hi h

theorem foldl_argmin_spec (f : Nat × Nat → ℚ) (l : List (Nat × Nat)) (a : Nat × Nat) :
    (l.foldl (fun res p => if f p < f res then p else res) a = a ∨
      l.foldl (fun res p => if f p < f res then p else res) a ∈ l) ∧
    f (l.foldl (fun res p => if f p < f res then p else res) a) ≤ f a ∧
    ∀ q ∈ l, f (l.foldl (fun res p => if f p < f res then p else res) a) ≤ f q := by
  induction l generalizing a with
  | nil => simp
  | cons x xs ih =>
    simp only [List.foldl_cons, List.mem_cons]
    obtain ⟨h1, h2, h3⟩ := ih (if f x < f a then x else a)
    by_cases hlt : f x < f a
    · simp only [hlt, if_true] at h1 h2 h3 ⊢
      refine ⟨?_, ?_, ?_⟩
      · rcases h1 with h | h
        · right; left; exact h
        · right; right; exact h
      · exact le_trans h2 (le_of_lt hlt)
      · intro q hq
        rcases hq with rfl | hq
        · exact h2
        · exact h3 q hq
    · simp only [hlt, if_false] at h1 h2 h3 ⊢
      refine ⟨?_, h2, ?_⟩
      · rcases h1 with h | h
        · left; exact h
        · right; right; exact h
      · intro q hq
        rcases hq with rfl | hq
        · exact le_trans h2 (not_lt.mp hlt)
        · exact h3 q hq

theorem minCoeffIdx_spec (M : Mat ℚ) (hr : 0 < M.rows) (hc : 0 < M.cols) :
    M.minCoeffIdx.1 < M.rows ∧ M.minCoeffIdx.2 < M.cols ∧
    ∀ i j, i < M.rows → j < M.cols →
      M.coeff M.minCoeffIdx.1 M.minCoeffIdx.2 ≤ M.coeff i j := by
  obtain ⟨h1, _, h3⟩ :=
    foldl_argmin_spec (fun p => M.coeff p.1 p.2) (colMajor M.rows M.cols) (0, 0)
  have hin : M.minCoeffIdx ∈ colMajor M.rows M.cols := by
    unfold minCoeffIdx
    rcases h1 with h | h
    · rw [h]
      exact mem_colMajor.mpr ⟨hr, hc⟩
    · exact h
  have hin2 := mem_colMajor.mp hin
  refine ⟨hin2.1, hin2.2, ?_⟩
  intro i j hi hj
  exact h3 (i, j) (mem_colMajor.mpr ⟨hi, hj⟩)

end Mat

/-! ## Setting the cost matrix and reading it back -/

theorem set_error_ne_none_iff (self : HungarianAlgorithm) (M : Mat ℚ) :
    (SetCostFunctionMatrix self M).error ≠ none ↔
      M.anyCoeff (fun x => decide (x < 0)) = true := by
  unfold SetCostFunctionMatrix
  split <;> simp_all

theorem set_state_of_ok (self : HungarianAlgorithm) (M : Mat ℚ)
    (h : (SetCostFunctionMatrix self M).error = none) :
    (SetCostFunctionMatrix self M).state =
      { nrRows := M.rows
        nrCols := M.cols
        matrixSize := if M.rows ≠ M.cols then max M.cols M.rows else M.rows
        dummyCost := M.maxCoeff + 100
        costFunctionMatrix :=
          if M.rows ≠ M.cols then
            Mat.ofFn (if M.rows ≠ M.cols then max M.cols M.rows else M.rows)
              (if M.rows ≠ M.cols then max M.cols M.rows else M.rows)
              (fun i j => if i < M.rows ∧ j < M.cols then M.coeff i j else M.maxCoeff + 100)
          else M
        workingMatrix :=
          if M.rows ≠ M.cols then
            Mat.ofFn (if M.rows ≠ M.cols then max M.cols M.rows else M.rows)
              (if M.rows ≠ M.cols then max M.cols M.rows else M.rows)
              (fun i j => if i < M.rows ∧ j < M.cols then M.coeff i j else M.maxCoeff + 100)
          else M
        coveredMatrix :=
          Mat.resizeFill (if M.rows ≠ M.cols then max M.cols M.rows else M.rows)
            (if M.rows ≠ M.cols then max M.cols M.rows else M.rows) false
        nrLinesToCoverZeroes := self.nrLinesToCoverZeroes
        assignmentMatrix :=
          Mat.resizeFill (if M.rows ≠ M.cols then max M.cols M.rows else M.rows)
            (if M.rows ≠ M.cols then max M.cols M.rows else M.rows) false
        problemStatus := ProblemStatus.ReadyToSolve } := by
  have hne : ¬ M.anyCoeff (fun x => decide (x < 0)) = true := by
    intro hneg
    exact ((set_error_ne_none_iff self M).mpr hneg) h
  unfold SetCostFunctionMatrix
  rw [if_neg hne]

theorem set_ok_nonneg (self : HungarianAlgorithm) (M : Mat ℚ)
    (h : (SetCostFunctionMatrix self M).error = none) :
    ∀ i j, i < M.rows → j < M.cols → 0 ≤ M.coeff i j := by
  intro i j hi hj
  by_contra hneg
  have hany : M.anyCoeff (fun x => decide (x < 0)) = true :=
    (Mat.anyCoeff_iff M _).mpr ⟨i, j, hi, hj, by simpa using hneg⟩
  exact ((set_error_ne_none_iff self M).mpr hany) h

theorem set_matrixSize_eq_max (M : Mat ℚ) :
    (if M.rows ≠ M.cols then max M.cols M.rows else M.rows) = max M.rows M.cols := by
  split
  · exact max_comm _ _
  · rename_i h
    have h2 : M.rows = M.cols := not_not.mp h
    simp [h2]

/-- C5: `SetCostFunctionMatrix` throws (its only exception, the one for negative values)
exactly when some entry of the supplied matrix is negative, and when it throws the object
is left exactly as it was: every data member is unchanged. -/
theorem C5_set_fails_iff_negative (self : HungarianAlgorithm) (M : Mat ℚ) :
    ((SetCostFunctionMatrix self M).error = some Error.negativeValues ↔
      ∃ i j, i < M.rows ∧ j < M.cols ∧ M.coeff i j < 0) ∧
    ((SetCostFunctionMatrix self M).error ≠ none ↔
      ∃ i j, i < M.rows ∧ j < M.cols ∧ M.coeff i j < 0) ∧
    ((SetCostFunctionMatrix self M).error ≠ none →
      (SetCostFunctionMatrix self M).state = self) := by
  have hany : M.anyCoeff (fun x => decide (x < 0)) = true ↔
      ∃ i j, i < M.rows ∧ j < M.cols ∧ M.coeff i j < 0 := by
    rw [Mat.anyCoeff_iff]
    simp
  refine ⟨?_, ?_, ?_⟩
  · rw [← hany]
    unfold SetCostFunctionMatrix
    split <;> simp_all
  · rw [← hany]
    exact set_error_ne_none_iff self M
  · intro h
    have hneg := (set_error_ne_none_iff self M).mp h
    unfold SetCostFunctionMatrix
    rw [if_pos hneg]

/-- Witness for C5: a 1×2 matrix with a negative entry is rejected and the default
constructed object is unchanged. -/
theorem C5_set_fails_iff_negative_witness :
    (SetCostFunctionMatrix HungarianAlgorithm.construct ⟨1, 2, [[3, -1]]⟩).error ≠ none ∧
    (SetCostFunctionMatrix HungarianAlgorithm.construct ⟨1, 2, [[3, -1]]⟩).state =
      HungarianAlgorithm.construct :=
  ⟨by decide!,
   (C5_set_fails_iff_negative HungarianAlgorithm.construct ⟨1, 2, [[3, -1]]⟩).2.2
     (by decide!)⟩

/-- C6: after a successful `SetCostFunctionMatrix` on an `m × n` matrix `M`, `matrixSize`
is `max m n`; the stored cost matrix is `matrixSize × matrixSize`, agrees with `M` on the
top-left `m × n` block and holds the dummy cost `maxCoeff M + 100` everywhere else; the
dummy cost is strictly greater than every entry of `M`; the working matrix is an equal
copy; both masks are `matrixSize × matrixSize` and all false. -/
theorem C6_padding (self : HungarianAlgorithm) (M : Mat ℚ)
    (hok : (SetCostFunctionMatrix self M).error = none) :
    let st := (SetCostFunctionMatrix self M).state
    st.nrRows = M.rows ∧ st.nrCols = M.cols ∧
    st.matrixSize = max M.rows M.cols ∧
    st.costFunctionMatrix.rows = st.matrixSize ∧
    st.costFunctionMatrix.cols = st.matrixSize ∧
    (∀ i j, i < M.rows → j < M.cols → st.costFunctionMatrix.coeff i j = M.coeff i j) ∧
    (∀ i j, i < st.matrixSize → j < st.matrixSize → ¬ (i < M.rows ∧ j < M.cols) →
      st.costFunctionMatrix.coeff i j = st.dummyCost) ∧
    st.dummyCost = M.maxCoeff + 100 ∧
    (∀ i j, i < M.rows → j < M.cols → M.coeff i j < st.dummyCost) ∧
    st.workingMatrix = st.costFunctionMatrix ∧
    st.coveredMatrix.rows = st.matrixSize ∧ st.coveredMatrix.cols = st.matrixSize ∧
    (∀ i j, i < st.matrixSize → j < st.matrixSize → st.coveredMatrix.coeff i j = false) ∧
    st.assignmentMatrix.rows = st.matrixSize ∧ st.assignmentMatrix.cols = st.matrixSize ∧
    (∀ i j, i < st.matrixSize → j < st.matrixSize → st.assignmentMatrix.coeff i j = false) := by
  intro st
  have hst : st = _ := set_state_of_ok self M hok
  have hN : st.matrixSize = max M.rows M.cols := by
    rw [hst]; exact set_matrixSize_eq_max M
  have hNdef : (if M.rows ≠ M.cols then max M.cols M.rows else M.rows) = st.matrixSize := by
    rw [hst]
  have hdummy : st.dummyCost = M.maxCoeff + 100 := by rw [hst]
  have hcost : st.costFunctionMatrix =
      if M.rows ≠ M.cols then
        Mat.ofFn st.matrixSize st.matrixSize
          (fun i j => if i < M.rows ∧ j < M.cols then M.coeff i j else M.maxCoeff + 100)
      else M := by
    rw [← hNdef, hst]
  have hwork : st.workingMatrix = st.costFunctionMatrix := by rw [hst]
  have hcov : st.coveredMatrix = Mat.ofFn st.matrixSize st.matrixSize (fun _ _ => false) := by
    rw [← hNdef, hst]; rfl
  have hasg : st.assignmentMatrix =
      Mat.ofFn st.matrixSize st.matrixSize (fun _ _ => false) := by
    rw [← hNdef, hst]; rfl
  have hlt : ∀ i j, i < M.rows → j < M.cols → M.coeff i j < st.dummyCost := by
    intro i j hi hj
    have := M.coeff_le_maxCoeff hi hj
    rw [hdummy]
    linarith
  refine ⟨by rw [hst], by rw [hst], hN, ?_, ?_, ?_, ?_, hdummy, hlt, hwork, ?_, ?_, ?_,
    ?_, ?_, ?_⟩
  · rw [hcost]
    split
    · rfl
    · rename_i h
      rw [hN, not_not.mp h, max_self]
  · rw [hcost]
    split
    · rfl
    · rename_i h
      rw [hN, ← not_not.mp h, max_self]
  · intro i j hi hj
    rw [hcost]
    split
    · rw [Mat.coeff_ofFn _ (by rw [hN]; exact lt_of_lt_of_le hi (le_max_left _ _))
        (by rw [hN]; exact lt_of_lt_of_le hj (le_max_right _ _))]
      simp [hi, hj]
    · rfl
  · intro i j hi hj hn
    rw [hcost]
    split
    · rw [Mat.coeff_ofFn _ hi hj, hdummy]
      simp [hn]
    · rename_i h
      have hsq : M.rows = M.cols := not_not.mp h
      rw [hN, hsq, max_self] at hi hj
      exact absurd ⟨hsq ▸ hi, hj⟩ hn
  · rw [hcov]; rfl
  · rw [hcov]; rfl
  · intro i j hi hj
    rw [hcov]
    exact Mat.coeff_ofFn _ hi hj
  · rw [hasg]; rfl
  · rw [hasg]; rfl
  · intro i j hi hj
    rw [hasg]
    exact Mat.coeff_ofFn _ hi hj

/-- Witness for C6: the 1×2 matrix `[[1, 2]]` is accepted, and the padded matrix has the
dummy cost 102 in its second row. -/
theorem C6_padding_witness :
    (SetCostFunctionMatrix HungarianAlgorithm.construct ⟨1, 2, [[1, 2]]⟩).error = none ∧
    (SetCostFunctionMatrix HungarianAlgorithm.construct ⟨1, 2, [[1, 2]]⟩).state.matrixSize
      = max 1 2 ∧
    (SetCostFunctionMatrix HungarianAlgorithm.construct
      ⟨1, 2, [[1, 2]]⟩).state.costFunctionMatrix = ⟨2, 2, [[1, 2], [102, 102]]⟩ :=
  ⟨by decide!,
   (C6_padding HungarianAlgorithm.construct ⟨1, 2, [[1, 2]]⟩ (by decide!)).2.2.1,
   by decide!⟩

/-- C7 (the code departs from the claim): for the 1×2 matrix `[[1, 2]]`,
`SetCostFunctionMatrix` succeeds and `GetCostFunctionMatrix` accepts a 1×2 buffer, but
the buffer it leaves behind is the padded 2×2 matrix `[[1, 2], [102, 102]]`, not the
original 1×2 matrix. -/
theorem C7_get_returns_padded :
    (SetCostFunctionMatrix HungarianAlgorithm.construct ⟨1, 2, [[1, 2]]⟩).error = none ∧
    (GetCostFunctionMatrix
      (SetCostFunctionMatrix HungarianAlgorithm.construct ⟨1, 2, [[1, 2]]⟩).state
      ⟨1, 2, [[0, 0]]⟩).error = none ∧
    (GetCostFunctionMatrix
      (SetCostFunctionMatrix HungarianAlgorithm.construct ⟨1, 2, [[1, 2]]⟩).state
      ⟨1, 2, [[0, 0]]⟩).state.2 = ⟨2, 2, [[1, 2], [102, 102]]⟩ ∧
    (GetCostFunctionMatrix
      (SetCostFunctionMatrix HungarianAlgorithm.construct ⟨1, 2, [[1, 2]]⟩).state
      ⟨1, 2, [[0, 0]]⟩).state.2 ≠ ⟨1, 2, [[1, 2]]⟩ := by
  decide!

/-! ## What the steps leave alone -/

theorem SameProblem.refl (a : HungarianAlgorithm) : SameProblem a a :=
  ⟨rfl, rfl, rfl, rfl, rfl⟩

theorem SameProblem.trans {a b c : HungarianAlgorithm} (h1 : SameProblem a b)
    (h2 : SameProblem b c) : SameProblem a c := by
  obtain ⟨a1, a2, a3, a4, a5⟩ := h1
  obtain ⟨b1, b2, b3, b4, b5⟩ := h2
  exact ⟨b1.trans a1, b2.trans a2, b3.trans a3, b4.trans a4, b5.trans a5⟩

theorem cover_eq_some {self s : HungarianAlgorithm} {k : Nat}
    (h : MinNrOfLinesToCoverAllZeros self = some (s, k)) :
    ∃ cs : CoverState,
      coverLoop self.workingMatrix self.matrixSize (zeroMask self.workingMatrix).count
        { coveredMatrix := self.coveredMatrix.fill false
          nrLinesToCoverZeroes := 0
          nrUncoveredZeroes := ((zeroMask self.workingMatrix).count : Int)
          newZeroCovered := false
          returned := false } = some cs ∧
      s = { self with
            coveredMatrix := cs.coveredMatrix
            nrLinesToCoverZeroes := cs.nrLinesToCoverZeroes } ∧
      k = cs.nrLinesToCoverZeroes := by
  unfold MinNrOfLinesToCoverAllZeros at h
  simp only [Option.map_eq_some'] at h
  obtain ⟨cs, hcs, heq⟩ := h
  have h1 := congrArg Prod.fst heq
  have h2 := congrArg Prod.snd heq
  exact ⟨cs, hcs, h1.symm, h2.symm⟩

theorem cover_frame {self s : HungarianAlgorithm} {k : Nat}
    (h : MinNrOfLinesToCoverAllZeros self = some (s, k)) :
    SameProblem self s ∧ s.workingMatrix = self.workingMatrix ∧
    s.assignmentMatrix = self.assignmentMatrix ∧ s.problemStatus = self.problemStatus := by
  obtain ⟨cs, _, hs, _⟩ := cover_eq_some h
  subst hs
  exact ⟨⟨rfl, rfl, rfl, rfl, rfl⟩, rfl, rfl, rfl⟩

theorem augment_frame (self : HungarianAlgorithm) :
    SameProblem self (AugmentCostFunctionMatrix self) ∧
    (AugmentCostFunctionMatrix self).assignmentMatrix = self.assignmentMatrix ∧
    (AugmentCostFunctionMatrix self).problemStatus = self.problemStatus ∧
    (AugmentCostFunctionMatrix self).coveredMatrix = self.coveredMatrix :=
  ⟨⟨rfl, rfl, rfl, rfl, rfl⟩, rfl, rfl, rfl⟩

theorem reduce_frame (self : HungarianAlgorithm) :
    SameProblem self (reduce self) ∧
    (reduce self).assignmentMatrix = self.assignmentMatrix ∧
    (reduce self).problemStatus = self.problemStatus ∧
    (reduce self).coveredMatrix = self.coveredMatrix := by
  unfold reduce
  split <;> exact ⟨⟨rfl, rfl, rfl, rfl, rfl⟩, rfl, rfl, rfl⟩

theorem solveLoop_frame (fuel : Nat) {self s : HungarianAlgorithm}
    (h : solveLoop fuel self = some s) :
    SameProblem self s ∧ s.assignmentMatrix = self.assignmentMatrix ∧
    s.problemStatus = self.problemStatus := by
  induction fuel generalizing self with
  | zero =>
    unfold solveLoop at h
    split at h
    · exact absurd h (by simp)
    · rename_i s1 k hc
      obtain ⟨hf, _, ha, hp⟩ := cover_frame hc
      split at h
      · exact absurd h (by simp)
      · have hs : s1 = s := Option.some.inj h
        subst hs
        exact ⟨hf, ha, hp⟩
  | succ n ih =>
    unfold solveLoop at h
    split at h
    · exact absurd h (by simp)
    · rename_i s1 k hc
      obtain ⟨hf, _, ha, hp⟩ := cover_frame hc
      split at h
      · obtain ⟨hf2, ha2, hp2⟩ := ih h
        obtain ⟨hf1, ha1, hp1, _⟩ := augment_frame s1
        exact ⟨hf.trans (hf1.trans hf2), ha2.trans (ha1.trans ha), hp2.trans (hp1.trans hp)⟩
      · have hs : s1 = s := Option.some.inj h
        subst hs
        exact ⟨hf, ha, hp⟩

theorem find_frame {self s : HungarianAlgorithm} (h : FindOptimalCost self = some s) :
    SameProblem self s ∧ s.workingMatrix = self.workingMatrix ∧
    s.problemStatus = self.problemStatus := by
  unfold FindOptimalCost at h
  simp only at h
  split at h
  · have hs := Option.some.inj h
    subst hs
    exact ⟨⟨rfl, rfl, rfl, rfl, rfl⟩, rfl, rfl⟩
  · simp only [Option.map_eq_some'] at h
    obtain ⟨fs, _, hs⟩ := h
    subst hs
    exact ⟨⟨rfl, rfl, rfl, rfl, rfl⟩, rfl, rfl⟩

theorem solve_eq_some {fuel : Nat} {self : HungarianAlgorithm}
    {o : Outcome HungarianAlgorithm}
    (hst : self.problemStatus ≠ ProblemStatus.NotReady)
    (h : SolveAssignmentProblem fuel self = some o) :
    ∃ s1 s2, solveLoop fuel (reduce self) = some s1 ∧ FindOptimalCost s1 = some s2 ∧
      o = { error := none, state := { s2 with problemStatus := ProblemStatus.Done } } := by
  unfold SolveAssignmentProblem at h
  have hlt : ¬ self.problemStatus.toNat < ProblemStatus.ReadyToSolve.toNat := by
    cases hp : self.problemStatus
    · exact absurd hp hst
    · simp [ProblemStatus.toNat]
    · simp [ProblemStatus.toNat]
  rw [if_neg hlt] at h
  split at h
  · exact absurd h (by simp)
  · rename_i s1 h1
    split at h
    · exact absurd h (by simp)
    · rename_i s2 h2
      exact ⟨s1, s2, h1, h2, (Option.some.inj h).symm⟩

theorem solve_frame {fuel : Nat} {self : HungarianAlgorithm}
    {o : Outcome HungarianAlgorithm}
    (hst : self.problemStatus ≠ ProblemStatus.NotReady)
    (h : SolveAssignmentProblem fuel self = some o) :
    o.error = none ∧ SameProblem self o.state ∧ o.state.problemStatus = ProblemStatus.Done := by
  obtain ⟨s1, s2, h1, h2, ho⟩ := solve_eq_some hst h
  obtain ⟨f1, _, _⟩ := solveLoop_frame fuel h1
  obtain ⟨f2, _, _⟩ := find_frame h2
  obtain ⟨f0, _, _, _⟩ := reduce_frame self
  subst ho
  exact ⟨rfl, (f0.trans (f1.trans f2)), rfl⟩

theorem set_status (self : HungarianAlgorithm) (M : Mat ℚ)
    (hok : (SetCostFunctionMatrix self M).error = none) :
    (SetCostFunctionMatrix self M).state.problemStatus = ProblemStatus.ReadyToSolve := by
  rw [set_state_of_ok self M hok]

theorem set_dims (self : HungarianAlgorithm) (M : Mat ℚ)
    (hok : (SetCostFunctionMatrix self M).error = none) :
    (SetCostFunctionMatrix self M).state.nrRows = M.rows ∧
    (SetCostFunctionMatrix self M).state.nrCols = M.cols := by
  rw [set_state_of_ok self M hok]
  exact ⟨rfl, rfl⟩

/-! ## Preconditions of the public operations -/

/-- C8: `GetCostFunctionMatrix` and `SolveAssignmentProblem` throw whenever the status is
`NotReady`; `GetAssignmentMatrix` and `GetAssignmentResults` throw whenever the status is
not `Done`; this holds for every output buffer, and in each of these cases the object and
the buffers of the caller are left unchanged. -/
theorem C8_status_preconditions (self : HungarianAlgorithm) :
    (self.problemStatus = ProblemStatus.NotReady →
      (∀ out : Mat ℚ, GetCostFunctionMatrix self out =
        { error := some Error.costUndefined, state := (self, out) }) ∧
      (∀ fuel : Nat, SolveAssignmentProblem fuel self =
        some { error := some Error.costUndefined, state := self })) ∧
    (self.problemStatus ≠ ProblemStatus.Done →
      (∀ out : Mat Int, GetAssignmentMatrix self out =
        { error := some Error.notSolved, state := (self, out) }) ∧
      (∀ rowIndices colIndices : List Int,
        GetAssignmentResults self rowIndices colIndices =
          { error := some Error.notSolved, state := (self, rowIndices, colIndices) })) := by
  constructor
  · intro h
    constructor
    · intro out
      unfold GetCostFunctionMatrix
      simp [h, ProblemStatus.toNat]
    · intro fuel
      unfold SolveAssignmentProblem
      simp [h, ProblemStatus.toNat]
  · intro h
    have hlt : self.problemStatus.toNat < ProblemStatus.Done.toNat := by
      cases hp : self.problemStatus
      · simp [ProblemStatus.toNat]
      · simp [ProblemStatus.toNat]
      · exact absurd hp h
    constructor
    · intro out
      unfold GetAssignmentMatrix
      rw [if_pos hlt]
    · intro r c
      unfold GetAssignmentResults
      rw [if_pos hlt]

/-- Witness for C8: the default constructed object has status `NotReady`, so all four
operations throw and leave the object and the buffers as they were. -/
theorem C8_status_preconditions_witness :
    HungarianAlgorithm.construct.problemStatus = ProblemStatus.NotReady ∧
    GetCostFunctionMatrix HungarianAlgorithm.construct ⟨1, 1, [[7]]⟩ =
      { error := some Error.costUndefined,
        state := (HungarianAlgorithm.construct, ⟨1, 1, [[7]]⟩) } ∧
    SolveAssignmentProblem 5 HungarianAlgorithm.construct =
      some { error := some Error.costUndefined, state := HungarianAlgorithm.construct } ∧
    GetAssignmentMatrix HungarianAlgorithm.construct ⟨1, 1, [[7]]⟩ =
      { error := some Error.notSolved,
        state := (HungarianAlgorithm.construct, ⟨1, 1, [[7]]⟩) } ∧
    GetAssignmentResults HungarianAlgorithm.construct [7] [8] =
      { error := some Error.notSolved, state := (HungarianAlgorithm.construct, [7], [8]) } :=
  ⟨rfl,
   ((C8_status_preconditions HungarianAlgorithm.construct).1 rfl).1 _,
   ((C8_status_preconditions HungarianAlgorithm.construct).1 rfl).2 5,
   ((C8_status_preconditions HungarianAlgorithm.construct).2 (by decide)).1 _,
   ((C8_status_preconditions HungarianAlgorithm.construct).2 (by decide)).2 _ _⟩

/-- C9: for a problem built from an `m × n` matrix `M` (set successfully, then solved),
`GetCostFunctionMatrix`, both before and after the solve, and `GetAssignmentMatrix` throw
exactly when the output buffer is not `m × n`, and `GetAssignmentResults` throws exactly
when the row vector has not length `m` or the column vector has not length `n`: the
buffers are compared with the original dimensions, not with `matrixSize`. -/
theorem C9_dimension_checks (self : HungarianAlgorithm) (M : Mat ℚ) (fuel : Nat)
    (st : HungarianAlgorithm)
    (hset : (SetCostFunctionMatrix self M).error = none)
    (hsolve : SolveAssignmentProblem fuel (SetCostFunctionMatrix self M).state =
      some { error := none, state := st }) :
    (∀ out : Mat ℚ,
      (GetCostFunctionMatrix (SetCostFunctionMatrix self M).state out).error ≠ none ↔
        ¬ (out.rows = M.rows ∧ out.cols = M.cols)) ∧
    (∀ out : Mat ℚ, (GetCostFunctionMatrix st out).error ≠ none ↔
        ¬ (out.rows = M.rows ∧ out.cols = M.cols)) ∧
    (∀ out : Mat Int, (GetAssignmentMatrix st out).error ≠ none ↔
        ¬ (out.rows = M.rows ∧ out.cols = M.cols)) ∧
    (∀ rowIndices colIndices : List Int,
      (GetAssignmentResults st rowIndices colIndices).error ≠ none ↔
        (rowIndices.length ≠ M.rows ∨ colIndices.length ≠ M.cols)) := by
  have hstat := set_status self M hset
  obtain ⟨hr, hc⟩ := set_dims self M hset
  have hne : (SetCostFunctionMatrix self M).state.problemStatus ≠ ProblemStatus.NotReady := by
    rw [hstat]; decide
  obtain ⟨_, hsame, hdone⟩ := solve_frame hne hsolve
  obtain ⟨hr2, hc2, _, _, _⟩ := hsame
  simp only at hr2 hc2 hdone
  rw [hr] at hr2
  rw [hc] at hc2
  refine ⟨?_, ?_, ?_, ?_⟩
  · intro out
    unfold GetCostFunctionMatrix
    rw [hstat, hr, hc]
    simp only [ProblemStatus.toNat, lt_irrefl, if_false]
    split
    · simp_all; tauto
    · simp_all
  · intro out
    unfold GetCostFunctionMatrix
    rw [hdone, hr2, hc2]
    simp only [ProblemStatus.toNat, show ¬ (2 < 1) by decide, if_false]
    split
    · simp_all; tauto
    · simp_all
  · intro out
    unfold GetAssignmentMatrix
    rw [hdone, hr2, hc2]
    simp only [ProblemStatus.toNat, lt_irrefl, if_false]
    split
    · simp_all; tauto
    · simp_all
  · intro r c
    unfold GetAssignmentResults
    rw [hdone, hr2, hc2]
    simp only [ProblemStatus.toNat, lt_irrefl, if_false]
    split
    · simp_all
    · split <;> simp_all

/-! ## `FindOptimalCost` ends with a permutation matrix -/

theorem findInv_row_not_in {N : Nat} {s : FindState} (h : FindInv N s) {r c : Nat}
    (hr : r < N) (hc : c < N) (hrow : s.coveredMatrix.rowAll r = false)
    (hA : s.assignmentMatrix.coeff r c = true) : s.coveredMatrix.coeff r c = false := by
  obtain ⟨_, _, _, hcc, _, R, C, _, _, _, hcov, hR, hC⟩ := h
  have hrR : r ∉ R := by
    intro hmem
    have : s.coveredMatrix.rowAll r = true := by
      rw [Mat.rowAll_iff]
      intro j hj
      rw [hcc] at hj
      exact (hcov r j hr hj).mpr (Or.inl hmem)
    rw [this] at hrow
    exact absurd hrow (by simp)
  by_contra hcv
  have hcv2 : s.coveredMatrix.coeff r c = true := by
    cases hx : s.coveredMatrix.coeff r c
    · exact absurd hx hcv
    · rfl
  rcases (hcov r c hr hc).mp hcv2 with h1 | h1
  · exact hrR h1
  · obtain ⟨i, hi, _, _, hcol⟩ := hC c h1
    have := hcol r hr hA
    rw [this] at hrR
    exact hrR hi

theorem findInv_col_not_in {N : Nat} {s : FindState} (h : FindInv N s) {r c : Nat}
    (hr : r < N) (hc : c < N) (hcol : s.coveredMatrix.colAll c = false)
    (hA : s.assignmentMatrix.coeff r c = true) : s.coveredMatrix.coeff r c = false := by
  obtain ⟨_, _, hcr, _, _, R, C, _, _, _, hcov, hR, hC⟩ := h
  have hcC : c ∉ C := by
    intro hmem
    have : s.coveredMatrix.colAll c = true := by
      rw [Mat.colAll_iff]
      intro i hi
      rw [hcr] at hi
      exact (hcov i c hi hc).mpr (Or.inr hmem)
    rw [this] at hcol
    exact absurd hcol (by simp)
  by_contra hcv
  have hcv2 : s.coveredMatrix.coeff r c = true := by
    cases hx : s.coveredMatrix.coeff r c
    · exact absurd hx hcv
    · rfl
  rcases (hcov r c hr hc).mp hcv2 with h1 | h1
  · obtain ⟨j, hj, _, hrow, _⟩ := hR r h1
    have := hrow c hc hA
    rw [this] at hcC
    exact hcC hj
  · exact hcC h1

theorem findInv_commit {N : Nat} {s : FindState} (h : FindInv N s) {r c : Nat}
    (hr : r < N) (hc : c < N) (hunc : s.coveredMatrix.coeff r c = false)
    (A' : Mat Bool) (hrows : A'.rows = N) (hcols : A'.cols = N)
    (hm : Matched N A' r c)
    (hother : ∀ i j, i < N → j < N → i ≠ r → j ≠ c →
      A'.coeff i j = s.assignmentMatrix.coeff i j)
    (nam : Bool) :
    FindInv N
      { assignmentMatrix := A'
        coveredMatrix := (s.coveredMatrix.fillRow r true).fillCol c true
        newAssignmentMade := nam
        returned := ((s.coveredMatrix.fillRow r true).fillCol c true).all } := by
  obtain ⟨_, _, hcr, hcc, _, R, C, hRlt, hClt, hcard, hcov, hR, hC⟩ := h
  have hrR : r ∉ R := by
    intro hmem
    have := (hcov r c hr hc).mpr (Or.inl hmem)
    rw [hunc] at this
    exact absurd this (by simp)
  have hcC : c ∉ C := by
    intro hmem
    have := (hcov r c hr hc).mpr (Or.inr hmem)
    rw [hunc] at this
    exact absurd this (by simp)
  have hkeep : ∀ i j, i < N → j < N → i ≠ r → j ≠ c →
      Matched N s.assignmentMatrix i j → Matched N A' i j := by
    intro i j hi hj hir hjc ⟨ha, hrow, hcol⟩
    refine ⟨?_, ?_, ?_⟩
    · rw [hother i j hi hj hir hjc]
      exact ha
    · intro j' hj' ha'
      by_cases hj'c : j' = c
      · rw [hj'c] at ha'
        exact absurd (hm.2.2 i hi ha') hir
      · rw [hother i j' hi hj' hir hj'c] at ha'
        exact hrow j' hj' ha'
    · intro i' hi' ha'
      by_cases hi'r : i' = r
      · rw [hi'r] at ha'
        exact absurd (hm.2.1 j hj ha') hjc
      · rw [hother i' j hi' hj hi'r hjc] at ha'
        exact hcol i' hi' ha'
  refine ⟨hrows, hcols, by simpa using hcr, by simpa using hcc, rfl,
    insert r R, insert c C, ?_, ?_, ?_, ?_, ?_, ?_⟩
  · intro i hi
    rcases Finset.mem_insert.mp hi with h1 | h1
    · rw [h1]; exact hr
    · exact hRlt i h1
  · intro j hj
    rcases Finset.mem_insert.mp hj with h1 | h1
    · rw [h1]; exact hc
    · exact hClt j h1
  · rw [Finset.card_insert_of_not_mem hrR, Finset.card_insert_of_not_mem hcC, hcard]
  · intro i j hi hj
    have hi1 : i < (s.coveredMatrix.fillRow r true).rows := by simpa [hcr] using hi
    have hj1 : j < (s.coveredMatrix.fillRow r true).cols := by simpa [hcc] using hj
    have hi2 : i < s.coveredMatrix.rows := by rw [hcr]; exact hi
    have hj2 : j < s.coveredMatrix.cols := by rw [hcc]; exact hj
    rw [Mat.coeff_fillCol _ _ _ hi1 hj1, Mat.coeff_fillRow _ _ _ hi2 hj2]
    simp only [Finset.mem_insert]
    by_cases hjc : j = c
    · simp [hjc]
    · by_cases hir : i = r
      · simp [hir]
      · simp only [hjc, hir, if_false, false_or]
        exact hcov i j hi hj
  · intro i hi
    rcases Finset.mem_insert.mp hi with h1 | h1
    · exact ⟨c, Finset.mem_insert_self c C, h1 ▸ hm⟩
    · obtain ⟨j, hj, hmat⟩ := hR i h1
      have hir : i ≠ r := fun e => hrR (e ▸ h1)
      have hjc : j ≠ c := fun e => hcC (e ▸ hj)
      exact ⟨j, Finset.mem_insert_of_mem hj,
        hkeep i j (hRlt i h1) (hClt j hj) hir hjc hmat⟩
  · intro j hj
    rcases Finset.mem_insert.mp hj with h1 | h1
    · exact ⟨r, Finset.mem_insert_self r R, h1 ▸ hm⟩
    · obtain ⟨i, hi, hmat⟩ := hC j h1
      have hir : i ≠ r := fun e => hrR (e ▸ hi)
      have hjc : j ≠ c := fun e => hcC (e ▸ h1)
      exact ⟨i, Finset.mem_insert_of_mem hi,
        hkeep i j (hRlt i hi) (hClt j h1) hir hjc hmat⟩

theorem findRowStep_inv {N : Nat} {s : FindState} (h : FindInv N s) {row : Nat}
    (hrow : row < N) : FindInv N (findRowStep s row) := by
  unfold findRowStep
  split
  · exact h
  · split
    · rename_i hnotall
      split
      · rename_i hcount
        have hAr := h.1
        have hAc := h.2.1
        have hall : s.coveredMatrix.rowAll row = false := by simpa using hnotall
        have hcount2 : (List.range N).countP (fun j => s.assignmentMatrix.coeff row j) = 1 := by
          rw [← hAc]; exact hcount
        have hex : ∃ j, j < N ∧ s.assignmentMatrix.coeff row j = true := by
          have hpos : 0 < (List.range N).countP (fun j => s.assignmentMatrix.coeff row j) := by
            rw [hcount2]; exact Nat.one_pos
          obtain ⟨j, hj, hp⟩ := List.countP_pos_iff.mp hpos
          exact ⟨j, List.mem_range.mp hj, hp⟩
        obtain ⟨j0, hj0, hp0⟩ := hex
        obtain ⟨hidx, hpidx⟩ :=
          s.assignmentMatrix.rowMaxCoeffIdx_spec row (by rw [hAc]; exact hj0) hp0
        rw [hAc] at hidx
        have hunc := findInv_row_not_in h hrow hidx hall hpidx
        apply findInv_commit h hrow hidx hunc
        · simp [hAr]
        · simp [hAc]
        · have hdim1 : ∀ i j, i < N → j < N →
              ((s.assignmentMatrix.fillCol (s.assignmentMatrix.rowMaxCoeffIdx row)
                false).setCoeff row (s.assignmentMatrix.rowMaxCoeffIdx row) true).coeff i j =
              if i = row ∧ j = s.assignmentMatrix.rowMaxCoeffIdx row then true
              else if j = s.assignmentMatrix.rowMaxCoeffIdx row then false
              else s.assignmentMatrix.coeff i j := by
            intro i j hi hj
            rw [Mat.coeff_setCoeff _ _ _ _ (by simpa [hAr] using hi) (by simpa [hAc] using hj),
              Mat.coeff_fillCol _ _ _ (by rw [hAr]; exact hi) (by rw [hAc]; exact hj)]
          refine ⟨?_, ?_, ?_⟩
          · rw [hdim1 _ _ hrow hidx]
            simp
          · intro j' hj' ha'
            rw [hdim1 _ _ hrow hj'] at ha'
            by_contra hne
            simp only [hne, and_false, if_false] at ha'
            exact hne (unique_of_countP_eq_one hcount2 hj' hidx ha' hpidx)
          · intro i' hi' ha'
            rw [hdim1 _ _ hi' hidx] at ha'
            by_contra hne
            simp [hne] at ha'
        · intro i j hi hj hir hjc
          rw [Mat.coeff_setCoeff _ _ _ _ (by simpa [hAr] using hi) (by simpa [hAc] using hj),
            Mat.coeff_fillCol _ _ _ (by rw [hAr]; exact hi) (by rw [hAc]; exact hj)]
          simp [hir, hjc]
      · exact h
    · exact h

theorem findColStep_inv {N : Nat} {s : FindState} (h : FindInv N s) {col : Nat}
    (hcol : col < N) : FindInv N (findColStep s col) := by
  unfold findColStep
  split
  · exact h
  · split
    · rename_i hnotall
      split
      · rename_i hcount
        have hAr := h.1
        have hAc := h.2.1
        have hall : s.coveredMatrix.colAll col = false := by simpa using hnotall
        have hcount2 : (List.range N).countP (fun i => s.assignmentMatrix.coeff i col) = 1 := by
          rw [← hAr]; exact hcount
        have hex : ∃ i, i < N ∧ s.assignmentMatrix.coeff i col = true := by
          have hpos : 0 < (List.range N).countP (fun i => s.assignmentMatrix.coeff i col) := by
            rw [hcount2]; exact Nat.one_pos
          obtain ⟨i, hi, hp⟩ := List.countP_pos_iff.mp hpos
          exact ⟨i, List.mem_range.mp hi, hp⟩
        obtain ⟨i0, hi0, hp0⟩ := hex
        obtain ⟨hidx, hpidx⟩ :=
          s.assignmentMatrix.colMaxCoeffIdx_spec col (by rw [hAr]; exact hi0) hp0
        rw [hAr] at hidx
        have hunc := findInv_col_not_in h hidx hcol hall hpidx
        apply findInv_commit h hidx hcol hunc
        · simp [hAr]
        · simp [hAc]
        · have hdim1 : ∀ i j, i < N → j < N →
              ((s.assignmentMatrix.fillRow (s.assignmentMatrix.colMaxCoeffIdx col)
                false).setCoeff (s.assignmentMatrix.colMaxCoeffIdx col) col true).coeff i j =
              if i = s.assignmentMatrix.colMaxCoeffIdx col ∧ j = col then true
              else if i = s.assignmentMatrix.colMaxCoeffIdx col then false
              else s.assignmentMatrix.coeff i j := by
            intro i j hi hj
            rw [Mat.coeff_setCoeff _ _ _ _ (by simpa [hAr] using hi) (by simpa [hAc] using hj),
              Mat.coeff_fillRow _ _ _ (by rw [hAr]; exact hi) (by rw [hAc]; exact hj)]
          refine ⟨?_, ?_, ?_⟩
          · rw [hdim1 _ _ hidx hcol]
            simp
          · intro j' hj' ha'
            rw [hdim1 _ _ hidx hj'] at ha'
            by_contra hne
            simp [hne] at ha'
          · intro i' hi' ha'
            rw [hdim1 _ _ hi' hcol] at ha'
            by_contra hne
            simp only [hne, false_and, if_false] at ha'
            exact hne (unique_of_countP_eq_one hcount2 hi' hidx ha' hpidx)
        · intro i j hi hj hir hjc
          rw [Mat.coeff_setCoeff _ _ _ _ (by simpa [hAr] using hi) (by simpa [hAc] using hj),
            Mat.coeff_fillRow _ _ _ (by rw [hAr]; exact hi) (by rw [hAc]; exact hj)]
          simp [hir, hjc]
      · exact h
    · exact h

theorem foldl_findRowStep_inv {N : Nat} (l : List Nat) (hl : ∀ x ∈ l, x < N)
    {s : FindState} (h : FindInv N s) : FindInv N (l.foldl findRowStep s) := by
  induction l generalizing s with
  | nil => exact h
  | cons x xs ih =>
    exact ih (fun y hy => hl y (List.mem_cons_of_mem _ hy))
      (findRowStep_inv h (hl x (List.mem_cons_self _ _)))

theorem foldl_findColStep_inv {N : Nat} (l : List Nat) (hl : ∀ x ∈ l, x < N)
    {s : FindState} (h : FindInv N s) : FindInv N (l.foldl findColStep s) := by
  induction l generalizing s with
  | nil => exact h
  | cons x xs ih =>
    exact ih (fun y hy => hl y (List.mem_cons_of_mem _ hy))
      (findColStep_inv h (hl x (List.mem_cons_self _ _)))

theorem coeff_candidates (s : FindState) {i j : Nat} (hi : i < s.coveredMatrix.rows)
    (hj : j < s.coveredMatrix.cols) :
    (candidates s).coeff i j =
      (!s.coveredMatrix.coeff i j && s.assignmentMatrix.coeff i j) :=
  Mat.coeff_ofFn _ hi hj

theorem findTieBreakIdx_spec {N : Nat} {s : FindState} (h : FindInv N s)
    (hret : s.returned = false) (cost : Mat ℚ) (dummy : ℚ)
    (hbound : ∀ i j, i < N → j < N → cost.coeff i j ≤ dummy) :
    (findTieBreakIdx cost dummy s).1 < N ∧ (findTieBreakIdx cost dummy s).2 < N ∧
    s.coveredMatrix.coeff (findTieBreakIdx cost dummy s).1
      (findTieBreakIdx cost dummy s).2 = false := by
  obtain ⟨_, _, hcr, hcc, hrc, _⟩ := h
  have hnotall : ¬ s.coveredMatrix.all = true := by
    rw [← hrc, hret]
    simp
  rw [Mat.all_iff] at hnotall
  push_neg at hnotall
  obtain ⟨i0, j0, hi0, hj0, hunc0⟩ := hnotall
  rw [hcr] at hi0
  rw [hcc] at hj0
  have hunc0 : s.coveredMatrix.coeff i0 j0 = false := by simpa using hunc0
  have hNpos : 0 < N := Nat.lt_of_le_of_lt (Nat.zero_le _) hi0
  unfold findTieBreakIdx
  rw [hcr, hcc]
  split
  · rename_i hany
    rw [Mat.anyCoeff_iff] at hany
    obtain ⟨i1, j1, hi1, hj1, hc1⟩ := hany
    have hi1N : i1 < N := by simpa [candidates, hcr] using hi1
    have hj1N : j1 < N := by simpa [candidates, hcc] using hj1
    simp only [id] at hc1
    obtain ⟨hm1, hm2, hmin⟩ := Mat.minCoeffIdx_spec
      (Mat.ofFn N N (fun i j => if (candidates s).coeff i j then cost.coeff i j
        else dummy + 1)) hNpos hNpos
    simp only [Mat.ofFn_rows, Mat.ofFn_cols] at hm1 hm2 hmin
    refine ⟨hm1, hm2, ?_⟩
    have hle := hmin i1 j1 hi1N hj1N
    rw [Mat.coeff_ofFn _ hm1 hm2, Mat.coeff_ofFn _ hi1N hj1N, hc1] at hle
    simp only [if_true] at hle
    have hb := hbound i1 j1 hi1N hj1N
    by_contra hcov
    have hcand : (candidates s).coeff
        (Mat.ofFn N N (fun i j => if (candidates s).coeff i j then cost.coeff i j
          else dummy + 1)).minCoeffIdx.1
        (Mat.ofFn N N (fun i j => if (candidates s).coeff i j then cost.coeff i j
          else dummy + 1)).minCoeffIdx.2 = false := by
      rw [coeff_candidates s (by rw [hcr]; exact hm1) (by rw [hcc]; exact hm2)]
      simp only [Bool.and_eq_false_imp, Bool.not_eq_true']
      intro hx
      exact absurd hx hcov
    rw [hcand] at hle
    simp only [Bool.false_eq_true, if_false] at hle
    linarith
  · obtain ⟨hm1, hm2, hmin⟩ := Mat.minCoeffIdx_spec
      (Mat.ofFn N N (fun i j => if !s.coveredMatrix.coeff i j then cost.coeff i j
        else dummy + 1)) hNpos hNpos
    simp only [Mat.ofFn_rows, Mat.ofFn_cols] at hm1 hm2 hmin
    refine ⟨hm1, hm2, ?_⟩
    have hle := hmin i0 j0 hi0 hj0
    rw [Mat.coeff_ofFn _ hm1 hm2, Mat.coeff_ofFn _ hi0 hj0, hunc0] at hle
    simp only [Bool.not_false, if_true] at hle
    have hb := hbound i0 j0 hi0 hj0
    by_contra hcov
    have hcov2 : s.coveredMatrix.coeff
        (Mat.ofFn N N (fun i j => if !s.coveredMatrix.coeff i j then cost.coeff i j
          else dummy + 1)).minCoeffIdx.1
        (Mat.ofFn N N (fun i j => if !s.coveredMatrix.coeff i j then cost.coeff i j
          else dummy + 1)).minCoeffIdx.2 = true := by
      simpa using hcov
    rw [hcov2] at hle
    simp only [Bool.not_true, Bool.false_eq_true, if_false] at hle
    linarith

theorem findTieBreak_inv {N : Nat} {s : FindState} (h : FindInv N s)
    (hret : s.returned = false) (cost : Mat ℚ) (dummy : ℚ)
    (hbound : ∀ i j, i < N → j < N → cost.coeff i j ≤ dummy) :
    FindInv N (findTieBreak cost dummy s) := by
  obtain ⟨hr, hc, hunc⟩ := findTieBreakIdx_spec h hret cost dummy hbound
  have hAr := h.1
  have hAc := h.2.1
  unfold findTieBreak
  have hdim1 : ∀ i j, i < N → j < N →
      (((s.assignmentMatrix.fillRow (findTieBreakIdx cost dummy s).1 false).fillCol
        (findTieBreakIdx cost dummy s).2 false).setCoeff (findTieBreakIdx cost dummy s).1
        (findTieBreakIdx cost dummy s).2 true).coeff i j =
      if i = (findTieBreakIdx cost dummy s).1 ∧ j = (findTieBreakIdx cost dummy s).2 then true
      else if j = (findTieBreakIdx cost dummy s).2 then false
      else if i = (findTieBreakIdx cost dummy s).1 then false
      else s.assignmentMatrix.coeff i j := by
    intro i j hi hj
    rw [Mat.coeff_setCoeff _ _ _ _ (by simpa [hAr] using hi) (by simpa [hAc] using hj),
      Mat.coeff_fillCol _ _ _ (by simpa [hAr] using hi) (by simpa [hAc] using hj),
      Mat.coeff_fillRow _ _ _ (by rw [hAr]; exact hi) (by rw [hAc]; exact hj)]
  apply findInv_commit h hr hc hunc
  · simp [hAr]
  · simp [hAc]
  · refine ⟨?_, ?_, ?_⟩
    · rw [hdim1 _ _ hr hc]
      simp
    · intro j' hj' ha'
      rw [hdim1 _ _ hr hj'] at ha'
      by_contra hne
      simp [hne] at ha'
    · intro i' hi' ha'
      rw [hdim1 _ _ hi' hc] at ha'
      by_contra hne
      simp [hne] at ha'
  · intro i j hi hj hir hjc
    rw [hdim1 _ _ hi hj]
    simp [hir, hjc]

theorem findInv_setNew {N : Nat} {s : FindState} (h : FindInv N s) (b : Bool) :
    FindInv N { s with newAssignmentMade := b } := h

theorem findPass_inv {N : Nat} {s : FindState} (h : FindInv N s) (cost : Mat ℚ) (dummy : ℚ)
    (hbound : ∀ i j, i < N → j < N → cost.coeff i j ≤ dummy) :
    FindInv N (findPass cost dummy N s) := by
  have hlt : ∀ x ∈ List.range N, x < N := fun x hx => List.mem_range.mp hx
  have h1 := foldl_findRowStep_inv (List.range N) hlt (findInv_setNew h false)
  have h2 := foldl_findColStep_inv (List.range N) hlt h1
  unfold findPass
  simp only
  split
  · exact h1
  · split
    · exact h2
    · rename_i hret
      split
      · exact findTieBreak_inv h2 (by simpa using hret) cost dummy hbound
      · exact h2

theorem findLoop_inv {N : Nat} (cost : Mat ℚ) (dummy : ℚ)
    (hbound : ∀ i j, i < N → j < N → cost.coeff i j ≤ dummy) (fuel : Nat) :
    ∀ (s fs : FindState), FindInv N s → findLoop cost dummy N fuel s = some fs →
      FindInv N fs ∧ fs.coveredMatrix.all = true := by
  induction fuel with
  | zero =>
    intro s fs h hloop
    rw [findLoop] at hloop
    split at hloop
    · rename_i hall
      have hs := Option.some.inj hloop
      subst hs
      exact ⟨h, hall⟩
    · exact absurd hloop (by simp)
  | succ n ih =>
    intro s fs h hloop
    rw [findLoop] at hloop
    split at hloop
    · rename_i hall
      have hs := Option.some.inj hloop
      subst hs
      exact ⟨h, hall⟩
    · have hp := findPass_inv h cost dummy hbound
      simp only at hloop
      split at hloop
      · rename_i hret
        have hs := Option.some.inj hloop
        subst hs
        refine ⟨hp, ?_⟩
        rw [← hp.2.2.2.2.1]
        exact hret
      · exact ih _ fs hp hloop

theorem findInv_all_covered {N : Nat} {s : FindState} (h : FindInv N s)
    (hall : s.coveredMatrix.all = true) : IsPermutationMask N s.assignmentMatrix := by
  obtain ⟨_, _, hcr, hcc, _, R, C, hRlt, hClt, hcard, hcov, hR, hC⟩ := h
  rw [Mat.all_iff, hcr, hcc] at hall
  have hRsub : R ⊆ Finset.range N := fun i hi => Finset.mem_range.mpr (hRlt i hi)
  have hCsub : C ⊆ Finset.range N := fun j hj => Finset.mem_range.mpr (hClt j hj)
  have hRall : ∀ i, i < N → i ∈ R := by
    intro i0 hi0
    by_contra hnot
    have hCfull : Finset.range N ⊆ C := by
      intro j hj
      have hj' := Finset.mem_range.mp hj
      rcases (hcov i0 j hi0 hj').mp (hall i0 j hi0 hj') with h1 | h1
      · exact absurd h1 hnot
      · exact h1
    have hRsmall : R ⊆ (Finset.range N).erase i0 := by
      intro i hi
      refine Finset.mem_erase.mpr ⟨?_, hRsub hi⟩
      intro e
      exact hnot (e ▸ hi)
    have c1 := Finset.card_le_card hCfull
    have c2 := Finset.card_le_card hRsmall
    rw [Finset.card_range] at c1
    rw [Finset.card_erase_of_mem (Finset.mem_range.mpr hi0), Finset.card_range] at c2
    omega
  have hCall : ∀ j, j < N → j ∈ C := by
    intro j0 hj0
    by_contra hnot
    have hRfull : Finset.range N ⊆ R := fun i hi => hRall i (Finset.mem_range.mp hi)
    have hCsmall : C ⊆ (Finset.range N).erase j0 := by
      intro j hj
      refine Finset.mem_erase.mpr ⟨?_, hCsub hj⟩
      intro e
      exact hnot (e ▸ hj)
    have c1 := Finset.card_le_card hRfull
    have c2 := Finset.card_le_card hCsmall
    rw [Finset.card_range] at c1
    rw [Finset.card_erase_of_mem (Finset.mem_range.mpr hj0), Finset.card_range] at c2
    omega
  constructor
  · intro i hi
    obtain ⟨j, hj, hm⟩ := hR i (hRall i hi)
    exact ⟨j, hClt j hj, hm⟩
  · intro j hj
    obtain ⟨i, hi, hm⟩ := hC j (hCall j hj)
    exact ⟨i, hRlt i hi, hm⟩

theorem findInv_initial {N : Nat} (A cov : Mat Bool) (hAr : A.rows = N) (hAc : A.cols = N)
    (hcr : cov.rows = N) (hcc : cov.cols = N) (hnot : (cov.fill false).all = false) :
    FindInv N
      { assignmentMatrix := A
        coveredMatrix := cov.fill false
        newAssignmentMade := false
        returned := false } := by
  refine ⟨hAr, hAc, by simpa using hcr, by simpa using hcc, hnot.symm, ∅, ∅, ?_, ?_, rfl,
    ?_, ?_, ?_⟩
  · intro i hi
    exact absurd hi (Finset.not_mem_empty i)
  · intro j hj
    exact absurd hj (Finset.not_mem_empty j)
  · intro i j hi hj
    rw [Mat.coeff_fill _ _ (by rw [hcr]; exact hi) (by rw [hcc]; exact hj)]
    simp
  · intro i hi
    exact absurd hi (Finset.not_mem_empty i)
  · intro j hj
    exact absurd hj (Finset.not_mem_empty j)

/-! ## `MinNrOfLinesToCoverAllZeros`: counting the uncovered zeroes -/

theorem sum_range_zero_at {n r : Nat} (f : Nat → Nat) (hr : r < n) :
    ((List.range n).map (fun i => if i = r then 0 else f i)).sum + f r =
      ((List.range n).map f).sum := by
  induction n with
  | zero => exact absurd hr (Nat.not_lt_zero _)
  | succ n ih =>
    rw [List.range_succ, List.map_append, List.map_append, List.sum_append, List.sum_append]
    simp only [List.map_cons, List.map_nil, List.sum_cons, List.sum_nil, Nat.add_zero]
    by_cases hrn : r = n
    · subst hrn
      have hsame : (List.range r).map (fun i => if i = r then 0 else f i) =
          (List.range r).map f := by
        apply List.map_congr_left
        intro i hi
        have := List.mem_range.mp hi
        simp [Nat.ne_of_lt this]
      rw [hsame]
      simp
    · have hlt : r < n := Nat.lt_of_le_of_ne (Nat.lt_succ_iff.mp hr) hrn
      have := ih hlt
      simp only [Ne.symm hrn, if_false]
      omega

theorem coeff_uncoveredZeroes (W : Mat ℚ) (cov : Mat Bool) {i j : Nat}
    (hi : i < W.rows) (hj : j < W.cols) :
    (uncoveredZeroes W cov).coeff i j = (IsApproxZERO (W.coeff i j) && !cov.coeff i j) :=
  Mat.coeff_ofFn _ hi hj

theorem coeff_zeroMask (W : Mat ℚ) {i j : Nat} (hi : i < W.rows) (hj : j < W.cols) :
    (zeroMask W).coeff i j = IsApproxZERO (W.coeff i j) :=
  Mat.coeff_ofFn _ hi hj

theorem count_eq_sum_rowCount (M : Mat Bool) :
    M.count = ((List.range M.rows).map (fun i => M.rowCount i)).sum := rfl

theorem count_eq_sum_colCount (M : Mat Bool) :
    M.count = ((List.range M.cols).map (fun j => M.colCount j)).sum := by
  unfold Mat.count Mat.colCount
  exact sum_countP_comm (List.range M.rows) (List.range M.cols) (fun i j => M.coeff i j)

theorem uncovered_rowCount_fillRow (W : Mat ℚ) (cov : Mat Bool) {N r i : Nat}
    (hWr : W.rows = N) (hWc : W.cols = N) (hcr : cov.rows = N) (hcc : cov.cols = N)
    (hi : i < N) :
    (uncoveredZeroes W (cov.fillRow r true)).rowCount i =
      if i = r then 0 else (uncoveredZeroes W cov).rowCount i := by
  unfold Mat.rowCount
  have hc1 : (uncoveredZeroes W (cov.fillRow r true)).cols = N := hWc
  have hc2 : (uncoveredZeroes W cov).cols = N := hWc
  rw [hc1, hc2]
  by_cases hir : i = r
  · simp only [hir, if_true]
    apply countP_eq_zero_of_none
    intro j hj
    rw [coeff_uncoveredZeroes _ _ (by rw [hWr, ← hir]; exact hi) (by rw [hWc]; exact hj),
      Mat.coeff_fillRow _ _ _ (by rw [hcr, ← hir]; exact hi) (by rw [hcc]; exact hj)]
    simp
  · simp only [hir, if_false]
    apply List.countP_congr
    intro j hj
    have hjN := List.mem_range.mp hj
    rw [coeff_uncoveredZeroes _ _ (by rw [hWr]; exact hi) (by rw [hWc]; exact hjN),
      coeff_uncoveredZeroes _ _ (by rw [hWr]; exact hi) (by rw [hWc]; exact hjN),
      Mat.coeff_fillRow _ _ _ (by rw [hcr]; exact hi) (by rw [hcc]; exact hjN)]
    simp [hir]

theorem uncovered_colCount_fillCol (W : Mat ℚ) (cov : Mat Bool) {N c j : Nat}
    (hWr : W.rows = N) (hWc : W.cols = N) (hcr : cov.rows = N) (hcc : cov.cols = N)
    (hj : j < N) :
    (uncoveredZeroes W (cov.fillCol c true)).colCount j =
      if j = c then 0 else (uncoveredZeroes W cov).colCount j := by
  unfold Mat.colCount
  have hc1 : (uncoveredZeroes W (cov.fillCol c true)).rows = N := hWr
  have hc2 : (uncoveredZeroes W cov).rows = N := hWr
  rw [hc1, hc2]
  by_cases hjc : j = c
  · simp only [hjc, if_true]
    apply countP_eq_zero_of_none
    intro i hi
    rw [coeff_uncoveredZeroes _ _ (by rw [hWr]; exact hi) (by rw [hWc, ← hjc]; exact hj),
      Mat.coeff_fillCol _ _ _ (by rw [hcr]; exact hi) (by rw [hcc, ← hjc]; exact hj)]
    simp
  · simp only [hjc, if_false]
    apply List.countP_congr
    intro i hi
    have hiN := List.mem_range.mp hi
    rw [coeff_uncoveredZeroes _ _ (by rw [hWr]; exact hiN) (by rw [hWc]; exact hj),
      coeff_uncoveredZeroes _ _ (by rw [hWr]; exact hiN) (by rw [hWc]; exact hj),
      Mat.coeff_fillCol _ _ _ (by rw [hcr]; exact hiN) (by rw [hcc]; exact hj)]
    simp [hjc]

theorem uncovered_count_fillRow (W : Mat ℚ) (cov : Mat Bool) {N r : Nat}
    (hWr : W.rows = N) (hWc : W.cols = N) (hcr : cov.rows = N) (hcc : cov.cols = N)
    (hr : r < N) :
    (uncoveredZeroes W (cov.fillRow r true)).count + (uncoveredZeroes W cov).rowCount r =
      (uncoveredZeroes W cov).count := by
  have hr1 : (uncoveredZeroes W (cov.fillRow r true)).rows = N := hWr
  have hr2 : (uncoveredZeroes W cov).rows = N := hWr
  rw [count_eq_sum_rowCount, count_eq_sum_rowCount, hr1, hr2]
  have hmap : (List.range N).map (fun i => (uncoveredZeroes W (cov.fillRow r true)).rowCount i)
      = (List.range N).map (fun i => if i = r then 0 else (uncoveredZeroes W cov).rowCount i) := by
    apply List.map_congr_left
    intro i hi
    exact uncovered_rowCount_fillRow W cov hWr hWc hcr hcc (List.mem_range.mp hi)
  rw [hmap]
  exact sum_range_zero_at (fun i => (uncoveredZeroes W cov).rowCount i) hr

theorem uncovered_count_fillCol (W : Mat ℚ) (cov : Mat Bool) {N c : Nat}
    (hWr : W.rows = N) (hWc : W.cols = N) (hcr : cov.rows = N) (hcc : cov.cols = N)
    (hc : c < N) :
    (uncoveredZeroes W (cov.fillCol c true)).count + (uncoveredZeroes W cov).colCount c =
      (uncoveredZeroes W cov).count := by
  have hc1 : (uncoveredZeroes W (cov.fillCol c true)).cols = N := hWc
  have hc2 : (uncoveredZeroes W cov).cols = N := hWc
  rw [count_eq_sum_colCount, count_eq_sum_colCount, hc1, hc2]
  have hmap : (List.range N).map (fun j => (uncoveredZeroes W (cov.fillCol c true)).colCount j)
      = (List.range N).map (fun j => if j = c then 0 else (uncoveredZeroes W cov).colCount j) := by
    apply List.map_congr_left
    intro j hj
    exact uncovered_colCount_fillCol W cov hWr hWc hcr hcc (List.mem_range.mp hj)
  rw [hmap]
  exact sum_range_zero_at (fun j => (uncoveredZeroes W cov).colCount j) hc

/-! ## `MinNrOfLinesToCoverAllZeros`: the invariant -/

theorem uncovered_true_iff (W : Mat ℚ) (cov : Mat Bool) {N i j : Nat}
    (hWr : W.rows = N) (hWc : W.cols = N) (hi : i < N) (hj : j < N) :
    (uncoveredZeroes W cov).coeff i j = true ↔
      ((zeroMask W).coeff i j = true ∧ cov.coeff i j = false) := by
  rw [coeff_uncoveredZeroes _ _ (by rw [hWr]; exact hi) (by rw [hWc]; exact hj),
    coeff_zeroMask _ (by rw [hWr]; exact hi) (by rw [hWc]; exact hj)]
  simp

theorem coverInv_setFlags {W : Mat ℚ} {N Z0 : Nat} {s : CoverState} (h : CoverInv W N Z0 s)
    (b1 b2 : Bool) : CoverInv W N Z0 { s with newZeroCovered := b1, returned := b2 } := h

theorem coverRow_inv {W : Mat ℚ} {N Z0 : Nat} {s : CoverState}
    (hWr : W.rows = N) (hWc : W.cols = N) (h : CoverInv W N Z0 s) {r c : Nat}
    (hr : r < N) (hc : c < N)
    (hcell : (uncoveredZeroes W s.coveredMatrix).coeff r c = true)
    (hsingle : (uncoveredZeroes W s.coveredMatrix).rowCount r = 1 →
      (uncoveredZeroes W s.coveredMatrix).colCount c = 1) :
    CoverInv W N Z0
      (coverRow s r ((uncoveredZeroes W s.coveredMatrix).rowCount r)) := by
  obtain ⟨hcr, hcc, hunc, hslack, hstruct⟩ := h
  have hcount := uncovered_count_fillRow W s.coveredMatrix hWr hWc hcr hcc hr
  have hUc : (uncoveredZeroes W s.coveredMatrix).cols = N := hWc
  have hUr : (uncoveredZeroes W s.coveredMatrix).rows = N := hWr
  have hpos : 0 < (uncoveredZeroes W s.coveredMatrix).rowCount r := by
    unfold Mat.rowCount
    rw [hUc]
    exact countP_pos_of_mem (p := fun j => (uncoveredZeroes W s.coveredMatrix).coeff r j)
      hc hcell
  obtain ⟨hz, hcovrc⟩ := (uncovered_true_iff W s.coveredMatrix hWr hWc hr hc).mp hcell
  unfold coverRow
  refine ⟨by simpa using hcr, by simpa using hcc, ?_, ?_, ?_⟩
  · simp only
    rw [hunc]
    omega
  · simp only
    push_cast
    omega
  · simp only
    intro hzero
    have hone : (uncoveredZeroes W s.coveredMatrix).rowCount r = 1 := by
      push_cast at hzero
      omega
    have hzero0 : (s.nrLinesToCoverZeroes : Int) + s.nrUncoveredZeroes = (Z0 : Int) := by
      push_cast at hzero
      omega
    have hcolone := hsingle hone
    obtain ⟨R, hRlt, hcard, hcov, hR⟩ := hstruct hzero0
    have hrR : r ∉ R := by
      intro hmem
      have := (hcov r c hr hc).mpr hmem
      rw [hcovrc] at this
      exact absurd this (by simp)
    refine ⟨insert r R, ?_, ?_, ?_, ?_⟩
    · intro i hi
      rcases Finset.mem_insert.mp hi with h1 | h1
      · rw [h1]; exact hr
      · exact hRlt i h1
    · rw [Finset.card_insert_of_not_mem hrR, hcard]
    · intro i j hi hj
      rw [Mat.coeff_fillRow _ _ _ (by rw [hcr]; exact hi) (by rw [hcc]; exact hj)]
      simp only [Finset.mem_insert]
      by_cases hir : i = r
      · simp [hir]
      · simp only [hir, if_false, false_or]
        exact hcov i j hi hj
    · intro i hi
      rcases Finset.mem_insert.mp hi with h1 | h1
      · subst h1
        refine ⟨c, hc, hz, ?_, ?_⟩
        · intro j' hj' hz'
          have hcov' : s.coveredMatrix.coeff i j' = false := by
            by_contra hx
            have hx2 : s.coveredMatrix.coeff i j' = true := by simpa using hx
            exact hrR ((hcov i j' hr hj').mp hx2)
          have hu' := (uncovered_true_iff W s.coveredMatrix hWr hWc hr hj').mpr ⟨hz', hcov'⟩
          have hone' : (List.range N).countP
              (fun j => (uncoveredZeroes W s.coveredMatrix).coeff i j) = 1 := by
            rw [← hUc]; exact hone
          exact unique_of_countP_eq_one hone' hj' hc hu' hcell
        · intro i' hi' hz'
          by_cases hi'R : i' ∈ R
          · obtain ⟨j0, _, _, hrow0, hcol0⟩ := hR i' hi'R
            have hcj : c = j0 := hrow0 c hc hz'
            have := hcol0 i hr (hcj ▸ hz)
            rw [this] at hrR
            exact absurd hi'R hrR
          · have hcov' : s.coveredMatrix.coeff i' c = false := by
              by_contra hx
              have hx2 : s.coveredMatrix.coeff i' c = true := by simpa using hx
              exact hi'R ((hcov i' c hi' hc).mp hx2)
            have hu' := (uncovered_true_iff W s.coveredMatrix hWr hWc hi' hc).mpr ⟨hz', hcov'⟩
            have hone' : (List.range N).countP
                (fun i => (uncoveredZeroes W s.coveredMatrix).coeff i c) = 1 := by
              rw [← hUr]; exact hcolone
            exact unique_of_countP_eq_one hone' hi' hr hu' hcell
      · exact hR i h1

theorem coverCol_inv {W : Mat ℚ} {N Z0 : Nat} {s : CoverState}
    (hWr : W.rows = N) (hWc : W.cols = N) (h : CoverInv W N Z0 s) {c : Nat}
    (hc : c < N)
    (htwo : 2 ≤ (uncoveredZeroes W s.coveredMatrix).colCount c) :
    CoverInv W N Z0
      (coverCol s c ((uncoveredZeroes W s.coveredMatrix).colCount c)) := by
  obtain ⟨hcr, hcc, hunc, hslack, _⟩ := h
  have hcount := uncovered_count_fillCol W s.coveredMatrix hWr hWc hcr hcc hc
  unfold coverCol
  refine ⟨by simpa using hcr, by simpa using hcc, ?_, ?_, ?_⟩
  · simp only
    rw [hunc]
    omega
  · simp only
    push_cast
    omega
  · simp only
    intro hzero
    push_cast at hzero
    omega

theorem coverDecide_inv {W : Mat ℚ} {N Z0 : Nat} {s : CoverState}
    (hWr : W.rows = N) (hWc : W.cols = N) (h : CoverInv W N Z0 s) {r c : Nat}
    (hr : r < N) (hc : c < N)
    (hcell : (uncoveredZeroes W s.coveredMatrix).coeff r c = true) :
    CoverInv W N Z0 (coverDecide W r c s) := by
  have hUc : (uncoveredZeroes W s.coveredMatrix).cols = N := hWc
  have hUr : (uncoveredZeroes W s.coveredMatrix).rows = N := hWr
  have hposr : 0 < (uncoveredZeroes W s.coveredMatrix).rowCount r := by
    unfold Mat.rowCount
    rw [hUc]
    exact countP_pos_of_mem (p := fun j => (uncoveredZeroes W s.coveredMatrix).coeff r j)
      hc hcell
  have hposc : 0 < (uncoveredZeroes W s.coveredMatrix).colCount c := by
    unfold Mat.colCount
    rw [hUr]
    exact countP_pos_of_mem (p := fun i => (uncoveredZeroes W s.coveredMatrix).coeff i c)
      hr hcell
  unfold coverDecide
  simp only
  split
  · split
    · rename_i hgt
      exact coverRow_inv hWr hWc h hr hc hcell (fun h1 => by omega)
    · split
      · rename_i hlt
        exact coverCol_inv hWr hWc h hc (by omega)
      · exact h
  · rename_i hnot
    exact coverRow_inv hWr hWc h hr hc hcell (fun _ => by omega)

theorem coverCell_inv {W : Mat ℚ} {N Z0 : Nat} {s : CoverState}
    (hWr : W.rows = N) (hWc : W.cols = N) (h : CoverInv W N Z0 s) {r c : Nat}
    (hr : r < N) (hc : c < N) : CoverInv W N Z0 (coverCell W r c s) := by
  unfold coverCell
  split
  · exact h
  · split
    · rename_i hcov
      split
      · rename_i hz
        have hcell : (uncoveredZeroes W s.coveredMatrix).coeff r c = true := by
          rw [coeff_uncoveredZeroes _ _ (by rw [hWr]; exact hr) (by rw [hWc]; exact hc), hz]
          simpa using hcov
        have hd := coverDecide_inv hWr hWc h hr hc hcell
        simp only
        split
        · exact hd
        · exact hd
      · exact h
    · exact h

theorem coverScan_inv {W : Mat ℚ} {N Z0 : Nat} (hWr : W.rows = N) (hWc : W.cols = N)
    (idxRow idxCol : Nat) {s : CoverState} (h : CoverInv W N Z0 s) :
    CoverInv W N Z0 (coverScan W N idxRow idxCol s) := by
  unfold coverScan
  have hinner : ∀ (row : Nat), row < N → ∀ (l : List Nat), (∀ x ∈ l, x < N) →
      ∀ s : CoverState, CoverInv W N Z0 s →
        CoverInv W N Z0 (l.foldl (fun s col => coverCell W row col s) s) := by
    intro row hrow l
    induction l with
    | nil => intro _ s hs; exact hs
    | cons x xs ih =>
      intro hl s hs
      exact ih (fun y hy => hl y (List.mem_cons_of_mem _ hy)) _
        (coverCell_inv hWr hWc hs hrow (hl x (List.mem_cons_self _ _)))
  have hcols : ∀ x ∈ List.range' idxCol (N - idxCol), x < N := by
    intro x hx
    have := List.mem_range'_1.mp hx
    omega
  have hrows : ∀ x ∈ List.range' idxRow (N - idxRow), x < N := by
    intro x hx
    have := List.mem_range'_1.mp hx
    omega
  generalize List.range' idxRow (N - idxRow) = lr at hrows
  induction lr generalizing s with
  | nil => exact h
  | cons x xs ih =>
    exact ih (hinner x (hrows x (List.mem_cons_self _ _)) _ hcols s h)
      (fun y hy => hrows y (List.mem_cons_of_mem _ hy))

/-! ## `MinNrOfLinesToCoverAllZeros`: a scan that covers nothing changes nothing -/

theorem foldl_flag_mono {σ β : Type} (f : σ → β → σ) (g : σ → Bool)
    (hmono : ∀ s x, g s = true → g (f s x) = true) (l : List β) (s : σ)
    (hs : g s = true) : g (l.foldl f s) = true := by
  induction l generalizing s with
  | nil => exact hs
  | cons x xs ih => exact ih _ (hmono s x hs)

theorem foldl_flag_unchanged {σ β : Type} (f : σ → β → σ) (g : σ → Bool)
    (hmono : ∀ s x, g s = true → g (f s x) = true) (s0 : σ) (l : List β)
    (hfix : ∀ x ∈ l, g (f s0 x) = false → f s0 x = s0)
    (hend : g (l.foldl f s0) = false) :
    l.foldl f s0 = s0 ∧ ∀ x ∈ l, f s0 x = s0 := by
  induction l with
  | nil =>
    refine ⟨rfl, ?_⟩
    intro x hx
    exact absurd hx (List.not_mem_nil x)
  | cons x xs ih =>
    have hx : g (f s0 x) = false := by
      by_contra hne
      have htrue : g (f s0 x) = true := by simpa using hne
      have := foldl_flag_mono f g hmono xs _ htrue
      rw [List.foldl_cons] at hend
      rw [this] at hend
      exact absurd hend (by simp)
    have hfx := hfix x (List.mem_cons_self _ _) hx
    rw [List.foldl_cons, hfx] at hend ⊢
    obtain ⟨h1, h2⟩ := ih (fun y hy => hfix y (List.mem_cons_of_mem _ hy)) hend
    refine ⟨h1, ?_⟩
    intro y hy
    rcases List.mem_cons.mp hy with rfl | hy
    · exact hfx
    · exact h2 y hy

theorem coverDecide_new_false (W : Mat ℚ) (r c : Nat) (s : CoverState)
    (h : (coverDecide W r c s).newZeroCovered = false) :
    coverDecide W r c s = s ∧
      (uncoveredZeroes W s.coveredMatrix).rowCount r =
        (uncoveredZeroes W s.coveredMatrix).colCount c ∧
      1 < (uncoveredZeroes W s.coveredMatrix).rowCount r := by
  unfold coverDecide at h ⊢
  simp only at h ⊢
  split at h
  · rename_i hor
    split at h
    · exact absurd h (by simp [coverRow])
    · rename_i hgt
      split at h
      · exact absurd h (by simp [coverCol])
      · rename_i hlt
        rw [if_pos hor, if_neg hgt, if_neg hlt]
        refine ⟨rfl, by omega, by omega⟩
  · exact absurd h (by simp [coverRow])

theorem coverDecide_new_mono (W : Mat ℚ) (r c : Nat) (s : CoverState)
    (h : s.newZeroCovered = true) : (coverDecide W r c s).newZeroCovered = true := by
  unfold coverDecide
  simp only
  split
  · split
    · rfl
    · split
      · rfl
      · exact h
  · rfl

theorem coverCell_new_mono (W : Mat ℚ) (r c : Nat) (s : CoverState)
    (h : s.newZeroCovered = true) : (coverCell W r c s).newZeroCovered = true := by
  unfold coverCell
  split
  · exact h
  · split
    · split
      · simp only
        split
        · exact coverDecide_new_mono W r c s h
        · exact coverDecide_new_mono W r c s h
      · exact h
    · exact h

theorem coverCell_new_false (W : Mat ℚ) (r c : Nat) (s : CoverState)
    (hunc : s.nrUncoveredZeroes ≠ 0)
    (h : (coverCell W r c s).newZeroCovered = false) : coverCell W r c s = s := by
  unfold coverCell at h ⊢
  split
  · rfl
  · split
    · split
      · rename_i hret hcov hz
        rw [if_neg hret, if_pos hcov, if_pos hz] at h
        simp only at h ⊢
        have hd : (coverDecide W r c s).newZeroCovered = false := by
          split at h
          · exact h
          · exact h
        obtain ⟨heq, _, _⟩ := coverDecide_new_false W r c s hd
        rw [heq, if_neg hunc]
      · rfl
    · rfl

theorem coverCell_fixed_inside (W : Mat ℚ) (r c : Nat) (s : CoverState)
    (hret : s.returned = false) (hnew : s.newZeroCovered = false)
    (hcell : s.coveredMatrix.coeff r c = false) (hz : IsApproxZERO (W.coeff r c) = true)
    (hfix : coverCell W r c s = s) :
    (uncoveredZeroes W s.coveredMatrix).rowCount r =
      (uncoveredZeroes W s.coveredMatrix).colCount c ∧
    1 < (uncoveredZeroes W s.coveredMatrix).rowCount r := by
  have hnewc : (coverCell W r c s).newZeroCovered = false := by rw [hfix]; exact hnew
  unfold coverCell at hnewc
  simp only [hret, hcell, hz, Bool.false_eq_true, if_false, Bool.not_false, if_true] at hnewc
  have hd : (coverDecide W r c s).newZeroCovered = false := by
    split at hnewc
    · exact hnewc
    · exact hnewc
  exact (coverDecide_new_false W r c s hd).2

theorem coverScan_new_false (W : Mat ℚ) (N idxRow idxCol : Nat) (s : CoverState)
    (hunc : s.nrUncoveredZeroes ≠ 0)
    (h : (coverScan W N idxRow idxCol s).newZeroCovered = false) :
    coverScan W N idxRow idxCol s = s ∧
      (idxRow < N → idxCol < N → coverCell W idxRow idxCol s = s) := by
  have hinner_mono : ∀ (row : Nat) (l : List Nat) (t : CoverState),
      t.newZeroCovered = true →
      (l.foldl (fun s col => coverCell W row col s) t).newZeroCovered = true := by
    intro row l t ht
    exact foldl_flag_mono (fun s col => coverCell W row col s) (fun s => s.newZeroCovered)
      (fun s x hs => coverCell_new_mono W row x s hs) l t ht
  have hinner_fix : ∀ (row : Nat) (l : List Nat),
      (l.foldl (fun s col => coverCell W row col s) s).newZeroCovered = false →
      l.foldl (fun s col => coverCell W row col s) s = s ∧
        ∀ col ∈ l, coverCell W row col s = s := by
    intro row l hend
    exact foldl_flag_unchanged (fun s col => coverCell W row col s)
      (fun s => s.newZeroCovered) (fun s x hs => coverCell_new_mono W row x s hs) s l
      (fun x _ hx => coverCell_new_false W row x s hunc hx) hend
  unfold coverScan at h ⊢
  obtain ⟨h1, h2⟩ := foldl_flag_unchanged
    (fun s row => (List.range' idxCol (N - idxCol)).foldl
      (fun s col => coverCell W row col s) s)
    (fun s => s.newZeroCovered)
    (fun t row ht => hinner_mono row _ t ht) s (List.range' idxRow (N - idxRow))
    (fun row _ hrow => (hinner_fix row _ hrow).1) h
  refine ⟨h1, ?_⟩
  intro hr hc
  have hrmem : idxRow ∈ List.range' idxRow (N - idxRow) := by
    rw [List.mem_range'_1]
    omega
  have hcmem : idxCol ∈ List.range' idxCol (N - idxCol) := by
    rw [List.mem_range'_1]
    omega
  have hrow := h2 idxRow hrmem
  have hnewrow : ((List.range' idxCol (N - idxCol)).foldl
      (fun s col => coverCell W idxRow col s) s).newZeroCovered = false := by
    have h3 := h
    rw [h1] at h3
    have hrow' : (List.range' idxCol (N - idxCol)).foldl
        (fun s col => coverCell W idxRow col s) s = s := hrow
    rw [hrow']
    exact h3
  exact (hinner_fix idxRow _ hnewrow).2 idxCol hcmem

/-! ## `MinNrOfLinesToCoverAllZeros`: the loop -/

theorem exists_of_count_pos (M : Mat Bool) (h : 0 < M.count) :
    ∃ i j, i < M.rows ∧ j < M.cols ∧ M.coeff i j = true := by
  by_contra hnone
  push_neg at hnone
  have hzero : M.count = 0 := by
    unfold Mat.count
    rw [sum_map_range_const (c := 0)]
    · simp
    · intro i hi
      apply countP_eq_zero_of_none
      intro j hj
      have := hnone i j hi hj
      simpa using this
  omega

theorem coverInv_exists_uncovered {W : Mat ℚ} {N Z0 : Nat} {s : CoverState}
    (hWr : W.rows = N) (hWc : W.cols = N) (h : CoverInv W N Z0 s)
    (hpos : s.nrUncoveredZeroes > 0) :
    (uncoveredZeroes W s.coveredMatrix).maxCoeffIdx.1 < N ∧
    (uncoveredZeroes W s.coveredMatrix).maxCoeffIdx.2 < N ∧
    (uncoveredZeroes W s.coveredMatrix).coeff
      (uncoveredZeroes W s.coveredMatrix).maxCoeffIdx.1
      (uncoveredZeroes W s.coveredMatrix).maxCoeffIdx.2 = true := by
  obtain ⟨_, _, hunc, _, _⟩ := h
  have hcount : 0 < (uncoveredZeroes W s.coveredMatrix).count := by
    rw [hunc] at hpos
    exact_mod_cast hpos
  obtain ⟨i, j, hi, hj, hij⟩ := exists_of_count_pos _ hcount
  have hspec := Mat.maxCoeffIdx_spec _ hi hj hij
  have hUr : (uncoveredZeroes W s.coveredMatrix).rows = N := hWr
  have hUc : (uncoveredZeroes W s.coveredMatrix).cols = N := hWc
  rw [hUr, hUc] at hspec
  exact hspec

theorem coverForced_inv {W : Mat ℚ} {N Z0 : Nat} {s : CoverState}
    (hWr : W.rows = N) (hWc : W.cols = N) (h : CoverInv W N Z0 s)
    (hpos : s.nrUncoveredZeroes > 0) (hret : s.returned = false)
    (hnew : s.newZeroCovered = false)
    (hfix : coverCell W (uncoveredZeroes W s.coveredMatrix).maxCoeffIdx.1
      (uncoveredZeroes W s.coveredMatrix).maxCoeffIdx.2 s = s) :
    CoverInv W N Z0 (coverForced W s) := by
  obtain ⟨hr, hc, hcell⟩ := coverInv_exists_uncovered hWr hWc h hpos
  obtain ⟨hz, hcov⟩ := (uncovered_true_iff W s.coveredMatrix hWr hWc hr hc).mp hcell
  rw [coeff_zeroMask _ (by rw [hWr]; exact hr) (by rw [hWc]; exact hc)] at hz
  obtain ⟨_, hgt⟩ := coverCell_fixed_inside W _ _ s hret hnew hcov hz hfix
  have hrow := coverRow_inv hWr hWc h hr hc hcell (fun h1 => by omega)
  exact hrow

theorem coverPass_inv {W : Mat ℚ} {N Z0 : Nat} {s : CoverState}
    (hWr : W.rows = N) (hWc : W.cols = N) (h : CoverInv W N Z0 s)
    (hpos : s.nrUncoveredZeroes > 0) (hret : s.returned = false) :
    CoverInv W N Z0 (coverPass W N s) := by
  have h0 : CoverInv W N Z0 { s with newZeroCovered := false } := h
  have hscan := coverScan_inv hWr hWc
    (uncoveredZeroes W s.coveredMatrix).maxCoeffIdx.1
    (uncoveredZeroes W s.coveredMatrix).maxCoeffIdx.2 h0
  unfold coverPass
  simp only
  split
  · exact hscan
  · split
    · rename_i hnr hnn
      have hnewf : (coverScan W N (uncoveredZeroes W s.coveredMatrix).maxCoeffIdx.1
          (uncoveredZeroes W s.coveredMatrix).maxCoeffIdx.2
          { s with newZeroCovered := false }).newZeroCovered = false := by
        simpa using hnn
      have hne : ({ s with newZeroCovered := false } : CoverState).nrUncoveredZeroes ≠ 0 := by
        show s.nrUncoveredZeroes ≠ 0
        omega
      obtain ⟨hsame, hfirst⟩ := coverScan_new_false W N _ _ _ hne hnewf
      obtain ⟨hr, hc, _⟩ := coverInv_exists_uncovered hWr hWc h hpos
      rw [hsame]
      exact coverForced_inv hWr hWc h0 hpos hret rfl (hfirst hr hc)
    · exact hscan

theorem coverLoop_inv {W : Mat ℚ} {N Z0 : Nat} (hWr : W.rows = N) (hWc : W.cols = N)
    (fuel : Nat) :
    ∀ (s cs : CoverState), CoverInv W N Z0 s → s.returned = false →
      coverLoop W N fuel s = some cs → CoverInv W N Z0 cs := by
  induction fuel with
  | zero =>
    intro s cs h _ hloop
    rw [coverLoop] at hloop
    split at hloop
    · exact absurd hloop (by simp)
    · have hs := Option.some.inj hloop
      subst hs
      exact h
  | succ n ih =>
    intro s cs h hret hloop
    rw [coverLoop] at hloop
    split at hloop
    · rename_i hpos
      have hp := coverPass_inv hWr hWc h hpos hret
      simp only at hloop
      split at hloop
      · have hs := Option.some.inj hloop
        subst hs
        exact hp
      · rename_i hnr
        exact ih _ cs hp (by simpa using hnr) hloop
    · have hs := Option.some.inj hloop
      subst hs
      exact h

theorem coverInv_initial (W : Mat ℚ) (cov : Mat Bool) {N : Nat}
    (hWr : W.rows = N) (hWc : W.cols = N) (hcr : cov.rows = N) (hcc : cov.cols = N) :
    CoverInv W N (zeroMask W).count
      { coveredMatrix := cov.fill false
        nrLinesToCoverZeroes := 0
        nrUncoveredZeroes := ((zeroMask W).count : Int)
        newZeroCovered := false
        returned := false } := by
  have hsame : (uncoveredZeroes W (cov.fill false)).count = (zeroMask W).count := by
    unfold Mat.count
    have h1 : (uncoveredZeroes W (cov.fill false)).rows = N := hWr
    have h2 : (uncoveredZeroes W (cov.fill false)).cols = N := hWc
    have h3 : (zeroMask W).rows = N := hWr
    have h4 : (zeroMask W).cols = N := hWc
    rw [h1, h2, h3, h4]
    apply congrArg
    apply List.map_congr_left
    intro i hi
    have hiN := List.mem_range.mp hi
    apply List.countP_congr
    intro j hj
    have hjN := List.mem_range.mp hj
    rw [coeff_uncoveredZeroes _ _ (by rw [hWr]; exact hiN) (by rw [hWc]; exact hjN),
      coeff_zeroMask _ (by rw [hWr]; exact hiN) (by rw [hWc]; exact hjN),
      Mat.coeff_fill _ _ (by rw [hcr]; exact hiN) (by rw [hcc]; exact hjN)]
    simp
  refine ⟨by simpa using hcr, by simpa using hcc, ?_, ?_, ?_⟩
  · simp only
    rw [hsame]
  · simp
  · intro _
    refine ⟨∅, ?_, rfl, ?_, ?_⟩
    · intro i hi
      exact absurd hi (Finset.not_mem_empty i)
    · intro i j hi hj
      simp only
      rw [Mat.coeff_fill _ _ (by rw [hcr]; exact hi) (by rw [hcc]; exact hj)]
      simp
    · intro i hi
      exact absurd hi (Finset.not_mem_empty i)

/-- When the cover stage draws `N` lines on an `N × N` working matrix that has exactly `N`
zero entries, these entries form a permutation matrix. -/
theorem cover_direct {W : Mat ℚ} {N : Nat} {cs : CoverState}
    (h : CoverInv W N N cs) (hlines : cs.nrLinesToCoverZeroes = N) :
    IsPermutationMask N (zeroMask W) := by
  obtain ⟨_, _, hunc, hslack, hstruct⟩ := h
  have hnonneg : (0 : Int) ≤ cs.nrUncoveredZeroes := by
    rw [hunc]
    exact Int.natCast_nonneg _
  have hzero : (cs.nrLinesToCoverZeroes : Int) + cs.nrUncoveredZeroes = (N : Int) := by
    rw [hlines] at hslack ⊢
    omega
  obtain ⟨R, hRlt, hcard, _, hR⟩ := hstruct hzero
  have hRfull : R = Finset.range N := by
    apply Finset.eq_of_subset_of_card_le
    · intro i hi
      exact Finset.mem_range.mpr (hRlt i hi)
    · rw [Finset.card_range, hcard, hlines]
  have hrows : ∀ i, i < N → ∃ j, j < N ∧ Matched N (zeroMask W) i j := by
    intro i hi
    exact hR i (by rw [hRfull]; exact Finset.mem_range.mpr hi)
  refine ⟨hrows, ?_⟩
  classical
  let φ : Nat → Nat := fun i => if h : i < N then Classical.choose (hrows i h) else 0
  have hφ : ∀ i (h : i < N), φ i < N ∧ Matched N (zeroMask W) i (φ i) := by
    intro i h
    have := Classical.choose_spec (hrows i h)
    simp only [φ, h, dif_pos]
    exact this
  have hinj : Set.InjOn φ (Finset.range N : Set Nat) := by
    intro a ha b hb hab
    have ha' : a < N := Finset.mem_range.mp ha
    have hb' : b < N := Finset.mem_range.mp hb
    have hma := (hφ a ha').2
    have hmb := (hφ b hb').2
    rw [hab] at hma
    exact (hmb.2.2 a ha' hma.1)
  have himg : (Finset.range N).image φ = Finset.range N := by
    apply Finset.eq_of_subset_of_card_le
    · intro j hj
      obtain ⟨i, hi, rfl⟩ := Finset.mem_image.mp hj
      exact Finset.mem_range.mpr (hφ i (Finset.mem_range.mp hi)).1
    · rw [Finset.card_image_of_injOn hinj]
  intro j hj
  have hjm : j ∈ (Finset.range N).image φ := by
    rw [himg]
    exact Finset.mem_range.mpr hj
  obtain ⟨i, hi, rfl⟩ := Finset.mem_image.mp hjm
  exact ⟨i, Finset.mem_range.mp hi, (hφ i (Finset.mem_range.mp hi)).2⟩

/-! ## From `SetCostFunctionMatrix` to the end of `SolveAssignmentProblem` -/

theorem set_sized (self : HungarianAlgorithm) (M : Mat ℚ)
    (hok : (SetCostFunctionMatrix self M).error = none) :
    Sized (max M.rows M.cols) (SetCostFunctionMatrix self M).state := by
  rw [set_state_of_ok self M hok]
  unfold Sized
  simp only [set_matrixSize_eq_max, Mat.resizeFill, Mat.ofFn_rows, Mat.ofFn_cols, true_and]
  by_cases hsq : M.rows = M.cols
  · simp [hsq]
  · simp [hsq]

theorem set_cost_le_dummy (self : HungarianAlgorithm) (M : Mat ℚ)
    (hok : (SetCostFunctionMatrix self M).error = none) :
    ∀ i j, i < max M.rows M.cols → j < max M.rows M.cols →
      (SetCostFunctionMatrix self M).state.costFunctionMatrix.coeff i j ≤
        (SetCostFunctionMatrix self M).state.dummyCost := by
  intro i j hi hj
  rw [set_state_of_ok self M hok]
  simp only [set_matrixSize_eq_max]
  by_cases hsq : M.rows = M.cols
  · simp only [hsq, ne_eq, not_true_eq_false, if_false]
    rw [hsq, max_self] at hi hj
    have := M.coeff_le_maxCoeff (hsq ▸ hi) hj
    linarith
  · simp only [ne_eq, hsq, not_false_eq_true, if_true]
    rw [Mat.coeff_ofFn _ hi hj]
    split
    · rename_i hin
      have := M.coeff_le_maxCoeff hin.1 hin.2
      linarith
    · exact le_refl _

theorem set_assignment_false (self : HungarianAlgorithm) (M : Mat ℚ)
    (hok : (SetCostFunctionMatrix self M).error = none) :
    ∀ i j, i < max M.rows M.cols → j < max M.rows M.cols →
      (SetCostFunctionMatrix self M).state.assignmentMatrix.coeff i j = false := by
  intro i j hi hj
  rw [set_state_of_ok self M hok]
  simp only [set_matrixSize_eq_max, Mat.resizeFill]
  exact Mat.coeff_ofFn _ hi hj

theorem subtractRowMin_dims (W : Mat ℚ) (row : Nat) :
    (subtractRowMin W row).rows = W.rows ∧ (subtractRowMin W row).cols = W.cols := by
  unfold subtractRowMin
  simp only
  split <;> exact ⟨rfl, rfl⟩

theorem subtractColMin_dims (W : Mat ℚ) (col : Nat) :
    (subtractColMin W col).rows = W.rows ∧ (subtractColMin W col).cols = W.cols := by
  unfold subtractColMin
  simp only
  split <;> exact ⟨rfl, rfl⟩

theorem foldl_subtractRowMin_dims (l : List Nat) (W : Mat ℚ) :
    (l.foldl subtractRowMin W).rows = W.rows ∧ (l.foldl subtractRowMin W).cols = W.cols := by
  induction l generalizing W with
  | nil => exact ⟨rfl, rfl⟩
  | cons x xs ih =>
    obtain ⟨h1, h2⟩ := ih (subtractRowMin W x)
    obtain ⟨h3, h4⟩ := subtractRowMin_dims W x
    exact ⟨h1.trans h3, h2.trans h4⟩

theorem foldl_subtractColMin_dims (l : List Nat) (W : Mat ℚ) :
    (l.foldl subtractColMin W).rows = W.rows ∧ (l.foldl subtractColMin W).cols = W.cols := by
  induction l generalizing W with
  | nil => exact ⟨rfl, rfl⟩
  | cons x xs ih =>
    obtain ⟨h1, h2⟩ := ih (subtractColMin W x)
    obtain ⟨h3, h4⟩ := subtractColMin_dims W x
    exact ⟨h1.trans h3, h2.trans h4⟩

theorem subtractRowMinima_sized {N : Nat} {self : HungarianAlgorithm} (h : Sized N self) :
    Sized N (SubtractRowMinima self) := by
  obtain ⟨h1, h2, h3, h4, h5, h6, h7⟩ := h
  obtain ⟨d1, d2⟩ := foldl_subtractRowMin_dims (List.range self.matrixSize) self.workingMatrix
  exact ⟨h1, d1.trans h2, d2.trans h3, h4, h5, h6, h7⟩

theorem subtractColMinima_sized {N : Nat} {self : HungarianAlgorithm} (h : Sized N self) :
    Sized N (SubtractColMinima self) := by
  obtain ⟨h1, h2, h3, h4, h5, h6, h7⟩ := h
  obtain ⟨d1, d2⟩ := foldl_subtractColMin_dims (List.range self.matrixSize) self.workingMatrix
  exact ⟨h1, d1.trans h2, d2.trans h3, h4, h5, h6, h7⟩

theorem reduce_sized {N : Nat} {self : HungarianAlgorithm} (h : Sized N self) :
    Sized N (reduce self) := by
  unfold reduce
  split
  · exact subtractColMinima_sized (subtractRowMinima_sized h)
  · exact subtractRowMinima_sized (subtractColMinima_sized h)

theorem cover_spec {N : Nat} {self s : HungarianAlgorithm} {k : Nat} (hs : Sized N self)
    (h : MinNrOfLinesToCoverAllZeros self = some (s, k)) :
    Sized N s ∧
    ∃ cs : CoverState, CoverInv self.workingMatrix N (zeroMask self.workingMatrix).count cs ∧
      cs.nrLinesToCoverZeroes = k := by
  obtain ⟨cs, hloop, hseq, hk⟩ := cover_eq_some h
  obtain ⟨h1, h2, h3, h4, h5, h6, h7⟩ := hs
  rw [h1] at hloop
  have hinv := coverLoop_inv h2 h3 _ _ cs
    (coverInv_initial self.workingMatrix self.coveredMatrix h2 h3 h4 h5) rfl hloop
  refine ⟨?_, cs, hinv, hk.symm⟩
  subst hseq
  exact ⟨h1, h2, h3, hinv.1, hinv.2.1, h6, h7⟩

theorem augment_sized {N : Nat} {self : HungarianAlgorithm} (h : Sized N self) :
    Sized N (AugmentCostFunctionMatrix self) := by
  obtain ⟨h1, h2, h3, h4, h5, h6, h7⟩ := h
  exact ⟨h1, h4, h5, h4, h5, h6, h7⟩

/-- What is known when the loop of `SolveAssignmentProblem` exits: the last cover stage ran
on the final working matrix and drew `matrixSize` lines. -/
theorem solveLoop_spec {N : Nat} (fuel : Nat) :
    ∀ (self s : HungarianAlgorithm), Sized N self → solveLoop fuel self = some s →
      Sized N s ∧
      ∃ cs : CoverState, CoverInv s.workingMatrix N (zeroMask s.workingMatrix).count cs ∧
        cs.nrLinesToCoverZeroes = N := by
  induction fuel with
  | zero =>
    intro self s hs h
    rw [solveLoop] at h
    split at h
    · exact absurd h (by simp)
    · rename_i s1 k hc
      obtain ⟨hs1, cs, hinv, hk⟩ := cover_spec hs hc
      have hW : s1.workingMatrix = self.workingMatrix := (cover_frame hc).2.1
      split at h
      · exact absurd h (by simp)
      · rename_i hr
        have hr2 : k = s1.matrixSize := not_not.mp hr
        have hss : s1 = s := Option.some.inj h
        subst hss
        rw [hW]
        exact ⟨hs1, cs, hinv, by rw [hk, hr2]; exact hs1.1⟩
  | succ n ih =>
    intro self s hs h
    rw [solveLoop] at h
    split at h
    · exact absurd h (by simp)
    · rename_i s1 k hc
      obtain ⟨hs1, cs, hinv, hk⟩ := cover_spec hs hc
      have hW : s1.workingMatrix = self.workingMatrix := (cover_frame hc).2.1
      split at h
      · exact ih _ s (augment_sized hs1) h
      · rename_i hr
        have hr2 : k = s1.matrixSize := not_not.mp hr
        have hss : s1 = s := Option.some.inj h
        subst hss
        rw [hW]
        exact ⟨hs1, cs, hinv, by rw [hk, hr2]; exact hs1.1⟩

theorem count_congr {N : Nat} (A B : Mat Bool) (hAr : A.rows = N) (hAc : A.cols = N)
    (hBr : B.rows = N) (hBc : B.cols = N)
    (h : ∀ i j, i < N → j < N → A.coeff i j = B.coeff i j) : A.count = B.count := by
  unfold Mat.count
  rw [hAr, hAc, hBr, hBc]
  apply congrArg
  apply List.map_congr_left
  intro i hi
  apply List.countP_congr
  intro j hj
  rw [h i j (List.mem_range.mp hi) (List.mem_range.mp hj)]

theorem isPermutationMask_congr {N : Nat} (A B : Mat Bool)
    (h : ∀ i j, i < N → j < N → A.coeff i j = B.coeff i j)
    (hA : IsPermutationMask N A) : IsPermutationMask N B := by
  have hm : ∀ i j, i < N → j < N → Matched N A i j → Matched N B i j := by
    intro i j hi hj ⟨h1, h2, h3⟩
    refine ⟨?_, ?_, ?_⟩
    · rw [← h i j hi hj]; exact h1
    · intro j' hj' hb
      rw [← h i j' hi hj'] at hb
      exact h2 j' hj' hb
    · intro i' hi' hb
      rw [← h i' j hi' hj] at hb
      exact h3 i' hi' hb
  obtain ⟨hrow, hcol⟩ := hA
  constructor
  · intro i hi
    obtain ⟨j, hj, hmat⟩ := hrow i hi
    exact ⟨j, hj, hm i j hi hj hmat⟩
  · intro j hj
    obtain ⟨i, hi, hmat⟩ := hcol j hj
    exact ⟨i, hi, hm i j hi hj hmat⟩

/-- `FindOptimalCost`, entered after the cover stage drew `matrixSize` lines and with an
all-false assignment mask, leaves a permutation matrix in the assignment mask. -/
theorem find_spec {N : Nat} {s s2 : HungarianAlgorithm} (hs : Sized N s)
    (hA : ∀ i j, i < N → j < N → s.assignmentMatrix.coeff i j = false)
    (hbound : ∀ i j, i < N → j < N → s.costFunctionMatrix.coeff i j ≤ s.dummyCost)
    (cs : CoverState)
    (hinv : CoverInv s.workingMatrix N (zeroMask s.workingMatrix).count cs)
    (hlines : cs.nrLinesToCoverZeroes = N)
    (h : FindOptimalCost s = some s2) :
    IsPermutationMask N s2.assignmentMatrix := by
  obtain ⟨h1, h2, h3, h4, h5, h6, h7⟩ := hs
  unfold FindOptimalCost at h
  simp only at h
  have hAz : ∀ i j, i < N → j < N →
      (Mat.ofFn s.workingMatrix.rows s.workingMatrix.cols
        (fun i j => if IsApproxZERO (s.workingMatrix.coeff i j) then true
          else s.assignmentMatrix.coeff i j)).coeff i j =
      (zeroMask s.workingMatrix).coeff i j := by
    intro i j hi hj
    rw [Mat.coeff_ofFn _ (by rw [h2]; exact hi) (by rw [h3]; exact hj),
      coeff_zeroMask _ (by rw [h2]; exact hi) (by rw [h3]; exact hj), hA i j hi hj]
    cases IsApproxZERO (s.workingMatrix.coeff i j) <;> rfl
  have hcnt : (Mat.ofFn s.workingMatrix.rows s.workingMatrix.cols
        (fun i j => if IsApproxZERO (s.workingMatrix.coeff i j) then true
          else s.assignmentMatrix.coeff i j)).count = (zeroMask s.workingMatrix).count :=
    count_congr _ _ h2 h3 h2 h3 hAz
  split at h
  · rename_i hcount
    have hs2 := Option.some.inj h
    subst hs2
    simp only
    rw [hcnt, h1] at hcount
    rw [hcount] at hinv
    have hperm := cover_direct hinv hlines
    exact isPermutationMask_congr _ _ (fun i j hi hj => (hAz i j hi hj).symm) hperm
  · rename_i hcount
    simp only [Option.map_eq_some'] at h
    obtain ⟨fs, hloop, hs2⟩ := h
    subst hs2
    simp only
    have hNpos : 0 < N := by
      by_contra hzero
      have hN0 : N = 0 := by omega
      apply hcount
      unfold Mat.count
      simp only [Mat.ofFn_rows, h2, h1, hN0]
      rfl
    have hnotall : (s.coveredMatrix.fill false).all = false := by
      by_contra hall
      have hall2 : (s.coveredMatrix.fill false).all = true := by simpa using hall
      rw [Mat.all_iff] at hall2
      have := hall2 0 0 (by simpa [h4] using hNpos) (by simpa [h5] using hNpos)
      rw [Mat.coeff_fill _ _ (by rw [h4]; exact hNpos) (by rw [h5]; exact hNpos)] at this
      exact absurd this (by simp)
    have hinit := findInv_initial
      (Mat.ofFn s.workingMatrix.rows s.workingMatrix.cols
        (fun i j => if IsApproxZERO (s.workingMatrix.coeff i j) then true
          else s.assignmentMatrix.coeff i j))
      s.coveredMatrix (by simpa using h2) (by simpa using h3) h4 h5 hnotall
    rw [h1] at hloop
    obtain ⟨hfin, hall⟩ := findLoop_inv s.costFunctionMatrix s.dummyCost hbound N _ fs
      hinit hloop
    exact findInv_all_covered hfin hall

/-- After a successful `SetCostFunctionMatrix` on `M`, a `SolveAssignmentProblem` that
completes leaves status `Done`, the original dimensions, and an assignment mask whose
leading `max m n × max m n` block is a permutation matrix. -/
theorem solve_spec (self : HungarianAlgorithm) (M : Mat ℚ) (fuel : Nat)
    (o : Outcome HungarianAlgorithm)
    (hset : (SetCostFunctionMatrix self M).error = none)
    (hsolve : SolveAssignmentProblem fuel (SetCostFunctionMatrix self M).state = some o) :
    o.error = none ∧ o.state.problemStatus = ProblemStatus.Done ∧
    o.state.nrRows = M.rows ∧ o.state.nrCols = M.cols ∧
    IsPermutationMask (max M.rows M.cols) o.state.assignmentMatrix := by
  have hstat := set_status self M hset
  have hne : (SetCostFunctionMatrix self M).state.problemStatus ≠ ProblemStatus.NotReady := by
    rw [hstat]; decide
  obtain ⟨hr, hc⟩ := set_dims self M hset
  obtain ⟨herr, hsame, hdone⟩ := solve_frame hne hsolve
  obtain ⟨s1, s2, hloop, hfind, ho⟩ := solve_eq_some hne hsolve
  have hsized := reduce_sized (set_sized self M hset)
  obtain ⟨hs1, cs, hinv, hlines⟩ := solveLoop_spec fuel _ s1 hsized hloop
  obtain ⟨hf0, ha0, _, _⟩ := reduce_frame (SetCostFunctionMatrix self M).state
  obtain ⟨hf1, ha1, _⟩ := solveLoop_frame fuel hloop
  have hA : ∀ i j, i < max M.rows M.cols → j < max M.rows M.cols →
      s1.assignmentMatrix.coeff i j = false := by
    intro i j hi hj
    rw [ha1, ha0]
    exact set_assignment_false self M hset i j hi hj
  have hbound : ∀ i j, i < max M.rows M.cols → j < max M.rows M.cols →
      s1.costFunctionMatrix.coeff i j ≤ s1.dummyCost := by
    intro i j hi hj
    obtain ⟨_, _, _, hd, hcst⟩ := hf0.trans hf1
    rw [hd, hcst]
    exact set_cost_le_dummy self M hset i j hi hj
  have hperm := find_spec hs1 hA hbound cs hinv hlines hfind
  obtain ⟨hr2, hc2, _, _, _⟩ := hsame
  refine ⟨herr, hdone, hr2.trans hr, hc2.trans hc, ?_⟩
  subst ho
  exact hperm

/-! ## The reported assignment matrix -/

theorem getAssignmentMatrix_ok (self : HungarianAlgorithm) (out : Mat Int)
    (hdone : self.problemStatus = ProblemStatus.Done)
    (hrows : out.rows = self.nrRows) (hcols : out.cols = self.nrCols) :
    GetAssignmentMatrix self out =
      { error := none,
        state := (self, Mat.ofFn self.nrRows self.nrCols
          (fun i j => if self.assignmentMatrix.coeff i j then 1 else 0)) } := by
  unfold GetAssignmentMatrix
  rw [hdone]
  simp [ProblemStatus.toNat, hrows, hcols]

theorem reported_eq_one_iff (A : Mat Bool) {m n i j : Nat} (hi : i < m) (hj : j < n) :
    (Mat.ofFn m n (fun i j => if A.coeff i j then (1 : Int) else 0)).coeff i j = 1 ↔
      A.coeff i j = true := by
  rw [Mat.coeff_ofFn _ hi hj]
  cases A.coeff i j <;> simp

theorem countOnes_reported {N m n : Nat} (A : Mat Bool) (hperm : IsPermutationMask N A)
    (hN : N = max m n) :
    countOnes (Mat.ofFn m n (fun i j => if A.coeff i j then (1 : Int) else 0)) = min m n := by
  obtain ⟨hrow, hcol⟩ := hperm
  unfold countOnes
  simp only [Mat.ofFn_rows, Mat.ofFn_cols]
  have hcongr : (List.range m).map (fun i => (List.range n).countP (fun j =>
        decide ((Mat.ofFn m n (fun i j => if A.coeff i j then (1 : Int) else 0)).coeff i j
          = 1))) =
      (List.range m).map (fun i => (List.range n).countP (fun j => A.coeff i j)) := by
    apply List.map_congr_left
    intro i hi
    apply List.countP_congr
    intro j hj
    have := reported_eq_one_iff A (List.mem_range.mp hi) (List.mem_range.mp hj)
    simp only [decide_eq_true_eq]
    exact this
  rw [hcongr]
  by_cases hmn : m ≤ n
  · have hNn : N = n := by rw [hN]; exact max_eq_right hmn
    rw [sum_map_range_const (c := 1)]
    · rw [Nat.mul_one, min_eq_left hmn]
    · intro i hi
      obtain ⟨j, hj, hm1, hm2, _⟩ := hrow i (by omega)
      rw [hNn] at hj hm2
      exact countP_eq_one_of_unique (p := fun j => A.coeff i j) hj hm1 hm2
  · have hnm : n ≤ m := by omega
    have hNm : N = m := by rw [hN]; exact max_eq_left hnm
    rw [sum_countP_comm (List.range m) (List.range n) (fun i j => A.coeff i j)]
    rw [sum_map_range_const (c := 1)]
    · rw [Nat.mul_one, min_eq_right hnm]
    · intro j hj
      obtain ⟨i, hi, hm1, _, hm3⟩ := hcol j (by omega)
      rw [hNm] at hi hm3
      exact countP_eq_one_of_unique (p := fun i => A.coeff i j) hi hm1 hm3

/-- C2: after a successful `SetCostFunctionMatrix` on an `m × n` matrix and a
`SolveAssignmentProblem` that completes, `GetAssignmentMatrix` with an `m × n` buffer
succeeds and returns an `m × n` matrix with entries 0 or 1 only, at most one 1 in each row,
at most one 1 in each column, and exactly `min m n` entries equal to 1. -/
theorem C2_permutation_invariant (self : HungarianAlgorithm) (M : Mat ℚ) (fuel : Nat)
    (o : Outcome HungarianAlgorithm) (out : Mat Int)
    (hset : (SetCostFunctionMatrix self M).error = none)
    (hsolve : SolveAssignmentProblem fuel (SetCostFunctionMatrix self M).state = some o)
    (hrows : out.rows = M.rows) (hcols : out.cols = M.cols) :
    (GetAssignmentMatrix o.state out).error = none ∧
    (GetAssignmentMatrix o.state out).state.2.rows = M.rows ∧
    (GetAssignmentMatrix o.state out).state.2.cols = M.cols ∧
    (∀ i j, i < M.rows → j < M.cols →
      (GetAssignmentMatrix o.state out).state.2.coeff i j = 0 ∨
      (GetAssignmentMatrix o.state out).state.2.coeff i j = 1) ∧
    (∀ i j j', i < M.rows → j < M.cols → j' < M.cols →
      (GetAssignmentMatrix o.state out).state.2.coeff i j = 1 →
      (GetAssignmentMatrix o.state out).state.2.coeff i j' = 1 → j = j') ∧
    (∀ i i' j, i < M.rows → i' < M.rows → j < M.cols →
      (GetAssignmentMatrix o.state out).state.2.coeff i j = 1 →
      (GetAssignmentMatrix o.state out).state.2.coeff i' j = 1 → i = i') ∧
    countOnes (GetAssignmentMatrix o.state out).state.2 = min M.rows M.cols := by
  obtain ⟨_, hdone, hr, hc, hperm⟩ := solve_spec self M fuel o hset hsolve
  rw [getAssignmentMatrix_ok o.state out hdone (by rw [hr]; exact hrows)
    (by rw [hc]; exact hcols)]
  simp only [hr, hc, Mat.ofFn_rows, Mat.ofFn_cols, true_and]
  refine ⟨?_, ?_, ?_, ?_⟩
  · intro i j hi hj
    rw [Mat.coeff_ofFn _ hi hj]
    cases o.state.assignmentMatrix.coeff i j <;> simp
  · intro i j j' hi hj hj' h1 h2
    rw [reported_eq_one_iff _ hi hj] at h1
    rw [reported_eq_one_iff _ hi hj'] at h2
    obtain ⟨j0, _, _, huniq, _⟩ := hperm.1 i (lt_of_lt_of_le hi (le_max_left _ _))
    rw [huniq j (lt_of_lt_of_le hj (le_max_right _ _)) h1,
      huniq j' (lt_of_lt_of_le hj' (le_max_right _ _)) h2]
  · intro i i' j hi hi' hj h1 h2
    rw [reported_eq_one_iff _ hi hj] at h1
    rw [reported_eq_one_iff _ hi' hj] at h2
    obtain ⟨i0, _, _, _, huniq⟩ := hperm.2 j (lt_of_lt_of_le hj (le_max_right _ _))
    rw [huniq i (lt_of_lt_of_le hi (le_max_left _ _)) h1,
      huniq i' (lt_of_lt_of_le hi' (le_max_left _ _)) h2]
  · exact countOnes_reported _ hperm rfl

/-- Witness for C2: the 3×2 problem `costTall` is set and solved; the reported 3×2
assignment matrix has exactly `min 3 2 = 2` entries equal to 1. -/
theorem C2_permutation_invariant_witness :
    (SetCostFunctionMatrix HungarianAlgorithm.construct costTall).error = none ∧
    SolveAssignmentProblem 5 (SetCostFunctionMatrix HungarianAlgorithm.construct costTall).state
      = some { error := none, state := solvedTall } ∧
    (GetAssignmentMatrix solvedTall (Mat.ofFn 3 2 (fun _ _ => 0))).state.2 =
      ⟨3, 2, [[1, 0], [0, 1], [0, 0]]⟩ ∧
    countOnes (GetAssignmentMatrix solvedTall (Mat.ofFn 3 2 (fun _ _ => 0))).state.2 =
      min 3 2 :=
  have hset : (SetCostFunctionMatrix HungarianAlgorithm.construct costTall).error = none := by
    decide!
  have hsolve : SolveAssignmentProblem 5
      (SetCostFunctionMatrix HungarianAlgorithm.construct costTall).state =
        some { error := none, state := solvedTall } := by decide!
  ⟨hset, hsolve, by decide!,
   (C2_permutation_invariant HungarianAlgorithm.construct costTall 5
      { error := none, state := solvedTall } (Mat.ofFn 3 2 (fun _ _ => 0))
      hset hsolve rfl rfl).2.2.2.2.2.2⟩

/-! ## The index lists -/

theorem foldl_nested_eq_flat {σ : Type} (f : Nat → Nat → σ → σ) (l1 l2 : List Nat) (v : σ) :
    l1.foldl (fun v i => l2.foldl (fun v j => f i j v) v) v =
      (l1.flatMap (fun i => l2.map (fun j => (i, j)))).foldl (fun v p => f p.1 p.2 v) v := by
  induction l1 generalizing v with
  | nil => rfl
  | cons x xs ih =>
    rw [List.foldl_cons, List.flatMap_cons, List.foldl_append, ih, List.foldl_map]

theorem mem_rowMajor {m n : Nat} {p : Nat × Nat} :
    p ∈ (List.range m).flatMap (fun i => (List.range n).map (fun j => (i, j))) ↔
      p.1 < m ∧ p.2 < n := by
  obtain ⟨i, j⟩ := p
  simp only [List.mem_flatMap, List.mem_range, List.mem_map, Prod.mk.injEq]
  constructor
  · rintro ⟨i', hi', j', hj', rfl, rfl⟩
    exact ⟨hi', hj'⟩
  · rintro ⟨hi, hj⟩
    exact ⟨i, hi, j, hj, rfl, rfl⟩

theorem results_cells_spec (A : Mat Bool) {m n : Nat} (L : List (Nat × Nat)) :
    ∀ (V0 : List Int × List Int), (∀ p ∈ L, p.1 < m ∧ p.2 < n) →
      V0.1.length = m → V0.2.length = n →
      (L.foldl (fun v p => assignmentResultsCell A p.1 p.2 v) V0).1.length = m ∧
      (L.foldl (fun v p => assignmentResultsCell A p.1 p.2 v) V0).2.length = n ∧
      (∀ i, i < m →
        (∃ j, (i, j) ∈ L ∧ A.coeff i j = true ∧
          (L.foldl (fun v p => assignmentResultsCell A p.1 p.2 v) V0).1[i]? = some (j : Int)) ∨
        ((∀ j, (i, j) ∈ L → ¬ A.coeff i j = true) ∧
          (L.foldl (fun v p => assignmentResultsCell A p.1 p.2 v) V0).1[i]? = V0.1[i]?)) ∧
      (∀ j, j < n →
        (∃ i, (i, j) ∈ L ∧ A.coeff i j = true ∧
          (L.foldl (fun v p => assignmentResultsCell A p.1 p.2 v) V0).2[j]? = some (i : Int)) ∨
        ((∀ i, (i, j) ∈ L → ¬ A.coeff i j = true) ∧
          (L.foldl (fun v p => assignmentResultsCell A p.1 p.2 v) V0).2[j]? = V0.2[j]?)) := by
  induction L with
  | nil =>
    intro V0 _ h1 h2
    refine ⟨h1, h2, ?_, ?_⟩
    · intro i _
      right
      exact ⟨fun j hj => absurd hj (List.not_mem_nil _), rfl⟩
    · intro j _
      right
      exact ⟨fun i hi => absurd hi (List.not_mem_nil _), rfl⟩
  | cons x xs ih =>
    intro V0 hL h1 h2
    obtain ⟨hx1, hx2⟩ := hL x (List.mem_cons_self _ _)
    have hlen1 : (assignmentResultsCell A x.1 x.2 V0).1.length = m := by
      unfold assignmentResultsCell
      split
      · simp [h1]
      · exact h1
    have hlen2 : (assignmentResultsCell A x.1 x.2 V0).2.length = n := by
      unfold assignmentResultsCell
      split
      · simp [h2]
      · exact h2
    obtain ⟨r1, r2, r3, r4⟩ := ih (assignmentResultsCell A x.1 x.2 V0)
      (fun p hp => hL p (List.mem_cons_of_mem _ hp)) hlen1 hlen2
    rw [List.foldl_cons]
    refine ⟨r1, r2, ?_, ?_⟩
    · intro i hi
      rcases r3 i hi with ⟨j, hj, hA, hv⟩ | ⟨hnone, hv⟩
      · left
        exact ⟨j, List.mem_cons_of_mem _ hj, hA, hv⟩
      · by_cases hP : A.coeff x.1 x.2 = true
        · by_cases hxi : x.1 = i
          · left
            refine ⟨x.2, ?_, ?_, ?_⟩
            · rw [← hxi]
              exact List.mem_cons_self _ _
            · rw [← hxi]; exact hP
            · rw [hv]
              unfold assignmentResultsCell
              rw [if_pos hP]
              simp only
              rw [← hxi]
              exact List.getElem?_set_self (by rw [h1]; exact hx1)
          · right
            refine ⟨?_, ?_⟩
            · intro j hj
              rcases List.mem_cons.mp hj with h | h
              · exact absurd (congrArg Prod.fst h).symm hxi
              · exact hnone j h
            · rw [hv]
              unfold assignmentResultsCell
              rw [if_pos hP]
              simp only
              exact List.getElem?_set_ne hxi
        · right
          refine ⟨?_, ?_⟩
          · intro j hj
            rcases List.mem_cons.mp hj with h | h
            · rw [← h] at hP
              exact hP
            · exact hnone j h
          · rw [hv]
            unfold assignmentResultsCell
            rw [if_neg hP]
    · intro j hj
      rcases r4 j hj with ⟨i, hi, hA, hv⟩ | ⟨hnone, hv⟩
      · left
        exact ⟨i, List.mem_cons_of_mem _ hi, hA, hv⟩
      · by_cases hP : A.coeff x.1 x.2 = true
        · by_cases hxj : x.2 = j
          · left
            refine ⟨x.1, ?_, ?_, ?_⟩
            · rw [← hxj]
              exact List.mem_cons_self _ _
            · rw [← hxj]; exact hP
            · rw [hv]
              unfold assignmentResultsCell
              rw [if_pos hP]
              simp only
              rw [← hxj]
              exact List.getElem?_set_self (by rw [h2]; exact hx2)
          · right
            refine ⟨?_, ?_⟩
            · intro i hi
              rcases List.mem_cons.mp hi with h | h
              · exact absurd (congrArg Prod.snd h).symm hxj
              · exact hnone i h
            · rw [hv]
              unfold assignmentResultsCell
              rw [if_pos hP]
              simp only
              exact List.getElem?_set_ne hxj
        · right
          refine ⟨?_, ?_⟩
          · intro i hi
            rcases List.mem_cons.mp hi with h | h
            · rw [← h] at hP
              exact hP
            · exact hnone i h
          · rw [hv]
            unfold assignmentResultsCell
            rw [if_neg hP]

/-- What the loops of `GetAssignmentResults` leave in the two vectors, started from
vectors of the right lengths filled with -1. -/
theorem results_loop_spec (A : Mat Bool) (m n : Nat) :
    (assignmentResultsLoop A m n (List.replicate m (-1), List.replicate n (-1))).1.length = m ∧
    (assignmentResultsLoop A m n (List.replicate m (-1), List.replicate n (-1))).2.length = n ∧
    (∀ i, i < m →
      (∃ j, j < n ∧ A.coeff i j = true ∧
        (assignmentResultsLoop A m n
          (List.replicate m (-1), List.replicate n (-1))).1[i]? = some (j : Int)) ∨
      ((∀ j, j < n → ¬ A.coeff i j = true) ∧
        (assignmentResultsLoop A m n
          (List.replicate m (-1), List.replicate n (-1))).1[i]? = some (-1))) ∧
    (∀ j, j < n →
      (∃ i, i < m ∧ A.coeff i j = true ∧
        (assignmentResultsLoop A m n
          (List.replicate m (-1), List.replicate n (-1))).2[j]? = some (i : Int)) ∨
      ((∀ i, i < m → ¬ A.coeff i j = true) ∧
        (assignmentResultsLoop A m n
          (List.replicate m (-1), List.replicate n (-1))).2[j]? = some (-1))) := by
  unfold assignmentResultsLoop
  rw [foldl_nested_eq_flat (fun i j v => assignmentResultsCell A i j v)]
  obtain ⟨r1, r2, r3, r4⟩ := results_cells_spec A
    ((List.range m).flatMap (fun i => (List.range n).map (fun j => (i, j))))
    (List.replicate m (-1), List.replicate n (-1))
    (fun p hp => mem_rowMajor.mp hp) (by simp) (by simp)
  refine ⟨r1, r2, ?_, ?_⟩
  · intro i hi
    rcases r3 i hi with ⟨j, hj, hA, hv⟩ | ⟨hnone, hv⟩
    · left
      exact ⟨j, (mem_rowMajor.mp hj).2, hA, hv⟩
    · right
      refine ⟨fun j hj => hnone j (mem_rowMajor.mpr ⟨hi, hj⟩), ?_⟩
      rw [hv]
      exact List.getElem?_replicate_of_lt hi
  · intro j hj
    rcases r4 j hj with ⟨i, hi, hA, hv⟩ | ⟨hnone, hv⟩
    · left
      exact ⟨i, (mem_rowMajor.mp hi).1, hA, hv⟩
    · right
      refine ⟨fun i hi => hnone i (mem_rowMajor.mpr ⟨hi, hj⟩), ?_⟩
      rw [hv]
      exact List.getElem?_replicate_of_lt hj

theorem getAssignmentResults_ok (self : HungarianAlgorithm) (rowIndices colIndices : List Int)
    (hdone : self.problemStatus = ProblemStatus.Done)
    (hrl : rowIndices.length = self.nrRows) (hcl : colIndices.length = self.nrCols) :
    GetAssignmentResults self rowIndices colIndices =
      { error := none,
        state := (self,
          (assignmentResultsLoop self.assignmentMatrix self.nrRows self.nrCols
            (List.replicate self.nrRows (-1), List.replicate self.nrCols (-1))).1,
          (assignmentResultsLoop self.assignmentMatrix self.nrRows self.nrCols
            (List.replicate self.nrRows (-1), List.replicate self.nrCols (-1))).2) } := by
  unfold GetAssignmentResults
  rw [hdone]
  simp [ProblemStatus.toNat, hrl, hcl]

/-- C10: for a problem set from an `m × n` matrix and solved, `GetAssignmentResults` with
vectors of lengths `m` and `n` succeeds; `rowIndices[i] = j` exactly when cell `(i, j)` of
the matrix returned by `GetAssignmentMatrix` is 1, and `rowIndices[i] = -1` when row `i`
has no 1; symmetrically for `colIndices`; hence every value of `colIndices` is -1 or a row
index `r < m` with `rowIndices[r]` equal to that column, and every value of `rowIndices`
is -1 or a column index `c < n` with `colIndices[c]` equal to that row. -/
theorem C10_index_lists (self : HungarianAlgorithm) (M : Mat ℚ) (fuel : Nat)
    (o : Outcome HungarianAlgorithm) (out : Mat Int) (rowIndices colIndices : List Int)
    (hset : (SetCostFunctionMatrix self M).error = none)
    (hsolve : SolveAssignmentProblem fuel (SetCostFunctionMatrix self M).state = some o)
    (hrows : out.rows = M.rows) (hcols : out.cols = M.cols)
    (hrl : rowIndices.length = M.rows) (hcl : colIndices.length = M.cols) :
    ∃ (outA : Mat Int) (rowIdx colIdx : List Int),
      GetAssignmentMatrix o.state out = { error := none, state := (o.state, outA) } ∧
      GetAssignmentResults o.state rowIndices colIndices =
        { error := none, state := (o.state, rowIdx, colIdx) } ∧
      rowIdx.length = M.rows ∧ colIdx.length = M.cols ∧
      (∀ i j, i < M.rows → j < M.cols →
        (rowIdx[i]? = some (j : Int) ↔ outA.coeff i j = 1)) ∧
      (∀ i, i < M.rows → (∀ j, j < M.cols → outA.coeff i j ≠ 1) →
        rowIdx[i]? = some (-1)) ∧
      (∀ i j, i < M.rows → j < M.cols →
        (colIdx[j]? = some (i : Int) ↔ outA.coeff i j = 1)) ∧
      (∀ j, j < M.cols → (∀ i, i < M.rows → outA.coeff i j ≠ 1) →
        colIdx[j]? = some (-1)) ∧
      (∀ j, j < M.cols → colIdx[j]? = some (-1) ∨
        ∃ r, r < M.rows ∧ colIdx[j]? = some (r : Int) ∧ rowIdx[r]? = some (j : Int)) ∧
      (∀ i, i < M.rows → rowIdx[i]? = some (-1) ∨
        ∃ c, c < M.cols ∧ rowIdx[i]? = some (c : Int) ∧ colIdx[c]? = some (i : Int)) := by
  obtain ⟨_, hdone, hr, hc, hperm⟩ := solve_spec self M fuel o hset hsolve
  have hA := getAssignmentMatrix_ok o.state out hdone (by rw [hr]; exact hrows)
    (by rw [hc]; exact hcols)
  have hR := getAssignmentResults_ok o.state rowIndices colIndices hdone
    (by rw [hr]; exact hrl) (by rw [hc]; exact hcl)
  rw [hr, hc] at hA hR
  obtain ⟨l1, l2, s3, s4⟩ := results_loop_spec o.state.assignmentMatrix M.rows M.cols
  have hone : ∀ i j, i < M.rows → j < M.cols →
      ((Mat.ofFn M.rows M.cols
        (fun i j => if o.state.assignmentMatrix.coeff i j then (1 : Int) else 0)).coeff i j = 1
        ↔ o.state.assignmentMatrix.coeff i j = true) :=
    fun i j hi hj => reported_eq_one_iff _ hi hj
  have hrowuniq : ∀ i j j', i < M.rows → j < M.cols → j' < M.cols →
      o.state.assignmentMatrix.coeff i j = true →
      o.state.assignmentMatrix.coeff i j' = true → j = j' := by
    intro i j j' hi hj hj' h1 h2
    obtain ⟨j0, _, _, huniq, _⟩ := hperm.1 i (lt_of_lt_of_le hi (le_max_left _ _))
    rw [huniq j (lt_of_lt_of_le hj (le_max_right _ _)) h1,
      huniq j' (lt_of_lt_of_le hj' (le_max_right _ _)) h2]
  have hcoluniq : ∀ i i' j, i < M.rows → i' < M.rows → j < M.cols →
      o.state.assignmentMatrix.coeff i j = true →
      o.state.assignmentMatrix.coeff i' j = true → i = i' := by
    intro i i' j hi hi' hj h1 h2
    obtain ⟨i0, _, _, _, huniq⟩ := hperm.2 j (lt_of_lt_of_le hj (le_max_right _ _))
    rw [huniq i (lt_of_lt_of_le hi (le_max_left _ _)) h1,
      huniq i' (lt_of_lt_of_le hi' (le_max_left _ _)) h2]
  have hrowiff : ∀ i j, i < M.rows → j < M.cols →
      ((assignmentResultsLoop o.state.assignmentMatrix M.rows M.cols
        (List.replicate M.rows (-1), List.replicate M.cols (-1))).1[i]? = some (j : Int) ↔
        o.state.assignmentMatrix.coeff i j = true) := by
    intro i j hi hj
    rcases s3 i hi with ⟨j0, hj0, hA0, hv⟩ | ⟨hnone, hv⟩
    · rw [hv]
      constructor
      · intro h
        have : (j0 : Int) = (j : Int) := Option.some.inj h
        have hjj : j0 = j := by omega
        rw [← hjj]; exact hA0
      · intro h
        rw [hrowuniq i j0 j hi hj0 hj hA0 h]
    · rw [hv]
      constructor
      · intro h
        have : (-1 : Int) = (j : Int) := Option.some.inj h
        omega
      · intro h
        exact absurd h (hnone j hj)
  have hcoliff : ∀ i j, i < M.rows → j < M.cols →
      ((assignmentResultsLoop o.state.assignmentMatrix M.rows M.cols
        (List.replicate M.rows (-1), List.replicate M.cols (-1))).2[j]? = some (i : Int) ↔
        o.state.assignmentMatrix.coeff i j = true) := by
    intro i j hi hj
    rcases s4 j hj with ⟨i0, hi0, hA0, hv⟩ | ⟨hnone, hv⟩
    · rw [hv]
      constructor
      · intro h
        have : (i0 : Int) = (i : Int) := Option.some.inj h
        have hii : i0 = i := by omega
        rw [← hii]; exact hA0
      · intro h
        rw [hcoluniq i0 i j hi0 hi hj hA0 h]
    · rw [hv]
      constructor
      · intro h
        have : (-1 : Int) = (i : Int) := Option.some.inj h
        omega
      · intro h
        exact absurd h (hnone i hi)
  refine ⟨_, _, _, hA, hR, l1, l2, ?_, ?_, ?_, ?_, ?_, ?_⟩
  · intro i j hi hj
    rw [hone i j hi hj]
    exact hrowiff i j hi hj
  · intro i hi hnone
    rcases s3 i hi with ⟨j0, hj0, hA0, _⟩ | ⟨_, hv⟩
    · exact absurd ((hone i j0 hi hj0).mpr hA0) (hnone j0 hj0)
    · exact hv
  · intro i j hi hj
    rw [hone i j hi hj]
    exact hcoliff i j hi hj
  · intro j hj hnone
    rcases s4 j hj with ⟨i0, hi0, hA0, _⟩ | ⟨_, hv⟩
    · exact absurd ((hone i0 j hi0 hj).mpr hA0) (hnone i0 hi0)
    · exact hv
  · intro j hj
    rcases s4 j hj with ⟨i0, hi0, hA0, hv⟩ | ⟨_, hv⟩
    · right
      exact ⟨i0, hi0, hv, (hrowiff i0 j hi0 hj).mpr hA0⟩
    · left
      exact hv
  · intro i hi
    rcases s3 i hi with ⟨j0, hj0, hA0, hv⟩ | ⟨_, hv⟩
    · right
      exact ⟨j0, hj0, hv, (hcoliff i j0 hi hj0).mpr hA0⟩
    · left
      exact hv

/-- Witness for C10: on the solved 3×2 problem `costTall` the row indices are
`[0, 1, -1]` and the column indices are `[0, 1]`. -/
theorem C10_index_lists_witness :
    (SetCostFunctionMatrix HungarianAlgorithm.construct costTall).error = none ∧
    SolveAssignmentProblem 5 (SetCostFunctionMatrix HungarianAlgorithm.construct costTall).state
      = some { error := none, state := solvedTall } ∧
    GetAssignmentResults solvedTall [7, 7, 7] [7, 7] =
      { error := none, state := (solvedTall, [0, 1, -1], [0, 1]) } ∧
    ∃ (outA : Mat Int) (rowIdx colIdx : List Int),
      GetAssignmentMatrix solvedTall (Mat.ofFn 3 2 (fun _ _ => 0)) =
        { error := none, state := (solvedTall, outA) } ∧
      GetAssignmentResults solvedTall [7, 7, 7] [7, 7] =
        { error := none, state := (solvedTall, rowIdx, colIdx) } ∧
      rowIdx.length = 3 ∧ colIdx.length = 2 :=
  have hset : (SetCostFunctionMatrix HungarianAlgorithm.construct costTall).error = none := by
    decide!
  have hsolve : SolveAssignmentProblem 5
      (SetCostFunctionMatrix HungarianAlgorithm.construct costTall).state =
        some { error := none, state := solvedTall } := by decide!
  ⟨hset, hsolve, by decide!,
   (C10_index_lists HungarianAlgorithm.construct costTall 5
      { error := none, state := solvedTall } (Mat.ofFn 3 2 (fun _ _ => 0)) [7, 7, 7] [7, 7]
      hset hsolve rfl rfl rfl rfl).imp
    (fun _ h => h.imp (fun _ h => h.imp (fun _ h => ⟨h.1, h.2.1, h.2.2.1, h.2.2.2.1⟩)))⟩

/-! ## The inner loops never run out of fuel -/

theorem coverDecide_unc {W : Mat ℚ} {N Z0 : Nat} {s : CoverState}
    (hWr : W.rows = N) (hWc : W.cols = N) (_h : CoverInv W N Z0 s) {r c : Nat}
    (hr : r < N) (hc : c < N)
    (hcell : (uncoveredZeroes W s.coveredMatrix).coeff r c = true) :
    coverDecide W r c s = s ∨ (coverDecide W r c s).nrUncoveredZeroes < s.nrUncoveredZeroes := by
  have hUc : (uncoveredZeroes W s.coveredMatrix).cols = N := hWc
  have hUr : (uncoveredZeroes W s.coveredMatrix).rows = N := hWr
  have hposr : 0 < (uncoveredZeroes W s.coveredMatrix).rowCount r := by
    unfold Mat.rowCount
    rw [hUc]
    exact countP_pos_of_mem (p := fun j => (uncoveredZeroes W s.coveredMatrix).coeff r j)
      hc hcell
  have hposc : 0 < (uncoveredZeroes W s.coveredMatrix).colCount c := by
    unfold Mat.colCount
    rw [hUr]
    exact countP_pos_of_mem (p := fun i => (uncoveredZeroes W s.coveredMatrix).coeff i c)
      hr hcell
  unfold coverDecide
  simp only
  split
  · split
    · right
      simp only [coverRow]
      omega
    · split
      · right
        simp only [coverCol]
        omega
      · left
        rfl
  · right
    simp only [coverRow]
    omega

theorem coverCell_unc {W : Mat ℚ} {N Z0 : Nat} {s : CoverState} {u0 : Int}
    (hWr : W.rows = N) (hWc : W.cols = N) (h : CoverInv W N Z0 s) {r c : Nat}
    (hr : r < N) (hc : c < N)
    (hq : s.nrUncoveredZeroes ≤ u0 ∧ (s.newZeroCovered = true → s.nrUncoveredZeroes < u0)) :
    (coverCell W r c s).nrUncoveredZeroes ≤ u0 ∧
      ((coverCell W r c s).newZeroCovered = true →
        (coverCell W r c s).nrUncoveredZeroes < u0) := by
  unfold coverCell
  split
  · exact hq
  · split
    · rename_i hcov
      split
      · rename_i hz
        have hcell : (uncoveredZeroes W s.coveredMatrix).coeff r c = true := by
          rw [coeff_uncoveredZeroes _ _ (by rw [hWr]; exact hr) (by rw [hWc]; exact hc), hz]
          simpa using hcov
        have hd : (coverDecide W r c s).nrUncoveredZeroes ≤ u0 ∧
            ((coverDecide W r c s).newZeroCovered = true →
              (coverDecide W r c s).nrUncoveredZeroes < u0) := by
          rcases coverDecide_unc hWr hWc h hr hc hcell with heq | hlt
          · rw [heq]; exact hq
          · exact ⟨by omega, fun _ => by omega⟩
        simp only
        split
        · exact hd
        · exact hd
      · exact hq
    · exact hq

theorem coverScan_unc {W : Mat ℚ} {N Z0 : Nat} {u0 : Int} (hWr : W.rows = N)
    (hWc : W.cols = N) (idxRow idxCol : Nat) {s : CoverState} (h : CoverInv W N Z0 s)
    (hq : s.nrUncoveredZeroes ≤ u0 ∧ (s.newZeroCovered = true → s.nrUncoveredZeroes < u0)) :
    (coverScan W N idxRow idxCol s).nrUncoveredZeroes ≤ u0 ∧
      ((coverScan W N idxRow idxCol s).newZeroCovered = true →
        (coverScan W N idxRow idxCol s).nrUncoveredZeroes < u0) := by
  unfold coverScan
  have hinner : ∀ (row : Nat), row < N → ∀ (l : List Nat), (∀ x ∈ l, x < N) →
      ∀ s : CoverState, CoverInv W N Z0 s →
        (s.nrUncoveredZeroes ≤ u0 ∧ (s.newZeroCovered = true → s.nrUncoveredZeroes < u0)) →
        CoverInv W N Z0 (l.foldl (fun s col => coverCell W row col s) s) ∧
        (l.foldl (fun s col => coverCell W row col s) s).nrUncoveredZeroes ≤ u0 ∧
        ((l.foldl (fun s col => coverCell W row col s) s).newZeroCovered = true →
          (l.foldl (fun s col => coverCell W row col s) s).nrUncoveredZeroes < u0) := by
    intro row hrow l
    induction l with
    | nil => intro _ s hs hqs; exact ⟨hs, hqs⟩
    | cons x xs ih =>
      intro hl s hs hqs
      have hx := hl x (List.mem_cons_self _ _)
      exact ih (fun y hy => hl y (List.mem_cons_of_mem _ hy)) _
        (coverCell_inv hWr hWc hs hrow hx) (coverCell_unc hWr hWc hs hrow hx hqs)
  have hcols : ∀ x ∈ List.range' idxCol (N - idxCol), x < N := by
    intro x hx
    have := List.mem_range'_1.mp hx
    omega
  have hrows : ∀ x ∈ List.range' idxRow (N - idxRow), x < N := by
    intro x hx
    have := List.mem_range'_1.mp hx
    omega
  generalize List.range' idxRow (N - idxRow) = lr at hrows
  induction lr generalizing s with
  | nil => exact hq
  | cons x xs ih =>
    obtain ⟨h1, h2⟩ := hinner x (hrows x (List.mem_cons_self _ _)) _ hcols s h hq
    exact ih h1 h2 (fun y hy => hrows y (List.mem_cons_of_mem _ hy))

theorem coverPass_decreases {W : Mat ℚ} {N Z0 : Nat} {s : CoverState}
    (hWr : W.rows = N) (hWc : W.cols = N) (h : CoverInv W N Z0 s)
    (hpos : s.nrUncoveredZeroes > 0) (_hret : s.returned = false) :
    (coverPass W N s).nrUncoveredZeroes < s.nrUncoveredZeroes := by
  have h0 : CoverInv W N Z0 { s with newZeroCovered := false } := h
  have hq0 : ({ s with newZeroCovered := false } : CoverState).nrUncoveredZeroes ≤
      s.nrUncoveredZeroes ∧
      (({ s with newZeroCovered := false } : CoverState).newZeroCovered = true →
        ({ s with newZeroCovered := false } : CoverState).nrUncoveredZeroes <
          s.nrUncoveredZeroes) :=
    ⟨le_refl _, fun hx => absurd hx (by simp)⟩
  obtain ⟨hle, hlt⟩ := coverScan_unc hWr hWc
    (uncoveredZeroes W s.coveredMatrix).maxCoeffIdx.1
    (uncoveredZeroes W s.coveredMatrix).maxCoeffIdx.2 h0 hq0
  obtain ⟨hr, hc, hcell⟩ := coverInv_exists_uncovered hWr hWc h hpos
  have hUc : (uncoveredZeroes W s.coveredMatrix).cols = N := hWc
  have hposr : 0 < (uncoveredZeroes W s.coveredMatrix).rowCount
      (uncoveredZeroes W s.coveredMatrix).maxCoeffIdx.1 := by
    unfold Mat.rowCount
    rw [hUc]
    exact countP_pos_of_mem (p := fun j => (uncoveredZeroes W s.coveredMatrix).coeff
      (uncoveredZeroes W s.coveredMatrix).maxCoeffIdx.1 j) hc hcell
  by_cases hnew : (coverScan W N (uncoveredZeroes W s.coveredMatrix).maxCoeffIdx.1
      (uncoveredZeroes W s.coveredMatrix).maxCoeffIdx.2
      { s with newZeroCovered := false }).newZeroCovered = true
  · have hlt2 := hlt hnew
    unfold coverPass
    simp only
    split
    · exact hlt2
    · split
      · rename_i hnn
        rw [hnew] at hnn
        exact absurd hnn (by simp)
      · exact hlt2
  · have hnewf : (coverScan W N (uncoveredZeroes W s.coveredMatrix).maxCoeffIdx.1
        (uncoveredZeroes W s.coveredMatrix).maxCoeffIdx.2
        { s with newZeroCovered := false }).newZeroCovered = false := by
      simpa using hnew
    have hne : ({ s with newZeroCovered := false } : CoverState).nrUncoveredZeroes ≠ 0 := by
      show s.nrUncoveredZeroes ≠ 0
      omega
    obtain ⟨hsame, _⟩ := coverScan_new_false W N _ _ _ hne hnewf
    unfold coverPass
    simp only
    rw [hsame]
    split
    · rename_i hretp
      exact absurd hretp (by simp [_hret])
    · have hposi : (0 : Int) < ((uncoveredZeroes W s.coveredMatrix).rowCount
          (uncoveredZeroes W s.coveredMatrix).maxCoeffIdx.1 : Int) := by
        exact_mod_cast hposr
      simp only [Bool.not_false, if_true, coverForced]
      omega

theorem coverLoop_total {W : Mat ℚ} {N Z0 : Nat} (hWr : W.rows = N) (hWc : W.cols = N)
    (fuel : Nat) :
    ∀ (s : CoverState), CoverInv W N Z0 s → s.returned = false →
      s.nrUncoveredZeroes ≤ (fuel : Int) → ∃ cs, coverLoop W N fuel s = some cs := by
  induction fuel with
  | zero =>
    intro s _ _ hle
    rw [coverLoop]
    split
    · rename_i hpos
      simp only [Nat.cast_zero] at hle
      omega
    · exact ⟨s, rfl⟩
  | succ n ih =>
    intro s h hret hle
    rw [coverLoop]
    split
    · rename_i hpos
      simp only
      split
      · exact ⟨_, rfl⟩
      · rename_i hnr
        have hdec := coverPass_decreases hWr hWc h hpos hret
        apply ih _ (coverPass_inv hWr hWc h hpos hret) (by simpa using hnr)
        push_cast at hle
        omega
    · exact ⟨s, rfl⟩

/-- The fuel given to the loop of `MinNrOfLinesToCoverAllZeros` always suffices: on an
object whose matrices have size `matrixSize` the cover stage returns. -/
theorem cover_total {N : Nat} {self : HungarianAlgorithm} (hs : Sized N self) :
    ∃ s k, MinNrOfLinesToCoverAllZeros self = some (s, k) := by
  obtain ⟨h1, h2, h3, h4, h5, _, _⟩ := hs
  obtain ⟨cs, hcs⟩ := coverLoop_total h2 h3 (zeroMask self.workingMatrix).count _
    (coverInv_initial self.workingMatrix self.coveredMatrix h2 h3 h4 h5) rfl (le_refl _)
  refine ⟨{ self with
      coveredMatrix := cs.coveredMatrix
      nrLinesToCoverZeroes := cs.nrLinesToCoverZeroes }, cs.nrLinesToCoverZeroes, ?_⟩
  unfold MinNrOfLinesToCoverAllZeros
  simp only [h1, hcs]
  rfl

theorem countP_succ_le {p q : Nat → Bool} {n r : Nat}
    (hmono : ∀ i, i < n → p i = true → q i = true) (hr : r < n)
    (hp : p r = false) (hq : q r = true) :
    (List.range n).countP p + 1 ≤ (List.range n).countP q := by
  induction n with
  | zero => exact absurd hr (Nat.not_lt_zero _)
  | succ n ih =>
    rw [List.range_succ, List.countP_append, List.countP_append]
    simp only [List.countP_cons, List.countP_nil, Nat.zero_add]
    by_cases hrn : r = n
    · subst hrn
      have hle : (List.range r).countP p ≤ (List.range r).countP q := by
        apply List.countP_mono_left
        intro i hi hpi
        exact hmono i (Nat.lt_succ_of_lt (List.mem_range.mp hi)) hpi
      simp only [hp, hq, Bool.false_eq_true, if_false, if_true]
      omega
    · have hlt : r < n := Nat.lt_of_le_of_ne (Nat.lt_succ_iff.mp hr) hrn
      have h1 := ih (fun i hi => hmono i (Nat.lt_succ_of_lt hi)) hlt
      have h2 : (if p n = true then 1 else 0) ≤ (if q n = true then 1 else 0) := by
        by_cases hpn : p n = true
        · simp [hpn, hmono n (Nat.lt_succ_self n) hpn]
        · simp only [hpn, if_false]
          exact Nat.zero_le _
      omega

theorem coveredRows_commit (cov : Mat Bool) {N r c : Nat} (hcr : cov.rows = N)
    (hcc : cov.cols = N) (hr : r < N) (hc : c < N) (hunc : cov.coeff r c = false) :
    coveredRows cov + 1 ≤ coveredRows ((cov.fillRow r true).fillCol c true) := by
  unfold coveredRows
  simp only [Mat.fillCol_rows, Mat.fillRow_rows, hcr]
  apply countP_succ_le (r := r) _ hr
  · cases hx : cov.rowAll r
    · rfl
    · rw [Mat.rowAll_iff] at hx
      have := hx c (by rw [hcc]; exact hc)
      rw [hunc] at this
      exact absurd this (by simp)
  · rw [Mat.rowAll_iff]
    intro j hj
    have hj' : j < N := by simpa [hcc] using hj
    rw [Mat.coeff_fillCol _ _ _ (by simpa [hcr] using hr) (by simpa [hcc] using hj'),
      Mat.coeff_fillRow _ _ _ (by rw [hcr]; exact hr) (by rw [hcc]; exact hj')]
    simp
  · intro i hi hall
    rw [Mat.rowAll_iff] at hall ⊢
    intro j hj
    have hj' : j < N := by simpa [hcc] using hj
    rw [Mat.coeff_fillCol _ _ _ (by simpa [hcr] using hi) (by simpa [hcc] using hj'),
      Mat.coeff_fillRow _ _ _ (by rw [hcr]; exact hi) (by rw [hcc]; exact hj')]
    have := hall j (by rw [hcc]; exact hj')
    simp [this]

theorem all_of_coveredRows (cov : Mat Bool) {N : Nat} (hcr : cov.rows = N)
    (h : N ≤ coveredRows cov) : cov.all = true := by
  unfold coveredRows at h
  rw [hcr] at h
  have hlen : (List.range N).countP (fun i => cov.rowAll i) = (List.range N).length := by
    have := List.countP_le_length (fun i => cov.rowAll i) (l := List.range N)
    rw [List.length_range] at this ⊢
    omega
  rw [List.countP_eq_length] at hlen
  rw [Mat.all_iff]
  intro i j hi hj
  have := hlen i (List.mem_range.mpr (by rw [← hcr]; exact hi))
  exact (Mat.rowAll_iff cov i).mp this j hj

theorem findRowStep_rows {N k : Nat} {s : FindState} (h : FindInv N s) {row : Nat}
    (hrow : row < N)
    (hq : k ≤ coveredRows s.coveredMatrix ∧
      (s.newAssignmentMade = true → k + 1 ≤ coveredRows s.coveredMatrix)) :
    k ≤ coveredRows (findRowStep s row).coveredMatrix ∧
      ((findRowStep s row).newAssignmentMade = true →
        k + 1 ≤ coveredRows (findRowStep s row).coveredMatrix) := by
  unfold findRowStep
  split
  · exact hq
  · split
    · rename_i hnotall
      split
      · rename_i hcount
        have hAc := h.2.1
        have hcr := h.2.2.1
        have hcc := h.2.2.2.1
        have hall : s.coveredMatrix.rowAll row = false := by simpa using hnotall
        have hcount2 : (List.range N).countP (fun j => s.assignmentMatrix.coeff row j) = 1 := by
          rw [← hAc]; exact hcount
        have hpos : 0 < (List.range N).countP (fun j => s.assignmentMatrix.coeff row j) := by
          rw [hcount2]; exact Nat.one_pos
        obtain ⟨j0, hj0m, hp0⟩ := List.countP_pos_iff.mp hpos
        have hj0 := List.mem_range.mp hj0m
        obtain ⟨hidx, hpidx⟩ :=
          s.assignmentMatrix.rowMaxCoeffIdx_spec row (by rw [hAc]; exact hj0) hp0
        rw [hAc] at hidx
        have hunc := findInv_row_not_in h hrow hidx hall hpidx
        have hstep := coveredRows_commit s.coveredMatrix hcr hcc hrow hidx hunc
        simp only
        exact ⟨by omega, fun _ => by omega⟩
      · exact hq
    · exact hq

theorem findColStep_rows {N k : Nat} {s : FindState} (h : FindInv N s) {col : Nat}
    (hcol : col < N)
    (hq : k ≤ coveredRows s.coveredMatrix ∧
      (s.newAssignmentMade = true → k + 1 ≤ coveredRows s.coveredMatrix)) :
    k ≤ coveredRows (findColStep s col).coveredMatrix ∧
      ((findColStep s col).newAssignmentMade = true →
        k + 1 ≤ coveredRows (findColStep s col).coveredMatrix) := by
  unfold findColStep
  split
  · exact hq
  · split
    · rename_i hnotall
      split
      · rename_i hcount
        have hAr := h.1
        have hcr := h.2.2.1
        have hcc := h.2.2.2.1
        have hall : s.coveredMatrix.colAll col = false := by simpa using hnotall
        have hcount2 : (List.range N).countP (fun i => s.assignmentMatrix.coeff i col) = 1 := by
          rw [← hAr]; exact hcount
        have hpos : 0 < (List.range N).countP (fun i => s.assignmentMatrix.coeff i col) := by
          rw [hcount2]; exact Nat.one_pos
        obtain ⟨i0, hi0m, hp0⟩ := List.countP_pos_iff.mp hpos
        have hi0 := List.mem_range.mp hi0m
        obtain ⟨hidx, hpidx⟩ :=
          s.assignmentMatrix.colMaxCoeffIdx_spec col (by rw [hAr]; exact hi0) hp0
        rw [hAr] at hidx
        have hunc := findInv_col_not_in h hidx hcol hall hpidx
        have hstep := coveredRows_commit s.coveredMatrix hcr hcc hidx hcol hunc
        simp only
        exact ⟨by omega, fun _ => by omega⟩
      · exact hq
    · exact hq

theorem foldl_findRowStep_rows {N k : Nat} (l : List Nat) (hl : ∀ x ∈ l, x < N)
    {s : FindState} (h : FindInv N s)
    (hq : k ≤ coveredRows s.coveredMatrix ∧
      (s.newAssignmentMade = true → k + 1 ≤ coveredRows s.coveredMatrix)) :
    k ≤ coveredRows (l.foldl findRowStep s).coveredMatrix ∧
      ((l.foldl findRowStep s).newAssignmentMade = true →
        k + 1 ≤ coveredRows (l.foldl findRowStep s).coveredMatrix) := by
  induction l generalizing s with
  | nil => exact hq
  | cons x xs ih =>
    have hx := hl x (List.mem_cons_self _ _)
    exact ih (fun y hy => hl y (List.mem_cons_of_mem _ hy)) (findRowStep_inv h hx)
      (findRowStep_rows h hx hq)

theorem foldl_findColStep_rows {N k : Nat} (l : List Nat) (hl : ∀ x ∈ l, x < N)
    {s : FindState} (h : FindInv N s)
    (hq : k ≤ coveredRows s.coveredMatrix ∧
      (s.newAssignmentMade = true → k + 1 ≤ coveredRows s.coveredMatrix)) :
    k ≤ coveredRows (l.foldl findColStep s).coveredMatrix ∧
      ((l.foldl findColStep s).newAssignmentMade = true →
        k + 1 ≤ coveredRows (l.foldl findColStep s).coveredMatrix) := by
  induction l generalizing s with
  | nil => exact hq
  | cons x xs ih =>
    have hx := hl x (List.mem_cons_self _ _)
    exact ih (fun y hy => hl y (List.mem_cons_of_mem _ hy)) (findColStep_inv h hx)
      (findColStep_rows h hx hq)

theorem findPass_rows {N : Nat} {s : FindState} (h : FindInv N s) (cost : Mat ℚ) (dummy : ℚ)
    (hbound : ∀ i j, i < N → j < N → cost.coeff i j ≤ dummy)
    (hnr : (findPass cost dummy N s).returned = false) :
    coveredRows s.coveredMatrix + 1 ≤ coveredRows (findPass cost dummy N s).coveredMatrix := by
  have hlt : ∀ x ∈ List.range N, x < N := fun x hx => List.mem_range.mp hx
  have h0 : FindInv N { s with newAssignmentMade := false } := findInv_setNew h false
  have hq0 : coveredRows s.coveredMatrix ≤
      coveredRows ({ s with newAssignmentMade := false } : FindState).coveredMatrix ∧
      (({ s with newAssignmentMade := false } : FindState).newAssignmentMade = true →
        coveredRows s.coveredMatrix + 1 ≤
          coveredRows ({ s with newAssignmentMade := false } : FindState).coveredMatrix) :=
    ⟨le_refl _, fun hx => absurd hx (by simp)⟩
  have h1 := foldl_findRowStep_inv (List.range N) hlt h0
  have q1 := foldl_findRowStep_rows (List.range N) hlt h0 hq0
  have h2 := foldl_findColStep_inv (List.range N) hlt h1
  have q2 := foldl_findColStep_rows (List.range N) hlt h1 q1
  unfold findPass at hnr ⊢
  simp only at hnr ⊢
  split
  · rename_i hret
    rw [if_pos hret] at hnr
    rw [hret] at hnr
    exact absurd hnr (by simp)
  · rename_i hret1
    rw [if_neg hret1] at hnr
    split
    · rename_i hret
      rw [if_pos hret] at hnr
      rw [hret] at hnr
      exact absurd hnr (by simp)
    · rename_i hret2
      split
      · have hunc := findTieBreakIdx_spec h2 (by simpa using hret2) cost dummy hbound
        have hstep := coveredRows_commit _ h2.2.2.1 h2.2.2.2.1 hunc.1 hunc.2.1 hunc.2.2
        unfold findTieBreak
        simp only
        omega
      · rename_i hnew
        exact q2.2 (by simpa using hnew)

theorem findLoop_total {N : Nat} (cost : Mat ℚ) (dummy : ℚ)
    (hbound : ∀ i j, i < N → j < N → cost.coeff i j ≤ dummy) (fuel : Nat) :
    ∀ (s : FindState), FindInv N s → N ≤ fuel + coveredRows s.coveredMatrix →
      ∃ fs, findLoop cost dummy N fuel s = some fs := by
  induction fuel with
  | zero =>
    intro s h hle
    rw [findLoop]
    have hall := all_of_coveredRows s.coveredMatrix h.2.2.1 (by omega)
    rw [if_pos hall]
    exact ⟨s, rfl⟩
  | succ n ih =>
    intro s h hle
    rw [findLoop]
    split
    · exact ⟨s, rfl⟩
    · simp only
      split
      · exact ⟨_, rfl⟩
      · rename_i hnr
        have hrows := findPass_rows h cost dummy hbound (by simpa using hnr)
        exact ih _ (findPass_inv h cost dummy hbound) (by omega)

/-- The fuel given to the loop of `FindOptimalCost` always suffices: on an object whose
matrices have size `matrixSize` and whose costs do not exceed the dummy cost, the
extraction stage returns. -/
theorem find_total {N : Nat} {self : HungarianAlgorithm} (hs : Sized N self)
    (hbound : ∀ i j, i < N → j < N →
      self.costFunctionMatrix.coeff i j ≤ self.dummyCost) :
    ∃ s, FindOptimalCost self = some s := by
  obtain ⟨h1, h2, h3, h4, h5, _, _⟩ := hs
  unfold FindOptimalCost
  simp only
  split
  · exact ⟨_, rfl⟩
  · rename_i hcount
    have hNpos : 0 < N := by
      by_contra hzero
      have hN0 : N = 0 := by omega
      apply hcount
      unfold Mat.count
      simp only [Mat.ofFn_rows, h2, h1, hN0]
      rfl
    have hnotall : (self.coveredMatrix.fill false).all = false := by
      by_contra hall
      have hall2 : (self.coveredMatrix.fill false).all = true := by simpa using hall
      rw [Mat.all_iff] at hall2
      have := hall2 0 0 (by simpa [h4] using hNpos) (by simpa [h5] using hNpos)
      rw [Mat.coeff_fill _ _ (by rw [h4]; exact hNpos) (by rw [h5]; exact hNpos)] at this
      exact absurd this (by simp)
    have hinit := findInv_initial
      (Mat.ofFn self.workingMatrix.rows self.workingMatrix.cols
        (fun i j => if IsApproxZERO (self.workingMatrix.coeff i j) then true
          else self.assignmentMatrix.coeff i j))
      self.coveredMatrix (by simpa using h2) (by simpa using h3) h4 h5 hnotall
    obtain ⟨fs, hfs⟩ := findLoop_total self.costFunctionMatrix self.dummyCost hbound N _
      hinit (Nat.le_add_right _ _)
    rw [h1, hfs]
    exact ⟨_, rfl⟩

/-- With the cost matrix set, `SolveAssignmentProblem` completes exactly when its
Zero-Cover/Augmentation loop exits within the fuel: the two inner stages always return. -/
theorem solve_completes_iff (self : HungarianAlgorithm) (M : Mat ℚ) (fuel : Nat)
    (hset : (SetCostFunctionMatrix self M).error = none) :
    (∃ o, SolveAssignmentProblem fuel (SetCostFunctionMatrix self M).state = some o) ↔
      ∃ s, solveLoop fuel (reduce (SetCostFunctionMatrix self M).state) = some s := by
  have hstat := set_status self M hset
  have hne : (SetCostFunctionMatrix self M).state.problemStatus ≠ ProblemStatus.NotReady := by
    rw [hstat]; decide
  constructor
  · rintro ⟨o, ho⟩
    obtain ⟨s1, _, h1, _, _⟩ := solve_eq_some hne ho
    exact ⟨s1, h1⟩
  · rintro ⟨s1, h1⟩
    have hsized := reduce_sized (set_sized self M hset)
    obtain ⟨hs1, _, _, _⟩ := solveLoop_spec fuel _ s1 hsized h1
    obtain ⟨hf0, _, _, _⟩ := reduce_frame (SetCostFunctionMatrix self M).state
    obtain ⟨hf1, _, _⟩ := solveLoop_frame fuel h1
    have hbound : ∀ i j, i < max M.rows M.cols → j < max M.rows M.cols →
        s1.costFunctionMatrix.coeff i j ≤ s1.dummyCost := by
      intro i j hi hj
      obtain ⟨_, _, _, hd, hcst⟩ := hf0.trans hf1
      rw [hd, hcst]
      exact set_cost_le_dummy self M hset i j hi hj
    obtain ⟨s2, h2⟩ := find_total hs1 hbound
    refine ⟨{ error := none, state := { s2 with problemStatus := ProblemStatus.Done } }, ?_⟩
    unfold SolveAssignmentProblem
    have hlt : ¬ (SetCostFunctionMatrix self M).state.problemStatus.toNat <
        ProblemStatus.ReadyToSolve.toNat := by
      rw [hstat]
      simp [ProblemStatus.toNat]
    rw [if_neg hlt, h1]
    simp only
    rw [h2]

/-! ## Concrete runs -/

/-- Witness for C9: the 1×2 problem `[[1, 2]]` is set and solved; a 1×2 buffer is
accepted by `GetAssignmentMatrix` and a 2×2 buffer (the padded size) is refused. -/
theorem C9_dimension_checks_witness :
    (SetCostFunctionMatrix HungarianAlgorithm.construct ⟨1, 2, [[1, 2]]⟩).error = none ∧
    SolveAssignmentProblem 3
      (SetCostFunctionMatrix HungarianAlgorithm.construct ⟨1, 2, [[1, 2]]⟩).state =
        some { error := none, state := solvedWide } ∧
    (GetAssignmentMatrix solvedWide ⟨1, 2, [[0, 0]]⟩).error = none ∧
    (GetAssignmentMatrix solvedWide ⟨2, 2, [[0, 0], [0, 0]]⟩).error ≠ none :=
  have hset : (SetCostFunctionMatrix HungarianAlgorithm.construct ⟨1, 2, [[1, 2]]⟩).error
      = none := by decide!
  have hsolve : SolveAssignmentProblem 3
      (SetCostFunctionMatrix HungarianAlgorithm.construct ⟨1, 2, [[1, 2]]⟩).state =
        some { error := none, state := solvedWide } := by decide!
  ⟨hset, hsolve,
   not_not.mp (fun h =>
     ((C9_dimension_checks HungarianAlgorithm.construct ⟨1, 2, [[1, 2]]⟩ 3 solvedWide
        hset hsolve).2.2.1 ⟨1, 2, [[0, 0]]⟩).mp h ⟨rfl, rfl⟩),
   ((C9_dimension_checks HungarianAlgorithm.construct ⟨1, 2, [[1, 2]]⟩ 3 solvedWide
      hset hsolve).2.2.1 ⟨2, 2, [[0, 0], [0, 0]]⟩).mpr (by decide)⟩

/-- C1 (the code departs from the claim): on the 4×4 matrix `costMissed` the solve
completes, and `GetAssignmentMatrix` reports the cells (0,0), (1,2), (2,1), (3,3), of
total original cost 1, although the one-to-one pairing (0,2), (1,3), (2,0), (3,1) has
total cost 0. -/
theorem C1_reported_assignment_not_optimal :
    (SetCostFunctionMatrix HungarianAlgorithm.construct costMissed).error = none ∧
    SolveAssignmentProblem 0
      (SetCostFunctionMatrix HungarianAlgorithm.construct costMissed).state =
        some { error := none, state := solvedMissed } ∧
    (GetAssignmentMatrix solvedMissed (Mat.ofFn 4 4 (fun _ _ => 0))).error = none ∧
    (GetAssignmentMatrix solvedMissed (Mat.ofFn 4 4 (fun _ _ => 0))).state.2 =
      ⟨4, 4, [[1, 0, 0, 0], [0, 0, 1, 0], [0, 1, 0, 0], [0, 0, 0, 1]]⟩ ∧
    assignedCost costMissed
      (GetAssignmentMatrix solvedMissed (Mat.ofFn 4 4 (fun _ _ => 0))).state.2 = 1 ∧
    IsPairing 4 4 [(0, 2), (1, 3), (2, 0), (3, 1)] ∧
    pairingCost costMissed [(0, 2), (1, 3), (2, 0), (3, 1)] = 0 ∧
    ¬ (assignedCost costMissed
        (GetAssignmentMatrix solvedMissed (Mat.ofFn 4 4 (fun _ _ => 0))).state.2 ≤
      pairingCost costMissed [(0, 2), (1, 3), (2, 0), (3, 1)]) := by
  refine ⟨by decide!, by decide!, by decide!, by decide!, by decide!, ?_, by decide!,
    by decide!⟩
  unfold IsPairing
  refine ⟨by decide, ?_, by decide, by decide⟩
  intro q hq
  simp only [List.mem_cons, List.mem_singleton, List.not_mem_nil, or_false] at hq
  rcases hq with h | h | h | h <;> subst h <;> decide

theorem cycle_first :
    MinNrOfLinesToCoverAllZeros
      (reduce (SetCostFunctionMatrix HungarianAlgorithm.construct costCycle).state) =
        some (cycleA, 5) := by
  decide!

theorem cycle_A_to_B :
    MinNrOfLinesToCoverAllZeros (AugmentCostFunctionMatrix cycleA) = some (cycleB, 3) := by
  decide!

theorem cycle_B_to_A :
    MinNrOfLinesToCoverAllZeros (AugmentCostFunctionMatrix cycleB) = some (cycleA, 5) := by
  decide!

theorem cycle_forever (fuel : Nat) :
    solveLoop fuel (AugmentCostFunctionMatrix cycleA) = none ∧
    solveLoop fuel (AugmentCostFunctionMatrix cycleB) = none := by
  induction fuel with
  | zero =>
    constructor
    · rw [solveLoop, cycle_A_to_B]
      rfl
    · rw [solveLoop, cycle_B_to_A]
      rfl
  | succ n ih =>
    constructor
    · rw [solveLoop, cycle_A_to_B]
      exact ih.2
    · rw [solveLoop, cycle_B_to_A]
      exact ih.1

/-- C3 (the code departs from the claim): the non-negative 4×4 matrix `costCycle` is
accepted by `SetCostFunctionMatrix`, every call of `MinNrOfLinesToCoverAllZeros` on it
returns (5 lines, then 3, then 5 again on the same working matrix as at the start), no
result equals `matrixSize = 4`, and so `SolveAssignmentProblem` does not complete for any
amount of fuel: the loop never exits. -/
theorem C3_solve_does_not_terminate :
    (SetCostFunctionMatrix HungarianAlgorithm.construct costCycle).error = none ∧
    (∀ i j, i < costCycle.rows → j < costCycle.cols → 0 ≤ costCycle.coeff i j) ∧
    MinNrOfLinesToCoverAllZeros
      (reduce (SetCostFunctionMatrix HungarianAlgorithm.construct costCycle).state) =
        some (cycleA, 5) ∧
    MinNrOfLinesToCoverAllZeros (AugmentCostFunctionMatrix cycleA) = some (cycleB, 3) ∧
    MinNrOfLinesToCoverAllZeros (AugmentCostFunctionMatrix cycleB) = some (cycleA, 5) ∧
    cycleA.matrixSize = 4 ∧ cycleB.matrixSize = 4 ∧
    ∀ fuel : Nat,
      SolveAssignmentProblem fuel
        (SetCostFunctionMatrix HungarianAlgorithm.construct costCycle).state = none := by
  refine ⟨by decide!, ?_, cycle_first, cycle_A_to_B, cycle_B_to_A, rfl, rfl, ?_⟩
  · exact set_ok_nonneg HungarianAlgorithm.construct costCycle (by decide!)
  · intro fuel
    have hstat : ¬ (SetCostFunctionMatrix HungarianAlgorithm.construct
        costCycle).state.problemStatus.toNat < ProblemStatus.ReadyToSolve.toNat := by
      decide!
    have hloop : solveLoop fuel
        (reduce (SetCostFunctionMatrix HungarianAlgorithm.construct costCycle).state)
          = none := by
      cases fuel with
      | zero =>
        rw [solveLoop, cycle_first]
        rfl
      | succ n =>
        rw [solveLoop, cycle_first]
        exact (cycle_forever n).1
    unfold SolveAssignmentProblem
    rw [if_neg hstat, hloop]

/-! ## The loop of `SolveAssignmentProblem` -/

theorem coverResult_zero (self : HungarianAlgorithm) :
    coverResult 0 self = (MinNrOfLinesToCoverAllZeros self).map Prod.snd := by
  simp [coverResult, augmentRounds]

theorem augmentRounds_succ {self s1 : HungarianAlgorithm} {r : Nat} (k : Nat)
    (h : MinNrOfLinesToCoverAllZeros self = some (s1, r)) :
    augmentRounds (k + 1) self = augmentRounds k (AugmentCostFunctionMatrix s1) := by
  rw [augmentRounds, h]

theorem coverResult_succ {self s1 : HungarianAlgorithm} {r : Nat} (k : Nat)
    (h : MinNrOfLinesToCoverAllZeros self = some (s1, r)) :
    coverResult (k + 1) self = coverResult k (AugmentCostFunctionMatrix s1) := by
  unfold coverResult
  rw [augmentRounds_succ k h]

theorem solveLoop_exit (fuel : Nat) (self s : HungarianAlgorithm)
    (h : solveLoop fuel self = some s) :
    ∃ k, k ≤ fuel ∧
      (∀ j, j < k → ∃ r, coverResult j self = some r ∧ r ≠ self.matrixSize) ∧
      coverResult k self = some self.matrixSize ∧
      ∃ t, augmentRounds k self = some t ∧
        MinNrOfLinesToCoverAllZeros t = some (s, self.matrixSize) := by
  induction fuel generalizing self with
  | zero =>
    rw [solveLoop] at h
    split at h
    · exact absurd h (by simp)
    · rename_i s1 r hc
      have hsize : s1.matrixSize = self.matrixSize := (cover_frame hc).1.2.2.1
      split at h
      · exact absurd h (by simp)
      · rename_i hr
        have hr2 : r = s1.matrixSize := not_not.mp hr
        have hs : s1 = s := Option.some.inj h
        subst hs
        refine ⟨0, le_refl _, ?_, ?_, self, rfl, ?_⟩
        · intro j hj
          exact absurd hj (Nat.not_lt_zero _)
        · rw [coverResult_zero, hc]
          simp [hr2, hsize]
        · rw [hc, hr2, hsize]
  | succ n ih =>
    rw [solveLoop] at h
    split at h
    · exact absurd h (by simp)
    · rename_i s1 r hc
      have hsize : s1.matrixSize = self.matrixSize := (cover_frame hc).1.2.2.1
      split at h
      · rename_i hr
        obtain ⟨k, hk, hbefore, hat, t, ht, htc⟩ := ih _ h
        have hsz2 : (AugmentCostFunctionMatrix s1).matrixSize = self.matrixSize := hsize
        rw [hsz2] at hbefore hat htc
        refine ⟨k + 1, Nat.succ_le_succ hk, ?_, ?_, t, ?_, htc⟩
        · intro j hj
          cases j with
          | zero =>
            refine ⟨r, ?_, ?_⟩
            · rw [coverResult_zero, hc]
              rfl
            · rw [← hsize]
              exact hr
          | succ j =>
            rw [coverResult_succ j hc]
            exact hbefore j (Nat.lt_of_succ_lt_succ hj)
        · rw [coverResult_succ k hc]
          exact hat
        · rw [augmentRounds_succ k hc]
          exact ht
      · rename_i hr
        have hr2 : r = s1.matrixSize := not_not.mp hr
        have hs : s1 = s := Option.some.inj h
        subst hs
        refine ⟨0, Nat.zero_le _, ?_, ?_, self, rfl, ?_⟩
        · intro j hj
          exact absurd hj (Nat.not_lt_zero _)
        · rw [coverResult_zero, hc]
          simp [hr2, hsize]
        · rw [hc, hr2, hsize]

theorem solveLoop_of_exit (k : Nat) :
    ∀ (fuel : Nat) (self s : HungarianAlgorithm), k ≤ fuel →
      (∀ j, j < k → ∃ r, coverResult j self = some r ∧ r ≠ self.matrixSize) →
      (∃ t, augmentRounds k self = some t ∧
        MinNrOfLinesToCoverAllZeros t = some (s, self.matrixSize)) →
      solveLoop fuel self = some s := by
  induction k with
  | zero =>
    intro fuel self s _ _ hex
    obtain ⟨t, ht, htc⟩ := hex
    have hts : self = t := Option.some.inj ht
    subst hts
    have hsize : s.matrixSize = self.matrixSize := (cover_frame htc).1.2.2.1
    rw [solveLoop, htc]
    simp [hsize]
  | succ k ih =>
    intro fuel self s hk hbefore hex
    obtain ⟨t, ht, htc⟩ := hex
    obtain ⟨r, hr, hrne⟩ := hbefore 0 (Nat.succ_pos k)
    rw [coverResult_zero] at hr
    cases hc : MinNrOfLinesToCoverAllZeros self with
    | none => rw [hc] at hr; exact absurd hr (by simp)
    | some p =>
      obtain ⟨s1, r1⟩ := p
      rw [hc] at hr
      have hr1 : r1 = r := Option.some.inj hr
      subst hr1
      have hsize : s1.matrixSize = self.matrixSize := (cover_frame hc).1.2.2.1
      have hsz2 : (AugmentCostFunctionMatrix s1).matrixSize = self.matrixSize := hsize
      cases fuel with
      | zero => exact absurd hk (Nat.not_succ_le_zero k)
      | succ n =>
        rw [solveLoop, hc]
        simp only [hsize, ne_eq, hrne, not_false_eq_true, if_true]
        apply ih n _ s (Nat.le_of_succ_le_succ hk)
        · intro j hj
          rw [hsz2, ← coverResult_succ j hc]
          exact hbefore (j + 1) (Nat.succ_lt_succ hj)
        · rw [hsz2, ← augmentRounds_succ k hc]
          exact ⟨t, ht, htc⟩

/-- C4, as amended: the loop of `SolveAssignmentProblem` exits with the object `s` exactly
when, for some `k` within the fuel, the first `k` cover results all differ from
`matrixSize` and the call of `MinNrOfLinesToCoverAllZeros` after the `k`-th augmentation
returns `matrixSize` and leaves `s`; the loop then has performed exactly `k`
augmentations.  Nothing bounds `k` by `matrixSize`, and a cover result need not exceed
the one before it. -/
theorem C4_loop_runs_until_cover_is_matrixSize (fuel : Nat) (self s : HungarianAlgorithm) :
    solveLoop fuel self = some s ↔
      ∃ k, k ≤ fuel ∧
        (∀ j, j < k → ∃ r, coverResult j self = some r ∧ r ≠ self.matrixSize) ∧
        coverResult k self = some self.matrixSize ∧
        ∃ t, augmentRounds k self = some t ∧
          MinNrOfLinesToCoverAllZeros t = some (s, self.matrixSize) := by
  constructor
  · exact solveLoop_exit fuel self s
  · rintro ⟨k, hk, hbefore, _, hex⟩
    exact solveLoop_of_exit k fuel self s hk hbefore hex

/-- Witness for C4 as amended: on `costPlateau` the loop exits with `plateauEnd`, after
some number `k` of augmentations within the fuel. -/
theorem C4_loop_runs_until_cover_is_matrixSize_witness :
    solveLoop 5 (reduce plateauStart) = some plateauEnd ∧
    ∃ k, k ≤ 5 ∧
      (∀ j, j < k → ∃ r, coverResult j (reduce plateauStart) = some r ∧
        r ≠ (reduce plateauStart).matrixSize) ∧
      coverResult k (reduce plateauStart) = some (reduce plateauStart).matrixSize ∧
      ∃ t, augmentRounds k (reduce plateauStart) = some t ∧
        MinNrOfLinesToCoverAllZeros t = some (plateauEnd, (reduce plateauStart).matrixSize) :=
  ⟨by decide!,
   (C4_loop_runs_until_cover_is_matrixSize 5 (reduce plateauStart) plateauEnd).mp
     (by decide!)⟩

theorem cycle_results (k : Nat) :
    (coverResult k (AugmentCostFunctionMatrix cycleA) = some 3 ∨
      coverResult k (AugmentCostFunctionMatrix cycleA) = some 5) ∧
    (coverResult k (AugmentCostFunctionMatrix cycleB) = some 3 ∨
      coverResult k (AugmentCostFunctionMatrix cycleB) = some 5) := by
  induction k with
  | zero =>
    constructor
    · left
      rw [coverResult_zero, cycle_A_to_B]
      rfl
    · right
      rw [coverResult_zero, cycle_B_to_A]
      rfl
  | succ n ih =>
    constructor
    · rw [coverResult_succ n cycle_A_to_B]
      exact ih.2
    · rw [coverResult_succ n cycle_B_to_A]
      exact ih.1

theorem cycle_results_start (k : Nat) :
    coverResult k (reduce cycleStart) = some 3 ∨
      coverResult k (reduce cycleStart) = some 5 := by
  cases k with
  | zero =>
    right
    rw [coverResult_zero]
    unfold cycleStart
    rw [cycle_first]
    rfl
  | succ n =>
    have h : MinNrOfLinesToCoverAllZeros (reduce cycleStart) = some (cycleA, 5) := cycle_first
    rw [coverResult_succ n h]
    exact (cycle_results n).1

/-- C4 is false as stated.  On the 4×4 matrix `costPlateau` the cover results are
3, 3, 4: the second is not larger than the first.  On the 4×4 matrix `costCycle` every
cover result is 5 or 3, so none of the results after 0, 1, 2, 3 or 4 augmentations equals
`matrixSize = 4` and the loop has not exited after `matrixSize` augmentations. -/
theorem C4_cover_results_need_not_grow :
    coverResult 0 (reduce plateauStart) = some 3 ∧
    coverResult 1 (reduce plateauStart) = some 3 ∧
    coverResult 2 (reduce plateauStart) = some 4 ∧
    ¬ CoverResultsGrow (reduce plateauStart) ∧
    (reduce cycleStart).matrixSize = 4 ∧
    ¬ ExitsWithinMatrixSize (reduce cycleStart) := by
  have h0 : coverResult 0 (reduce plateauStart) = some 3 := by decide!
  have h1 : coverResult 1 (reduce plateauStart) = some 3 := by decide!
  refine ⟨h0, h1, by decide!, ?_, rfl, ?_⟩
  · intro hgrow
    exact absurd (hgrow 0 3 3 h0 h1) (by decide)
  · rintro ⟨k, _, hk⟩
    have hsz : (reduce cycleStart).matrixSize = 4 := rfl
    rw [hsz] at hk
    rcases cycle_results_start k with h | h
    · rw [h] at hk
      exact absurd (Option.some.inj hk) (by decide)
    · rw [h] at hk
      exact absurd (Option.some.inj hk) (by decide)

/-! ## The scenarios of `main.cpp` -/

/-- C14: for the 3×3 matrix `[[40,60,15],[25,30,45],[55,30,25]]` (set through the matrix
constructor, as in `test3x3Matrix`) `SolveAssignmentProblem` completes, and
`GetAssignmentMatrix` returns `[[0,0,1],[1,0,0],[0,1,0]]`, `GetAssignmentResults` the row
indices `[2,0,1]` and the column indices `[1,2,0]`. -/
theorem C14_scenario_3x3 :
    (HungarianAlgorithm.constructWith cost3x3).error = none ∧
    SolveAssignmentProblem 0 (HungarianAlgorithm.constructWith cost3x3).state =
      some { error := none, state := solved3x3 } ∧
    GetAssignmentMatrix solved3x3 (Mat.ofFn 3 3 (fun _ _ => 0)) =
      { error := none,
        state := (solved3x3, ⟨3, 3, [[0, 0, 1], [1, 0, 0], [0, 1, 0]]⟩) } ∧
    GetAssignmentResults solved3x3 [0, 0, 0] [0, 0, 0] =
      { error := none, state := (solved3x3, [2, 0, 1], [1, 2, 0]) } := by
  refine ⟨by decide!, by decide!, by decide!, by decide!⟩

/-- C15: for the 5×4 matrix of `test5x4Matrix` the padded cost matrix is 5×5 with dummy
cost 142, `SolveAssignmentProblem` completes, the 5×4 assignment matrix has exactly 4
entries equal to 1, and `GetAssignmentResults` returns the row indices `[2,0,-1,3,1]` and
the column indices `[1,4,0,3]`. -/
theorem C15_scenario_5x4 :
    (SetCostFunctionMatrix HungarianAlgorithm.construct cost5x4).error = none ∧
    (SetCostFunctionMatrix HungarianAlgorithm.construct cost5x4).state.matrixSize = 5 ∧
    (SetCostFunctionMatrix HungarianAlgorithm.construct cost5x4).state.dummyCost = 142 ∧
    (SetCostFunctionMatrix HungarianAlgorithm.construct cost5x4).state.costFunctionMatrix =
      solved5x4.costFunctionMatrix ∧
    SolveAssignmentProblem 1 (SetCostFunctionMatrix HungarianAlgorithm.construct cost5x4).state
      = some { error := none, state := solved5x4 } ∧
    GetAssignmentMatrix solved5x4 (Mat.ofFn 5 4 (fun _ _ => 0)) =
      { error := none,
        state := (solved5x4,
          ⟨5, 4, [[0, 0, 1, 0], [1, 0, 0, 0], [0, 0, 0, 0], [0, 0, 0, 1], [0, 1, 0, 0]]⟩) } ∧
    countOnes (GetAssignmentMatrix solved5x4 (Mat.ofFn 5 4 (fun _ _ => 0))).state.2 = 4 ∧
    GetAssignmentResults solved5x4 [0, 0, 0, 0, 0] [0, 0, 0, 0] =
      { error := none, state := (solved5x4, [2, 0, -1, 3, 1], [1, 4, 0, 3]) } := by
  refine ⟨by decide!, by decide!, by decide!, by decide!, by decide!, by decide!, by decide!,
    by decide!⟩

/-! ## Status lifecycle -/

theorem getCost_object (self : HungarianAlgorithm) (out : Mat ℚ) :
    (GetCostFunctionMatrix self out).state.1 = self := by
  unfold GetCostFunctionMatrix
  split
  · rfl
  · split <;> rfl

theorem getAssignment_object (self : HungarianAlgorithm) (out : Mat Int) :
    (GetAssignmentMatrix self out).state.1 = self := by
  unfold GetAssignmentMatrix
  split
  · rfl
  · split <;> rfl

theorem getResults_object (self : HungarianAlgorithm) (r c : List Int) :
    (GetAssignmentResults self r c).state.1 = self := by
  unfold GetAssignmentResults
  split
  · rfl
  · split
    · rfl
    · split <;> rfl

theorem set_failed_state (self : HungarianAlgorithm) (M : Mat ℚ)
    (h : (SetCostFunctionMatrix self M).error ≠ none) :
    (SetCostFunctionMatrix self M).state = self := by
  have hneg := (set_error_ne_none_iff self M).mp h
  unfold SetCostFunctionMatrix
  rw [if_pos hneg]

theorem solve_outcome (fuel : Nat) (self : HungarianAlgorithm)
    (o : Outcome HungarianAlgorithm) (h : SolveAssignmentProblem fuel self = some o) :
    (o.error = none → o.state.problemStatus = ProblemStatus.Done) ∧
    (o.error ≠ none → o.state = self) := by
  by_cases hst : self.problemStatus = ProblemStatus.NotReady
  · unfold SolveAssignmentProblem at h
    rw [hst] at h
    simp only [ProblemStatus.toNat, Nat.zero_lt_one, if_true] at h
    have ho := Option.some.inj h
    subst ho
    exact ⟨fun hx => absurd hx (by simp), fun _ => rfl⟩
  · obtain ⟨herr, _, hdone⟩ := solve_frame hst h
    exact ⟨fun _ => hdone, fun hx => absurd herr hx⟩

theorem call_done (c : Call) (self : HungarianAlgorithm) (o : Outcome HungarianAlgorithm)
    (h : c.run self = some o) (hdone : o.state.problemStatus = ProblemStatus.Done) :
    self.problemStatus = ProblemStatus.Done ∨ SolveCompleted c self := by
  cases c with
  | set M =>
    have ho : SetCostFunctionMatrix self M = o := Option.some.inj h
    subst ho
    by_cases herr : (SetCostFunctionMatrix self M).error = none
    · rw [set_status self M herr] at hdone
      exact absurd hdone (by decide)
    · left
      rw [set_failed_state self M herr] at hdone
      exact hdone
  | getCost out =>
    have ho := Option.some.inj h
    subst ho
    left
    simp only at hdone
    rw [getCost_object] at hdone
    exact hdone
  | getAssignment out =>
    have ho := Option.some.inj h
    subst ho
    left
    simp only at hdone
    rw [getAssignment_object] at hdone
    exact hdone
  | getResults r c =>
    have ho := Option.some.inj h
    subst ho
    left
    simp only at hdone
    rw [getResults_object] at hdone
    exact hdone
  | solve fuel =>
    have hs : SolveAssignmentProblem fuel self = some o := h
    by_cases herr : o.error = none
    · right
      exact ⟨fuel, o, rfl, hs, herr⟩
    · left
      rw [(solve_outcome fuel self o hs).2 herr] at hdone
      exact hdone

theorem runCalls_done (cs : List Call) :
    ∀ (self s : HungarianAlgorithm), runCalls cs self = some s →
      s.problemStatus = ProblemStatus.Done →
      self.problemStatus = ProblemStatus.Done ∨
      ∃ pre c post t, cs = pre ++ c :: post ∧ runCalls pre self = some t ∧
        SolveCompleted c t := by
  induction cs with
  | nil =>
    intro self s h hdone
    have hs : self = s := Option.some.inj h
    subst hs
    exact Or.inl hdone
  | cons c cs ih =>
    intro self s h hdone
    rw [runCalls] at h
    cases hc : c.run self with
    | none =>
      rw [hc] at h
      exact absurd h (by simp)
    | some o =>
      rw [hc] at h
      simp only at h
      rcases ih o.state s h hdone with h1 | ⟨pre, c', post, t, hcs, hpre, hsc⟩
      · rcases call_done c self o hc h1 with h2 | h2
        · exact Or.inl h2
        · exact Or.inr ⟨[], c, cs, self, rfl, rfl, h2⟩
      · right
        refine ⟨c :: pre, c', post, t, ?_, ?_, hsc⟩
        · rw [hcs]
          rfl
        · rw [runCalls, hc]
          exact hpre

/-- C12: the default constructed object has status `NotReady`; every successful
`SetCostFunctionMatrix` and the matrix constructor leave `ReadyToSolve`, whatever the
status was; every `SolveAssignmentProblem` that completes without exception leaves `Done`;
the getters leave the whole object unchanged, and so does every operation that throws; and
whenever, after any sequence of calls on a default constructed object, the status is
`Done`, one of the calls was a `SolveAssignmentProblem` that completed without
exception. -/
theorem C12_status_lifecycle :
    HungarianAlgorithm.construct.problemStatus = ProblemStatus.NotReady ∧
    (∀ (self : HungarianAlgorithm) (M : Mat ℚ), (SetCostFunctionMatrix self M).error = none →
      (SetCostFunctionMatrix self M).state.problemStatus = ProblemStatus.ReadyToSolve) ∧
    (∀ M : Mat ℚ, (HungarianAlgorithm.constructWith M).error = none →
      (HungarianAlgorithm.constructWith M).state.problemStatus = ProblemStatus.ReadyToSolve) ∧
    (∀ (fuel : Nat) (self : HungarianAlgorithm) (o : Outcome HungarianAlgorithm),
      SolveAssignmentProblem fuel self = some o → o.error = none →
        o.state.problemStatus = ProblemStatus.Done) ∧
    (∀ (self : HungarianAlgorithm) (out : Mat ℚ),
      (GetCostFunctionMatrix self out).state.1 = self) ∧
    (∀ (self : HungarianAlgorithm) (out : Mat Int),
      (GetAssignmentMatrix self out).state.1 = self) ∧
    (∀ (self : HungarianAlgorithm) (r c : List Int),
      (GetAssignmentResults self r c).state.1 = self) ∧
    (∀ (self : HungarianAlgorithm) (M : Mat ℚ), (SetCostFunctionMatrix self M).error ≠ none →
      (SetCostFunctionMatrix self M).state = self) ∧
    (∀ (fuel : Nat) (self : HungarianAlgorithm) (o : Outcome HungarianAlgorithm),
      SolveAssignmentProblem fuel self = some o → o.error ≠ none → o.state = self) ∧
    (∀ (cs : List Call) (s : HungarianAlgorithm),
      runCalls cs HungarianAlgorithm.construct = some s →
      s.problemStatus = ProblemStatus.Done →
      ∃ pre c post t, cs = pre ++ c :: post ∧
        runCalls pre HungarianAlgorithm.construct = some t ∧ SolveCompleted c t) := by
  refine ⟨rfl, set_status, ?_, ?_, getCost_object, getAssignment_object, getResults_object,
    set_failed_state, ?_, ?_⟩
  · intro M h
    unfold HungarianAlgorithm.constructWith at h ⊢
    simp only at h ⊢
    split
    · rename_i e he
      rw [he] at h
      simp at h
    · rfl
  · intro fuel self o h herr
    exact (solve_outcome fuel self o h).1 herr
  · intro fuel self o h herr
    exact (solve_outcome fuel self o h).2 herr
  · intro cs s h hdone
    rcases runCalls_done cs _ s h hdone with h1 | h1
    · exact absurd h1 (by decide)
    · exact h1

/-- Witness for C12: on a default constructed object, setting `costTall` and solving it
leads to `Done`, and the solve is the call that completed. -/
theorem C12_status_lifecycle_witness :
    runCalls [Call.set costTall, Call.solve 5] HungarianAlgorithm.construct =
      some solvedTall ∧
    solvedTall.problemStatus = ProblemStatus.Done ∧
    ∃ pre c post t, [Call.set costTall, Call.solve 5] = pre ++ c :: post ∧
      runCalls pre HungarianAlgorithm.construct = some t ∧ SolveCompleted c t :=
  have hrun : runCalls [Call.set costTall, Call.solve 5] HungarianAlgorithm.construct =
      some solvedTall := by decide!
  ⟨hrun, rfl, C12_status_lifecycle.2.2.2.2.2.2.2.2.2 _ solvedTall hrun rfl⟩

/-! ## Re-invocation -/

theorem set_ok_of_nonneg (self : HungarianAlgorithm) (M : Mat ℚ)
    (hM : ∀ i j, i < M.rows → j < M.cols → 0 ≤ M.coeff i j) :
    (SetCostFunctionMatrix self M).error = none := by
  by_contra h
  obtain ⟨i, j, hi, hj, hneg⟩ :=
    (Mat.anyCoeff_iff M _).mp ((set_error_ne_none_iff self M).mp h)
  have hlt : M.coeff i j < 0 := by simpa using hneg
  exact absurd (hM i j hi hj) (not_le.mpr hlt)

theorem set_state_lines (a b : HungarianAlgorithm) (M : Mat ℚ)
    (ha : (SetCostFunctionMatrix a M).error = none)
    (hb : (SetCostFunctionMatrix b M).error = none) :
    (SetCostFunctionMatrix a M).state =
      { (SetCostFunctionMatrix b M).state with nrLinesToCoverZeroes := a.nrLinesToCoverZeroes } := by
  rw [set_state_of_ok a M ha, set_state_of_ok b M hb]

theorem cover_ignores_lines (s : HungarianAlgorithm) (x : Nat) :
    MinNrOfLinesToCoverAllZeros { s with nrLinesToCoverZeroes := x } =
      MinNrOfLinesToCoverAllZeros s := rfl

theorem subtractRowMinima_lines (s : HungarianAlgorithm) (x : Nat) :
    SubtractRowMinima { s with nrLinesToCoverZeroes := x } =
      { SubtractRowMinima s with nrLinesToCoverZeroes := x } := rfl

theorem subtractColMinima_lines (s : HungarianAlgorithm) (x : Nat) :
    SubtractColMinima { s with nrLinesToCoverZeroes := x } =
      { SubtractColMinima s with nrLinesToCoverZeroes := x } := rfl

theorem reduce_lines (s : HungarianAlgorithm) (x : Nat) :
    reduce { s with nrLinesToCoverZeroes := x } =
      { reduce s with nrLinesToCoverZeroes := x } := by
  unfold reduce
  by_cases h : s.nrRows ≥ s.nrCols
  · rw [if_pos h, if_pos (by exact h)]
    rfl
  · rw [if_neg h, if_neg (by exact h)]
    rfl

theorem solveLoop_ignores_lines (fuel : Nat) (s : HungarianAlgorithm) (x : Nat) :
    solveLoop fuel { s with nrLinesToCoverZeroes := x } = solveLoop fuel s := by
  cases fuel with
  | zero =>
    rw [solveLoop, solveLoop, cover_ignores_lines]
  | succ n =>
    rw [solveLoop, solveLoop, cover_ignores_lines]

theorem solve_ignores_lines (fuel : Nat) (s : HungarianAlgorithm) (x : Nat)
    (h : ¬ s.problemStatus.toNat < ProblemStatus.ReadyToSolve.toNat) :
    SolveAssignmentProblem fuel { s with nrLinesToCoverZeroes := x } =
      SolveAssignmentProblem fuel s := by
  unfold SolveAssignmentProblem
  rw [reduce_lines, solveLoop_ignores_lines, if_neg h, if_neg (by exact h)]

/-- C13: for every non-negative matrix `M` and every object `self`, whatever its history,
`SetCostFunctionMatrix M` succeeds and a following `SolveAssignmentProblem` behaves as on
a default constructed object: it completes with the same fuel or not at all, and it leaves
the same object behind, hence the same assignment matrix and the same index lists. -/
theorem C13_reinvocation_replaces_state (self : HungarianAlgorithm) (M : Mat ℚ) (fuel : Nat)
    (hM : ∀ i j, i < M.rows → j < M.cols → 0 ≤ M.coeff i j) :
    (SetCostFunctionMatrix self M).error = none ∧
    SolveAssignmentProblem fuel (SetCostFunctionMatrix self M).state =
      SolveAssignmentProblem fuel (SetCostFunctionMatrix HungarianAlgorithm.construct M).state ∧
    ∀ o, SolveAssignmentProblem fuel (SetCostFunctionMatrix self M).state = some o →
      ∃ o', SolveAssignmentProblem fuel
          (SetCostFunctionMatrix HungarianAlgorithm.construct M).state = some o' ∧
        o'.error = o.error ∧
        (∀ out, (GetAssignmentMatrix o'.state out).error = (GetAssignmentMatrix o.state out).error ∧
          (GetAssignmentMatrix o'.state out).state.2 = (GetAssignmentMatrix o.state out).state.2) ∧
        (∀ r c, (GetAssignmentResults o'.state r c).error =
            (GetAssignmentResults o.state r c).error ∧
          (GetAssignmentResults o'.state r c).state.2 =
            (GetAssignmentResults o.state r c).state.2) := by
  have ha := set_ok_of_nonneg self M hM
  have hb := set_ok_of_nonneg HungarianAlgorithm.construct M hM
  have heq : SolveAssignmentProblem fuel (SetCostFunctionMatrix self M).state =
      SolveAssignmentProblem fuel
        (SetCostFunctionMatrix HungarianAlgorithm.construct M).state := by
    rw [set_state_lines self HungarianAlgorithm.construct M ha hb]
    apply solve_ignores_lines
    rw [set_status _ M hb]
    decide
  refine ⟨ha, heq, ?_⟩
  intro o ho
  refine ⟨o, ?_, rfl, fun _ => ⟨rfl, rfl⟩, fun _ _ => ⟨rfl, rfl⟩⟩
  rw [← heq]
  exact ho

/-- Witness for C13: the object already solved on the 4×3 matrix `costTall`, re-used for
the 3×3 matrix `cost3x3`. -/
theorem C13_reinvocation_replaces_state_witness :
    (SetCostFunctionMatrix solvedTall cost3x3).error = none ∧
    SolveAssignmentProblem 0 (SetCostFunctionMatrix solvedTall cost3x3).state =
      SolveAssignmentProblem 0
        (SetCostFunctionMatrix HungarianAlgorithm.construct cost3x3).state :=
  have h := C13_reinvocation_replaces_state solvedTall cost3x3 0
    (set_ok_nonneg HungarianAlgorithm.construct cost3x3 (by decide!))
  ⟨h.1, h.2.1⟩

/-! ## Sentinel entries of the index lists -/

theorem block_sum {N m n : Nat} (A : Mat Bool) (hperm : IsPermutationMask N A)
    (hN : N = max m n) :
    ((List.range m).map (fun i => (List.range n).countP (fun j => A.coeff i j))).sum =
      min m n := by
  obtain ⟨hrow, hcol⟩ := hperm
  by_cases hmn : m ≤ n
  · have hNn : N = n := by rw [hN]; exact max_eq_right hmn
    rw [sum_map_range_const (c := 1)]
    · rw [Nat.mul_one, min_eq_left hmn]
    · intro i hi
      obtain ⟨j, hj, hm1, hm2, _⟩ := hrow i (by omega)
      rw [hNn] at hj hm2
      exact countP_eq_one_of_unique (p := fun j => A.coeff i j) hj hm1 hm2
  · have hnm : n ≤ m := by omega
    have hNm : N = m := by rw [hN]; exact max_eq_left hnm
    rw [sum_countP_comm (List.range m) (List.range n) (fun i j => A.coeff i j)]
    rw [sum_map_range_const (c := 1)]
    · rw [Nat.mul_one, min_eq_right hnm]
    · intro j hj
      obtain ⟨i, hi, hm1, _, hm3⟩ := hcol j (by omega)
      rw [hNm] at hi hm3
      exact countP_eq_one_of_unique (p := fun i => A.coeff i j) hi hm1 hm3

theorem countP_le_one_of_unique {p : Nat → Bool} {n : Nat}
    (huniq : ∀ x y, x < n → y < n → p x = true → p y = true → x = y) :
    (List.range n).countP p ≤ 1 := by
  by_cases h : ∃ x, x < n ∧ p x = true
  · obtain ⟨x, hx, hpx⟩ := h
    rw [countP_eq_one_of_unique hx hpx (fun y hy hpy => huniq y x hy hx hpy hpx)]
  · rw [countP_eq_zero_of_none]
    · exact Nat.zero_le 1
    · intro y hy
      by_contra hpy
      exact h ⟨y, hy, by simpa using hpy⟩

theorem countP_zero_add_sum (f : Nat → Nat) (m : Nat) (h : ∀ i, i < m → f i ≤ 1) :
    (List.range m).countP (fun i => decide (f i = 0)) + ((List.range m).map f).sum = m := by
  induction m with
  | zero => simp
  | succ m ih =>
    have ih1 := ih (fun i hi => h i (Nat.lt_succ_of_lt hi))
    have hm := h m (Nat.lt_succ_self m)
    rw [List.range_succ, List.countP_append, List.map_append, List.sum_append]
    simp only [List.countP_cons, List.countP_nil, List.map_cons, List.map_nil, List.sum_cons,
      List.sum_nil, decide_eq_true_eq]
    by_cases h0 : f m = 0
    · rw [if_pos h0, h0]
      omega
    · rw [if_neg h0]
      omega

theorem count_eq_countP_range (l : List Int) (a : Int) :
    l.count a = (List.range l.length).countP (fun i => decide (l[i]? = some a)) := by
  induction l with
  | nil => simp
  | cons x xs ih =>
    rw [List.length_cons, List.range_succ_eq_map, List.countP_cons, List.countP_map,
      List.count_cons, ih]
    have hcongr : (List.range xs.length).countP
          ((fun i => decide ((x :: xs)[i]? = some a)) ∘ Nat.succ) =
        (List.range xs.length).countP (fun i => decide (xs[i]? = some a)) := by
      apply List.countP_congr
      intro i _
      simp
    rw [hcongr]
    simp only [List.getElem?_cons_zero, Option.some.injEq, beq_iff_eq, decide_eq_true_eq]

theorem count_sentinel {m : Nat} (l : List Int) (f : Nat → Nat) (hlen : l.length = m)
    (hf : ∀ i, i < m → f i ≤ 1)
    (hl : ∀ i, i < m → (l[i]? = some (-1) ↔ f i = 0)) :
    l.count (-1) + ((List.range m).map f).sum = m := by
  rw [count_eq_countP_range, hlen]
  have hcongr : (List.range m).countP (fun i => decide (l[i]? = some (-1))) =
      (List.range m).countP (fun i => decide (f i = 0)) := by
    apply List.countP_congr
    intro i hi
    simp only [decide_eq_true_eq]
    exact hl i (List.mem_range.mp hi)
  rw [hcongr]
  exact countP_zero_add_sum f m hf

theorem results_sentinel_counts {N m n : Nat} (A : Mat Bool) (hperm : IsPermutationMask N A)
    (hN : N = max m n) :
    (assignmentResultsLoop A m n (List.replicate m (-1), List.replicate n (-1))).1.count (-1)
      = m - min m n ∧
    (assignmentResultsLoop A m n (List.replicate m (-1), List.replicate n (-1))).2.count (-1)
      = n - min m n := by
  obtain ⟨l1, l2, s3, s4⟩ := results_loop_spec A m n
  have hmN : m ≤ N := by rw [hN]; exact le_max_left _ _
  have hnN : n ≤ N := by rw [hN]; exact le_max_right _ _
  have hrowuniq : ∀ i, i < m → ∀ x y, x < n → y < n → A.coeff i x = true →
      A.coeff i y = true → x = y := by
    intro i hi x y hx hy h1 h2
    obtain ⟨j0, _, _, huniq, _⟩ := hperm.1 i (lt_of_lt_of_le hi hmN)
    rw [huniq x (lt_of_lt_of_le hx hnN) h1, huniq y (lt_of_lt_of_le hy hnN) h2]
  have hcoluniq : ∀ j, j < n → ∀ x y, x < m → y < m → A.coeff x j = true →
      A.coeff y j = true → x = y := by
    intro j hj x y hx hy h1 h2
    obtain ⟨i0, _, _, _, huniq⟩ := hperm.2 j (lt_of_lt_of_le hj hnN)
    rw [huniq x (lt_of_lt_of_le hx hmN) h1, huniq y (lt_of_lt_of_le hy hmN) h2]
  have hrows := count_sentinel
    (assignmentResultsLoop A m n (List.replicate m (-1), List.replicate n (-1))).1
    (fun i => (List.range n).countP (fun j => A.coeff i j)) l1
    (fun i hi => countP_le_one_of_unique (hrowuniq i hi))
    (by
      intro i hi
      rcases s3 i hi with ⟨j, hj, hA, hv⟩ | ⟨hnone, hv⟩
      · constructor
        · intro h
          rw [hv] at h
          have h' := Option.some.inj h
          omega
        · intro (h : (List.range n).countP (fun j => A.coeff i j) = 0)
          have hpos := countP_pos_of_mem (p := fun j => A.coeff i j) hj hA
          omega
      · constructor
        · intro _
          exact countP_eq_zero_of_none (fun y hy => by simpa using hnone y hy)
        · intro _
          exact hv)
  have hcols := count_sentinel
    (assignmentResultsLoop A m n (List.replicate m (-1), List.replicate n (-1))).2
    (fun j => (List.range m).countP (fun i => A.coeff i j)) l2
    (fun j hj => countP_le_one_of_unique (hcoluniq j hj))
    (by
      intro j hj
      rcases s4 j hj with ⟨i, hi, hA, hv⟩ | ⟨hnone, hv⟩
      · constructor
        · intro h
          rw [hv] at h
          have h' := Option.some.inj h
          omega
        · intro (h : (List.range m).countP (fun i => A.coeff i j) = 0)
          have hpos := countP_pos_of_mem (p := fun i => A.coeff i j) hi hA
          omega
      · constructor
        · intro _
          exact countP_eq_zero_of_none (fun y hy => by simpa using hnone y hy)
        · intro _
          exact hv)
  have hsum := block_sum A hperm hN
  have hsum2 := hsum
  rw [sum_countP_comm (List.range m) (List.range n) (fun i j => A.coeff i j)] at hsum2
  rw [hsum] at hrows
  rw [hsum2] at hcols
  have h1 : min m n ≤ m := min_le_left _ _
  have h2 : min m n ≤ n := min_le_right _ _
  constructor <;> omega

/-- C11: for a problem set from an `m × n` matrix and solved, the lists written by
`GetAssignmentResults` satisfy: when `m > n`, exactly `m - n` entries of the row list are
-1 and no entry of the column list is -1; when `m < n`, exactly `n - m` entries of the
column list are -1 and no entry of the row list is -1; when `m = n`, neither list
contains -1. -/
theorem C11_padding_sentinels (self : HungarianAlgorithm) (M : Mat ℚ) (fuel : Nat)
    (o : Outcome HungarianAlgorithm) (rowIndices colIndices : List Int)
    (hset : (SetCostFunctionMatrix self M).error = none)
    (hsolve : SolveAssignmentProblem fuel (SetCostFunctionMatrix self M).state = some o)
    (hrl : rowIndices.length = M.rows) (hcl : colIndices.length = M.cols) :
    ∃ rowIdx colIdx : List Int,
      GetAssignmentResults o.state rowIndices colIndices =
        { error := none, state := (o.state, rowIdx, colIdx) } ∧
      (M.cols < M.rows → rowIdx.count (-1) = M.rows - M.cols ∧ (-1) ∉ colIdx) ∧
      (M.rows < M.cols → colIdx.count (-1) = M.cols - M.rows ∧ (-1) ∉ rowIdx) ∧
      (M.rows = M.cols → (-1) ∉ rowIdx ∧ (-1) ∉ colIdx) := by
  obtain ⟨_, hdone, hr, hc, hperm⟩ := solve_spec self M fuel o hset hsolve
  have hR := getAssignmentResults_ok o.state rowIndices colIndices hdone
    (by rw [hr]; exact hrl) (by rw [hc]; exact hcl)
  rw [hr, hc] at hR
  obtain ⟨c1, c2⟩ := results_sentinel_counts o.state.assignmentMatrix hperm rfl
  refine ⟨_, _, hR, ?_, ?_, ?_⟩
  · intro h
    rw [min_eq_right (le_of_lt h)] at c1 c2
    refine ⟨c1, ?_⟩
    rw [← List.count_eq_zero, c2]
    omega
  · intro h
    rw [min_eq_left (le_of_lt h)] at c1 c2
    refine ⟨c2, ?_⟩
    rw [← List.count_eq_zero, c1]
    omega
  · intro h
    rw [min_eq_left (le_of_eq h)] at c1 c2
    constructor
    · rw [← List.count_eq_zero, c1]
      omega
    · rw [← List.count_eq_zero, c2]
      omega

/-- Witness for C11: on the solved 3×2 problem `costTall` the row list `[0, 1, -1]` has
one entry -1 and the column list `[0, 1]` has none. -/
theorem C11_padding_sentinels_witness :
    (SetCostFunctionMatrix HungarianAlgorithm.construct costTall).error = none ∧
    SolveAssignmentProblem 5 (SetCostFunctionMatrix HungarianAlgorithm.construct costTall).state
      = some { error := none, state := solvedTall } ∧
    ∃ rowIdx colIdx : List Int,
      GetAssignmentResults solvedTall [7, 7, 7] [7, 7] =
        { error := none, state := (solvedTall, rowIdx, colIdx) } ∧
      (costTall.cols < costTall.rows →
        rowIdx.count (-1) = costTall.rows - costTall.cols ∧ (-1) ∉ colIdx) :=
  have hset : (SetCostFunctionMatrix HungarianAlgorithm.construct costTall).error = none := by
    decide!
  have hsolve : SolveAssignmentProblem 5
      (SetCostFunctionMatrix HungarianAlgorithm.construct costTall).state =
        some { error := none, state := solvedTall } := by decide!
  ⟨hset, hsolve,
   (C11_padding_sentinels HungarianAlgorithm.construct costTall 5
      { error := none, state := solvedTall } [7, 7, 7] [7, 7] hset hsolve rfl rfl).imp
    (fun _ h => h.imp (fun _ h => ⟨h.1, h.2.1⟩))⟩

/-! ## Minima -/

theorem foldl_min_le_init {ι : Type} (f : ι → ℚ) (l : List ι) (a : ℚ) :
    l.foldl (fun res p => min res (f p)) a ≤ a := by
  induction l generalizing a with
  | nil => exact le_refl _
  | cons x xs ih => exact le_trans (ih _) (min_le_left _ _)

theorem foldl_min_le_mem {ι : Type} (f : ι → ℚ) (l : List ι) (a : ℚ) {p : ι} (hp : p ∈ l) :
    l.foldl (fun res p => min res (f p)) a ≤ f p := by
  induction l generalizing a with
  | nil => exact absurd hp (List.not_mem_nil _)
  | cons x xs ih =>
    rcases List.mem_cons.mp hp with h | h
    · subst h
      exact le_trans (foldl_min_le_init f xs _) (min_le_right _ _)
    · exact ih _ h

theorem le_foldl_min {ι : Type} (f : ι → ℚ) (l : List ι) (a c : ℚ) (ha : c ≤ a)
    (hl : ∀ p ∈ l, c ≤ f p) : c ≤ l.foldl (fun res p => min res (f p)) a := by
  induction l generalizing a with
  | nil => exact ha
  | cons x xs ih =>
    exact ih _ (le_min ha (hl x (List.mem_cons_self _ _)))
      (fun p hp => hl p (List.mem_cons_of_mem _ hp))

theorem foldl_min_attained {ι : Type} (f : ι → ℚ) (l : List ι) (a : ℚ) :
    l.foldl (fun res p => min res (f p)) a = a ∨
      ∃ p ∈ l, l.foldl (fun res p => min res (f p)) a = f p := by
  induction l generalizing a with
  | nil => exact Or.inl rfl
  | cons x xs ih =>
    rcases ih (min a (f x)) with h | ⟨p, hp, h⟩
    · rcases min_choice a (f x) with h2 | h2
      · left
        rw [List.foldl_cons, h, h2]
      · right
        exact ⟨x, List.mem_cons_self _ _, by rw [List.foldl_cons, h, h2]⟩
    · right
      exact ⟨p, List.mem_cons_of_mem _ hp, h⟩

theorem rowMinCoeff_le (W : Mat ℚ) (i : Nat) {j : Nat} (hj : j < W.cols) :
    W.rowMinCoeff i ≤ W.coeff i j :=
  foldl_min_le_mem (fun j : Nat => W.coeff i j) (List.range W.cols) (W.coeff i 0)
    (List.mem_range.mpr hj)

theorem colMinCoeff_le (W : Mat ℚ) (j : Nat) {i : Nat} (hi : i < W.rows) :
    W.colMinCoeff j ≤ W.coeff i j :=
  foldl_min_le_mem (fun i : Nat => W.coeff i j) (List.range W.rows) (W.coeff 0 j)
    (List.mem_range.mpr hi)

theorem rowMinCoeff_attained (W : Mat ℚ) (i : Nat) (hc : 0 < W.cols) :
    ∃ j, j < W.cols ∧ W.rowMinCoeff i = W.coeff i j := by
  rcases foldl_min_attained (fun j => W.coeff i j) (List.range W.cols) (W.coeff i 0) with
    h | ⟨j, hj, h⟩
  · exact ⟨0, hc, h⟩
  · exact ⟨j, List.mem_range.mp hj, h⟩

theorem colMinCoeff_attained (W : Mat ℚ) (j : Nat) (hr : 0 < W.rows) :
    ∃ i, i < W.rows ∧ W.colMinCoeff j = W.coeff i j := by
  rcases foldl_min_attained (fun i => W.coeff i j) (List.range W.rows) (W.coeff 0 j) with
    h | ⟨i, hi, h⟩
  · exact ⟨0, hr, h⟩
  · exact ⟨i, List.mem_range.mp hi, h⟩

theorem minCoeff_le (M : Mat ℚ) {i j : Nat} (hi : i < M.rows) (hj : j < M.cols) :
    M.minCoeff ≤ M.coeff i j := by
  have hmem : (i, j) ∈ Mat.colMajor M.rows M.cols := Mat.mem_colMajor.mpr ⟨hi, hj⟩
  have h := foldl_min_le_mem (fun p : Nat × Nat => M.coeff p.1 p.2)
    (Mat.colMajor M.rows M.cols) (M.coeff 0 0) hmem
  simp only at h
  unfold Mat.minCoeff
  exact h

theorem le_minCoeff (M : Mat ℚ) (c : ℚ) (hr : 0 < M.rows) (hc : 0 < M.cols)
    (h : ∀ i j, i < M.rows → j < M.cols → c ≤ M.coeff i j) : c ≤ M.minCoeff := by
  unfold Mat.minCoeff
  exact le_foldl_min (fun p : Nat × Nat => M.coeff p.1 p.2)
    (Mat.colMajor M.rows M.cols) (M.coeff 0 0) c (h 0 0 hr hc)
    (fun p hp => h p.1 p.2 (Mat.mem_colMajor.mp hp).1 (Mat.mem_colMajor.mp hp).2)

theorem isApproxZERO_iff (x : ℚ) : IsApproxZERO x = true ↔ x ≤ 1 / 1000000 := by
  unfold IsApproxZERO
  exact decide_eq_true_iff

theorem isApproxZERO_mono {x y : ℚ} (h : x ≤ y) (hy : IsApproxZERO y = true) :
    IsApproxZERO x = true :=
  (isApproxZERO_iff x).mpr (le_trans h ((isApproxZERO_iff y).mp hy))

theorem pos_of_not_isApproxZERO {x : ℚ} (h : (!IsApproxZERO x) = true) : 0 < x := by
  have h1 : ¬ IsApproxZERO x = true := by simpa using h
  rw [isApproxZERO_iff] at h1
  have h2 : (0 : ℚ) < 1 / 1000000 := by norm_num
  exact lt_trans h2 (not_le.mp h1)

/-! ## The reduction steps -/

theorem leOn_refl (W : Mat ℚ) : LeOn W W := ⟨rfl, rfl, fun _ _ _ _ => le_refl _⟩

theorem leOn_trans {A B C : Mat ℚ} (h1 : LeOn A B) (h2 : LeOn B C) : LeOn A C := by
  obtain ⟨a1, a2, a3⟩ := h1
  obtain ⟨b1, b2, b3⟩ := h2
  exact ⟨a1.trans b1, a2.trans b2, fun i j hi hj =>
    le_trans (a3 i j (b1 ▸ hi) (b2 ▸ hj)) (b3 i j hi hj)⟩

theorem subtractRowMin_le (W : Mat ℚ) (row : Nat) : LeOn (subtractRowMin W row) W := by
  unfold subtractRowMin
  simp only
  split
  · rename_i h
    refine ⟨rfl, rfl, ?_⟩
    intro i j hi hj
    rw [Mat.coeff_ofFn _ hi hj]
    have hpos := pos_of_not_isApproxZERO h
    split
    · linarith
    · exact le_refl _
  · exact leOn_refl W

theorem subtractColMin_le (W : Mat ℚ) (col : Nat) : LeOn (subtractColMin W col) W := by
  unfold subtractColMin
  simp only
  split
  · rename_i h
    refine ⟨rfl, rfl, ?_⟩
    intro i j hi hj
    rw [Mat.coeff_ofFn _ hi hj]
    have hpos := pos_of_not_isApproxZERO h
    split
    · linarith
    · exact le_refl _
  · exact leOn_refl W

theorem foldl_subtractRowMin_le (l : List Nat) (W : Mat ℚ) :
    LeOn (l.foldl subtractRowMin W) W := by
  induction l generalizing W with
  | nil => exact leOn_refl W
  | cons x xs ih => exact leOn_trans (ih _) (subtractRowMin_le W x)

theorem foldl_subtractColMin_le (l : List Nat) (W : Mat ℚ) :
    LeOn (l.foldl subtractColMin W) W := by
  induction l generalizing W with
  | nil => exact leOn_refl W
  | cons x xs ih => exact leOn_trans (ih _) (subtractColMin_le W x)

theorem leOn_row_zero {A B : Mat ℚ} (h : LeOn A B) {i : Nat} (hi : i < B.rows)
    (hz : ∃ j, j < B.cols ∧ IsApproxZERO (B.coeff i j) = true) :
    ∃ j, j < A.cols ∧ IsApproxZERO (A.coeff i j) = true := by
  obtain ⟨j, hj, hzj⟩ := hz
  exact ⟨j, h.2.1 ▸ hj, isApproxZERO_mono (h.2.2 i j hi hj) hzj⟩

theorem leOn_col_zero {A B : Mat ℚ} (h : LeOn A B) {j : Nat} (hj : j < B.cols)
    (hz : ∃ i, i < B.rows ∧ IsApproxZERO (B.coeff i j) = true) :
    ∃ i, i < A.rows ∧ IsApproxZERO (A.coeff i j) = true := by
  obtain ⟨i, hi, hzi⟩ := hz
  exact ⟨i, h.1 ▸ hi, isApproxZERO_mono (h.2.2 i j hi hj) hzi⟩

theorem subtractRowMin_zero (W : Mat ℚ) {row : Nat} (hr : row < W.rows) (hc : 0 < W.cols) :
    ∃ j, j < (subtractRowMin W row).cols ∧
      IsApproxZERO ((subtractRowMin W row).coeff row j) = true := by
  obtain ⟨j, hj, hmin⟩ := rowMinCoeff_attained W row hc
  unfold subtractRowMin
  simp only
  split
  · refine ⟨j, hj, ?_⟩
    rw [Mat.coeff_ofFn _ hr hj, if_pos rfl, hmin, sub_self]
    decide!
  · rename_i h
    refine ⟨j, hj, ?_⟩
    rw [← hmin]
    simpa using h

theorem subtractColMin_zero (W : Mat ℚ) {col : Nat} (hc : col < W.cols) (hr : 0 < W.rows) :
    ∃ i, i < (subtractColMin W col).rows ∧
      IsApproxZERO ((subtractColMin W col).coeff i col) = true := by
  obtain ⟨i, hi, hmin⟩ := colMinCoeff_attained W col hr
  unfold subtractColMin
  simp only
  split
  · refine ⟨i, hi, ?_⟩
    rw [Mat.coeff_ofFn _ hi hc, if_pos rfl, hmin, sub_self]
    decide!
  · rename_i h
    refine ⟨i, hi, ?_⟩
    rw [← hmin]
    simpa using h

theorem foldl_subtractRowMin_zero (l : List Nat) (W : Mat ℚ) (hc : 0 < W.cols)
    (hl : ∀ i ∈ l, i < W.rows) :
    ∀ i ∈ l, ∃ j, j < (l.foldl subtractRowMin W).cols ∧
      IsApproxZERO ((l.foldl subtractRowMin W).coeff i j) = true := by
  induction l generalizing W with
  | nil =>
    intro i hi
    exact absurd hi (List.not_mem_nil _)
  | cons x xs ih =>
    intro i hi
    have hx : x < W.rows := hl x (List.mem_cons_self _ _)
    have hd := subtractRowMin_dims W x
    rw [List.foldl_cons]
    by_cases hmem : i ∈ xs
    · exact ih (subtractRowMin W x) (by rw [hd.2]; exact hc)
        (fun k hk => by rw [hd.1]; exact hl k (List.mem_cons_of_mem _ hk)) i hmem
    · have hix : i = x := by
        rcases List.mem_cons.mp hi with h | h
        · exact h
        · exact absurd h hmem
      subst hix
      exact leOn_row_zero (foldl_subtractRowMin_le xs _) (by rw [hd.1]; exact hx)
        (subtractRowMin_zero W hx hc)

theorem foldl_subtractColMin_zero (l : List Nat) (W : Mat ℚ) (hr : 0 < W.rows)
    (hl : ∀ j ∈ l, j < W.cols) :
    ∀ j ∈ l, ∃ i, i < (l.foldl subtractColMin W).rows ∧
      IsApproxZERO ((l.foldl subtractColMin W).coeff i j) = true := by
  induction l generalizing W with
  | nil =>
    intro j hj
    exact absurd hj (List.not_mem_nil _)
  | cons x xs ih =>
    intro j hj
    have hx : x < W.cols := hl x (List.mem_cons_self _ _)
    have hd := subtractColMin_dims W x
    rw [List.foldl_cons]
    by_cases hmem : j ∈ xs
    · exact ih (subtractColMin W x) (by rw [hd.1]; exact hr)
        (fun k hk => by rw [hd.2]; exact hl k (List.mem_cons_of_mem _ hk)) j hmem
    · have hjx : j = x := by
        rcases List.mem_cons.mp hj with h | h
        · exact h
        · exact absurd h hmem
      subst hjx
      exact leOn_col_zero (foldl_subtractColMin_le xs _) (by rw [hd.2]; exact hx)
        (subtractColMin_zero W hx hr)

theorem rows_then_cols_zeros {N : Nat} (W : Mat ℚ) (hr : W.rows = N) (hc : W.cols = N) :
    (∀ i, i < N → ∃ j, j < N ∧ IsApproxZERO
      (((List.range N).foldl subtractColMin
        ((List.range N).foldl subtractRowMin W)).coeff i j) = true) ∧
    (∀ j, j < N → ∃ i, i < N ∧ IsApproxZERO
      (((List.range N).foldl subtractColMin
        ((List.range N).foldl subtractRowMin W)).coeff i j) = true) := by
  have hd1 := foldl_subtractRowMin_dims (List.range N) W
  have hd2 := foldl_subtractColMin_dims (List.range N) ((List.range N).foldl subtractRowMin W)
  rw [hr, hc] at hd1
  rw [hd1.1, hd1.2] at hd2
  constructor
  · intro i hi
    have hpos : 0 < W.cols := by omega
    have h1 := foldl_subtractRowMin_zero (List.range N) W hpos
      (fun k hk => by rw [hr]; exact List.mem_range.mp hk) i (List.mem_range.mpr hi)
    have h2 := leOn_row_zero (foldl_subtractColMin_le (List.range N) _)
      (by rw [hd1.1]; exact hi) h1
    rw [hd2.2] at h2
    exact h2
  · intro j hj
    have hpos : 0 < ((List.range N).foldl subtractRowMin W).rows := by omega
    have h1 := foldl_subtractColMin_zero (List.range N) _ hpos
      (fun k hk => by rw [hd1.2]; exact List.mem_range.mp hk) j (List.mem_range.mpr hj)
    rw [hd2.1] at h1
    exact h1

theorem cols_then_rows_zeros {N : Nat} (W : Mat ℚ) (hr : W.rows = N) (hc : W.cols = N) :
    (∀ i, i < N → ∃ j, j < N ∧ IsApproxZERO
      (((List.range N).foldl subtractRowMin
        ((List.range N).foldl subtractColMin W)).coeff i j) = true) ∧
    (∀ j, j < N → ∃ i, i < N ∧ IsApproxZERO
      (((List.range N).foldl subtractRowMin
        ((List.range N).foldl subtractColMin W)).coeff i j) = true) := by
  have hd1 := foldl_subtractColMin_dims (List.range N) W
  have hd2 := foldl_subtractRowMin_dims (List.range N) ((List.range N).foldl subtractColMin W)
  rw [hr, hc] at hd1
  rw [hd1.1, hd1.2] at hd2
  constructor
  · intro i hi
    have hpos : 0 < ((List.range N).foldl subtractColMin W).cols := by omega
    have h1 := foldl_subtractRowMin_zero (List.range N) _ hpos
      (fun k hk => by rw [hd1.1]; exact List.mem_range.mp hk) i (List.mem_range.mpr hi)
    rw [hd2.2] at h1
    exact h1
  · intro j hj
    have hpos : 0 < W.rows := by omega
    have h1 := foldl_subtractColMin_zero (List.range N) W hpos
      (fun k hk => by rw [hc]; exact List.mem_range.mp hk) j (List.mem_range.mpr hj)
    have h2 := leOn_col_zero (foldl_subtractRowMin_le (List.range N) _)
      (by rw [hd1.2]; exact hj) h1
    rw [hd2.1] at h2
    exact h2

theorem reduce_zeros {N : Nat} {self : HungarianAlgorithm} (hs : Sized N self) :
    (∀ i, i < N → ∃ j, j < N ∧
      IsApproxZERO ((reduce self).workingMatrix.coeff i j) = true) ∧
    (∀ j, j < N → ∃ i, i < N ∧
      IsApproxZERO ((reduce self).workingMatrix.coeff i j) = true) := by
  obtain ⟨h1, h2, h3, _⟩ := hs
  unfold reduce
  split
  · have h := rows_then_cols_zeros self.workingMatrix h2 h3
    simp only [SubtractColMinima, SubtractRowMinima, h1]
    exact h
  · have h := cols_then_rows_zeros self.workingMatrix h2 h3
    simp only [SubtractColMinima, SubtractRowMinima, h1]
    exact h

/-- C16: whenever `SetCostFunctionMatrix` accepts a matrix (all entries non-negative),
after the reduction stage of `SolveAssignmentProblem` (row minima then column minima when
`nrRows >= nrCols`, the reverse order otherwise) every row and every column of the
`matrixSize × matrixSize` working matrix has an entry that passes `IsApproxZERO`; the same
holds for the reduction run on any object whose matrices are `N × N`. -/
theorem C16_reduction_creates_zeros :
    (∀ (self : HungarianAlgorithm) (M : Mat ℚ), (SetCostFunctionMatrix self M).error = none →
      (∀ i, i < max M.rows M.cols → ∃ j, j < max M.rows M.cols ∧ IsApproxZERO
        ((reduce (SetCostFunctionMatrix self M).state).workingMatrix.coeff i j) = true) ∧
      (∀ j, j < max M.rows M.cols → ∃ i, i < max M.rows M.cols ∧ IsApproxZERO
        ((reduce (SetCostFunctionMatrix self M).state).workingMatrix.coeff i j) = true)) ∧
    (∀ (N : Nat) (self : HungarianAlgorithm), Sized N self →
      (∀ i, i < N → ∃ j, j < N ∧
        IsApproxZERO ((reduce self).workingMatrix.coeff i j) = true) ∧
      (∀ j, j < N → ∃ i, i < N ∧
        IsApproxZERO ((reduce self).workingMatrix.coeff i j) = true)) :=
  ⟨fun self M hset => reduce_zeros (set_sized self M hset), fun _ _ hs => reduce_zeros hs⟩

/-- Witness for C16: the reduction of the padded 3×2 matrix `costTall`. -/
theorem C16_reduction_creates_zeros_witness :
    (SetCostFunctionMatrix HungarianAlgorithm.construct costTall).error = none ∧
    (∀ i, i < max costTall.rows costTall.cols → ∃ j, j < max costTall.rows costTall.cols ∧
      IsApproxZERO ((reduce (SetCostFunctionMatrix HungarianAlgorithm.construct
        costTall).state).workingMatrix.coeff i j) = true) :=
  have hset : (SetCostFunctionMatrix HungarianAlgorithm.construct costTall).error = none := by
    decide!
  ⟨hset, (C16_reduction_creates_zeros.1 HungarianAlgorithm.construct costTall hset).1⟩

/-! ## Reduction is idempotent -/

theorem subtractRowMin_fixed (W : Mat ℚ) (row : Nat)
    (h : IsApproxZERO (W.rowMinCoeff row) = true) : subtractRowMin W row = W := by
  unfold subtractRowMin
  simp only [h, Bool.not_true, Bool.false_eq_true, if_false]

theorem subtractColMin_fixed (W : Mat ℚ) (col : Nat)
    (h : IsApproxZERO (W.colMinCoeff col) = true) : subtractColMin W col = W := by
  unfold subtractColMin
  simp only [h, Bool.not_true, Bool.false_eq_true, if_false]

theorem foldl_subtractRowMin_fixed (l : List Nat) (W : Mat ℚ)
    (h : ∀ i ∈ l, IsApproxZERO (W.rowMinCoeff i) = true) : l.foldl subtractRowMin W = W := by
  induction l with
  | nil => rfl
  | cons x xs ih =>
    rw [List.foldl_cons, subtractRowMin_fixed W x (h x (List.mem_cons_self _ _))]
    exact ih (fun i hi => h i (List.mem_cons_of_mem _ hi))

theorem foldl_subtractColMin_fixed (l : List Nat) (W : Mat ℚ)
    (h : ∀ j ∈ l, IsApproxZERO (W.colMinCoeff j) = true) : l.foldl subtractColMin W = W := by
  induction l with
  | nil => rfl
  | cons x xs ih =>
    rw [List.foldl_cons, subtractColMin_fixed W x (h x (List.mem_cons_self _ _))]
    exact ih (fun j hj => h j (List.mem_cons_of_mem _ hj))

theorem subtractRowMinima_fixed (self : HungarianAlgorithm)
    (h : ∀ i, i < self.matrixSize → IsApproxZERO (self.workingMatrix.rowMinCoeff i) = true) :
    SubtractRowMinima self = self := by
  unfold SubtractRowMinima
  rw [foldl_subtractRowMin_fixed _ _ (fun i hi => h i (List.mem_range.mp hi))]

theorem subtractColMinima_fixed (self : HungarianAlgorithm)
    (h : ∀ j, j < self.matrixSize → IsApproxZERO (self.workingMatrix.colMinCoeff j) = true) :
    SubtractColMinima self = self := by
  unfold SubtractColMinima
  rw [foldl_subtractColMin_fixed _ _ (fun j hj => h j (List.mem_range.mp hj))]

theorem reduce_minima {N : Nat} {self : HungarianAlgorithm} (hs : Sized N self) :
    (∀ i, i < (reduce self).matrixSize →
      IsApproxZERO ((reduce self).workingMatrix.rowMinCoeff i) = true) ∧
    (∀ j, j < (reduce self).matrixSize →
      IsApproxZERO ((reduce self).workingMatrix.colMinCoeff j) = true) := by
  obtain ⟨hz1, hz2⟩ := reduce_zeros hs
  obtain ⟨h1, h2, h3, _⟩ := reduce_sized hs
  rw [h1]
  constructor
  · intro i hi
    obtain ⟨j, hj, hz⟩ := hz1 i hi
    exact isApproxZERO_mono (rowMinCoeff_le _ i (by rw [h3]; exact hj)) hz
  · intro j hj
    obtain ⟨i, hi, hz⟩ := hz2 j hj
    exact isApproxZERO_mono (colMinCoeff_le _ j (by rw [h2]; exact hi)) hz

theorem reduce_fixed (self : HungarianAlgorithm)
    (hr : SubtractRowMinima self = self) (hc : SubtractColMinima self = self) :
    reduce self = self := by
  unfold reduce
  split
  · rw [hr, hc]
  · rw [hc, hr]

/-- C17: on an object whose matrices are `N × N` (in particular after a successful
`SetCostFunctionMatrix`), the result of the reduction stage is left unchanged by
`SubtractRowMinima`, by `SubtractColMinima`, by both in either order and by the reduction
stage itself; and any object whose row minima (column minima) of the working matrix are
all 0 is left unchanged by `SubtractRowMinima` (`SubtractColMinima`). -/
theorem C17_reduction_idempotent :
    (∀ (N : Nat) (self : HungarianAlgorithm), Sized N self →
      SubtractRowMinima (reduce self) = reduce self ∧
      SubtractColMinima (reduce self) = reduce self ∧
      SubtractColMinima (SubtractRowMinima (reduce self)) = reduce self ∧
      SubtractRowMinima (SubtractColMinima (reduce self)) = reduce self ∧
      reduce (reduce self) = reduce self) ∧
    (∀ (self : HungarianAlgorithm) (M : Mat ℚ), (SetCostFunctionMatrix self M).error = none →
      SubtractColMinima (SubtractRowMinima (reduce (SetCostFunctionMatrix self M).state)) =
        reduce (SetCostFunctionMatrix self M).state ∧
      SubtractRowMinima (SubtractColMinima (reduce (SetCostFunctionMatrix self M).state)) =
        reduce (SetCostFunctionMatrix self M).state) ∧
    (∀ self : HungarianAlgorithm,
      (∀ i, i < self.matrixSize → self.workingMatrix.rowMinCoeff i = 0) →
      SubtractRowMinima self = self) ∧
    (∀ self : HungarianAlgorithm,
      (∀ j, j < self.matrixSize → self.workingMatrix.colMinCoeff j = 0) →
      SubtractColMinima self = self) := by
  have key : ∀ (N : Nat) (self : HungarianAlgorithm), Sized N self →
      SubtractRowMinima (reduce self) = reduce self ∧
      SubtractColMinima (reduce self) = reduce self := by
    intro N self hs
    obtain ⟨h1, h2⟩ := reduce_minima hs
    exact ⟨subtractRowMinima_fixed _ h1, subtractColMinima_fixed _ h2⟩
  refine ⟨?_, ?_, ?_, ?_⟩
  · intro N self hs
    obtain ⟨hr, hc⟩ := key N self hs
    refine ⟨hr, hc, ?_, ?_, reduce_fixed _ hr hc⟩
    · rw [hr, hc]
    · rw [hc, hr]
  · intro self M hset
    obtain ⟨hr, hc⟩ := key _ _ (set_sized self M hset)
    constructor
    · rw [hr, hc]
    · rw [hc, hr]
  · intro self h
    apply subtractRowMinima_fixed
    intro i hi
    rw [h i hi]
    decide!
  · intro self h
    apply subtractColMinima_fixed
    intro j hj
    rw [h j hj]
    decide!

/-- Witness for C17: the reduction of the padded 3×2 matrix `costTall` is a fixed point of
both steps. -/
theorem C17_reduction_idempotent_witness :
    (SetCostFunctionMatrix HungarianAlgorithm.construct costTall).error = none ∧
    SubtractColMinima (SubtractRowMinima
        (reduce (SetCostFunctionMatrix HungarianAlgorithm.construct costTall).state)) =
      reduce (SetCostFunctionMatrix HungarianAlgorithm.construct costTall).state ∧
    SubtractRowMinima (SubtractColMinima
        (reduce (SetCostFunctionMatrix HungarianAlgorithm.construct costTall).state)) =
      reduce (SetCostFunctionMatrix HungarianAlgorithm.construct costTall).state :=
  have hset : (SetCostFunctionMatrix HungarianAlgorithm.construct costTall).error = none := by
    decide!
  ⟨hset, C17_reduction_idempotent.2.1 HungarianAlgorithm.construct costTall hset⟩

/-! ## Non-negativity of the working matrix -/

theorem subtractRowMin_nonneg {N : Nat} (W : Mat ℚ) (row : Nat) (hr : W.rows = N)
    (hc : W.cols = N) (h : NonNeg N W) : NonNeg N (subtractRowMin W row) := by
  intro i j hi hj
  unfold subtractRowMin
  simp only
  split
  · rw [Mat.coeff_ofFn _ (hr ▸ hi) (hc ▸ hj)]
    split
    · rename_i hir
      have := rowMinCoeff_le W row (hc ▸ hj : j < W.cols)
      rw [hir]
      linarith
    · exact h i j hi hj
  · exact h i j hi hj

theorem subtractColMin_nonneg {N : Nat} (W : Mat ℚ) (col : Nat) (hr : W.rows = N)
    (hc : W.cols = N) (h : NonNeg N W) : NonNeg N (subtractColMin W col) := by
  intro i j hi hj
  unfold subtractColMin
  simp only
  split
  · rw [Mat.coeff_ofFn _ (hr ▸ hi) (hc ▸ hj)]
    split
    · rename_i hjc
      have := colMinCoeff_le W col (hr ▸ hi : i < W.rows)
      rw [hjc]
      linarith
    · exact h i j hi hj
  · exact h i j hi hj

theorem foldl_subtractRowMin_nonneg {N : Nat} (l : List Nat) (W : Mat ℚ) (hr : W.rows = N)
    (hc : W.cols = N) (h : NonNeg N W) : NonNeg N (l.foldl subtractRowMin W) := by
  induction l generalizing W with
  | nil => exact h
  | cons x xs ih =>
    have hd := subtractRowMin_dims W x
    exact ih _ (hd.1.trans hr) (hd.2.trans hc) (subtractRowMin_nonneg W x hr hc h)

theorem foldl_subtractColMin_nonneg {N : Nat} (l : List Nat) (W : Mat ℚ) (hr : W.rows = N)
    (hc : W.cols = N) (h : NonNeg N W) : NonNeg N (l.foldl subtractColMin W) := by
  induction l generalizing W with
  | nil => exact h
  | cons x xs ih =>
    have hd := subtractColMin_dims W x
    exact ih _ (hd.1.trans hr) (hd.2.trans hc) (subtractColMin_nonneg W x hr hc h)

theorem subtractRowMinima_nonneg {N : Nat} {self : HungarianAlgorithm} (hs : Sized N self)
    (h : NonNeg N self.workingMatrix) : NonNeg N (SubtractRowMinima self).workingMatrix :=
  foldl_subtractRowMin_nonneg _ _ hs.2.1 hs.2.2.1 h

theorem subtractColMinima_nonneg {N : Nat} {self : HungarianAlgorithm} (hs : Sized N self)
    (h : NonNeg N self.workingMatrix) : NonNeg N (SubtractColMinima self).workingMatrix :=
  foldl_subtractColMin_nonneg _ _ hs.2.1 hs.2.2.1 h

theorem reduce_nonneg {N : Nat} {self : HungarianAlgorithm} (hs : Sized N self)
    (h : NonNeg N self.workingMatrix) : NonNeg N (reduce self).workingMatrix := by
  unfold reduce
  split
  · exact subtractColMinima_nonneg (subtractRowMinima_sized hs) (subtractRowMinima_nonneg hs h)
  · exact subtractRowMinima_nonneg (subtractColMinima_sized hs) (subtractColMinima_nonneg hs h)

theorem augment_nonneg {N : Nat} {self : HungarianAlgorithm} (hs : Sized N self)
    (h : NonNeg N self.workingMatrix) (hd : 0 ≤ self.dummyCost + 1) :
    NonNeg N (AugmentCostFunctionMatrix self).workingMatrix := by
  obtain ⟨h1, h2, h3, h4, h5, _, _⟩ := hs
  intro i j hi hj
  have hN : 0 < N := by omega
  have hmu0 : 0 ≤ (Mat.ofFn self.coveredMatrix.rows self.coveredMatrix.cols
      (fun i j => if (!self.coveredMatrix.coeff i j) = true then self.workingMatrix.coeff i j
        else self.dummyCost + 1)).minCoeff := by
    apply le_minCoeff
    · rw [Mat.ofFn_rows, h4]; exact hN
    · rw [Mat.ofFn_cols, h5]; exact hN
    · intro a b ha hb
      rw [Mat.ofFn_rows] at ha
      rw [Mat.ofFn_cols] at hb
      rw [Mat.coeff_ofFn _ ha hb]
      split
      · exact h a b (h4 ▸ ha) (h5 ▸ hb)
      · exact hd
  have hmule := minCoeff_le (Mat.ofFn self.coveredMatrix.rows self.coveredMatrix.cols
      (fun i j => if (!self.coveredMatrix.coeff i j) = true then self.workingMatrix.coeff i j
        else self.dummyCost + 1)) (i := i) (j := j)
      (by rw [Mat.ofFn_rows, h4]; exact hi) (by rw [Mat.ofFn_cols, h5]; exact hj)
  rw [Mat.coeff_ofFn _ (h4.symm ▸ hi) (h5.symm ▸ hj)] at hmule
  have hW1 : 0 ≤ (Mat.ofFn self.coveredMatrix.rows self.coveredMatrix.cols
      (fun i j => if (!self.coveredMatrix.coeff i j) = true then
        self.workingMatrix.coeff i j -
          (Mat.ofFn self.coveredMatrix.rows self.coveredMatrix.cols
            (fun i j => if (!self.coveredMatrix.coeff i j) = true then
              self.workingMatrix.coeff i j else self.dummyCost + 1)).minCoeff
        else self.workingMatrix.coeff i j)).coeff i j := by
    rw [Mat.coeff_ofFn _ (h4.symm ▸ hi) (h5.symm ▸ hj)]
    split
    · rename_i hu
      rw [if_pos hu] at hmule
      linarith
    · exact h i j hi hj
  unfold AugmentCostFunctionMatrix
  simp only [Mat.ofFn_rows, Mat.ofFn_cols]
  rw [Mat.coeff_ofFn _ (h4.symm ▸ hi) (h5.symm ▸ hj)]
  split
  · linarith
  · exact hW1

theorem set_dummy_nonneg (self : HungarianAlgorithm) (M : Mat ℚ)
    (hset : (SetCostFunctionMatrix self M).error = none)
    (hr : 0 < M.rows) (hc : 0 < M.cols) :
    0 ≤ (SetCostFunctionMatrix self M).state.dummyCost := by
  have h0 := set_ok_nonneg self M hset 0 0 hr hc
  have h1 := M.coeff_le_maxCoeff hr hc
  rw [set_state_of_ok self M hset]
  simp only
  linarith

theorem set_nonneg (self : HungarianAlgorithm) (M : Mat ℚ)
    (hset : (SetCostFunctionMatrix self M).error = none)
    (hr : 0 < M.rows) (hc : 0 < M.cols) :
    NonNeg (max M.rows M.cols) (SetCostFunctionMatrix self M).state.workingMatrix := by
  have hd := set_dummy_nonneg self M hset hr hc
  have hnn := set_ok_nonneg self M hset
  rw [set_state_of_ok self M hset] at hd ⊢
  simp only [set_matrixSize_eq_max] at hd ⊢
  intro i j hi hj
  by_cases hsq : M.rows = M.cols
  · simp only [hsq, ne_eq, not_true_eq_false, if_false]
    rw [hsq, max_self] at hi hj
    exact hnn i j (hsq ▸ hi) hj
  · simp only [ne_eq, hsq, not_false_eq_true, if_true]
    rw [Mat.coeff_ofFn _ hi hj]
    split
    · rename_i hin
      exact hnn i j hin.1 hin.2
    · exact hd

theorem augmentRounds_nonneg {N : Nat} (k : Nat) :
    ∀ (self t : HungarianAlgorithm), Sized N self → NonNeg N self.workingMatrix →
      0 ≤ self.dummyCost + 1 → augmentRounds k self = some t →
      NonNeg N t.workingMatrix := by
  induction k with
  | zero =>
    intro self t _ h _ ht
    have hst : self = t := Option.some.inj ht
    subst hst
    exact h
  | succ k ih =>
    intro self t hs h hd ht
    rw [augmentRounds] at ht
    split at ht
    · exact absurd ht (by simp)
    · rename_i s1 n hc
      obtain ⟨hs1, _⟩ := cover_spec hs hc
      obtain ⟨hsame, hW, _, _⟩ := cover_frame hc
      have hd1 : 0 ≤ s1.dummyCost + 1 := by
        rw [hsame.2.2.2.1]
        exact hd
      have h1 : NonNeg N s1.workingMatrix := by
        rw [hW]
        exact h
      exact ih (AugmentCostFunctionMatrix s1) t (augment_sized hs1)
        (augment_nonneg hs1 h1 hd1) hd1 ht

theorem augmentRounds_total {N : Nat} (k : Nat) :
    ∀ self : HungarianAlgorithm, Sized N self → ∃ t, augmentRounds k self = some t := by
  induction k with
  | zero =>
    intro self _
    exact ⟨self, rfl⟩
  | succ k ih =>
    intro self hs
    obtain ⟨s1, n, hc⟩ := cover_total hs
    obtain ⟨hs1, _⟩ := cover_spec hs hc
    obtain ⟨t, ht⟩ := ih (AugmentCostFunctionMatrix s1) (augment_sized hs1)
    exact ⟨t, by rw [augmentRounds_succ k hc]; exact ht⟩

/-- C18: when `SetCostFunctionMatrix` accepts a matrix with at least one row and one
column (all entries non-negative), every entry of the `matrixSize × matrixSize` working
matrix is at least 0 after `SetCostFunctionMatrix`, after `SubtractRowMinima`, after
`SubtractColMinima`, after both in either order, after the reduction stage, and after
every round of `MinNrOfLinesToCoverAllZeros` followed by `AugmentCostFunctionMatrix`
that follows the reduction (each of these rounds completes). -/
theorem C18_nonnegativity (self : HungarianAlgorithm) (M : Mat ℚ)
    (hset : (SetCostFunctionMatrix self M).error = none)
    (hr : 0 < M.rows) (hc : 0 < M.cols) :
    NonNeg (max M.rows M.cols) (SetCostFunctionMatrix self M).state.workingMatrix ∧
    NonNeg (max M.rows M.cols)
      (SubtractRowMinima (SetCostFunctionMatrix self M).state).workingMatrix ∧
    NonNeg (max M.rows M.cols)
      (SubtractColMinima (SetCostFunctionMatrix self M).state).workingMatrix ∧
    NonNeg (max M.rows M.cols)
      (SubtractColMinima (SubtractRowMinima
        (SetCostFunctionMatrix self M).state)).workingMatrix ∧
    NonNeg (max M.rows M.cols)
      (SubtractRowMinima (SubtractColMinima
        (SetCostFunctionMatrix self M).state)).workingMatrix ∧
    NonNeg (max M.rows M.cols) (reduce (SetCostFunctionMatrix self M).state).workingMatrix ∧
    ∀ k, ∃ t, augmentRounds k (reduce (SetCostFunctionMatrix self M).state) = some t ∧
      NonNeg (max M.rows M.cols) t.workingMatrix := by
  have hs := set_sized self M hset
  have h0 := set_nonneg self M hset hr hc
  have hd := set_dummy_nonneg self M hset hr hc
  refine ⟨h0, subtractRowMinima_nonneg hs h0, subtractColMinima_nonneg hs h0,
    subtractColMinima_nonneg (subtractRowMinima_sized hs) (subtractRowMinima_nonneg hs h0),
    subtractRowMinima_nonneg (subtractColMinima_sized hs) (subtractColMinima_nonneg hs h0),
    reduce_nonneg hs h0, ?_⟩
  intro k
  obtain ⟨t, ht⟩ := augmentRounds_total k _ (reduce_sized hs)
  refine ⟨t, ht, augmentRounds_nonneg k _ t (reduce_sized hs) (reduce_nonneg hs h0) ?_ ht⟩
  rw [(reduce_frame _).1.2.2.2.1]
  linarith

/-- Witness for C18: the matrix `costPlateau`, on which `SolveAssignmentProblem` augments
the working matrix. -/
theorem C18_nonnegativity_witness :
    (SetCostFunctionMatrix HungarianAlgorithm.construct costPlateau).error = none ∧
    0 < costPlateau.rows ∧ 0 < costPlateau.cols ∧
    NonNeg (max costPlateau.rows costPlateau.cols)
      (reduce (SetCostFunctionMatrix HungarianAlgorithm.construct
        costPlateau).state).workingMatrix :=
  have hset : (SetCostFunctionMatrix HungarianAlgorithm.construct costPlateau).error = none := by
    decide!
  ⟨hset, by decide, by decide,
   (C18_nonnegativity HungarianAlgorithm.construct costPlateau hset
      (by decide) (by decide)).2.2.2.2.2.1⟩

/-! ## The lines drawn by `MinNrOfLinesToCoverAllZeros` -/

theorem linesInv_fillRow {N : Nat} {s : CoverState} (hcr : s.coveredMatrix.rows = N)
    (hcc : s.coveredMatrix.cols = N) (h : LinesInv N s) {r c : Nat} (hr : r < N) (hc : c < N)
    (hcov : s.coveredMatrix.coeff r c = false) (t : CoverState)
    (hret : t.returned = true → t.nrUncoveredZeroes = 0)
    (htc : t.coveredMatrix = s.coveredMatrix.fillRow r true)
    (htl : t.nrLinesToCoverZeroes = s.nrLinesToCoverZeroes + 1) : LinesInv N t := by
  obtain ⟨_, R, C, hR, hC, hcover, hlines⟩ := h
  have hrR : r ∉ R := by
    intro hin
    have := (hcover r c hr hc).mpr (Or.inl hin)
    rw [hcov] at this
    exact absurd this (by simp)
  refine ⟨hret, insert r R, C, ?_, hC, ?_, ?_⟩
  · intro i hi
    rcases Finset.mem_insert.mp hi with h1 | h1
    · rw [h1]; exact hr
    · exact hR i h1
  · intro i j hi hj
    rw [htc, Mat.coeff_fillRow _ _ _ (by rw [hcr]; exact hi) (by rw [hcc]; exact hj)]
    by_cases hir : i = r
    · simp [hir]
    · simp only [if_neg hir, Finset.mem_insert, hir, false_or]
      exact hcover i j hi hj
  · rw [htl, hlines, Finset.card_insert_of_not_mem hrR]
    omega

theorem linesInv_fillCol {N : Nat} {s : CoverState} (hcr : s.coveredMatrix.rows = N)
    (hcc : s.coveredMatrix.cols = N) (h : LinesInv N s) {r c : Nat} (hr : r < N) (hc : c < N)
    (hcov : s.coveredMatrix.coeff r c = false) (t : CoverState)
    (hret : t.returned = true → t.nrUncoveredZeroes = 0)
    (htc : t.coveredMatrix = s.coveredMatrix.fillCol c true)
    (htl : t.nrLinesToCoverZeroes = s.nrLinesToCoverZeroes + 1) : LinesInv N t := by
  obtain ⟨_, R, C, hR, hC, hcover, hlines⟩ := h
  have hcC : c ∉ C := by
    intro hin
    have := (hcover r c hr hc).mpr (Or.inr hin)
    rw [hcov] at this
    exact absurd this (by simp)
  refine ⟨hret, R, insert c C, hR, ?_, ?_, ?_⟩
  · intro j hj
    rcases Finset.mem_insert.mp hj with h1 | h1
    · rw [h1]; exact hc
    · exact hC j h1
  · intro i j hi hj
    rw [htc, Mat.coeff_fillCol _ _ _ (by rw [hcr]; exact hi) (by rw [hcc]; exact hj)]
    by_cases hjc : j = c
    · simp [hjc]
    · simp only [if_neg hjc, Finset.mem_insert, hjc, false_or]
      exact hcover i j hi hj
  · rw [htl, hlines, Finset.card_insert_of_not_mem hcC]
    omega

theorem coverDecide_lines {W : Mat ℚ} {N : Nat} {s : CoverState}
    (hcr : s.coveredMatrix.rows = N) (hcc : s.coveredMatrix.cols = N) (h : LinesInv N s)
    {r c : Nat} (hr : r < N) (hc : c < N) (hcov : s.coveredMatrix.coeff r c = false)
    (hret : s.returned = false) :
    LinesInv N (coverDecide W r c s) ∧ (coverDecide W r c s).returned = false := by
  have hrow : ∀ k, LinesInv N (coverRow s r k) := fun k =>
    linesInv_fillRow hcr hcc h hr hc hcov (coverRow s r k)
      (fun hx => absurd (hret ▸ hx : false = true) (by simp)) rfl rfl
  have hcol : ∀ k, LinesInv N (coverCol s c k) := fun k =>
    linesInv_fillCol hcr hcc h hr hc hcov (coverCol s c k)
      (fun hx => absurd (hret ▸ hx : false = true) (by simp)) rfl rfl
  unfold coverDecide
  simp only
  split
  · split
    · exact ⟨hrow _, hret⟩
    · split
      · exact ⟨hcol _, hret⟩
      · exact ⟨h, hret⟩
  · exact ⟨hrow _, hret⟩

theorem coverCell_lines {W : Mat ℚ} {N Z0 : Nat} {s : CoverState}
    (hinv : CoverInv W N Z0 s) (h : LinesInv N s) {r c : Nat} (hr : r < N) (hc : c < N) :
    LinesInv N (coverCell W r c s) := by
  unfold coverCell
  split
  · exact h
  · rename_i hnr
    split
    · rename_i hcov
      split
      · have hd := coverDecide_lines (W := W) hinv.1 hinv.2.1 h hr hc (by simpa using hcov)
          (by simpa using hnr)
        simp only
        split
        · rename_i hz
          exact ⟨fun _ => hz, hd.1.2⟩
        · exact hd.1
      · exact h
    · exact h

theorem coverScan_induct {W : Mat ℚ} {N Z0 : Nat} (hWr : W.rows = N) (hWc : W.cols = N)
    (P : CoverState → Prop)
    (hstep : ∀ (r c : Nat) (s : CoverState), r < N → c < N → CoverInv W N Z0 s → P s →
      P (coverCell W r c s))
    (idxRow idxCol : Nat) {s : CoverState} (h : CoverInv W N Z0 s) (hP : P s) :
    P (coverScan W N idxRow idxCol s) := by
  unfold coverScan
  have hinner : ∀ (row : Nat), row < N → ∀ (l : List Nat), (∀ x ∈ l, x < N) →
      ∀ s : CoverState, CoverInv W N Z0 s → P s →
        CoverInv W N Z0 (l.foldl (fun s col => coverCell W row col s) s) ∧
        P (l.foldl (fun s col => coverCell W row col s) s) := by
    intro row hrow l
    induction l with
    | nil => intro _ s hs hPs; exact ⟨hs, hPs⟩
    | cons x xs ih =>
      intro hl s hs hPs
      have hx := hl x (List.mem_cons_self _ _)
      exact ih (fun y hy => hl y (List.mem_cons_of_mem _ hy)) _
        (coverCell_inv hWr hWc hs hrow hx) (hstep row x s hrow hx hs hPs)
  have hcols : ∀ x ∈ List.range' idxCol (N - idxCol), x < N := by
    intro x hx
    have := List.mem_range'_1.mp hx
    omega
  have hrows : ∀ x ∈ List.range' idxRow (N - idxRow), x < N := by
    intro x hx
    have := List.mem_range'_1.mp hx
    omega
  generalize List.range' idxRow (N - idxRow) = lr at hrows
  induction lr generalizing s with
  | nil => exact hP
  | cons x xs ih =>
    obtain ⟨h1, h2⟩ := hinner x (hrows x (List.mem_cons_self _ _)) _ hcols s h hP
    exact ih h1 h2 (fun y hy => hrows y (List.mem_cons_of_mem _ hy))

theorem coverPass_lines {W : Mat ℚ} {N Z0 : Nat} {s : CoverState}
    (hWr : W.rows = N) (hWc : W.cols = N) (hinv : CoverInv W N Z0 s) (h : LinesInv N s)
    (hpos : s.nrUncoveredZeroes > 0) (hret : s.returned = false) :
    LinesInv N (coverPass W N s) := by
  have hinv0 : CoverInv W N Z0 { s with newZeroCovered := false } := hinv
  have h0 : LinesInv N { s with newZeroCovered := false } := h
  have hscan := coverScan_induct hWr hWc (LinesInv N)
    (fun r c t hr hc ht hl => coverCell_lines ht hl hr hc)
    (uncoveredZeroes W s.coveredMatrix).maxCoeffIdx.1
    (uncoveredZeroes W s.coveredMatrix).maxCoeffIdx.2 hinv0 h0
  unfold coverPass
  simp only
  split
  · exact hscan
  · split
    · rename_i hnr hnn
      have hnewf : (coverScan W N (uncoveredZeroes W s.coveredMatrix).maxCoeffIdx.1
          (uncoveredZeroes W s.coveredMatrix).maxCoeffIdx.2
          { s with newZeroCovered := false }).newZeroCovered = false := by
        simpa using hnn
      have hne : ({ s with newZeroCovered := false } : CoverState).nrUncoveredZeroes ≠ 0 := by
        show s.nrUncoveredZeroes ≠ 0
        omega
      obtain ⟨hsame, _⟩ := coverScan_new_false W N _ _ _ hne hnewf
      obtain ⟨hr, hc, hcell⟩ := coverInv_exists_uncovered hWr hWc hinv hpos
      obtain ⟨_, hcov⟩ := (uncovered_true_iff W s.coveredMatrix hWr hWc hr hc).mp hcell
      rw [hsame]
      exact linesInv_fillRow hinv.1 hinv.2.1 h0 hr hc hcov _
        (fun hx => absurd (hret ▸ hx : false = true) (by simp)) rfl rfl
    · exact hscan

theorem coverLoop_lines {W : Mat ℚ} {N Z0 : Nat} (hWr : W.rows = N) (hWc : W.cols = N)
    (fuel : Nat) :
    ∀ (s cs : CoverState), CoverInv W N Z0 s → LinesInv N s → s.returned = false →
      coverLoop W N fuel s = some cs → LinesInv N cs ∧ cs.nrUncoveredZeroes = 0 := by
  have hexit : ∀ s : CoverState, CoverInv W N Z0 s → ¬ s.nrUncoveredZeroes > 0 →
      s.nrUncoveredZeroes = 0 := by
    intro s hs hn
    have h1 := hs.2.2.1
    have h2 : (0 : Int) ≤ ((uncoveredZeroes W s.coveredMatrix).count : Int) :=
      Int.natCast_nonneg _
    omega
  induction fuel with
  | zero =>
    intro s cs h hl _ hloop
    rw [coverLoop] at hloop
    split at hloop
    · exact absurd hloop (by simp)
    · rename_i hn
      have hs := Option.some.inj hloop
      subst hs
      exact ⟨hl, hexit _ h hn⟩
  | succ n ih =>
    intro s cs h hl hret hloop
    rw [coverLoop] at hloop
    split at hloop
    · rename_i hpos
      have hp := coverPass_inv hWr hWc h hpos hret
      have hpl := coverPass_lines hWr hWc h hl hpos hret
      simp only at hloop
      split at hloop
      · rename_i hr
        have hs := Option.some.inj hloop
        subst hs
        exact ⟨hpl, hpl.1 hr⟩
      · rename_i hnr
        exact ih _ cs hp hpl (by simpa using hnr) hloop
    · rename_i hn
      have hs := Option.some.inj hloop
      subst hs
      exact ⟨hl, hexit _ h hn⟩

theorem count_pos_of_coeff (M : Mat Bool) {i j : Nat} (hi : i < M.rows) (hj : j < M.cols)
    (h : M.coeff i j = true) : 0 < M.count := by
  have hrow : 0 < M.rowCount i := by
    unfold Mat.rowCount
    exact countP_pos_of_mem (p := fun j => M.coeff i j) hj h
  have hsum := sum_range_zero_at (fun i => M.rowCount i) hi
  simp only at hsum
  rw [count_eq_sum_rowCount]
  omega

theorem linesInv_initial (cov : Mat Bool) {N : Nat} (hcr : cov.rows = N) (hcc : cov.cols = N)
    (z : Int) :
    LinesInv N
      { coveredMatrix := cov.fill false
        nrLinesToCoverZeroes := 0
        nrUncoveredZeroes := z
        newZeroCovered := false
        returned := false } := by
  refine ⟨fun hx => absurd hx (by simp), ∅, ∅, ?_, ?_, ?_, rfl⟩
  · intro i hi
    exact absurd hi (Finset.not_mem_empty i)
  · intro j hj
    exact absurd hj (Finset.not_mem_empty j)
  · intro i j hi hj
    simp only
    rw [Mat.coeff_fill _ _ (by rw [hcr]; exact hi) (by rw [hcc]; exact hj)]
    simp

theorem cover_lines {N : Nat} {self s : HungarianAlgorithm} {k : Nat} (hs : Sized N self)
    (h : MinNrOfLinesToCoverAllZeros self = some (s, k)) :
    s.nrLinesToCoverZeroes = k ∧
    ∃ R C : Finset Nat, (∀ i ∈ R, i < N) ∧ (∀ j ∈ C, j < N) ∧
      (∀ i j, i < N → j < N → (s.coveredMatrix.coeff i j = true ↔ (i ∈ R ∨ j ∈ C))) ∧
      (∀ i j, i < N → j < N → IsApproxZERO (self.workingMatrix.coeff i j) = true →
        (i ∈ R ∨ j ∈ C)) ∧
      k = R.card + C.card := by
  obtain ⟨cs, hloop, hseq, hk⟩ := cover_eq_some h
  obtain ⟨h1, h2, h3, h4, h5, _, _⟩ := hs
  rw [h1] at hloop
  have hinv := coverLoop_inv h2 h3 _ _ cs
    (coverInv_initial self.workingMatrix self.coveredMatrix h2 h3 h4 h5) rfl hloop
  obtain ⟨⟨_, R, C, hR, hC, hcover, hlines⟩, hzero⟩ := coverLoop_lines h2 h3 _ _ cs
    (coverInv_initial self.workingMatrix self.coveredMatrix h2 h3 h4 h5)
    (linesInv_initial self.coveredMatrix h4 h5 _) rfl hloop
  subst hseq
  refine ⟨hk.symm, R, C, hR, hC, hcover, ?_, by rw [hk]; exact hlines⟩
  intro i j hi hj hz
  rw [← hcover i j hi hj]
  by_contra hnc
  have hcell : (uncoveredZeroes self.workingMatrix cs.coveredMatrix).coeff i j = true := by
    rw [coeff_uncoveredZeroes _ _ (by rw [h2]; exact hi) (by rw [h3]; exact hj), hz]
    simpa using hnc
  have hpos := count_pos_of_coeff _ (by exact (h2.trans rfl ▸ hi : i < self.workingMatrix.rows))
    (by exact (h3 ▸ hj : j < self.workingMatrix.cols)) hcell
  have hunc := hinv.2.2.1
  rw [hzero] at hunc
  omega

/-- C19: on an object whose matrices are `N × N`, `MinNrOfLinesToCoverAllZeros` returns;
the working matrix is unchanged, there are a set of rows and a set of columns whose cells
are exactly the covered cells, every entry of the working matrix that passes
`IsApproxZERO` lies in one of these rows or columns, and the returned number is the number
of these rows plus the number of these columns.  The loop invariant `CoverInv` (the
counter of uncovered zeroes is exact) holds at the start, and every pass of the loop
started in a state with the invariant and an uncovered zero keeps the invariant and
leaves strictly fewer uncovered zeroes. -/
theorem C19_zero_cover_valid (N : Nat) (self : HungarianAlgorithm) (hs : Sized N self) :
    (∃ s k, MinNrOfLinesToCoverAllZeros self = some (s, k) ∧
      s.workingMatrix = self.workingMatrix ∧ s.nrLinesToCoverZeroes = k ∧
      ∃ R C : Finset Nat, (∀ i ∈ R, i < N) ∧ (∀ j ∈ C, j < N) ∧
        (∀ i j, i < N → j < N → (s.coveredMatrix.coeff i j = true ↔ (i ∈ R ∨ j ∈ C))) ∧
        (∀ i j, i < N → j < N → IsApproxZERO (self.workingMatrix.coeff i j) = true →
          (i ∈ R ∨ j ∈ C)) ∧
        k = R.card + C.card) ∧
    CoverInv self.workingMatrix N (zeroMask self.workingMatrix).count
      { coveredMatrix := self.coveredMatrix.fill false
        nrLinesToCoverZeroes := 0
        nrUncoveredZeroes := ((zeroMask self.workingMatrix).count : Int)
        newZeroCovered := false
        returned := false } ∧
    (∀ cs : CoverState, CoverInv self.workingMatrix N (zeroMask self.workingMatrix).count cs →
      cs.nrUncoveredZeroes > 0 → cs.returned = false →
      CoverInv self.workingMatrix N (zeroMask self.workingMatrix).count
        (coverPass self.workingMatrix N cs) ∧
      (uncoveredZeroes self.workingMatrix
          (coverPass self.workingMatrix N cs).coveredMatrix).count <
        (uncoveredZeroes self.workingMatrix cs.coveredMatrix).count) := by
  obtain ⟨s, k, hsk⟩ := cover_total hs
  obtain ⟨hl, hRC⟩ := cover_lines hs hsk
  refine ⟨⟨s, k, hsk, (cover_frame hsk).2.1, hl, hRC⟩, ?_, ?_⟩
  · exact coverInv_initial self.workingMatrix self.coveredMatrix hs.2.1 hs.2.2.1
      hs.2.2.2.1 hs.2.2.2.2.1
  · intro cs hinv hpos hret
    have hp := coverPass_inv hs.2.1 hs.2.2.1 hinv hpos hret
    have hdec := coverPass_decreases hs.2.1 hs.2.2.1 hinv hpos hret
    refine ⟨hp, ?_⟩
    rw [hp.2.2.1, hinv.2.2.1] at hdec
    exact_mod_cast hdec

/-- Witness for C19: the cover stage on the object set from `costTall`. -/
theorem C19_zero_cover_valid_witness :
    (SetCostFunctionMatrix HungarianAlgorithm.construct costTall).error = none ∧
    ∃ s k, MinNrOfLinesToCoverAllZeros
        (SetCostFunctionMatrix HungarianAlgorithm.construct costTall).state = some (s, k) ∧
      s.workingMatrix =
        (SetCostFunctionMatrix HungarianAlgorithm.construct costTall).state.workingMatrix ∧
      s.nrLinesToCoverZeroes = k :=
  have hset : (SetCostFunctionMatrix HungarianAlgorithm.construct costTall).error = none := by
    decide!
  ⟨hset,
   (C19_zero_cover_valid (max costTall.rows costTall.cols) _
      (set_sized HungarianAlgorithm.construct costTall hset)).1.imp
    (fun _ h => h.imp (fun _ h => ⟨h.1, h.2.1, h.2.2.1⟩))⟩

/-! ## The zero cover is not minimal -/

/-- C20 (the code departs from the claim): on the reduced non-negative 4×4 matrix
`costCycle`, `MinNrOfLinesToCoverAllZeros` returns 5, although the four rows cover every
entry that passes `IsApproxZERO`: the returned number is not the minimum number of
covering lines, and it exceeds `matrixSize = 4`. -/
theorem C20_cover_not_minimal :
    (SetCostFunctionMatrix HungarianAlgorithm.construct costCycle).error = none ∧
    cycleStart = (SetCostFunctionMatrix HungarianAlgorithm.construct costCycle).state ∧
    (reduce cycleStart).workingMatrix = costCycle ∧
    (reduce cycleStart).matrixSize = 4 ∧
    MinNrOfLinesToCoverAllZeros (reduce cycleStart) = some (cycleA, 5) ∧
    IsLineCover 4 costCycle [0, 1, 2, 3] [] ∧
    [0, 1, 2, 3].length + ([] : List Nat).length = 4 ∧
    [0, 1, 2, 3].Nodup ∧
    (reduce cycleStart).matrixSize < 5 := by
  refine ⟨by decide!, rfl, by decide!, by decide!, cycle_first, ?_, rfl, by decide, by decide!⟩
  intro i hi j _ _
  left
  interval_cases i <;> simp

/-! ## The order of the scan in `MinNrOfLinesToCoverAllZeros` -/

theorem colMajor_sorted (r c : Nat) :
    (Mat.colMajor r c).Pairwise (fun a b => a.2 < b.2 ∨ (a.2 = b.2 ∧ a.1 < b.1)) := by
  unfold Mat.colMajor
  rw [List.pairwise_flatMap]
  constructor
  · intro j _
    rw [List.pairwise_map]
    exact (List.pairwise_lt_range r).imp (fun h => Or.inr ⟨rfl, h⟩)
  · refine (List.pairwise_lt_range c).imp ?_
    intro j1 j2 hlt x hx y hy
    obtain ⟨_, _, rfl⟩ := List.mem_map.mp hx
    obtain ⟨_, _, rfl⟩ := List.mem_map.mp hy
    exact Or.inl hlt

theorem scanCells_sorted (N idxRow idxCol : Nat) :
    (scanCells N idxRow idxCol).Pairwise (fun a b => a.1 < b.1 ∨ (a.1 = b.1 ∧ a.2 < b.2)) := by
  unfold scanCells
  rw [List.pairwise_flatMap]
  constructor
  · intro i _
    rw [List.pairwise_map]
    exact (List.pairwise_lt_range' idxCol (N - idxCol)).imp (fun h => Or.inr ⟨rfl, h⟩)
  · refine (List.pairwise_lt_range' idxRow (N - idxRow)).imp ?_
    intro i1 i2 hlt x hx y hy
    obtain ⟨_, _, rfl⟩ := List.mem_map.mp hx
    obtain ⟨_, _, rfl⟩ := List.mem_map.mp hy
    exact Or.inl hlt

theorem mem_scanCells {N idxRow idxCol : Nat} {p : Nat × Nat} :
    p ∈ scanCells N idxRow idxCol ↔
      (idxRow ≤ p.1 ∧ p.1 < N) ∧ (idxCol ≤ p.2 ∧ p.2 < N) := by
  obtain ⟨i, j⟩ := p
  unfold scanCells
  simp only [List.mem_flatMap, List.mem_map, List.mem_range'_1, Prod.mk.injEq]
  constructor
  · rintro ⟨i', hi', j', hj', rfl, rfl⟩
    exact ⟨⟨hi'.1, by omega⟩, ⟨hj'.1, by omega⟩⟩
  · rintro ⟨⟨h1, h2⟩, ⟨h3, h4⟩⟩
    exact ⟨i, ⟨h1, by omega⟩, j, ⟨h3, by omega⟩, rfl, rfl⟩

theorem coverScan_eq_foldl (W : Mat ℚ) (N idxRow idxCol : Nat) (s : CoverState) :
    coverScan W N idxRow idxCol s =
      (scanCells N idxRow idxCol).foldl (fun t p => coverCell W p.1 p.2 t) s := by
  unfold coverScan scanCells
  exact foldl_nested_eq_flat (fun row col t => coverCell W row col t) _ _ s

theorem maxCoeffIdx_first (M : Mat Bool) {i j : Nat} (hi : i < M.rows) (hj : j < M.cols)
    (h : M.coeff i j = true) :
    M.maxCoeffIdx.2 < j ∨ (M.maxCoeffIdx.2 = j ∧ M.maxCoeffIdx.1 ≤ i) := by
  have hmem : (i, j) ∈ Mat.colMajor M.rows M.cols := Mat.mem_colMajor.mpr ⟨hi, hj⟩
  unfold Mat.maxCoeffIdx
  cases hfind : (Mat.colMajor M.rows M.cols).find? (fun p => M.coeff p.1 p.2) with
  | none =>
    have := List.find?_eq_none.mp hfind (i, j) hmem
    exact absurd h this
  | some q =>
    obtain ⟨_, as, bs, hl, has⟩ := List.find?_eq_some.mp hfind
    have hsorted := colMajor_sorted M.rows M.cols
    rw [hl] at hmem hsorted
    simp only [Option.getD_some]
    rcases List.mem_append.mp hmem with h1 | h1
    · have := has (i, j) h1
      simp only [h, Bool.not_true, Bool.false_eq_true] at this
    · rcases List.mem_cons.mp h1 with h2 | h2
      · right
        rw [← h2]
        exact ⟨rfl, le_refl _⟩
      · have hq := (List.pairwise_cons.mp (List.pairwise_append.mp hsorted).2.1).1 (i, j) h2
        rcases hq with h3 | ⟨h3, h4⟩
        · exact Or.inl h3
        · exact Or.inr ⟨h3, le_of_lt h4⟩

/-- C21 (counterexample): on the reduced 2×2 matrix `costAnti` the first pass of
`MinNrOfLinesToCoverAllZeros` starts its scan at cell `(1, 0)`, the first uncovered zero in
column-major order, while the first uncovered zero in row-major order is `(0, 1)`; the scan
visits `(1, 0)` and `(1, 1)` only, and the zero at `(0, 1)` is still uncovered after the
pass. -/
theorem C21_scan_start_not_row_major :
    (SetCostFunctionMatrix HungarianAlgorithm.construct costAnti).error = none ∧
    (reduce (SetCostFunctionMatrix HungarianAlgorithm.construct costAnti).state).workingMatrix
      = costAnti ∧
    (uncoveredZeroes costAnti
      (coverStart (reduce (SetCostFunctionMatrix HungarianAlgorithm.construct
        costAnti).state)).coveredMatrix).maxCoeffIdx = (1, 0) ∧
    firstTrueRowMajor (uncoveredZeroes costAnti
      (coverStart (reduce (SetCostFunctionMatrix HungarianAlgorithm.construct
        costAnti).state)).coveredMatrix) = (0, 1) ∧
    scanCells 2 1 0 = [(1, 0), (1, 1)] ∧
    (uncoveredZeroes costAnti
      (coverPass costAnti 2
        (coverStart (reduce (SetCostFunctionMatrix HungarianAlgorithm.construct
          costAnti).state))).coveredMatrix).coeff 0 1 = true := by
  refine ⟨by decide!, by decide!, by decide!, by decide!, by decide!, by decide!⟩

/-- C21 (amended): a pass of `MinNrOfLinesToCoverAllZeros` on an `N × N` working matrix
with an uncovered zero at `(i, j)` runs `coverCell` over the cells `scanCells`, which are
the cells of the rows `idxRow .. N-1` and the columns `idxCol .. N-1` in row-major order,
where `(idxRow, idxCol)` is the first uncovered zero in column-major order; every uncovered
zero in a row from `idxRow` on is among these cells, and an uncovered zero in a row above
`idxRow` is not. -/
theorem C21_scan_order (W : Mat ℚ) (N : Nat) (s : CoverState) (hWr : W.rows = N)
    (hWc : W.cols = N) (i j : Nat) (hi : i < N) (hj : j < N)
    (hz : (uncoveredZeroes W s.coveredMatrix).coeff i j = true) :
    coverPass W N s =
      (if ((scanCells N (uncoveredZeroes W s.coveredMatrix).maxCoeffIdx.1
            (uncoveredZeroes W s.coveredMatrix).maxCoeffIdx.2).foldl
            (fun t p => coverCell W p.1 p.2 t) { s with newZeroCovered := false }).returned
       then (scanCells N (uncoveredZeroes W s.coveredMatrix).maxCoeffIdx.1
            (uncoveredZeroes W s.coveredMatrix).maxCoeffIdx.2).foldl
            (fun t p => coverCell W p.1 p.2 t) { s with newZeroCovered := false }
       else if !((scanCells N (uncoveredZeroes W s.coveredMatrix).maxCoeffIdx.1
            (uncoveredZeroes W s.coveredMatrix).maxCoeffIdx.2).foldl
            (fun t p => coverCell W p.1 p.2 t) { s with newZeroCovered := false }).newZeroCovered
       then coverForced W ((scanCells N (uncoveredZeroes W s.coveredMatrix).maxCoeffIdx.1
            (uncoveredZeroes W s.coveredMatrix).maxCoeffIdx.2).foldl
            (fun t p => coverCell W p.1 p.2 t) { s with newZeroCovered := false })
       else (scanCells N (uncoveredZeroes W s.coveredMatrix).maxCoeffIdx.1
            (uncoveredZeroes W s.coveredMatrix).maxCoeffIdx.2).foldl
            (fun t p => coverCell W p.1 p.2 t) { s with newZeroCovered := false }) ∧
    (uncoveredZeroes W s.coveredMatrix).maxCoeffIdx.1 < N ∧
    (uncoveredZeroes W s.coveredMatrix).maxCoeffIdx.2 < N ∧
    (uncoveredZeroes W s.coveredMatrix).coeff
      (uncoveredZeroes W s.coveredMatrix).maxCoeffIdx.1
      (uncoveredZeroes W s.coveredMatrix).maxCoeffIdx.2 = true ∧
    ((uncoveredZeroes W s.coveredMatrix).maxCoeffIdx.2 < j ∨
      ((uncoveredZeroes W s.coveredMatrix).maxCoeffIdx.2 = j ∧
        (uncoveredZeroes W s.coveredMatrix).maxCoeffIdx.1 ≤ i)) ∧
    (scanCells N (uncoveredZeroes W s.coveredMatrix).maxCoeffIdx.1
      (uncoveredZeroes W s.coveredMatrix).maxCoeffIdx.2).Pairwise
        (fun a b => a.1 < b.1 ∨ (a.1 = b.1 ∧ a.2 < b.2)) ∧
    (∀ p : Nat × Nat,
      p ∈ scanCells N (uncoveredZeroes W s.coveredMatrix).maxCoeffIdx.1
          (uncoveredZeroes W s.coveredMatrix).maxCoeffIdx.2 ↔
        ((uncoveredZeroes W s.coveredMatrix).maxCoeffIdx.1 ≤ p.1 ∧ p.1 < N) ∧
        ((uncoveredZeroes W s.coveredMatrix).maxCoeffIdx.2 ≤ p.2 ∧ p.2 < N)) ∧
    ((uncoveredZeroes W s.coveredMatrix).maxCoeffIdx.1 ≤ i →
      (i, j) ∈ scanCells N (uncoveredZeroes W s.coveredMatrix).maxCoeffIdx.1
        (uncoveredZeroes W s.coveredMatrix).maxCoeffIdx.2) ∧
    (i < (uncoveredZeroes W s.coveredMatrix).maxCoeffIdx.1 →
      (i, j) ∉ scanCells N (uncoveredZeroes W s.coveredMatrix).maxCoeffIdx.1
        (uncoveredZeroes W s.coveredMatrix).maxCoeffIdx.2 ∧
      (uncoveredZeroes W s.coveredMatrix).maxCoeffIdx.2 < j) := by
  have hUr : (uncoveredZeroes W s.coveredMatrix).rows = N := hWr
  have hUc : (uncoveredZeroes W s.coveredMatrix).cols = N := hWc
  obtain ⟨h1, h2, h3⟩ := Mat.maxCoeffIdx_spec _ (by rw [hUr]; exact hi) (by rw [hUc]; exact hj) hz
  rw [hUr] at h1
  rw [hUc] at h2
  have hfirst := maxCoeffIdx_first _ (by rw [hUr]; exact hi) (by rw [hUc]; exact hj) hz
  refine ⟨?_, h1, h2, h3, hfirst, scanCells_sorted _ _ _, fun p => mem_scanCells, ?_, ?_⟩
  · unfold coverPass
    simp only [coverScan_eq_foldl]
  · intro hle
    apply mem_scanCells.mpr
    refine ⟨⟨hle, hi⟩, ⟨?_, hj⟩⟩
    rcases hfirst with h | ⟨h, _⟩
    · exact le_of_lt h
    · exact le_of_eq h
  · intro hlt
    constructor
    · intro hmem
      have := (mem_scanCells.mp hmem).1.1
      simp only at this
      omega
    · rcases hfirst with h | ⟨_, h⟩
      · exact h
      · omega

/-- Witness for C21: the first pass on `costAnti`, with the uncovered zero `(0, 1)`. -/
theorem C21_scan_order_witness :
    (uncoveredZeroes costAnti (Mat.ofFn 2 2 (fun _ _ => false))).coeff 0 1 = true ∧
    (uncoveredZeroes costAnti (Mat.ofFn 2 2 (fun _ _ => false))).maxCoeffIdx.1 < 2 ∧
    ((0 : Nat) < (uncoveredZeroes costAnti (Mat.ofFn 2 2 (fun _ _ => false))).maxCoeffIdx.1 →
      (0, 1) ∉ scanCells 2
        (uncoveredZeroes costAnti (Mat.ofFn 2 2 (fun _ _ => false))).maxCoeffIdx.1
        (uncoveredZeroes costAnti (Mat.ofFn 2 2 (fun _ _ => false))).maxCoeffIdx.2 ∧
      (uncoveredZeroes costAnti (Mat.ofFn 2 2 (fun _ _ => false))).maxCoeffIdx.2 < 1) :=
  have hz : (uncoveredZeroes costAnti (Mat.ofFn 2 2 (fun _ _ => false))).coeff 0 1 = true := by
    decide!
  have h := C21_scan_order costAnti 2
    { coveredMatrix := Mat.ofFn 2 2 (fun _ _ => false), nrLinesToCoverZeroes := 0,
      nrUncoveredZeroes := 2, newZeroCovered := false, returned := false }
    rfl rfl 0 1 (by decide) (by decide) hz
  ⟨hz, h.2.1, h.2.2.2.2.2.2.2.2⟩

/-! ## The effect of `AugmentCostFunctionMatrix` -/

theorem augment_coeff {N : Nat} {self : HungarianAlgorithm} (hs : Sized N self) {i j : Nat}
    (hi : i < N) (hj : j < N) :
    (AugmentCostFunctionMatrix self).workingMatrix.coeff i j =
      (if self.coveredMatrix.coeff i j = false then
          self.workingMatrix.coeff i j - minUncoveredCoeff self
        else self.workingMatrix.coeff i j) +
      (if self.coveredMatrix.rowAll i = true ∧ self.coveredMatrix.colAll j = true then
          minUncoveredCoeff self
        else 0) := by
  obtain ⟨h1, _, _, h4, h5, _, _⟩ := hs
  unfold AugmentCostFunctionMatrix minUncoveredCoeff
  simp only [Mat.ofFn_rows, Mat.ofFn_cols]
  rw [Mat.coeff_ofFn _ (h4.symm ▸ hi) (h5.symm ▸ hj),
    Mat.coeff_ofFn _ (h4.symm ▸ hi) (h5.symm ▸ hj)]
  have hiN : i < self.matrixSize := h1.symm ▸ hi
  have hjN : j < self.matrixSize := h1.symm ▸ hj
  by_cases hcov : self.coveredMatrix.coeff i j = false
  · by_cases hall : self.coveredMatrix.rowAll i = true ∧ self.coveredMatrix.colAll j = true
    · simp [hcov, hall, hiN, hjN]
    · have hall2 : ¬ (i < self.matrixSize ∧ j < self.matrixSize ∧
          self.coveredMatrix.rowAll i = true ∧ self.coveredMatrix.colAll j = true) :=
        fun hx => hall hx.2.2
      simp [hcov, hall, hall2]
  · have hcov2 : self.coveredMatrix.coeff i j = true := by simpa using hcov
    by_cases hall : self.coveredMatrix.rowAll i = true ∧ self.coveredMatrix.colAll j = true
    · simp [hcov2, hall, hiN, hjN]
    · have hall2 : ¬ (i < self.matrixSize ∧ j < self.matrixSize ∧
          self.coveredMatrix.rowAll i = true ∧ self.coveredMatrix.colAll j = true) :=
        fun hx => hall hx.2.2
      simp [hcov2, hall, hall2]

theorem lines_exists_not_mem {N : Nat} {R : Finset Nat} (hcard : R.card < N) : ∃ i, i < N ∧ i ∉ R := by
  by_contra hnone
  push_neg at hnone
  have hsub : Finset.range N ⊆ R := fun i hi => hnone i (Finset.mem_range.mp hi)
  have := Finset.card_le_card hsub
  rw [Finset.card_range] at this
  omega

theorem lines_rowAll {N : Nat} {cov : Mat Bool} {R C : Finset Nat} (hc : cov.cols = N)
    (h : Lines N cov R C) (hfree : ∃ j, j < N ∧ j ∉ C) {i : Nat} (hi : i < N) :
    cov.rowAll i = true ↔ i ∈ R := by
  obtain ⟨j0, hj0, hj0C⟩ := hfree
  rw [Mat.rowAll_iff, hc]
  constructor
  · intro hall
    rcases (h.2.2 i j0 hi hj0).mp (hall j0 hj0) with h1 | h1
    · exact h1
    · exact absurd h1 hj0C
  · intro hR j hj
    exact (h.2.2 i j hi hj).mpr (Or.inl hR)

theorem lines_colAll {N : Nat} {cov : Mat Bool} {R C : Finset Nat} (hr : cov.rows = N)
    (h : Lines N cov R C) (hfree : ∃ i, i < N ∧ i ∉ R) {j : Nat} (hj : j < N) :
    cov.colAll j = true ↔ j ∈ C := by
  obtain ⟨i0, hi0, hi0R⟩ := hfree
  rw [Mat.colAll_iff, hr]
  constructor
  · intro hall
    rcases (h.2.2 i0 j hi0 hj).mp (hall i0 hi0) with h1 | h1
    · exact absurd h1 hi0R
    · exact h1
  · intro hC i hi
    exact (h.2.2 i j hi hj).mpr (Or.inr hC)

/-- The change of one entry when fewer than `N` lines were drawn (or, more generally, when
some row and some column are not lines). -/
theorem augment_effect {N : Nat} {self : HungarianAlgorithm} {R C : Finset Nat}
    (hs : Sized N self) (hl : Lines N self.coveredMatrix R C)
    (hfr : ∃ i, i < N ∧ i ∉ R) (hfc : ∃ j, j < N ∧ j ∉ C) {i j : Nat}
    (hi : i < N) (hj : j < N) :
    (AugmentCostFunctionMatrix self).workingMatrix.coeff i j =
      self.workingMatrix.coeff i j
        - (if i ∉ R ∧ j ∉ C then minUncoveredCoeff self else 0)
        + (if i ∈ R ∧ j ∈ C then minUncoveredCoeff self else 0) := by
  rw [augment_coeff hs hi hj]
  have hrow := lines_rowAll hs.2.2.2.2.1 hl hfc hi
  have hcol := lines_colAll hs.2.2.2.1 hl hfr hj
  have hcov := hl.2.2 i j hi hj
  simp only [hrow, hcol]
  by_cases hiR : i ∈ R
  · by_cases hjC : j ∈ C
    · have hc : self.coveredMatrix.coeff i j = true := hcov.mpr (Or.inl hiR)
      simp [hiR, hjC, hc]
    · have hc : self.coveredMatrix.coeff i j = true := hcov.mpr (Or.inl hiR)
      simp [hiR, hjC, hc]
  · by_cases hjC : j ∈ C
    · have hc : self.coveredMatrix.coeff i j = true := hcov.mpr (Or.inr hjC)
      simp [hiR, hjC, hc]
    · have hc : self.coveredMatrix.coeff i j = false := by
        by_contra hx
        have hx2 : self.coveredMatrix.coeff i j = true := by simpa using hx
        rcases hcov.mp hx2 with h1 | h1
        · exact hiR h1
        · exact hjC h1
      simp [hiR, hjC, hc]

/-! ## Extraction -/

theorem find_dims {N : Nat} {s s2 : HungarianAlgorithm} (hs : Sized N s)
    (hbound : ∀ i j, i < N → j < N → s.costFunctionMatrix.coeff i j ≤ s.dummyCost)
    (h : FindOptimalCost s = some s2) :
    s2.assignmentMatrix.rows = N ∧ s2.assignmentMatrix.cols = N := by
  obtain ⟨h1, h2, h3, h4, h5, h6, h7⟩ := hs
  unfold FindOptimalCost at h
  simp only at h
  split at h
  · have hs2 := Option.some.inj h
    subst hs2
    exact ⟨h2, h3⟩
  · rename_i hcount
    simp only [Option.map_eq_some'] at h
    obtain ⟨fs, hloop, hs2⟩ := h
    subst hs2
    simp only
    have hNpos : 0 < N := by
      by_contra hzero
      have hN0 : N = 0 := by omega
      apply hcount
      unfold Mat.count
      simp only [Mat.ofFn_rows, h2, h1, hN0]
      rfl
    have hnotall : (s.coveredMatrix.fill false).all = false := by
      by_contra hall
      have hall2 : (s.coveredMatrix.fill false).all = true := by simpa using hall
      rw [Mat.all_iff] at hall2
      have := hall2 0 0 (by simpa [h4] using hNpos) (by simpa [h5] using hNpos)
      rw [Mat.coeff_fill _ _ (by rw [h4]; exact hNpos) (by rw [h5]; exact hNpos)] at this
      exact absurd this (by simp)
    have hinit := findInv_initial
      (Mat.ofFn s.workingMatrix.rows s.workingMatrix.cols
        (fun i j => if IsApproxZERO (s.workingMatrix.coeff i j) then true
          else s.assignmentMatrix.coeff i j))
      s.coveredMatrix (by simpa using h2) (by simpa using h3) h4 h5 hnotall
    rw [h1] at hloop
    obtain ⟨hfin, _⟩ := findLoop_inv s.costFunctionMatrix s.dummyCost hbound N _ fs
      hinit hloop
    exact ⟨hfin.1, hfin.2.1⟩

theorem permutationMask_counts {N : Nat} {A : Mat Bool} (hr : A.rows = N) (hc : A.cols = N)
    (h : IsPermutationMask N A) :
    (∀ i, i < N → A.rowCount i = 1) ∧ (∀ j, j < N → A.colCount j = 1) := by
  constructor
  · intro i hi
    obtain ⟨j, hj, hm1, hm2, _⟩ := h.1 i hi
    unfold Mat.rowCount
    rw [hc]
    exact countP_eq_one_of_unique (p := fun j => A.coeff i j) hj hm1 hm2
  · intro j hj
    obtain ⟨i, hi, hm1, _, hm3⟩ := h.2 j hj
    unfold Mat.colCount
    rw [hr]
    exact countP_eq_one_of_unique (p := fun i => A.coeff i j) hi hm1 hm3

/-- C25: after a successful `SetCostFunctionMatrix` on an `m × n` matrix, whenever the loop
of `SolveAssignmentProblem` exits, `FindOptimalCost` returns (on its direct path or through
its loop), leaves the working matrix unchanged, and leaves an assignment mask of size
`matrixSize × matrixSize` with exactly one `true` in every row and exactly one `true` in
every column. -/
theorem C25_extraction_permutation (self : HungarianAlgorithm) (M : Mat ℚ) (fuel : Nat)
    (s1 : HungarianAlgorithm)
    (hset : (SetCostFunctionMatrix self M).error = none)
    (hloop : solveLoop fuel (reduce (SetCostFunctionMatrix self M).state) = some s1) :
    ∃ s2, FindOptimalCost s1 = some s2 ∧
      s2.workingMatrix = s1.workingMatrix ∧
      s2.matrixSize = max M.rows M.cols ∧
      s2.assignmentMatrix.rows = max M.rows M.cols ∧
      s2.assignmentMatrix.cols = max M.rows M.cols ∧
      (∀ i, i < max M.rows M.cols → s2.assignmentMatrix.rowCount i = 1) ∧
      (∀ j, j < max M.rows M.cols → s2.assignmentMatrix.colCount j = 1) ∧
      IsPermutationMask (max M.rows M.cols) s2.assignmentMatrix := by
  have hsized := reduce_sized (set_sized self M hset)
  obtain ⟨hs1, cs, hinv, hlines⟩ := solveLoop_spec fuel _ s1 hsized hloop
  obtain ⟨hf0, ha0, _, _⟩ := reduce_frame (SetCostFunctionMatrix self M).state
  obtain ⟨hf1, ha1, _⟩ := solveLoop_frame fuel hloop
  have hA : ∀ i j, i < max M.rows M.cols → j < max M.rows M.cols →
      s1.assignmentMatrix.coeff i j = false := by
    intro i j hi hj
    rw [ha1, ha0]
    exact set_assignment_false self M hset i j hi hj
  have hbound : ∀ i j, i < max M.rows M.cols → j < max M.rows M.cols →
      s1.costFunctionMatrix.coeff i j ≤ s1.dummyCost := by
    intro i j hi hj
    obtain ⟨_, _, _, hd, hcst⟩ := hf0.trans hf1
    rw [hd, hcst]
    exact set_cost_le_dummy self M hset i j hi hj
  obtain ⟨s2, h2⟩ := find_total hs1 hbound
  have hperm := find_spec hs1 hA hbound cs hinv hlines h2
  obtain ⟨hd1, hd2⟩ := find_dims hs1 hbound h2
  obtain ⟨hc1, hc2⟩ := permutationMask_counts hd1 hd2 hperm
  obtain ⟨hsame, hW, _⟩ := find_frame h2
  exact ⟨s2, h2, hW, by rw [hsame.2.2.1]; exact hs1.1, hd1, hd2, hc1, hc2, hperm⟩

/-- Witness for C25: the extraction on the 3×2 problem `costTall`. -/
theorem C25_extraction_permutation_witness :
    (SetCostFunctionMatrix HungarianAlgorithm.construct costTall).error = none ∧
    (∃ s1, solveLoop 5
      (reduce (SetCostFunctionMatrix HungarianAlgorithm.construct costTall).state) = some s1 ∧
      ∃ s2, FindOptimalCost s1 = some s2 ∧ s2.workingMatrix = s1.workingMatrix ∧
        s2.matrixSize = max costTall.rows costTall.cols) :=
  have hset : (SetCostFunctionMatrix HungarianAlgorithm.construct costTall).error = none := by
    decide!
  have hex : ∃ s1, solveLoop 5
      (reduce (SetCostFunctionMatrix HungarianAlgorithm.construct costTall).state) = some s1 :=
    (solve_completes_iff HungarianAlgorithm.construct costTall 5 hset).mp
      ⟨{ error := none, state := solvedTall }, by decide!⟩
  ⟨hset, hex.imp (fun s1 h1 =>
    ⟨h1, (C25_extraction_permutation HungarianAlgorithm.construct costTall 5 s1 hset h1).imp
      (fun _ h => ⟨h.1, h.2.1, h.2.2.1⟩)⟩)⟩

/-! ## The tie-break of `FindOptimalCost` -/

theorem findTieBreakIdx_candidate {N : Nat} {s : FindState} (h : FindInv N s)
    (cost : Mat ℚ) (dummy : ℚ)
    (hbound : ∀ i j, i < N → j < N → cost.coeff i j ≤ dummy)
    {i1 j1 : Nat} (hi1 : i1 < N) (hj1 : j1 < N)
    (hc1 : s.coveredMatrix.coeff i1 j1 = false) (ha1 : s.assignmentMatrix.coeff i1 j1 = true) :
    (findTieBreakIdx cost dummy s).1 < N ∧ (findTieBreakIdx cost dummy s).2 < N ∧
    s.coveredMatrix.coeff (findTieBreakIdx cost dummy s).1
      (findTieBreakIdx cost dummy s).2 = false ∧
    s.assignmentMatrix.coeff (findTieBreakIdx cost dummy s).1
      (findTieBreakIdx cost dummy s).2 = true ∧
    ∀ i j, i < N → j < N → s.coveredMatrix.coeff i j = false →
      s.assignmentMatrix.coeff i j = true →
      cost.coeff (findTieBreakIdx cost dummy s).1 (findTieBreakIdx cost dummy s).2 ≤
        cost.coeff i j := by
  obtain ⟨_, _, hcr, hcc, _, _⟩ := h
  have hNpos : 0 < N := Nat.lt_of_le_of_lt (Nat.zero_le _) hi1
  have hcand : ∀ i j, i < N → j < N →
      ((candidates s).coeff i j = true ↔
        (s.coveredMatrix.coeff i j = false ∧ s.assignmentMatrix.coeff i j = true)) := by
    intro i j hi hj
    rw [coeff_candidates s (by rw [hcr]; exact hi) (by rw [hcc]; exact hj)]
    simp
  have hany : (candidates s).anyCoeff id = true := by
    rw [Mat.anyCoeff_iff]
    exact ⟨i1, j1, by simpa [candidates, hcr] using hi1, by simpa [candidates, hcc] using hj1,
      (hcand i1 j1 hi1 hj1).mpr ⟨hc1, ha1⟩⟩
  unfold findTieBreakIdx
  rw [if_pos hany, hcr, hcc]
  obtain ⟨hm1, hm2, hmin⟩ := Mat.minCoeffIdx_spec
    (Mat.ofFn N N (fun i j => if (candidates s).coeff i j then cost.coeff i j
      else dummy + 1)) hNpos hNpos
  simp only [Mat.ofFn_rows, Mat.ofFn_cols] at hm1 hm2 hmin
  have hidx : (candidates s).coeff
      (Mat.ofFn N N (fun i j => if (candidates s).coeff i j then cost.coeff i j
        else dummy + 1)).minCoeffIdx.1
      (Mat.ofFn N N (fun i j => if (candidates s).coeff i j then cost.coeff i j
        else dummy + 1)).minCoeffIdx.2 = true := by
    by_contra hnot
    have hle := hmin i1 j1 hi1 hj1
    rw [Mat.coeff_ofFn _ hm1 hm2, Mat.coeff_ofFn _ hi1 hj1,
      (hcand i1 j1 hi1 hj1).mpr ⟨hc1, ha1⟩] at hle
    have hf : (candidates s).coeff
        (Mat.ofFn N N (fun i j => if (candidates s).coeff i j then cost.coeff i j
          else dummy + 1)).minCoeffIdx.1
        (Mat.ofFn N N (fun i j => if (candidates s).coeff i j then cost.coeff i j
          else dummy + 1)).minCoeffIdx.2 = false := by simpa using hnot
    rw [hf] at hle
    simp only [Bool.false_eq_true, if_false, if_true] at hle
    have hb := hbound i1 j1 hi1 hj1
    linarith
  obtain ⟨hx1, hx2⟩ := (hcand _ _ hm1 hm2).mp hidx
  refine ⟨hm1, hm2, hx1, hx2, ?_⟩
  intro i j hi hj hc ha
  have hle := hmin i j hi hj
  rw [Mat.coeff_ofFn _ hm1 hm2, Mat.coeff_ofFn _ hi hj, hidx,
    (hcand i j hi hj).mpr ⟨hc, ha⟩] at hle
  simpa using hle

theorem findTieBreakIdx_fallback {N : Nat} {s : FindState} (h : FindInv N s)
    (hret : s.returned = false) (cost : Mat ℚ) (dummy : ℚ)
    (hbound : ∀ i j, i < N → j < N → cost.coeff i j ≤ dummy)
    (hnone : ∀ i j, i < N → j < N → s.coveredMatrix.coeff i j = false →
      s.assignmentMatrix.coeff i j = false) :
    ∀ i j, i < N → j < N → s.coveredMatrix.coeff i j = false →
      cost.coeff (findTieBreakIdx cost dummy s).1 (findTieBreakIdx cost dummy s).2 ≤
        cost.coeff i j := by
  obtain ⟨hr, hc, hunc⟩ := findTieBreakIdx_spec h hret cost dummy hbound
  obtain ⟨_, _, hcr, hcc, _, _⟩ := h
  intro i j hi hj hcov
  have hNpos : 0 < N := Nat.lt_of_le_of_lt (Nat.zero_le _) hi
  have hany : ¬ (candidates s).anyCoeff id = true := by
    rw [Mat.anyCoeff_iff]
    rintro ⟨a, b, ha, hb, hab⟩
    have haN : a < N := by simpa [candidates, hcr] using ha
    have hbN : b < N := by simpa [candidates, hcc] using hb
    rw [id, coeff_candidates s (by rw [hcr]; exact haN) (by rw [hcc]; exact hbN)] at hab
    simp only [Bool.and_eq_true, Bool.not_eq_true'] at hab
    rw [hnone a b haN hbN hab.1] at hab
    exact absurd hab.2 (by simp)
  have hidx : findTieBreakIdx cost dummy s =
      (Mat.ofFn N N (fun i j => if !s.coveredMatrix.coeff i j then cost.coeff i j
        else dummy + 1)).minCoeffIdx := by
    unfold findTieBreakIdx
    rw [if_neg hany, hcr, hcc]
  rw [hidx] at hr hc hunc ⊢
  obtain ⟨_, _, hmin⟩ := Mat.minCoeffIdx_spec
    (Mat.ofFn N N (fun i j => if !s.coveredMatrix.coeff i j then cost.coeff i j
      else dummy + 1)) hNpos hNpos
  simp only [Mat.ofFn_rows, Mat.ofFn_cols] at hmin
  have hle := hmin i j hi hj
  rw [Mat.coeff_ofFn _ hr hc, Mat.coeff_ofFn _ hi hj, hunc, hcov] at hle
  simpa using hle

theorem findTieBreak_commits {N : Nat} {s : FindState} (h : FindInv N s)
    (hret : s.returned = false) (cost : Mat ℚ) (dummy : ℚ)
    (hbound : ∀ i j, i < N → j < N → cost.coeff i j ≤ dummy) :
    (findTieBreak cost dummy s).assignmentMatrix.coeff (findTieBreakIdx cost dummy s).1
      (findTieBreakIdx cost dummy s).2 = true ∧
    (findTieBreak cost dummy s).coveredMatrix.rowAll (findTieBreakIdx cost dummy s).1 = true ∧
    (findTieBreak cost dummy s).coveredMatrix.colAll (findTieBreakIdx cost dummy s).2 = true ∧
    s.coveredMatrix.rowAll (findTieBreakIdx cost dummy s).1 = false ∧
    s.coveredMatrix.colAll (findTieBreakIdx cost dummy s).2 = false := by
  obtain ⟨hr, hc, hunc⟩ := findTieBreakIdx_spec h hret cost dummy hbound
  obtain ⟨hAr, hAc, hcr, hcc, _, _⟩ := h
  refine ⟨?_, ?_, ?_, ?_, ?_⟩
  · unfold findTieBreak
    simp only
    rw [Mat.coeff_setCoeff _ _ _ _ (by simpa [hAr] using hr) (by simpa [hAc] using hc)]
    simp
  · unfold findTieBreak
    simp only
    rw [Mat.rowAll_iff]
    intro j hj
    have hjN : j < N := by simpa [hcc] using hj
    rw [Mat.coeff_fillCol _ _ _ (by simpa [hcr] using hr) (by simpa [hcc] using hjN),
      Mat.coeff_fillRow _ _ _ (by rw [hcr]; exact hr) (by rw [hcc]; exact hjN)]
    simp
  · unfold findTieBreak
    simp only
    rw [Mat.colAll_iff]
    intro i hi
    have hiN : i < N := by simpa [hcr] using hi
    rw [Mat.coeff_fillCol _ _ _ (by simpa [hcr] using hiN) (by simpa [hcc] using hc)]
    simp
  · by_contra hx
    have hx2 : s.coveredMatrix.rowAll (findTieBreakIdx cost dummy s).1 = true := by
      simpa using hx
    rw [Mat.rowAll_iff, hcc] at hx2
    rw [hx2 _ hc] at hunc
    exact absurd hunc (by simp)
  · by_contra hx
    have hx2 : s.coveredMatrix.colAll (findTieBreakIdx cost dummy s).2 = true := by
      simpa using hx
    rw [Mat.colAll_iff, hcr] at hx2
    rw [hx2 _ hr] at hunc
    exact absurd hunc (by simp)

theorem findPass_tieBreak {N : Nat} {s : FindState} (h : FindInv N s) (cost : Mat ℚ)
    (dummy : ℚ) (h1 : (findRowSteps N s).returned = false)
    (h2 : (findSteps N s).returned = false)
    (h3 : (findSteps N s).newAssignmentMade = false) :
    findPass cost dummy N s = findTieBreak cost dummy (findSteps N s) ∧
    FindInv N (findSteps N s) := by
  have hlt : ∀ x ∈ List.range N, x < N := fun x hx => List.mem_range.mp hx
  have hi1 := foldl_findRowStep_inv (List.range N) hlt (findInv_setNew h false)
  have hi2 := foldl_findColStep_inv (List.range N) hlt hi1
  refine ⟨?_, hi2⟩
  unfold findSteps findRowSteps at h2 h3
  unfold findRowSteps at h1
  unfold findPass findSteps findRowSteps
  simp only [h1, h2, h3, Bool.false_eq_true, if_false, Bool.not_false, if_true]

/-- C26: in a pass of the loop of `FindOptimalCost` that commits no row and no column, the
pass ends with the tie-break on the state left by the two loops.  The cell the tie-break
selects lies in the matrix, is uncovered, and its row and its column are not fully
covered; if some uncovered cell is a candidate (set in the assignment mask), the selected
cell is an uncovered candidate whose cost in `costFunctionMatrix` (the padded original
costs) is minimal among the uncovered candidates; otherwise its cost is minimal among all
uncovered cells; the tie-break sets this cell and covers its row and its column.  The
invariant `FindInv` holds when the loop starts and after every pass. -/
theorem C26_tie_break (N : Nat) (s : FindState) (cost : Mat ℚ) (dummy : ℚ)
    (h : FindInv N s) (hret : s.returned = false)
    (hbound : ∀ i j, i < N → j < N → cost.coeff i j ≤ dummy) :
    ((findTieBreakIdx cost dummy s).1 < N ∧ (findTieBreakIdx cost dummy s).2 < N ∧
      s.coveredMatrix.coeff (findTieBreakIdx cost dummy s).1
        (findTieBreakIdx cost dummy s).2 = false ∧
      s.coveredMatrix.rowAll (findTieBreakIdx cost dummy s).1 = false ∧
      s.coveredMatrix.colAll (findTieBreakIdx cost dummy s).2 = false) ∧
    ((∃ i j, i < N ∧ j < N ∧ s.coveredMatrix.coeff i j = false ∧
        s.assignmentMatrix.coeff i j = true) →
      s.assignmentMatrix.coeff (findTieBreakIdx cost dummy s).1
        (findTieBreakIdx cost dummy s).2 = true ∧
      ∀ i j, i < N → j < N → s.coveredMatrix.coeff i j = false →
        s.assignmentMatrix.coeff i j = true →
        cost.coeff (findTieBreakIdx cost dummy s).1 (findTieBreakIdx cost dummy s).2 ≤
          cost.coeff i j) ∧
    ((∀ i j, i < N → j < N → s.coveredMatrix.coeff i j = false →
        s.assignmentMatrix.coeff i j = false) →
      ∀ i j, i < N → j < N → s.coveredMatrix.coeff i j = false →
        cost.coeff (findTieBreakIdx cost dummy s).1 (findTieBreakIdx cost dummy s).2 ≤
          cost.coeff i j) ∧
    ((findTieBreak cost dummy s).assignmentMatrix.coeff (findTieBreakIdx cost dummy s).1
        (findTieBreakIdx cost dummy s).2 = true ∧
      (findTieBreak cost dummy s).coveredMatrix.rowAll (findTieBreakIdx cost dummy s).1 = true ∧
      (findTieBreak cost dummy s).coveredMatrix.colAll
        (findTieBreakIdx cost dummy s).2 = true) ∧
    (∀ t : FindState, FindInv N t → (findRowSteps N t).returned = false →
      (findSteps N t).returned = false → (findSteps N t).newAssignmentMade = false →
      findPass cost dummy N t = findTieBreak cost dummy (findSteps N t) ∧
      FindInv N (findSteps N t)) ∧
    (∀ t : FindState, FindInv N t → FindInv N (findPass cost dummy N t)) ∧
    (∀ A cov : Mat Bool, A.rows = N → A.cols = N → cov.rows = N → cov.cols = N →
      (cov.fill false).all = false →
      FindInv N { assignmentMatrix := A, coveredMatrix := cov.fill false,
                  newAssignmentMade := false, returned := false }) := by
  obtain ⟨hr, hc, hunc⟩ := findTieBreakIdx_spec h hret cost dummy hbound
  obtain ⟨hk1, hk2, hk3, hk4, hk5⟩ := findTieBreak_commits h hret cost dummy hbound
  refine ⟨⟨hr, hc, hunc, hk4, hk5⟩, ?_, ?_, ⟨hk1, hk2, hk3⟩, ?_, ?_, ?_⟩
  · rintro ⟨i1, j1, hi1, hj1, hc1, ha1⟩
    obtain ⟨_, _, _, hx, hmin⟩ := findTieBreakIdx_candidate h cost dummy hbound hi1 hj1 hc1 ha1
    exact ⟨hx, hmin⟩
  · intro hnone
    exact findTieBreakIdx_fallback h hret cost dummy hbound hnone
  · intro t ht h1 h2 h3
    exact findPass_tieBreak ht cost dummy h1 h2 h3
  · intro t ht
    exact findPass_inv ht cost dummy hbound
  · intro A cov h1 h2 h3 h4 h5
    exact findInv_initial A cov h1 h2 h3 h4 h5

/-- Witness for C26: the tie-break on `findStart2` with the costs of `costAnti` selects an
uncovered candidate of cost 0. -/
theorem C26_tie_break_witness :
    findStart2.returned = false ∧
    ((findTieBreakIdx costAnti 101 findStart2).1 < 2 ∧
      (findTieBreakIdx costAnti 101 findStart2).2 < 2 ∧
      findStart2.coveredMatrix.coeff (findTieBreakIdx costAnti 101 findStart2).1
        (findTieBreakIdx costAnti 101 findStart2).2 = false ∧
      findStart2.coveredMatrix.rowAll (findTieBreakIdx costAnti 101 findStart2).1 = false ∧
      findStart2.coveredMatrix.colAll (findTieBreakIdx costAnti 101 findStart2).2 = false) :=
  ⟨rfl, (C26_tie_break 2 findStart2 costAnti 101
    (findInv_initial allOf2 allOf2 rfl rfl rfl rfl (by decide)) rfl
    (by
      intro i j hi hj
      interval_cases i <;> interval_cases j <;> decide!)).1⟩

/-! ## Row and column offsets -/

theorem hasPotential_refl (N : Nat) (C : Mat ℚ) : HasPotential N C C :=
  ⟨fun _ => 0, fun _ => 0, fun i j _ _ => by ring⟩

theorem subtractRowMin_potential {N : Nat} {C W : Mat ℚ} (row : Nat) (hr : W.rows = N)
    (hc : W.cols = N) (h : HasPotential N C W) : HasPotential N C (subtractRowMin W row) := by
  obtain ⟨u, v, huv⟩ := h
  unfold subtractRowMin
  simp only
  split
  · refine ⟨fun i => u i + (if i = row then W.rowMinCoeff row else 0), v, ?_⟩
    intro i j hi hj
    rw [Mat.coeff_ofFn _ (hr ▸ hi) (hc ▸ hj), huv i j hi hj]
    by_cases hir : i = row
    · simp only [hir, if_true]
      ring
    · simp only [hir, if_false]
      ring
  · exact ⟨u, v, huv⟩

theorem subtractColMin_potential {N : Nat} {C W : Mat ℚ} (col : Nat) (hr : W.rows = N)
    (hc : W.cols = N) (h : HasPotential N C W) : HasPotential N C (subtractColMin W col) := by
  obtain ⟨u, v, huv⟩ := h
  unfold subtractColMin
  simp only
  split
  · refine ⟨u, fun j => v j + (if j = col then W.colMinCoeff col else 0), ?_⟩
    intro i j hi hj
    rw [Mat.coeff_ofFn _ (hr ▸ hi) (hc ▸ hj), huv i j hi hj]
    by_cases hjc : j = col
    · simp only [hjc, if_true]
      ring
    · simp only [hjc, if_false]
      ring
  · exact ⟨u, v, huv⟩

theorem foldl_subtractRowMin_potential {N : Nat} {C : Mat ℚ} (l : List Nat) (W : Mat ℚ)
    (hr : W.rows = N) (hc : W.cols = N) (h : HasPotential N C W) :
    HasPotential N C (l.foldl subtractRowMin W) := by
  induction l generalizing W with
  | nil => exact h
  | cons x xs ih =>
    have hd := subtractRowMin_dims W x
    exact ih _ (hd.1.trans hr) (hd.2.trans hc) (subtractRowMin_potential x hr hc h)

theorem foldl_subtractColMin_potential {N : Nat} {C : Mat ℚ} (l : List Nat) (W : Mat ℚ)
    (hr : W.rows = N) (hc : W.cols = N) (h : HasPotential N C W) :
    HasPotential N C (l.foldl subtractColMin W) := by
  induction l generalizing W with
  | nil => exact h
  | cons x xs ih =>
    have hd := subtractColMin_dims W x
    exact ih _ (hd.1.trans hr) (hd.2.trans hc) (subtractColMin_potential x hr hc h)

theorem subtractRowMinima_potential {N : Nat} {C : Mat ℚ} {self : HungarianAlgorithm}
    (hs : Sized N self) (h : HasPotential N C self.workingMatrix) :
    HasPotential N C (SubtractRowMinima self).workingMatrix :=
  foldl_subtractRowMin_potential _ _ hs.2.1 hs.2.2.1 h

theorem subtractColMinima_potential {N : Nat} {C : Mat ℚ} {self : HungarianAlgorithm}
    (hs : Sized N self) (h : HasPotential N C self.workingMatrix) :
    HasPotential N C (SubtractColMinima self).workingMatrix :=
  foldl_subtractColMin_potential _ _ hs.2.1 hs.2.2.1 h

theorem reduce_potential {N : Nat} {C : Mat ℚ} {self : HungarianAlgorithm}
    (hs : Sized N self) (h : HasPotential N C self.workingMatrix) :
    HasPotential N C (reduce self).workingMatrix := by
  unfold reduce
  split
  · exact subtractColMinima_potential (subtractRowMinima_sized hs)
      (subtractRowMinima_potential hs h)
  · exact subtractRowMinima_potential (subtractColMinima_sized hs)
      (subtractColMinima_potential hs h)

theorem augment_all_covered {N : Nat} {self : HungarianAlgorithm} (hs : Sized N self)
    (hall : ∀ i j, i < N → j < N → self.coveredMatrix.coeff i j = true) {i j : Nat}
    (hi : i < N) (hj : j < N) :
    (AugmentCostFunctionMatrix self).workingMatrix.coeff i j =
      self.workingMatrix.coeff i j + minUncoveredCoeff self := by
  rw [augment_coeff hs hi hj]
  have hrow : self.coveredMatrix.rowAll i = true := by
    rw [Mat.rowAll_iff, hs.2.2.2.2.1]
    exact fun b hb => hall i b hi hb
  have hcol : self.coveredMatrix.colAll j = true := by
    rw [Mat.colAll_iff, hs.2.2.2.1]
    exact fun a ha => hall a j ha hj
  simp [hall i j hi hj, hrow, hcol]

theorem augment_potential {N : Nat} {C : Mat ℚ} {self : HungarianAlgorithm}
    {R K : Finset Nat} (hs : Sized N self) (hl : Lines N self.coveredMatrix R K)
    (h : HasPotential N C self.workingMatrix) :
    HasPotential N C (AugmentCostFunctionMatrix self).workingMatrix := by
  obtain ⟨u, v, huv⟩ := h
  by_cases hfree : (∃ i, i < N ∧ i ∉ R) ∧ (∃ j, j < N ∧ j ∉ K)
  · refine ⟨fun i => u i + (if i ∉ R then minUncoveredCoeff self else 0),
      fun j => v j - (if j ∈ K then minUncoveredCoeff self else 0), ?_⟩
    intro i j hi hj
    rw [augment_effect hs hl hfree.1 hfree.2 hi hj, huv i j hi hj]
    by_cases hiR : i ∈ R <;> by_cases hjK : j ∈ K <;> simp only [hiR, hjK, not_true_eq_false,
      not_false_eq_true, and_self, and_true, and_false, false_and, true_and, if_true,
      if_false] <;> ring
  · have hall : ∀ i j, i < N → j < N → self.coveredMatrix.coeff i j = true := by
      intro i j hi hj
      rw [hl.2.2 i j hi hj]
      by_contra hnot
      push_neg at hnot
      apply hfree
      exact ⟨⟨i, hi, hnot.1⟩, ⟨j, hj, hnot.2⟩⟩
    refine ⟨u, fun j => v j - minUncoveredCoeff self, ?_⟩
    intro i j hi hj
    rw [augment_all_covered hs hall hi hj, huv i j hi hj]
    ring

theorem cover_Lines {N : Nat} {self s : HungarianAlgorithm} {k : Nat} (hs : Sized N self)
    (h : MinNrOfLinesToCoverAllZeros self = some (s, k)) :
    ∃ R K : Finset Nat, Lines N s.coveredMatrix R K ∧ k = R.card + K.card ∧
      ∀ i j, i < N → j < N → IsApproxZERO (self.workingMatrix.coeff i j) = true →
        (i ∈ R ∨ j ∈ K) := by
  obtain ⟨_, R, K, hR, hK, hcov, hz, hk⟩ := cover_lines hs h
  exact ⟨R, K, ⟨hR, hK, hcov⟩, hk, hz⟩

theorem augmentRounds_potential {N : Nat} {C : Mat ℚ} (k : Nat) :
    ∀ (self t : HungarianAlgorithm), Sized N self → HasPotential N C self.workingMatrix →
      augmentRounds k self = some t → HasPotential N C t.workingMatrix := by
  induction k with
  | zero =>
    intro self t _ h ht
    have hst : self = t := Option.some.inj ht
    subst hst
    exact h
  | succ k ih =>
    intro self t hs h ht
    rw [augmentRounds] at ht
    split at ht
    · exact absurd ht (by simp)
    · rename_i s1 n hc
      obtain ⟨hs1, _⟩ := cover_spec hs hc
      obtain ⟨_, hW, _, _⟩ := cover_frame hc
      obtain ⟨R, K, hl, _, _⟩ := cover_Lines hs hc
      have h1 : HasPotential N C s1.workingMatrix := by
        rw [hW]
        exact h
      exact ih (AugmentCostFunctionMatrix s1) t (augment_sized hs1)
        (augment_potential hs1 hl h1) ht

theorem augmentRounds_frame (k : Nat) :
    ∀ (self t : HungarianAlgorithm), augmentRounds k self = some t →
      SameProblem self t ∧ t.assignmentMatrix = self.assignmentMatrix := by
  induction k with
  | zero =>
    intro self t ht
    have hst : self = t := Option.some.inj ht
    subst hst
    exact ⟨SameProblem.refl _, rfl⟩
  | succ k ih =>
    intro self t ht
    rw [augmentRounds] at ht
    split at ht
    · exact absurd ht (by simp)
    · rename_i s1 n hc
      obtain ⟨hf1, _, ha1, _⟩ := cover_frame hc
      obtain ⟨hf2, ha2, _, _⟩ := augment_frame s1
      obtain ⟨hf3, ha3⟩ := ih _ t ht
      exact ⟨(hf1.trans hf2).trans hf3, by rw [ha3, ha2, ha1]⟩

theorem permCost_potential {N : Nat} {C W : Mat ℚ} {u v : Nat → ℚ}
    (huv : ∀ i j, i < N → j < N → W.coeff i j = C.coeff i j - u i - v j)
    (σ : Equiv.Perm (Fin N)) :
    permCost N W σ = permCost N C σ - (∑ i : Fin N, u i.val) - (∑ j : Fin N, v j.val) := by
  unfold permCost
  have h1 : ∑ i : Fin N, W.coeff i.val (σ i).val =
      ∑ i : Fin N, (C.coeff i.val (σ i).val - u i.val - v (σ i).val) :=
    Finset.sum_congr rfl (fun i _ => huv i.val (σ i).val i.isLt (σ i).isLt)
  have h2 : ∑ i : Fin N, v (σ i).val = ∑ j : Fin N, v j.val :=
    Equiv.sum_comp σ (fun j : Fin N => v j.val)
  rw [h1, Finset.sum_sub_distrib, Finset.sum_sub_distrib, h2]

theorem permCost_diff {N : Nat} {C W : Mat ℚ} (h : HasPotential N C W)
    (σ τ : Equiv.Perm (Fin N)) :
    permCost N W σ - permCost N W τ = permCost N C σ - permCost N C τ := by
  obtain ⟨u, v, huv⟩ := h
  rw [permCost_potential huv σ, permCost_potential huv τ]
  ring

theorem set_potential (self : HungarianAlgorithm) (M : Mat ℚ)
    (hset : (SetCostFunctionMatrix self M).error = none) :
    HasPotential (max M.rows M.cols) (SetCostFunctionMatrix self M).state.costFunctionMatrix
      (SetCostFunctionMatrix self M).state.workingMatrix := by
  rw [set_state_of_ok self M hset]
  exact hasPotential_refl _ _

/-- C27: after a successful `SetCostFunctionMatrix`, with `C` the padded cost matrix and
`N = matrixSize`, the working matrix is `C` minus a row offset and minus a column offset
after `SetCostFunctionMatrix`, after `SubtractRowMinima`, after `SubtractColMinima`,
after both in either order, after the reduction stage and after every round of
`MinNrOfLinesToCoverAllZeros` followed by `AugmentCostFunctionMatrix` (each round
completes); hence for any two permutations the difference of their total costs in the
working matrix is the difference of their total costs in `C`. -/
theorem C27_potential_invariant (self : HungarianAlgorithm) (M : Mat ℚ)
    (hset : (SetCostFunctionMatrix self M).error = none) :
    HasPotential (max M.rows M.cols) (SetCostFunctionMatrix self M).state.costFunctionMatrix
      (SetCostFunctionMatrix self M).state.workingMatrix ∧
    HasPotential (max M.rows M.cols) (SetCostFunctionMatrix self M).state.costFunctionMatrix
      (SubtractRowMinima (SetCostFunctionMatrix self M).state).workingMatrix ∧
    HasPotential (max M.rows M.cols) (SetCostFunctionMatrix self M).state.costFunctionMatrix
      (SubtractColMinima (SetCostFunctionMatrix self M).state).workingMatrix ∧
    HasPotential (max M.rows M.cols) (SetCostFunctionMatrix self M).state.costFunctionMatrix
      (SubtractColMinima (SubtractRowMinima
        (SetCostFunctionMatrix self M).state)).workingMatrix ∧
    HasPotential (max M.rows M.cols) (SetCostFunctionMatrix self M).state.costFunctionMatrix
      (SubtractRowMinima (SubtractColMinima
        (SetCostFunctionMatrix self M).state)).workingMatrix ∧
    HasPotential (max M.rows M.cols) (SetCostFunctionMatrix self M).state.costFunctionMatrix
      (reduce (SetCostFunctionMatrix self M).state).workingMatrix ∧
    (∀ k, ∃ t, augmentRounds k (reduce (SetCostFunctionMatrix self M).state) = some t ∧
      t.costFunctionMatrix = (SetCostFunctionMatrix self M).state.costFunctionMatrix ∧
      HasPotential (max M.rows M.cols) t.costFunctionMatrix t.workingMatrix ∧
      ∀ σ τ : Equiv.Perm (Fin (max M.rows M.cols)),
        permCost (max M.rows M.cols) t.workingMatrix σ -
            permCost (max M.rows M.cols) t.workingMatrix τ =
          permCost (max M.rows M.cols) t.costFunctionMatrix σ -
            permCost (max M.rows M.cols) t.costFunctionMatrix τ) := by
  have hs := set_sized self M hset
  have h0 := set_potential self M hset
  refine ⟨h0, subtractRowMinima_potential hs h0, subtractColMinima_potential hs h0,
    subtractColMinima_potential (subtractRowMinima_sized hs)
      (subtractRowMinima_potential hs h0),
    subtractRowMinima_potential (subtractColMinima_sized hs)
      (subtractColMinima_potential hs h0),
    reduce_potential hs h0, ?_⟩
  intro k
  obtain ⟨t, ht⟩ := augmentRounds_total k _ (reduce_sized hs)
  have hp := augmentRounds_potential k _ t (reduce_sized hs) (reduce_potential hs h0) ht
  have hcost : t.costFunctionMatrix =
      (SetCostFunctionMatrix self M).state.costFunctionMatrix := by
    rw [(augmentRounds_frame k _ t ht).1.2.2.2.2, (reduce_frame _).1.2.2.2.2]
  refine ⟨t, ht, hcost, by rw [hcost]; exact hp, ?_⟩
  intro σ τ
  rw [hcost]
  exact permCost_diff hp σ τ

/-- Witness for C27: the object set from `costPlateau`, on which the solve augments. -/
theorem C27_potential_invariant_witness :
    (SetCostFunctionMatrix HungarianAlgorithm.construct costPlateau).error = none ∧
    HasPotential (max costPlateau.rows costPlateau.cols)
      (SetCostFunctionMatrix HungarianAlgorithm.construct costPlateau).state.costFunctionMatrix
      (reduce (SetCostFunctionMatrix HungarianAlgorithm.construct
        costPlateau).state).workingMatrix :=
  have hset : (SetCostFunctionMatrix HungarianAlgorithm.construct costPlateau).error = none := by
    decide!
  ⟨hset, (C27_potential_invariant HungarianAlgorithm.construct costPlateau hset).2.2.2.2.2.1⟩

/-! ## The value subtracted by `AugmentCostFunctionMatrix` -/

theorem minUncovered_le {N : Nat} {self : HungarianAlgorithm} (hs : Sized N self)
    {i j : Nat} (hi : i < N) (hj : j < N) (hcov : self.coveredMatrix.coeff i j = false) :
    minUncoveredCoeff self ≤ self.workingMatrix.coeff i j := by
  obtain ⟨_, _, _, h4, h5, _, _⟩ := hs
  have h := minCoeff_le (Mat.ofFn self.coveredMatrix.rows self.coveredMatrix.cols
      (fun i j => if (!self.coveredMatrix.coeff i j) = true then self.workingMatrix.coeff i j
        else self.dummyCost + 1)) (i := i) (j := j)
      (by rw [Mat.ofFn_rows, h4]; exact hi) (by rw [Mat.ofFn_cols, h5]; exact hj)
  rw [Mat.coeff_ofFn _ (h4.symm ▸ hi) (h5.symm ▸ hj), hcov] at h
  unfold minUncoveredCoeff
  simpa using h

theorem minCoeff_attained (M : Mat ℚ) (hr : 0 < M.rows) (hc : 0 < M.cols) :
    ∃ i j, i < M.rows ∧ j < M.cols ∧ M.minCoeff = M.coeff i j := by
  rcases foldl_min_attained (fun p : Nat × Nat => M.coeff p.1 p.2)
      (Mat.colMajor M.rows M.cols) (M.coeff 0 0) with h | ⟨p, hp, h⟩
  · exact ⟨0, 0, hr, hc, h⟩
  · obtain ⟨h1, h2⟩ := Mat.mem_colMajor.mp hp
    exact ⟨p.1, p.2, h1, h2, h⟩

theorem minUncovered_attained {N : Nat} {self : HungarianAlgorithm} (hs : Sized N self)
    (hN : 0 < N) :
    ∃ i j, i < N ∧ j < N ∧
      minUncoveredCoeff self =
        (if self.coveredMatrix.coeff i j = false then self.workingMatrix.coeff i j
          else self.dummyCost + 1) := by
  obtain ⟨_, _, _, h4, h5, _, _⟩ := hs
  obtain ⟨i, j, hi, hj, h⟩ := minCoeff_attained
    (Mat.ofFn self.coveredMatrix.rows self.coveredMatrix.cols
      (fun i j => if (!self.coveredMatrix.coeff i j) = true then self.workingMatrix.coeff i j
        else self.dummyCost + 1))
    (by rw [Mat.ofFn_rows, h4]; exact hN) (by rw [Mat.ofFn_cols, h5]; exact hN)
  rw [Mat.ofFn_rows] at hi
  rw [Mat.ofFn_cols] at hj
  rw [Mat.coeff_ofFn _ hi hj] at h
  refine ⟨i, j, h4 ▸ hi, h5 ▸ hj, ?_⟩
  unfold minUncoveredCoeff
  rw [h]
  cases self.coveredMatrix.coeff i j <;> simp

/-- When some uncovered entry is at most `dummyCost + 1`, the value subtracted is the
minimum of the uncovered entries: it is one of them. -/
theorem minUncovered_is_min {N : Nat} {self : HungarianAlgorithm} (hs : Sized N self)
    {i0 j0 : Nat} (hi0 : i0 < N) (hj0 : j0 < N)
    (hcov0 : self.coveredMatrix.coeff i0 j0 = false)
    (hle : self.workingMatrix.coeff i0 j0 ≤ self.dummyCost + 1) :
    ∃ i j, i < N ∧ j < N ∧ self.coveredMatrix.coeff i j = false ∧
      minUncoveredCoeff self = self.workingMatrix.coeff i j := by
  have hN : 0 < N := Nat.lt_of_le_of_lt (Nat.zero_le _) hi0
  obtain ⟨i, j, hi, hj, h⟩ := minUncovered_attained hs hN
  by_cases hcov : self.coveredMatrix.coeff i j = false
  · rw [if_pos hcov] at h
    exact ⟨i, j, hi, hj, hcov, h⟩
  · rw [if_neg hcov] at h
    have h1 := minUncovered_le hs hi0 hj0 hcov0
    exact ⟨i0, j0, hi0, hj0, hcov0, le_antisymm h1 (by rw [h]; exact hle)⟩

theorem minUncovered_pos {N : Nat} {self : HungarianAlgorithm} (hs : Sized N self)
    (hN : 0 < N) (hd : 0 ≤ self.dummyCost)
    (hunc : ∀ i j, i < N → j < N → self.coveredMatrix.coeff i j = false →
      IsApproxZERO (self.workingMatrix.coeff i j) = false) :
    IsApproxZERO (minUncoveredCoeff self) = false := by
  obtain ⟨i, j, hi, hj, h⟩ := minUncovered_attained hs hN
  by_cases hcov : self.coveredMatrix.coeff i j = false
  · rw [if_pos hcov] at h
    rw [h]
    exact hunc i j hi hj hcov
  · rw [if_neg hcov] at h
    rw [h]
    unfold IsApproxZERO
    rw [decide_eq_false_iff_not, not_le]
    have : (1 : ℚ) / 1000000 < 1 := by norm_num
    linarith

/-- What is known after `MinNrOfLinesToCoverAllZeros` returned fewer than `N` lines. -/
theorem cover_few_lines {N : Nat} {self s : HungarianAlgorithm} {k : Nat} (hs : Sized N self)
    (h : MinNrOfLinesToCoverAllZeros self = some (s, k)) (hk : k < N) :
    Sized N s ∧ s.workingMatrix = self.workingMatrix ∧ s.dummyCost = self.dummyCost ∧
    ∃ R K : Finset Nat, Lines N s.coveredMatrix R K ∧ k = R.card + K.card ∧
      (∃ i, i < N ∧ i ∉ R) ∧ (∃ j, j < N ∧ j ∉ K) ∧
      (∀ i j, i < N → j < N → IsApproxZERO (s.workingMatrix.coeff i j) = true →
        (i ∈ R ∨ j ∈ K)) ∧
      (∀ i j, i < N → j < N → s.coveredMatrix.coeff i j = false →
        IsApproxZERO (s.workingMatrix.coeff i j) = false) := by
  obtain ⟨hs1, _⟩ := cover_spec hs h
  obtain ⟨hsame, hW, _, _⟩ := cover_frame h
  obtain ⟨R, K, hl, hcard, hz⟩ := cover_Lines hs h
  refine ⟨hs1, hW, hsame.2.2.2.1, R, K, hl, hcard,
    lines_exists_not_mem (by omega), lines_exists_not_mem (by omega), ?_, ?_⟩
  · intro i j hi hj hzero
    rw [hW] at hzero
    exact hz i j hi hj hzero
  · intro i j hi hj hcov
    by_contra hnz
    have hzero : IsApproxZERO (s.workingMatrix.coeff i j) = true := by simpa using hnz
    rw [hW] at hzero
    have := (hl.2.2 i j hi hj).mpr (hz i j hi hj hzero)
    rw [hcov] at this
    exact absurd this (by simp)

/-! ## A run on which the subtracted value is `dummyCost + 1`

The run on `costCap`: the reduction changes nothing, the first cover draws nine lines, the
second cover seven. -/

theorem cap_set :
    (SetCostFunctionMatrix HungarianAlgorithm.construct costCap).error = none ∧
    (SetCostFunctionMatrix HungarianAlgorithm.construct costCap).state.matrixSize = 8 ∧
    (SetCostFunctionMatrix HungarianAlgorithm.construct costCap).state.dummyCost = 300 := by
  decide!

theorem cap_cover1 :
    MinNrOfLinesToCoverAllZeros
      (reduce (SetCostFunctionMatrix HungarianAlgorithm.construct costCap).state) =
        some (capA, 9) := by
  decide!

theorem cap_augment1 : AugmentCostFunctionMatrix capA = capB := by
  decide!

theorem cap_cover2 : MinNrOfLinesToCoverAllZeros capB = some (capC, 7) := by
  decide!

theorem cap_mu : minUncoveredCoeff capC = 301 := by
  decide!

theorem cap_augment2 : AugmentCostFunctionMatrix capC = capD := by
  decide!

theorem cap_uncovered_before :
    ∀ i, i < 8 → ∀ j, j < 8 → capC.coveredMatrix.coeff i j = false →
      capC.workingMatrix.coeff i j = 400 := by
  decide!

theorem cap_uncovered_after :
    ∀ i, i < 8 → ∀ j, j < 8 → capC.coveredMatrix.coeff i j = false →
      capD.workingMatrix.coeff i j = 99 := by
  decide!

theorem cap_sums :
    matSum 8 capC.workingMatrix = 9800 ∧ matSum 8 capD.workingMatrix = 7392 := by
  decide!

theorem cap_round1 :
    augmentRounds 1
      (reduce (SetCostFunctionMatrix HungarianAlgorithm.construct costCap).state) =
        some capB := by
  rw [augmentRounds, cap_cover1]
  simp only [augmentRounds, cap_augment1]

theorem cap_nonneg : ∀ i, i < 8 → ∀ j, j < 8 → 0 ≤ costCap.coeff i j := by
  decide!

/-- C22: on the non-negative 8×8 matrix `costCap` the second call of
`MinNrOfLinesToCoverAllZeros` in `SolveAssignmentProblem` returns 7 lines, fewer than
`matrixSize = 8`; every uncovered entry of the working matrix is then 400, so the minimum
of the uncovered entries is 400, but `AugmentCostFunctionMatrix` lowers every uncovered
entry by `dummyCost + 1 = 301` only and raises every entry on a covered row and a covered
column by 301. -/
theorem C22_augmentation_capped :
    (SetCostFunctionMatrix HungarianAlgorithm.construct costCap).error = none ∧
    (∀ i, i < 8 → ∀ j, j < 8 → 0 ≤ costCap.coeff i j) ∧
    augmentRounds 1
      (reduce (SetCostFunctionMatrix HungarianAlgorithm.construct costCap).state) =
        some capB ∧
    MinNrOfLinesToCoverAllZeros capB = some (capC, 7) ∧ 7 < capC.matrixSize ∧
    capC.dummyCost = 300 ∧
    capC.coveredMatrix.coeff 2 1 = false ∧
    (∀ i, i < 8 → ∀ j, j < 8 → capC.coveredMatrix.coeff i j = false →
      capC.workingMatrix.coeff i j = 400) ∧
    (∀ i, i < 8 → ∀ j, j < 8 → capC.coveredMatrix.coeff i j = false →
      (AugmentCostFunctionMatrix capC).workingMatrix.coeff i j =
        capC.workingMatrix.coeff i j - 301) ∧
    (∀ i, i < 8 → ∀ j, j < 8 →
      capC.coveredMatrix.rowAll i = true → capC.coveredMatrix.colAll j = true →
      (AugmentCostFunctionMatrix capC).workingMatrix.coeff i j =
        capC.workingMatrix.coeff i j + 301) ∧
    (AugmentCostFunctionMatrix capC).coveredMatrix = capC.coveredMatrix := by
  refine ⟨cap_set.1, cap_nonneg, cap_round1, cap_cover2, by decide, rfl, by decide!,
    cap_uncovered_before, ?_, ?_, rfl⟩
  · rw [cap_augment2]
    decide!
  · rw [cap_augment2]
    decide!

/-- C24: on `costCap` the second call of `MinNrOfLinesToCoverAllZeros` returns 7 lines,
fewer than `matrixSize = 8`, and every uncovered cell fails the zero test, but after
`AugmentCostFunctionMatrix` every previously uncovered cell holds 99: none of them holds
0, and none of them passes the zero test. -/
theorem C24_no_zero_created :
    (SetCostFunctionMatrix HungarianAlgorithm.construct costCap).error = none ∧
    augmentRounds 1
      (reduce (SetCostFunctionMatrix HungarianAlgorithm.construct costCap).state) =
        some capB ∧
    MinNrOfLinesToCoverAllZeros capB = some (capC, 7) ∧ 7 < capC.matrixSize ∧
    capC.coveredMatrix.coeff 2 1 = false ∧
    (∀ i, i < 8 → ∀ j, j < 8 → capC.coveredMatrix.coeff i j = false →
      IsApproxZERO (capC.workingMatrix.coeff i j) = false) ∧
    (∀ i, i < 8 → ∀ j, j < 8 → capC.coveredMatrix.coeff i j = false →
      (AugmentCostFunctionMatrix capC).workingMatrix.coeff i j = 99) ∧
    (∀ i, i < 8 → ∀ j, j < 8 → capC.coveredMatrix.coeff i j = false →
      (AugmentCostFunctionMatrix capC).workingMatrix.coeff i j ≠ 0 ∧
      IsApproxZERO ((AugmentCostFunctionMatrix capC).workingMatrix.coeff i j) = false) := by
  refine ⟨cap_set.1, cap_round1, cap_cover2, by decide, by decide!, by decide!, ?_, ?_⟩
  · rw [cap_augment2]
    exact cap_uncovered_after
  · rw [cap_augment2]
    intro i hi j hj hcov
    rw [cap_uncovered_after i hi j hj hcov]
    exact ⟨by norm_num, by decide!⟩

/-- C28: on `costCap` the second call of `MinNrOfLinesToCoverAllZeros` returns `k = 7`
lines with `n = matrixSize = 8`, and the minimum uncovered entry is 400;
`AugmentCostFunctionMatrix` lowers the sum of the working matrix from 9800 to 7392, that
is by 2408 = 301 · 8 · (8 − 7), and not by 400 · 8 · (8 − 7) = 3200. -/
theorem C28_sum_decrease_capped :
    (SetCostFunctionMatrix HungarianAlgorithm.construct costCap).error = none ∧
    augmentRounds 1
      (reduce (SetCostFunctionMatrix HungarianAlgorithm.construct costCap).state) =
        some capB ∧
    MinNrOfLinesToCoverAllZeros capB = some (capC, 7) ∧ capC.matrixSize = 8 ∧
    capC.coveredMatrix.coeff 2 1 = false ∧
    (∀ i, i < 8 → ∀ j, j < 8 → capC.coveredMatrix.coeff i j = false →
      capC.workingMatrix.coeff i j = 400) ∧
    matSum 8 capC.workingMatrix -
      matSum 8 (AugmentCostFunctionMatrix capC).workingMatrix = 2408 ∧
    matSum 8 capC.workingMatrix -
      matSum 8 (AugmentCostFunctionMatrix capC).workingMatrix ≠ 400 * 8 * (8 - 7) := by
  have hsum : matSum 8 capC.workingMatrix -
      matSum 8 (AugmentCostFunctionMatrix capC).workingMatrix = 2408 := by
    rw [cap_augment2, cap_sums.1, cap_sums.2]
    norm_num
  refine ⟨cap_set.1, cap_round1, cap_cover2, rfl, by decide!, cap_uncovered_before, hsum, ?_⟩
  rw [hsum]
  norm_num

/-! ## Zeros and the augmentation -/

/-- C23 (as stated, refuted): on `costCross` the cover stage returns 2 lines, fewer than
`matrixSize = 3`; cell `(0, 0)` holds 0 before `AugmentCostFunctionMatrix` and 1 after it,
so a cell that passed the zero test no longer passes it. -/
theorem C23_crossing_zero_lost :
    (SetCostFunctionMatrix HungarianAlgorithm.construct costCross).error = none ∧
    (SetCostFunctionMatrix HungarianAlgorithm.construct costCross).state.matrixSize = 3 ∧
    (MinNrOfLinesToCoverAllZeros
        (reduce (SetCostFunctionMatrix HungarianAlgorithm.construct costCross).state)).map
      (fun p => (p.2, p.1.workingMatrix.coeff 0 0, IsApproxZERO (p.1.workingMatrix.coeff 0 0),
        (AugmentCostFunctionMatrix p.1).workingMatrix.coeff 0 0,
        IsApproxZERO ((AugmentCostFunctionMatrix p.1).workingMatrix.coeff 0 0))) =
      some (2, 0, true, 1, false) := by
  decide!

/-- C23 (amended): when `MinNrOfLinesToCoverAllZeros` returned `k < N` lines on a
non-negative working matrix, the lines are a set `R` of rows and a set `K` of columns;
every cell that passes the zero test lies on a line; such a cell keeps its value, and so
still passes the zero test, unless it lies on a row of `R` and on a column of `K`; a cell
on a row of `R` and a column of `K` gains the subtracted value and no longer passes the
zero test. -/
theorem C23_zeros_preserved_off_crossings (N : Nat) (t s : HungarianAlgorithm) (k : Nat)
    (hs : Sized N t) (hnn : NonNeg N t.workingMatrix) (hd : 0 ≤ t.dummyCost)
    (h : MinNrOfLinesToCoverAllZeros t = some (s, k)) (hk : k < N) :
    (AugmentCostFunctionMatrix s).coveredMatrix = s.coveredMatrix ∧
    ∃ R K : Finset Nat, Lines N s.coveredMatrix R K ∧ k = R.card + K.card ∧
      ∀ i j, i < N → j < N → IsApproxZERO (s.workingMatrix.coeff i j) = true →
        (i ∈ R ∨ j ∈ K) ∧
        (¬ (i ∈ R ∧ j ∈ K) →
          (AugmentCostFunctionMatrix s).workingMatrix.coeff i j = s.workingMatrix.coeff i j ∧
          IsApproxZERO ((AugmentCostFunctionMatrix s).workingMatrix.coeff i j) = true) ∧
        ((i ∈ R ∧ j ∈ K) →
          (AugmentCostFunctionMatrix s).workingMatrix.coeff i j =
            s.workingMatrix.coeff i j + minUncoveredCoeff s ∧
          IsApproxZERO ((AugmentCostFunctionMatrix s).workingMatrix.coeff i j) = false) := by
  obtain ⟨hs1, hW, hdum, R, K, hl, hcard, hfr, hfc, hz, hunc⟩ := cover_few_lines hs h hk
  have hN : 0 < N := by omega
  have hmu := minUncovered_pos hs1 hN (by rw [hdum]; exact hd) hunc
  refine ⟨rfl, R, K, hl, hcard, ?_⟩
  intro i j hi hj hzero
  have hon := hz i j hi hj hzero
  have heff := augment_effect hs1 hl hfr hfc hi hj
  refine ⟨hon, ?_, ?_⟩
  · intro hnot
    have h1 : ¬ (i ∉ R ∧ j ∉ K) := by
      intro hx
      rcases hon with h2 | h2
      · exact hx.1 h2
      · exact hx.2 h2
    rw [if_neg h1, if_neg hnot] at heff
    have heq : (AugmentCostFunctionMatrix s).workingMatrix.coeff i j =
        s.workingMatrix.coeff i j := by rw [heff]; ring
    exact ⟨heq, by rw [heq]; exact hzero⟩
  · intro hboth
    have h1 : ¬ (i ∉ R ∧ j ∉ K) := fun hx => hx.1 hboth.1
    rw [if_neg h1, if_pos hboth] at heff
    have heq : (AugmentCostFunctionMatrix s).workingMatrix.coeff i j =
        s.workingMatrix.coeff i j + minUncoveredCoeff s := by rw [heff]; ring
    refine ⟨heq, ?_⟩
    rw [heq]
    have h0 : 0 ≤ s.workingMatrix.coeff i j := by rw [hW]; exact hnn i j hi hj
    have hgt : ¬ (minUncoveredCoeff s ≤ 1 / 1000000) := by
      intro hle
      have : IsApproxZERO (minUncoveredCoeff s) = true := by
        unfold IsApproxZERO
        exact decide_eq_true hle
      rw [hmu] at this
      exact absurd this (by simp)
    unfold IsApproxZERO
    rw [decide_eq_false_iff_not, not_le]
    have := not_le.mp hgt
    linarith

/-- Witness for C23: the second cover stage of the run on `costCap`. -/
theorem C23_zeros_preserved_off_crossings_witness :
    Sized 8 capB ∧ NonNeg 8 capB.workingMatrix ∧ 0 ≤ capB.dummyCost ∧
    MinNrOfLinesToCoverAllZeros capB = some (capC, 7) ∧ 7 < 8 ∧
    ((AugmentCostFunctionMatrix capC).coveredMatrix = capC.coveredMatrix ∧
    ∃ R K : Finset Nat, Lines 8 capC.coveredMatrix R K ∧ 7 = R.card + K.card ∧
      ∀ i j, i < 8 → j < 8 → IsApproxZERO (capC.workingMatrix.coeff i j) = true →
        (i ∈ R ∨ j ∈ K) ∧
        (¬ (i ∈ R ∧ j ∈ K) →
          (AugmentCostFunctionMatrix capC).workingMatrix.coeff i j =
            capC.workingMatrix.coeff i j ∧
          IsApproxZERO ((AugmentCostFunctionMatrix capC).workingMatrix.coeff i j) = true) ∧
        ((i ∈ R ∧ j ∈ K) →
          (AugmentCostFunctionMatrix capC).workingMatrix.coeff i j =
            capC.workingMatrix.coeff i j + minUncoveredCoeff capC ∧
          IsApproxZERO ((AugmentCostFunctionMatrix capC).workingMatrix.coeff i j) = false)) :=
  have hs : Sized 8 capB := ⟨rfl, rfl, rfl, rfl, rfl, rfl, rfl⟩
  have hnn : NonNeg 8 capB.workingMatrix := fun i j hi hj => by
    have h : ∀ i, i < 8 → ∀ j, j < 8 → 0 ≤ capB.workingMatrix.coeff i j := by decide!
    exact h i hi j hj
  have hd : 0 ≤ capB.dummyCost := by decide!
  ⟨hs, hnn, hd, cap_cover2, by decide,
    C23_zeros_preserved_off_crossings 8 capB capC 7 hs hnn hd cap_cover2 (by decide)⟩

/-! ## Zero assignments are optimal -/

theorem sum_range_list (f : Nat → ℚ) (n : Nat) :
    ((List.range n).map f).sum = ∑ i in Finset.range n, f i := by
  rw [← List.sum_toFinset f (List.nodup_range n)]
  congr 1
  ext i
  simp

theorem set_cost_block (self : HungarianAlgorithm) (M : Mat ℚ)
    (hok : (SetCostFunctionMatrix self M).error = none) {i j : Nat}
    (hi : i < M.rows) (hj : j < M.cols) :
    (SetCostFunctionMatrix self M).state.costFunctionMatrix.coeff i j = M.coeff i j := by
  rw [set_state_of_ok self M hok]
  simp only [set_matrixSize_eq_max]
  by_cases hsq : M.rows = M.cols
  · simp only [hsq, ne_eq, not_true_eq_false, if_false]
  · simp only [ne_eq, hsq, not_false_eq_true, if_true]
    rw [Mat.coeff_ofFn _ (lt_of_lt_of_le hi (le_max_left _ _))
      (lt_of_lt_of_le hj (le_max_right _ _))]
    simp [hi, hj]

theorem set_cost_outside (self : HungarianAlgorithm) (M : Mat ℚ)
    (hok : (SetCostFunctionMatrix self M).error = none) {i j : Nat}
    (hi : i < max M.rows M.cols) (hj : j < max M.rows M.cols)
    (hout : ¬ (i < M.rows ∧ j < M.cols)) :
    (SetCostFunctionMatrix self M).state.costFunctionMatrix.coeff i j =
      (SetCostFunctionMatrix self M).state.dummyCost := by
  rw [set_state_of_ok self M hok]
  simp only [set_matrixSize_eq_max]
  by_cases hsq : M.rows = M.cols
  · rw [hsq, max_self] at hi hj
    exact absurd ⟨hsq ▸ hi, hj⟩ hout
  · simp only [ne_eq, hsq, not_false_eq_true, if_true]
    rw [Mat.coeff_ofFn _ hi hj]
    simp [hout]

/-- A permutation mask is the graph of a permutation. -/
theorem permutationMask_perm {N : Nat} {A : Mat Bool} (hperm : IsPermutationMask N A) :
    ∃ τ : Equiv.Perm (Fin N), ∀ i j : Fin N, A.coeff i.val j.val = true ↔ τ i = j := by
  obtain ⟨hrow, _⟩ := hperm
  have hex : ∀ i : Fin N, ∃ j : Fin N, Matched N A i.val j.val := by
    intro i
    obtain ⟨j, hj, hm⟩ := hrow i.val i.isLt
    exact ⟨⟨j, hj⟩, hm⟩
  choose f hf using hex
  have hinj : Function.Injective f := by
    intro a b hab
    have h1 := hf a
    have h2 := hf b
    rw [← hab] at h2
    exact Fin.ext (h1.2.2 b.val b.isLt h2.1).symm
  refine ⟨Equiv.ofBijective f (Finite.injective_iff_bijective.mp hinj), ?_⟩
  intro i j
  rw [Equiv.ofBijective_apply]
  constructor
  · intro hA
    exact Fin.ext ((hf i).2.1 j.val j.isLt hA).symm
  · intro h
    rw [← h]
    exact (hf i).1

/-- With `W = C − u − v ≥ 0`, a permutation whose cells hold 0 in `W` has the least total
cost in `C`. -/
theorem zero_perm_optimal {N : Nat} {C W : Mat ℚ} (hpot : HasPotential N C W)
    (hnn : NonNeg N W) (τ σ : Equiv.Perm (Fin N))
    (hz : ∀ i : Fin N, W.coeff i.val (τ i).val = 0) :
    permCost N C τ ≤ permCost N C σ := by
  have hdiff := permCost_diff hpot σ τ
  have h0 : permCost N W τ = 0 := by
    unfold permCost
    exact Finset.sum_eq_zero (fun i _ => hz i)
  have h1 : 0 ≤ permCost N W σ := by
    unfold permCost
    exact Finset.sum_nonneg (fun i _ => hnn i.val (σ i).val i.isLt (σ i).isLt)
  rw [h0] at hdiff
  linarith

theorem cross_bound (u v : Nat → ℚ) (D : ℚ) :
    ∀ (d : Nat) (S T : Finset Nat), S.card = d → T.card = d →
      (∀ i ∈ S, ∀ j ∈ T, u i + v j ≤ D) →
      ∑ i in S, u i + ∑ j in T, v j ≤ (d : ℚ) * D := by
  intro d
  induction d with
  | zero =>
    intro S T hS hT _
    rw [Finset.card_eq_zero.mp hS, Finset.card_eq_zero.mp hT]
    simp
  | succ d ih =>
    intro S T hS hT hle
    obtain ⟨i, hi⟩ := Finset.card_pos.mp (by rw [hS]; exact Nat.succ_pos d)
    obtain ⟨j, hj⟩ := Finset.card_pos.mp (by rw [hT]; exact Nat.succ_pos d)
    have h1 := ih (S.erase i) (T.erase j)
      (by rw [Finset.card_erase_of_mem hi, hS]; rfl)
      (by rw [Finset.card_erase_of_mem hj, hT]; rfl)
      (fun a ha b hb => hle a (Finset.mem_of_mem_erase ha) b (Finset.mem_of_mem_erase hb))
    have h2 := Finset.add_sum_erase S u hi
    have h3 := Finset.add_sum_erase T v hj
    have h4 := hle i hi j hj
    push_cast
    linarith

/-- Lower bound for the cost of a one-to-one pairing of `min m n` rows and columns from
offsets `u`, `v` with `u i + v j` at most the cost in the block and at most `D`
everywhere. -/
theorem pairing_lower {N m n : Nat} {M : Mat ℚ} {u v : Nat → ℚ} {D : ℚ} (hN : N = max m n)
    (hcell : ∀ i j, i < m → j < n → u i + v j ≤ M.coeff i j)
    (hall : ∀ i j, i < N → j < N → u i + v j ≤ D)
    (p : List (Nat × Nat)) (hp : IsPairing m n p) :
    ∑ i in Finset.range N, u i + ∑ j in Finset.range N, v j
        - ((N - min m n : Nat) : ℚ) * D ≤ pairingCost M p := by
  obtain ⟨hlen, hmem, hnd1, hnd2⟩ := hp
  have hmN : m ≤ N := by rw [hN]; exact le_max_left _ _
  have hnN : n ≤ N := by rw [hN]; exact le_max_right _ _
  have hS : (p.map Prod.fst).toFinset ⊆ Finset.range N := by
    intro i hi
    rw [List.mem_toFinset, List.mem_map] at hi
    obtain ⟨q, hq, hqi⟩ := hi
    rw [Finset.mem_range, ← hqi]
    exact lt_of_lt_of_le (hmem q hq).1 hmN
  have hT : (p.map Prod.snd).toFinset ⊆ Finset.range N := by
    intro j hj
    rw [List.mem_toFinset, List.mem_map] at hj
    obtain ⟨q, hq, hqj⟩ := hj
    rw [Finset.mem_range, ← hqj]
    exact lt_of_lt_of_le (hmem q hq).2 hnN
  have hcS : (p.map Prod.fst).toFinset.card = min m n := by
    rw [List.toFinset_card_of_nodup hnd1, List.length_map, hlen]
  have hcT : (p.map Prod.snd).toFinset.card = min m n := by
    rw [List.toFinset_card_of_nodup hnd2, List.length_map, hlen]
  have h1 : (p.map (fun q => u q.1 + v q.2)).sum ≤ pairingCost M p := by
    unfold pairingCost
    exact List.sum_le_sum (fun q hq => hcell q.1 q.2 (hmem q hq).1 (hmem q hq).2)
  have h2 : (p.map (fun q => u q.1 + v q.2)).sum =
      ∑ i in (p.map Prod.fst).toFinset, u i + ∑ j in (p.map Prod.snd).toFinset, v j := by
    rw [List.sum_map_add, List.sum_toFinset u hnd1, List.sum_toFinset v hnd2,
      List.map_map, List.map_map]
    rfl
  have h3 := Finset.sum_sdiff (f := u) hS
  have h4 := Finset.sum_sdiff (f := v) hT
  have hcS2 : (Finset.range N \ (p.map Prod.fst).toFinset).card = N - min m n := by
    rw [Finset.card_sdiff hS, Finset.card_range, hcS]
  have hcT2 : (Finset.range N \ (p.map Prod.snd).toFinset).card = N - min m n := by
    rw [Finset.card_sdiff hT, Finset.card_range, hcT]
  have h5 := cross_bound u v D (N - min m n) _ _ hcS2 hcT2
    (fun i hi j hj => hall i j (Finset.mem_range.mp (Finset.mem_sdiff.mp hi).1)
      (Finset.mem_range.mp (Finset.mem_sdiff.mp hj).1))
  linarith

theorem mask_row_single {N : Nat} {A : Mat Bool} (hperm : IsPermutationMask N A) {i : Nat}
    (hi : i < N) (g : Nat → ℚ) :
    ∃ j, j < N ∧ A.coeff i j = true ∧
      ∑ b in Finset.range N, (if A.coeff i b = true then g b else 0) = g j := by
  obtain ⟨j, hj, hA, hrowu, _⟩ := hperm.1 i hi
  refine ⟨j, hj, hA, ?_⟩
  rw [Finset.sum_eq_single j]
  · rw [if_pos hA]
  · intro b hb hne
    rw [if_neg]
    intro hAb
    exact hne (hrowu b (Finset.mem_range.mp hb) hAb)
  · intro hnot
    exact absurd (Finset.mem_range.mpr hj) hnot

theorem mask_col_single {N : Nat} {A : Mat Bool} (hperm : IsPermutationMask N A) {j : Nat}
    (hj : j < N) (g : Nat → ℚ) :
    ∃ i, i < N ∧ A.coeff i j = true ∧
      ∑ a in Finset.range N, (if A.coeff a j = true then g a else 0) = g i := by
  obtain ⟨i, hi, hA, _, hcolu⟩ := hperm.2 j hj
  refine ⟨i, hi, hA, ?_⟩
  rw [Finset.sum_eq_single i]
  · rw [if_pos hA]
  · intro a ha hne
    rw [if_neg]
    intro hAa
    exact hne (hcolu a (Finset.mem_range.mp ha) hAa)
  · intro hnot
    exact absurd (Finset.mem_range.mpr hi) hnot

/-- Over the cells of a permutation mask, the sum of `u i + v j` is the sum of all `u`
plus the sum of all `v`. -/
theorem mask_total {N : Nat} {A : Mat Bool} (hperm : IsPermutationMask N A) (u v : Nat → ℚ) :
    ∑ i in Finset.range N, ∑ j in Finset.range N,
        (if A.coeff i j = true then u i + v j else 0) =
      ∑ i in Finset.range N, u i + ∑ j in Finset.range N, v j := by
  have hsplit : ∀ i j, (if A.coeff i j = true then u i + v j else 0) =
      (if A.coeff i j = true then u i else 0) + (if A.coeff i j = true then v j else 0) := by
    intro i j
    split <;> simp
  simp only [hsplit, Finset.sum_add_distrib]
  congr 1
  · apply Finset.sum_congr rfl
    intro i hi
    obtain ⟨j, _, _, hsum⟩ := mask_row_single hperm (Finset.mem_range.mp hi) (fun _ => u i)
    exact hsum
  · rw [Finset.sum_comm]
    apply Finset.sum_congr rfl
    intro j hj
    obtain ⟨i, _, _, hsum⟩ := mask_col_single hperm (Finset.mem_range.mp hj) (fun _ => v j)
    exact hsum

theorem sum_split_rows (F : Nat → Nat → ℚ) {m N : Nat} (hm : m ≤ N) (D : ℚ)
    (hrow : ∀ i, m ≤ i → i < N → ∑ j in Finset.range N, F i j = D) :
    ∑ i in Finset.range m, ∑ j in Finset.range N, F i j =
      ∑ i in Finset.range N, ∑ j in Finset.range N, F i j - ((N - m : Nat) : ℚ) * D := by
  have h := Finset.sum_range_add_sum_Ico (fun i => ∑ j in Finset.range N, F i j) hm
  have h2 : ∑ i in Finset.Ico m N, ∑ j in Finset.range N, F i j = ((N - m : Nat) : ℚ) * D := by
    rw [Finset.sum_congr rfl (fun i hi => hrow i (Finset.mem_Ico.mp hi).1 (Finset.mem_Ico.mp hi).2),
      Finset.sum_const, Nat.card_Ico, nsmul_eq_mul]
  simp only at h
  linarith

/-- The cost of the reported assignment when every marked cell has cost `u i + v j`, the
cells outside the `m × n` block have cost `D` and `N = max m n`. -/
theorem assigned_eq {N : Nat} {A : Mat Bool} {M C : Mat ℚ} {u v : Nat → ℚ} {D : ℚ}
    (hperm : IsPermutationMask N A) (hN : N = max M.rows M.cols)
    (hblock : ∀ i j, i < M.rows → j < M.cols → C.coeff i j = M.coeff i j)
    (hout : ∀ i j, i < N → j < N → ¬ (i < M.rows ∧ j < M.cols) → C.coeff i j = D)
    (huv : ∀ i j, i < N → j < N → A.coeff i j = true → C.coeff i j = u i + v j) :
    assignedCost M (Mat.ofFn M.rows M.cols (fun i j => if A.coeff i j then (1 : Int) else 0)) =
      ∑ i in Finset.range N, u i + ∑ j in Finset.range N, v j
        - ((N - min M.rows M.cols : Nat) : ℚ) * D := by
  have hmN : M.rows ≤ N := by rw [hN]; exact le_max_left _ _
  have hnN : M.cols ≤ N := by rw [hN]; exact le_max_right _ _
  have hfin : assignedCost M
      (Mat.ofFn M.rows M.cols (fun i j => if A.coeff i j then (1 : Int) else 0)) =
      ∑ i in Finset.range M.rows, ∑ j in Finset.range M.cols,
        (if A.coeff i j = true then u i + v j else 0) := by
    unfold assignedCost
    rw [sum_range_list]
    apply Finset.sum_congr rfl
    intro i hi
    rw [sum_range_list]
    apply Finset.sum_congr rfl
    intro j hj
    have hi2 := Finset.mem_range.mp hi
    have hj2 := Finset.mem_range.mp hj
    by_cases hA : A.coeff i j = true
    · rw [if_pos ((reported_eq_one_iff A hi2 hj2).mpr hA), if_pos hA,
        ← hblock i j hi2 hj2, huv i j (lt_of_lt_of_le hi2 hmN) (lt_of_lt_of_le hj2 hnN) hA]
    · rw [if_neg (fun h => hA ((reported_eq_one_iff A hi2 hj2).mp h)), if_neg hA]
  rw [hfin, ← mask_total hperm u v]
  by_cases hmn : M.rows ≤ M.cols
  · have hNn : N = M.cols := by rw [hN]; exact max_eq_right hmn
    rw [min_eq_left hmn, ← hNn]
    apply sum_split_rows _ hmN
    intro i hmi hi
    obtain ⟨j, hj, hA, hsum⟩ := mask_row_single hperm hi (fun j => u i + v j)
    rw [hsum, ← huv i j hi hj hA]
    exact hout i j hi hj (fun h => absurd h.1 (by omega))
  · have hnm : M.cols ≤ M.rows := by omega
    have hNm : N = M.rows := by rw [hN]; exact max_eq_left hnm
    rw [min_eq_right hnm, ← hNm]
    rw [Finset.sum_comm]
    rw [Finset.sum_comm (s := Finset.range N) (t := Finset.range N)]
    apply sum_split_rows (fun j i => if A.coeff i j = true then u i + v j else 0) hnN
    intro j hnj hj
    obtain ⟨i, hi, hA, hsum⟩ := mask_col_single hperm hj (fun i => u i + v j)
    rw [hsum, ← huv i j hi hj hA]
    exact hout i j hi hj (fun h => absurd h.2 (by omega))

/-- What is known about the object on which `SolveAssignmentProblem` completed: the final
working matrix is non-negative and is the padded cost matrix minus row and column
offsets. -/
theorem solve_final (self : HungarianAlgorithm) (M : Mat ℚ) (fuel : Nat)
    (o : Outcome HungarianAlgorithm) (hr : 0 < M.rows) (hc : 0 < M.cols)
    (hset : (SetCostFunctionMatrix self M).error = none)
    (hsolve : SolveAssignmentProblem fuel (SetCostFunctionMatrix self M).state = some o) :
    o.state.costFunctionMatrix = (SetCostFunctionMatrix self M).state.costFunctionMatrix ∧
    o.state.dummyCost = (SetCostFunctionMatrix self M).state.dummyCost ∧
    NonNeg (max M.rows M.cols) o.state.workingMatrix ∧
    HasPotential (max M.rows M.cols) o.state.costFunctionMatrix o.state.workingMatrix := by
  have hstat := set_status self M hset
  have hne : (SetCostFunctionMatrix self M).state.problemStatus ≠ ProblemStatus.NotReady := by
    rw [hstat]; decide
  obtain ⟨s1, s2, hloop, hfind, ho⟩ := solve_eq_some hne hsolve
  obtain ⟨_, hsame, _⟩ := solve_frame hne hsolve
  have hs := set_sized self M hset
  have h0 := set_nonneg self M hset hr hc
  have hd := set_dummy_nonneg self M hset hr hc
  have hp0 := set_potential self M hset
  obtain ⟨k, _, _, _, t, ht, hcov⟩ := solveLoop_exit fuel _ s1 hloop
  have hnn := augmentRounds_nonneg k _ t (reduce_sized hs) (reduce_nonneg hs h0)
    (by rw [(reduce_frame _).1.2.2.2.1]; linarith) ht
  have hpot := augmentRounds_potential k _ t (reduce_sized hs) (reduce_potential hs hp0) ht
  have hW1 : s1.workingMatrix = t.workingMatrix := (cover_frame hcov).2.1
  have hW2 : s2.workingMatrix = s1.workingMatrix := (find_frame hfind).2.1
  have hW : o.state.workingMatrix = t.workingMatrix := by
    rw [ho]
    show s2.workingMatrix = t.workingMatrix
    rw [hW2, hW1]
  refine ⟨hsame.2.2.2.2, hsame.2.2.2.1, ?_, ?_⟩
  · rw [hW]; exact hnn
  · rw [hW, hsame.2.2.2.2]; exact hpot

/-- C29: when `SolveAssignmentProblem` completed on a non-negative `m × n` cost matrix `M`
and every marked cell of the final `N × N` assignment mask (`N = max m n`) holds exactly 0
in the final working matrix, the mask is the graph of a permutation whose total padded
cost is the least among all permutations of the `N` indices, and the cells that
`GetAssignmentMatrix` reports have total cost in `M` at most that of every one-to-one
pairing of `min m n` rows and columns. -/
theorem C29_zero_assignment_certificate (self : HungarianAlgorithm) (M : Mat ℚ) (fuel : Nat)
    (o : Outcome HungarianAlgorithm) (out : Mat Int)
    (hr : 0 < M.rows) (hc : 0 < M.cols)
    (hset : (SetCostFunctionMatrix self M).error = none)
    (hsolve : SolveAssignmentProblem fuel (SetCostFunctionMatrix self M).state = some o)
    (hout : out.rows = M.rows ∧ out.cols = M.cols)
    (hzero : ∀ i j, i < max M.rows M.cols → j < max M.rows M.cols →
      o.state.assignmentMatrix.coeff i j = true → o.state.workingMatrix.coeff i j = 0) :
    o.state.costFunctionMatrix = (SetCostFunctionMatrix self M).state.costFunctionMatrix ∧
    (∃ τ : Equiv.Perm (Fin (max M.rows M.cols)),
      (∀ i j : Fin (max M.rows M.cols),
        o.state.assignmentMatrix.coeff i.val j.val = true ↔ τ i = j) ∧
      ∀ σ : Equiv.Perm (Fin (max M.rows M.cols)),
        permCost (max M.rows M.cols) o.state.costFunctionMatrix τ ≤
          permCost (max M.rows M.cols) o.state.costFunctionMatrix σ) ∧
    (GetAssignmentMatrix o.state out).error = none ∧
    ∀ p, IsPairing M.rows M.cols p →
      assignedCost M (GetAssignmentMatrix o.state out).state.2 ≤ pairingCost M p := by
  obtain ⟨_, hdone, hnr, hnc, hperm⟩ := solve_spec self M fuel o hset hsolve
  obtain ⟨hcost, hdum, hnn, hpot⟩ := solve_final self M fuel o hr hc hset hsolve
  have hget := getAssignmentMatrix_ok o.state out hdone (by rw [hnr]; exact hout.1)
    (by rw [hnc]; exact hout.2)
  refine ⟨hcost, ?_, by rw [hget], ?_⟩
  · obtain ⟨τ, hτ⟩ := permutationMask_perm hperm
    refine ⟨τ, hτ, fun σ => zero_perm_optimal hpot hnn τ σ ?_⟩
    intro i
    exact hzero i.val (τ i).val i.isLt (τ i).isLt ((hτ i (τ i)).mpr rfl)
  · intro p hp
    rw [hget]
    show assignedCost M (Mat.ofFn o.state.nrRows o.state.nrCols
      (fun i j => if o.state.assignmentMatrix.coeff i j then (1 : Int) else 0)) ≤ _
    rw [hnr, hnc]
    obtain ⟨u, v, huv⟩ := hpot
    have hCle : ∀ i j, i < max M.rows M.cols → j < max M.rows M.cols →
        o.state.costFunctionMatrix.coeff i j ≤ o.state.dummyCost := by
      intro i j hi hj
      rw [hcost, hdum]
      exact set_cost_le_dummy self M hset i j hi hj
    have hsum : ∀ i j, i < max M.rows M.cols → j < max M.rows M.cols →
        u i + v j ≤ o.state.costFunctionMatrix.coeff i j := by
      intro i j hi hj
      have h1 := hnn i j hi hj
      rw [huv i j hi hj] at h1
      linarith
    have heq := assigned_eq (C := o.state.costFunctionMatrix) (u := u) (v := v)
      (D := o.state.dummyCost) hperm rfl
      (fun i j hi hj => by rw [hcost]; exact set_cost_block self M hset hi hj)
      (fun i j hi hj hx => by rw [hcost, hdum]; exact set_cost_outside self M hset hi hj hx)
      (fun i j hi hj hA => by
        have h1 := huv i j hi hj
        rw [hzero i j hi hj hA] at h1
        linarith)
    rw [heq]
    exact pairing_lower rfl
      (fun i j hi hj => by
        have h1 := hsum i j (lt_of_lt_of_le hi (le_max_left _ _))
          (lt_of_lt_of_le hj (le_max_right _ _))
        rw [hcost, set_cost_block self M hset hi hj] at h1
        exact h1)
      (fun i j hi hj => le_trans (hsum i j hi hj) (hCle i j hi hj)) p hp

/-- Witness for C29: the 3×2 matrix `costTall`, on which the solve completes with every
marked cell at 0. -/
theorem C29_zero_assignment_certificate_witness :
    (SetCostFunctionMatrix HungarianAlgorithm.construct costTall).error = none ∧
    SolveAssignmentProblem 5 (SetCostFunctionMatrix HungarianAlgorithm.construct costTall).state
      = some { error := none, state := solvedTall } ∧
    (∀ i j, i < 3 → j < 3 →
      solvedTall.assignmentMatrix.coeff i j = true → solvedTall.workingMatrix.coeff i j = 0) ∧
    ∀ p, IsPairing 3 2 p →
      assignedCost costTall
        (GetAssignmentMatrix solvedTall (Mat.ofFn 3 2 (fun _ _ => 0))).state.2 ≤
          pairingCost costTall p :=
  have hset : (SetCostFunctionMatrix HungarianAlgorithm.construct costTall).error = none := by
    decide!
  have hsolve : SolveAssignmentProblem 5
      (SetCostFunctionMatrix HungarianAlgorithm.construct costTall).state =
        some { error := none, state := solvedTall } := by decide!
  have hzero : ∀ i j, i < 3 → j < 3 →
      solvedTall.assignmentMatrix.coeff i j = true →
        solvedTall.workingMatrix.coeff i j = 0 := fun i j hi hj => by
    have h : ∀ i, i < 3 → ∀ j, j < 3 → solvedTall.assignmentMatrix.coeff i j = true →
        solvedTall.workingMatrix.coeff i j = 0 := by decide!
    exact h i hi j hj
  ⟨hset, hsolve, hzero,
   (C29_zero_assignment_certificate HungarianAlgorithm.construct costTall 5
      { error := none, state := solvedTall } (Mat.ofFn 3 2 (fun _ _ => 0))
      (by decide) (by decide) hset hsolve ⟨rfl, rfl⟩ hzero).2.2.2⟩

/-! ## The augmentation in general

`AugmentCostFunctionMatrix` subtracts `minUncoveredCoeff`, the least of the uncovered
entries and `dummyCost + 1`.  The statements below hold for this value. -/

/-- When some uncovered entry is at most `dummyCost + 1`, the augmentation after a cover
with fewer than `N` lines leaves an exact 0 in a cell that was uncovered and failed the zero
test. -/
theorem augment_new_zero {N : Nat} {t s : HungarianAlgorithm} {k : Nat} (hs : Sized N t)
    (h : MinNrOfLinesToCoverAllZeros t = some (s, k)) (hk : k < N) {i0 j0 : Nat}
    (hi0 : i0 < N) (hj0 : j0 < N) (hcov0 : s.coveredMatrix.coeff i0 j0 = false)
    (hle : s.workingMatrix.coeff i0 j0 ≤ s.dummyCost + 1) :
    ∃ i j, i < N ∧ j < N ∧ s.coveredMatrix.coeff i j = false ∧
      IsApproxZERO (s.workingMatrix.coeff i j) = false ∧
      (AugmentCostFunctionMatrix s).workingMatrix.coeff i j = 0 := by
  obtain ⟨hs1, _, _, R, K, hl, _, hfr, hfc, _, hunc⟩ := cover_few_lines hs h hk
  obtain ⟨i, j, hi, hj, hcov, hmu⟩ := minUncovered_is_min hs1 hi0 hj0 hcov0 hle
  refine ⟨i, j, hi, hj, hcov, hunc i j hi hj hcov, ?_⟩
  have hnot : ¬ (i ∈ R ∨ j ∈ K) := by
    intro hx
    have := (hl.2.2 i j hi hj).mpr hx
    rw [hcov] at this
    exact absurd this (by simp)
  have h1 : i ∉ R ∧ j ∉ K := ⟨fun hx => hnot (Or.inl hx), fun hx => hnot (Or.inr hx)⟩
  have h2 : ¬ (i ∈ R ∧ j ∈ K) := fun hx => h1.1 hx.1
  rw [augment_effect hs1 hl hfr hfc hi hj, if_pos h1, if_neg h2, hmu]
  ring

theorem sum_indicator_rect (P Q : Nat → Prop) [DecidablePred P] [DecidablePred Q] (mu : ℚ)
    (S T : Finset Nat) :
    ∑ i in S, ∑ j in T, (if P i ∧ Q j then mu else 0) =
      ((S.filter P).card : ℚ) * ((T.filter Q).card : ℚ) * mu := by
  have h1 : ∀ i, ∑ j in T, (if P i ∧ Q j then mu else 0) =
      if P i then ((T.filter Q).card : ℚ) * mu else 0 := by
    intro i
    by_cases hP : P i
    · simp only [hP, true_and, if_true]
      rw [← Finset.sum_filter, Finset.sum_const, nsmul_eq_mul]
    · simp [hP]
  simp only [h1]
  rw [← Finset.sum_filter, Finset.sum_const, nsmul_eq_mul]
  ring

/-- The augmentation after a cover with `k < N` lines lowers the sum of the working matrix
by `minUncoveredCoeff · N · (N − k)`. -/
theorem augment_sum {N : Nat} {t s : HungarianAlgorithm} {k : Nat} (hs : Sized N t)
    (h : MinNrOfLinesToCoverAllZeros t = some (s, k)) (hk : k < N) :
    matSum N (AugmentCostFunctionMatrix s).workingMatrix =
      matSum N s.workingMatrix - minUncoveredCoeff s * (N : ℚ) * ((N : ℚ) - (k : ℚ)) := by
  obtain ⟨hs1, _, _, R, K, hl, hcard, hfr, hfc, _, _⟩ := cover_few_lines hs h hk
  have hRsub : R ⊆ Finset.range N := fun i hi => Finset.mem_range.mpr (hl.1 i hi)
  have hKsub : K ⊆ Finset.range N := fun j hj => Finset.mem_range.mpr (hl.2.1 j hj)
  have hfin : ∀ W : Mat ℚ, matSum N W =
      ∑ i in Finset.range N, ∑ j in Finset.range N, W.coeff i j := by
    intro W
    unfold matSum
    rw [sum_range_list]
    exact Finset.sum_congr rfl (fun i _ => sum_range_list _ N)
  have heff : ∑ i in Finset.range N, ∑ j in Finset.range N,
        (AugmentCostFunctionMatrix s).workingMatrix.coeff i j =
      ∑ i in Finset.range N, ∑ j in Finset.range N,
        (s.workingMatrix.coeff i j
          - (if i ∉ R ∧ j ∉ K then minUncoveredCoeff s else 0)
          + (if i ∈ R ∧ j ∈ K then minUncoveredCoeff s else 0)) :=
    Finset.sum_congr rfl (fun i hi => Finset.sum_congr rfl (fun j hj =>
      augment_effect hs1 hl hfr hfc (Finset.mem_range.mp hi) (Finset.mem_range.mp hj)))
  have hin : ∀ X : Finset Nat, X ⊆ Finset.range N →
      ((Finset.range N).filter (fun i => i ∈ X)).card = X.card := by
    intro X hX
    rw [Finset.filter_mem_eq_inter, Finset.inter_eq_right.mpr hX]
  have hnotin : ∀ X : Finset Nat, X ⊆ Finset.range N →
      (((Finset.range N).filter (fun i => i ∉ X)).card : ℚ) = (N : ℚ) - (X.card : ℚ) := by
    intro X hX
    rw [← Finset.sdiff_eq_filter, Finset.card_sdiff hX, Finset.card_range,
      Nat.cast_sub (by simpa using Finset.card_le_card hX)]
  rw [hfin, hfin, heff]
  simp only [Finset.sum_add_distrib, Finset.sum_sub_distrib]
  rw [sum_indicator_rect (fun i => i ∉ R) (fun j => j ∉ K),
    sum_indicator_rect (fun i => i ∈ R) (fun j => j ∈ K),
    hin R hRsub, hin K hKsub, hnotin R hRsub, hnotin K hKsub, hcard]
  push_cast
  ring

end Hungarian
